import Mathlib

/-!
# gzm55/hdfs: configuration resolver, path normaliser, glob expansion and trash

A shallow embedding of `hadoopconf/hadoopconf.go`, `cmd/hdfs/paths.go` and
`cmd/hdfs/rm.go`.

Conventions

* A Go `string` is a sequence of bytes.  It is embedded as `Str = List Char`, one
  `Char` per byte (the code point of the `Char` is the value of the byte).
* A Go `map[string]string` is embedded as an association list; the first binding of a
  key is the one in force.
* A Go function that can end in a runtime panic returns `Res`, whose constructor
  `Res.panicked` records the panic.
* The Go standard library functions used by the code (`strings.Split`, `strings.Join`,
  `filepath.Join`, `url.Parse`, `sort.Strings`, ...) are embedded from their documented
  behaviour, under the name of the Go function.
-/

set_option autoImplicit false

namespace Hdfs

/-- Go `string`: a sequence of bytes, one `Char` per byte. -/
abbrev Str := List Char

/-! ## Package `strings` -/

/-- Go `strings.HasPrefix(s, pre)`. -/
def hasPrefix (s pre : Str) : Bool := pre.isPrefixOf s

/-- Go `strings.Contains(s, string(c))` for a one-byte needle. -/
def containsByte (s : Str) (c : Char) : Bool := s.elem c

/-- Go `strings.TrimPrefix(s, pre)`: `s` without the leading `pre`, or `s` itself. -/
def trimPrefix (s pre : Str) : Str :=
  if hasPrefix s pre then s.drop pre.length else s

/-- Go `strings.Split(s, string(sep))` for a one-byte separator: the pieces of `s`
between the occurrences of `sep`; never the empty list. -/
def stringsSplit (sep : Char) : Str → List Str
  | [] => [[]]
  | c :: cs =>
    if c = sep then [] :: stringsSplit sep cs
    else
      match stringsSplit sep cs with
      | [] => [[c]]
      | seg :: rest => (c :: seg) :: rest

/-- Go `strings.Join(elems, string(sep))` for a one-byte separator. -/
def stringsJoin (sep : Char) : List Str → Str
  | [] => []
  | [e] => e
  | e :: es => e ++ sep :: stringsJoin sep es

/-- Part of `s` before the first `sep` (all of `s` when there is none). -/
def cutBefore (sep : Char) : Str → Str
  | [] => []
  | c :: cs => if c = sep then [] else c :: cutBefore sep cs

/-- Part of `s` after the first `sep` (empty when there is none). -/
def cutAfter (sep : Char) : Str → Str
  | [] => []
  | c :: cs => if c = sep then cs else cutAfter sep cs

/-- Part of `s` from the first `sep` on, `sep` included (empty when there is none). -/
def cutFrom (sep : Char) : Str → Str
  | [] => []
  | c :: cs => if c = sep then c :: cs else cutFrom sep cs

/-- Part of `s` after the last `sep`, or `none` when `s` holds no `sep`
(Go `strings.LastIndex` followed by a slice). -/
def afterLast (sep : Char) : Str → Option Str
  | [] => none
  | c :: cs =>
    match afterLast sep cs with
    | some t => some t
    | none => if c = sep then some cs else none

/-- Part of `s` before the last `sep` (Go `s[:strings.LastIndex(s, sep)]`), or `none`. -/
def beforeLast (sep : Char) : Str → Option Str
  | [] => none
  | c :: cs =>
    match beforeLast sep cs with
    | some t => some (c :: t)
    | none => if c = sep then some [] else none

/-- ASCII lower-casing of one byte. -/
def lowerByte (c : Char) : Char :=
  if 'A'.toNat ≤ c.toNat ∧ c.toNat ≤ 'Z'.toNat then Char.ofNat (c.toNat + 32) else c

/-- Go `strings.ToLower` on an ASCII string. -/
def toLower (s : Str) : Str := s.map lowerByte

/-- Byte-wise lexicographic order of Go strings (`a <= b`). -/
def strLe : Str → Str → Bool
  | [], _ => true
  | _ :: _, [] => false
  | a :: as, b :: bs => decide (a.toNat < b.toNat) || (decide (a = b) && strLe as bs)

/-- Insertion of one string into a sorted list. -/
def insertSorted (x : Str) : List Str → List Str
  | [] => [x]
  | y :: ys => if strLe x y then x :: y :: ys else y :: insertSorted x ys

/-- Go `sort.Strings`: the list in increasing byte-wise lexicographic order. -/
def sortStrings : List Str → List Str
  | [] => []
  | x :: xs => insertSorted x (sortStrings xs)

/-! ## Package `path/filepath` (Unix) -/

/-- One step of the lexical cleaning of `filepath.Clean`, segment by segment: `stack`
holds the elements kept so far, innermost first. -/
def cleanStep (rooted : Bool) (stack : List Str) (seg : Str) : List Str :=
  if seg = [] ∨ seg = ['.'] then stack
  else if seg = ['.', '.'] then
    match stack with
    | [] => if rooted then [] else [seg]
    | top :: below => if top = ['.', '.'] then seg :: top :: below else below
  else seg :: stack

/-- Go `filepath.Clean` on Unix: drops empty and `.` elements, resolves `..` against the
element before it, keeps leading `..` of a relative path, turns the empty result into `.`. -/
def filepathClean (p : Str) : Str :=
  let rooted := hasPrefix p ['/']
  let kept := ((stringsSplit '/' p).foldl (cleanStep rooted) []).reverse
  if rooted then '/' :: stringsJoin '/' kept
  else if kept = [] then ['.'] else stringsJoin '/' kept

/-- Go `filepath.Join(elem...)` on Unix: the elements from the first non-empty one on,
joined by `/` and cleaned; the empty string when every element is empty. -/
def filepathJoin : List Str → Str
  | [] => []
  | e :: es => if e = [] then filepathJoin es else filepathClean (stringsJoin '/' (e :: es))

/-! ## Package `net/url`

`url.Parse`, restricted to the three fields of `url.URL` that the code reads
(`Scheme`, `Host`, `Path`) and to whether the parse fails. -/

/-- The fields of Go `url.URL` read by the code. -/
structure URL where
  Scheme : Str
  Host : Str
  Path : Str
  deriving DecidableEq, Repr

/-- ASCII letter. -/
def isAlpha (c : Char) : Bool :=
  ('a'.toNat ≤ c.toNat && c.toNat ≤ 'z'.toNat) || ('A'.toNat ≤ c.toNat && c.toNat ≤ 'Z'.toNat)

/-- ASCII digit. -/
def isDigit (c : Char) : Bool := '0'.toNat ≤ c.toNat && c.toNat ≤ '9'.toNat

/-- Go `ishex`. -/
def ishex (c : Char) : Bool :=
  isDigit c || ('a'.toNat ≤ c.toNat && c.toNat ≤ 'f'.toNat)
    || ('A'.toNat ≤ c.toNat && c.toNat ≤ 'F'.toNat)

/-- Go `unhex`. -/
def unhex (c : Char) : Nat :=
  if isDigit c then c.toNat - '0'.toNat
  else if 'a'.toNat ≤ c.toNat ∧ c.toNat ≤ 'f'.toNat then c.toNat - 'a'.toNat + 10
  else if 'A'.toNat ≤ c.toNat ∧ c.toNat ≤ 'F'.toNat then c.toNat - 'A'.toNat + 10
  else 0

/-- Go `stringContainsCTLByte`: some byte is below 0x20 or is 0x7f. -/
def stringContainsCTLByte (s : Str) : Bool := s.any fun c => c.toNat < 32 || c.toNat = 127

/-- Go `getScheme`, scanning the bytes left of the cursor (`seen`) and right of it:
`some (scheme, rest)`, or `none` for the error "missing protocol scheme". -/
def getSchemeFrom (raw : Str) : Str → Str → Option (Str × Str)
  | _, [] => some ([], raw)
  | seen, c :: cs =>
    if isAlpha c then getSchemeFrom raw (seen ++ [c]) cs
    else if isDigit c || c = '+' || c = '-' || c = '.' then
      if seen = [] then some ([], raw) else getSchemeFrom raw (seen ++ [c]) cs
    else if c = ':' then
      if seen = [] then none else some (seen, cs)
    else some ([], raw)

/-- Go `getScheme`. -/
def getScheme (raw : Str) : Option (Str × Str) := getSchemeFrom raw [] raw

/-- The escaping modes of `net/url` that `url.Parse` uses. -/
inductive Encoding
  | encodePath
  | encodeHost
  | encodeZone
  | encodeUserPassword
  | encodeFragment
  deriving DecidableEq, Repr

/-- Go `shouldEscape(c, encodeHost)` (the same value for `encodeZone`): everything but
letters, digits and the bytes a host may hold unescaped. -/
def shouldEscapeHost (c : Char) : Bool :=
  !(isAlpha c || isDigit c ||
    ['!', '$', '&', '\'', '(', ')', '*', '+', ',', ';', '=', ':', '[', ']', '<', '>', '"',
      '-', '_', '.', '~'].elem c)

/-- Go `unescape(s, mode)` for the modes of `url.Parse`: `none` for an escape error or an
invalid host byte, else the string with every `%XX` replaced by the byte it encodes. -/
def unescape (mode : Encoding) : Str → Option Str
  | [] => some []
  | '%' :: a :: b :: rest =>
    if ishex a && ishex b then
      let v := Char.ofNat (unhex a * 16 + unhex b)
      if mode = Encoding.encodeHost ∧ unhex a < 8 ∧ ¬ (a = '2' ∧ b = '5') then none
      else if mode = Encoding.encodeZone ∧ ¬ (a = '2' ∧ b = '5') ∧ v ≠ ' '
          ∧ shouldEscapeHost v = true then none
      else (unescape mode rest).map (v :: ·)
    else none
  | '%' :: _ => none
  | c :: rest =>
    if (mode = Encoding.encodeHost ∨ mode = Encoding.encodeZone) ∧ c.toNat < 128
        ∧ shouldEscapeHost c = true then none
    else (unescape mode rest).map (c :: ·)

/-- Go `validOptionalPort`: empty, or a colon followed by digits only. -/
def validOptionalPort : Str → Bool
  | [] => true
  | c :: ds => c = ':' && ds.all isDigit

/-- First index at which `%25` starts in `s`, as the pair of the parts before it and
from it on (Go `strings.Index(s, "%25")`). -/
def splitAtZone : Str → Option (Str × Str)
  | [] => none
  | c :: cs =>
    if hasPrefix (c :: cs) ['%', '2', '5'] then some ([], c :: cs)
    else (splitAtZone cs).map fun r => (c :: r.1, r.2)

/-- Go `parseHost`, as in the Go releases that do not yet require the text between
brackets to be an IPv6 literal and do not yet reject a host with several colons outside
brackets: on such hosts this function succeeds where a later release returns an error.
On a host without a bracket and with at most one colon the releases agree. -/
def parseHost (host : Str) : Option Str :=
  if hasPrefix host ['['] then
    match beforeLast ']' host, afterLast ']' host with
    | some inner, some colonPort =>
      if !validOptionalPort colonPort then none
      else
        match splitAtZone inner with
        | some (h1, zone) =>
          (unescape Encoding.encodeHost h1).bind fun host1 =>
          (unescape Encoding.encodeZone zone).bind fun host2 =>
          (unescape Encoding.encodeHost (']' :: colonPort)).map fun host3 =>
            host1 ++ host2 ++ host3
        | none => unescape Encoding.encodeHost host
    | _, _ => none
  else
    match afterLast ':' host with
    | some port =>
      if !validOptionalPort (':' :: port) then none else unescape Encoding.encodeHost host
    | none => unescape Encoding.encodeHost host

/-- Go `validUserinfo`. -/
def validUserinfo (s : Str) : Bool :=
  s.all fun c => isAlpha c || isDigit c ||
    ['-', '.', '_', ':', '~', '!', '$', '&', '\'', '(', ')', '*', '+', ',', ';', '=', '%',
      '@'].elem c

/-- Go `parseAuthority`, for the host only: `none` when the host or the user
information is invalid. -/
def parseAuthority (authority : Str) : Option Str :=
  match beforeLast '@' authority, afterLast '@' authority with
  | some userinfo, some h =>
    (parseHost h).bind fun host =>
      if !validUserinfo userinfo then none
      else if !containsByte userinfo ':' then
        (unescape Encoding.encodeUserPassword userinfo).map fun _ => host
      else
        (unescape Encoding.encodeUserPassword (cutBefore ':' userinfo)).bind fun _ =>
        (unescape Encoding.encodeUserPassword (cutAfter ':' userinfo)).map fun _ => host
  | _, _ => parseHost authority

/-- Go `url.parse(rawURL, false)`: the URL without its fragment. -/
def parseNoFragment (rawURL : Str) : Option URL :=
  if stringContainsCTLByte rawURL then none
  else if rawURL = ['*'] then some { Scheme := [], Host := [], Path := ['*'] }
  else
    match getScheme rawURL with
    | none => none
    | some (scheme0, rest0) =>
      let scheme := toLower scheme0
      let rest := cutBefore '?' rest0
      if !hasPrefix rest ['/'] ∧ scheme ≠ [] then
        some { Scheme := scheme, Host := [], Path := [] }
      else if !hasPrefix rest ['/'] ∧ containsByte (cutBefore '/' rest) ':' then none
      else if (scheme ≠ [] ∨ !hasPrefix rest ['/', '/', '/']) ∧ hasPrefix rest ['/', '/'] then
        let authority := rest.drop 2
        (parseAuthority (cutBefore '/' authority)).bind fun host =>
          (unescape Encoding.encodePath (cutFrom '/' authority)).map fun path =>
            { Scheme := scheme, Host := host, Path := path }
      else
        (unescape Encoding.encodePath rest).map fun path =>
          { Scheme := scheme, Host := [], Path := path }

/-- Go `url.Parse`: `none` when Go returns a nil URL and an error.  The host is checked
by `parseHost`, with the limits stated there: a bracketed host that is no IPv6 literal is
accepted here. -/
def urlParse (rawURL : Str) : Option URL :=
  (parseNoFragment (cutBefore '#' rawURL)).bind fun u =>
    if cutAfter '#' rawURL = [] then some u
    else (unescape Encoding.encodeFragment (cutAfter '#' rawURL)).map fun _ => u

/-- Go `path.Join`: on slash-separated paths the function of `filepath.Join` on Unix. -/
def pathJoin (elems : List Str) : Str := filepathJoin elems

/-- Go `path.IsAbs`. -/
def pathIsAbs (p : Str) : Bool := hasPrefix p ['/']

/-! ## Results of Go functions -/

/-- The errors of a call to the remote file system, by what the code asks of them:
`os.ErrNotExist` (`os.IsNotExist`), `os.ErrExist`, `syscall.ENOTDIR`, or another error. -/
inductive RemoteErr
  | notExist
  | exist
  | notDir
  | other (code : Nat)
  deriving DecidableEq, Repr

/-- The Go `error` values the code returns. -/
inductive GoError
  /-- `errInvalidHDFSFilename`, "invalid HDFS Filename" -/
  | errInvalidHDFSFilename
  /-- `errMultipleNamenodeUrls`, "Multiple namenode URLs specified" -/
  | errMultipleNamenodeUrls
  /-- "Problem loading configuration: ..." -/
  | errLoadConf
  /-- the error of `url.Parse`, returned as it is -/
  | errUrlParse
  /-- "Couldn't determine user: ..." -/
  | errUser
  /-- "invalid HDFS Scheme" -/
  | errInvalidScheme
  /-- "Reparse viewfs fail: ..." -/
  | errReparse
  /-- "no mount point for " followed by the text given -/
  | errNoMountPoint (what : Str)
  /-- "no namenode" -/
  | errNoNamenode
  /-- the error of a remote call, returned as it is -/
  | errRemote (e : RemoteErr)
  /-- `&os.PathError{op, path, cause}` -/
  | errPathError (op path : Str) (cause : RemoteErr)
  /-- "Cannot move \"name\" to the trash, as it contains the trash" -/
  | errContainsTrash (name : Str)
  /-- `&os.PathError{"remove", name, "Failed to move name to trash trashPath"}` -/
  | errMoveFailed (name trashPath : Str)
  deriving DecidableEq, Repr

/-- Outcome of a Go function: its results with a nil error, a non-nil error, or a
runtime panic. -/
inductive Res (α : Type)
  | ok (val : α)
  | fail (e : GoError)
  | panicked
  deriving DecidableEq, Repr

/-! ## `hadoopconf/hadoopconf.go` -/

/-- `HadoopConf`: `map[string]string`, as an association list whose first binding of a key
is the one in force. -/
abbrev HadoopConf := List (Str × Str)

/-- The comma-ok lookup `value, ok := conf[key]`: `none` when the key is absent. -/
def confLookup : HadoopConf → Str → Option Str
  | [], _ => none
  | (k, v) :: rest, key => if k = key then some v else confLookup rest key

/-- The plain lookup `conf[key]`: the empty string when the key is absent. -/
def confValue (conf : HadoopConf) (key : Str) : Str := (confLookup conf key).getD []

/-- The scheme marker "viewfs://". -/
def viewfsMarker : Str := "viewfs://".toList

/-- `HadoopConf.DefaultFS`: `fs.defaultFS`, or the deprecated `fs.default.name` when the
former is empty. -/
def DefaultFS (conf : HadoopConf) : Str :=
  let value := confValue conf "fs.defaultFS".toList
  if value = [] then confValue conf "fs.default.name".toList else value

/-- `HadoopConf.DefaultNSID`.  The error of `url.Parse` is dropped by the code, so a
value that does not parse makes `nnUrl.Host` dereference a nil URL. -/
def DefaultNSID (conf : HadoopConf) : Res Str :=
  let value := DefaultFS conf
  if hasPrefix value viewfsMarker then Res.ok value
  else if hasPrefix value "hdfs://".toList then
    match urlParse value with
    | some nnUrl => Res.ok nnUrl.Host
    | none => Res.panicked
  else Res.ok []

/-- The entries a `range` over the map visits: one per key, with the binding in force. -/
def confEntries : HadoopConf → List (Str × Str)
  | [] => []
  | (k, v) :: rest => (k, v) :: (confEntries rest).filter fun e => e.1 != k

/-- One iteration of the loop over the map in the fallback of `Namenodes`: the set `nns`
(as a list) and `clusterNames`.  The error of `url.Parse` is dropped by the code, so a
value that does not parse makes `nnUrl.Host` dereference a nil URL. -/
def namenodesStep (acc : Res (List Str × List Str)) (e : Str × Str) :
    Res (List Str × List Str) :=
  match acc with
  | Res.ok (nns, clusterNames) =>
    if hasPrefix e.1 "fs.default".toList then
      match urlParse e.2 with
      | some nnUrl => Res.ok (nnUrl.Host :: nns, clusterNames)
      | none => Res.panicked
    else if hasPrefix e.1 "dfs.namenode.rpc-address.".toList then
      Res.ok (e.2 :: nns, clusterNames)
    else if hasPrefix e.1 "dfs.ha.namenodes.".toList then
      Res.ok (nns, e.1.drop "dfs.ha.namenodes.".length :: clusterNames)
    else Res.ok (nns, clusterNames)
  | Res.fail err => Res.fail err
  | Res.panicked => Res.panicked

/-- The address of HA member `haName` of `nsid`, kept when present and non-empty
(the body of the loop of `AddressesByNameServiceID`). -/
def haAddress (conf : HadoopConf) (nsid haName : Str) : Option Str :=
  match confLookup conf ("dfs.namenode.rpc-address.".toList ++ nsid ++ ".".toList ++ haName) with
  | some addr => if addr ≠ [] then some addr else none
  | none => none

/-- `HadoopConf.AddressesByNameServiceID`. -/
def AddressesByNameServiceID (conf : HadoopConf) (nsid : Str) : List Str :=
  if hasPrefix nsid viewfsMarker || containsByte nsid ':' then [nsid]
  else
    match confLookup conf ("dfs.namenode.rpc-address.".toList ++ nsid) with
    | some addr => [addr]
    | none =>
      let haListStr := confValue conf ("dfs.ha.namenodes.".toList ++ nsid)
      let haList := stringsSplit ',' haListStr
      let rets := haList.filterMap (haAddress conf nsid)
      if rets.length ≤ 0 then ["111".toList] else sortStrings rets

/-- `HadoopConf.Namenodes`: the addresses of the default name service when there is
one, else the hosts found in the configuration, sorted and without duplicates (the nil
slice, here the empty list, when there is none). -/
def Namenodes (conf : HadoopConf) : Res (List Str) :=
  match DefaultNSID conf with
  | Res.fail err => Res.fail err
  | Res.panicked => Res.panicked
  | Res.ok defNSID =>
    if defNSID ≠ [] then Res.ok (AddressesByNameServiceID conf defNSID)
    else
      match (confEntries conf).foldl namenodesStep (Res.ok ([], [])) with
      | Res.fail err => Res.fail err
      | Res.panicked => Res.panicked
      | Res.ok (nns, clusterNames) =>
        let keys := (nns.filter fun k => !clusterNames.elem k).eraseDups
        if keys.length = 0 then Res.ok [] else Res.ok (sortStrings keys)

/-- The configuration key of the mount entry of namespace `nsid` at path `pfx`. -/
def mountKey (nsid pfx : Str) : Str :=
  "fs.viewfs.mounttable.".toList ++ nsid ++ ".link.".toList ++ pfx

/-- The substitution done by `ViewfsReparseFilename` once a mount entry with target
`value` matched and the segments `rest` of the path are left over.  The error of
`url.Parse` is dropped by the code, so a URL that does not parse makes `u.Host`
dereference a nil URL. -/
def mountSubstitute (value : Str) (rest : List Str) : Res (Str × Str) :=
  let postfx := filepathJoin rest
  let newurl := value ++ "/".toList ++ postfx
  match urlParse newurl with
  | some u => Res.ok (u.Host, u.Path)
  | none => Res.panicked

/-- The loop `for i := len(dirs); i > 0; i--` of `ViewfsReparseFilename`, from `i` down,
followed by the return after the loop. -/
def reparseLoop (conf : HadoopConf) (nsid path : Str) (dirs : List Str) :
    Nat → Res (Str × Str)
  | 0 => Res.ok (viewfsMarker ++ nsid, path)
  | i + 1 =>
    match confLookup conf (mountKey nsid (stringsJoin '/' (dirs.take (i + 1)))) with
    | some value => mountSubstitute value (dirs.drop (i + 1))
    | none => reparseLoop conf nsid path dirs i

/-- The segments `dirs` of `ViewfsReparseFilename`: the path split at `/`, with an empty
first segment put in front when there is none. -/
def pathDirs (path : Str) : List Str :=
  let dirs := stringsSplit '/' path
  if dirs.head? ≠ some [] then [] :: dirs else dirs

/-- The namespace `ViewfsReparseFilename` looks mounts up in, before the marker is
trimmed: the host, else `rootnsid`, else `DefaultNSID()`. -/
def reparseNsid (conf : HadoopConf) (rootnsid host : Str) : Res Str :=
  let nsid := if host = [] then rootnsid else host
  if nsid = [] then DefaultNSID conf else Res.ok nsid

/-- `HadoopConf.ViewfsReparseFilename`. -/
def ViewfsReparseFilename (conf : HadoopConf) (rootnsid filename : Str) : Res (Str × Str) :=
  match urlParse filename with
  | none => Res.fail GoError.errInvalidHDFSFilename
  | some u =>
    if u.Scheme ≠ "viewfs".toList ∧ u.Scheme ≠ [] then Res.fail GoError.errInvalidHDFSFilename
    else if u.Host ≠ [] ∧ rootnsid ≠ [] then Res.fail GoError.errInvalidHDFSFilename
    else
      match reparseNsid conf rootnsid u.Host with
      | Res.ok nsid0 =>
        let nsid := trimPrefix nsid0 viewfsMarker
        let dirs := pathDirs u.Path
        reparseLoop conf nsid u.Path dirs dirs.length
      | Res.fail e => Res.fail e
      | Res.panicked => Res.panicked

/-- `TypeOfNamenodeAddressString`. -/
inductive TypeOfNamenodeAddressString
  | TNAS_SimpleAddress
  | TNAS_SimpleNameServiceID
  | TNAS_ViewfsNameServiceID
  deriving DecidableEq, Repr

open TypeOfNamenodeAddressString in
/-- `HadoopConf.CheckTypeOfNameAddressString`. -/
def CheckTypeOfNameAddressString (conf : HadoopConf) (maybe_addr : Str) :
    TypeOfNamenodeAddressString :=
  if hasPrefix maybe_addr viewfsMarker then TNAS_ViewfsNameServiceID
  else if containsByte maybe_addr ':' then TNAS_SimpleAddress
  else
    let nsids_str := confValue conf "dfs.nameservices".toList
    let nsids := stringsSplit ',' nsids_str
    if nsids.any (fun v => decide (maybe_addr = v)) then TNAS_SimpleNameServiceID
    else if (confLookup conf ("dfs.ha.namenodes.".toList ++ maybe_addr)).isSome then
      TNAS_SimpleNameServiceID
    else TNAS_SimpleAddress

/-! ## `cmd/hdfs/paths.go` -/

/-- What `normalizePaths` reads from the process: the results of `getConf()` and
`getUser()`, and the environment variable `HADOOP_NAMENODE`. -/
structure Env where
  /-- the configuration `getConf()` returns (empty when none was found) -/
  conf : HadoopConf
  /-- whether `getConf()` returns an error -/
  confErr : Bool
  /-- the user name `getUser()` returns, `none` when it returns an error -/
  user : Option Str
  /-- `os.Getenv("HADOOP_NAMENODE")` -/
  hadoopNamenode : Str

/-- The body of the first loop of `normalizePaths` for one raw URL: the new value of
`namenode` and the cleaned path. -/
def normalizeOne (env : Env) (namenode rawurl : Str) : Res (Str × Str) :=
  match urlParse rawurl with
  | none => Res.fail GoError.errUrlParse
  | some url =>
    let cleaned : Res Str :=
      if url.Scheme = [] then
        if !pathIsAbs url.Path then
          match env.user with
          | none => Res.fail GoError.errUser
          | some user => Res.ok (pathJoin ["/user".toList, user, url.Path])
        else Res.ok url.Path
      else if url.Scheme = "viewfs".toList ∨ url.Scheme = "hdfs".toList then Res.ok url.Path
      else Res.fail GoError.errInvalidScheme
    match cleaned with
    | Res.fail e => Res.fail e
    | Res.panicked => Res.panicked
    | Res.ok cleanPath =>
      if url.Host ≠ [] then
        let resolved : Res (Str × Str) :=
          if url.Scheme = "viewfs".toList then
            match ViewfsReparseFilename env.conf (viewfsMarker ++ url.Host) cleanPath with
            | Res.fail _ => Res.fail GoError.errReparse
            | Res.panicked => Res.panicked
            | Res.ok (nsid, newPath) =>
              if hasPrefix nsid viewfsMarker then Res.fail (GoError.errNoMountPoint rawurl)
              else Res.ok (nsid, newPath)
          else Res.ok (url.Host, cleanPath)
        match resolved with
        | Res.fail e => Res.fail e
        | Res.panicked => Res.panicked
        | Res.ok (nsid, newPath) =>
          if namenode ≠ [] ∧ namenode ≠ nsid then Res.fail GoError.errMultipleNamenodeUrls
          else Res.ok (nsid, newPath)
      else Res.ok (namenode, cleanPath)

/-- The first loop of `normalizePaths`: the cleaned paths, in input order, and `namenode`. -/
def normalizeLoop (env : Env) : Str → List Str → List Str → Res (List Str × Str)
  | namenode, cleanPaths, [] => Res.ok (cleanPaths, namenode)
  | namenode, cleanPaths, rawurl :: rest =>
    match normalizeOne env namenode rawurl with
    | Res.fail e => Res.fail e
    | Res.panicked => Res.panicked
    | Res.ok (namenode1, cleanPath) => normalizeLoop env namenode1 (cleanPaths ++ [cleanPath]) rest

/-- The second loop of `normalizePaths`: every cleaned path reparsed against the default
viewfs namespace. -/
def reparseDefaultLoop (conf : HadoopConf) (defaultNsid : Str) :
    Str → List Str → List Str → Res (List Str × Str)
  | namenode, result, [] =>
    if namenode = [] then Res.fail GoError.errNoNamenode else Res.ok (result, namenode)
  | namenode, result, p :: rest =>
    match ViewfsReparseFilename conf defaultNsid p with
    | Res.fail _ => Res.fail GoError.errReparse
    | Res.panicked => Res.panicked
    | Res.ok (nsid, newpath) =>
      if hasPrefix nsid viewfsMarker then Res.fail (GoError.errNoMountPoint (defaultNsid ++ p))
      else if namenode ≠ [] ∧ namenode ≠ nsid then Res.fail GoError.errMultipleNamenodeUrls
      else reparseDefaultLoop conf defaultNsid nsid (result ++ [newpath]) rest

/-- The function `normalizePaths`: the cleaned paths and the namenode identity. -/
def normalizePaths (env : Env) (paths : List Str) : Res (List Str × Str) :=
  if env.confErr then Res.fail GoError.errLoadConf
  else
    match normalizeLoop env [] [] paths with
    | Res.fail e => Res.fail e
    | Res.panicked => Res.panicked
    | Res.ok (cleanPaths, namenode) =>
      if namenode ≠ [] ∨ env.hadoopNamenode ≠ [] then Res.ok (cleanPaths, namenode)
      else
        match DefaultNSID env.conf with
        | Res.fail e => Res.fail e
        | Res.panicked => Res.panicked
        | Res.ok defaultNsid =>
          if !hasPrefix defaultNsid viewfsMarker then Res.ok (cleanPaths, namenode)
          else reparseDefaultLoop env.conf defaultNsid namenode [] cleanPaths

/-! ## Predicates used in the statements -/

/-- The mount entry of namespace `ns` at the first `i` segments of `dirs`. -/
def mountAt (conf : HadoopConf) (ns : Str) (dirs : List Str) (i : Nat) : Option Str :=
  confLookup conf (mountKey ns (stringsJoin '/' (dirs.take i)))

/-- A byte that `url.Parse` keeps as it is in a path: not a control byte and none of
`#`, `?`, `%`. -/
def plainByte (c : Char) : Bool :=
  !(c.toNat < 32 || c.toNat = 127) && c != '#' && c != '?' && c != '%'

/-- A path segment that `filepath.Clean` and `url.Parse` keep as it is: not empty, not
`.` or `..`, of plain bytes other than `/`. -/
def plainSeg (s : Str) : Bool :=
  s != [] && s != ['.'] && s != ['.', '.'] && s.all fun c => plainByte c && c != '/'

/-- A byte of a plain host name: a letter, a digit, `-`, `.` or `_`. -/
def plainHostByte (c : Char) : Bool :=
  isAlpha c || isDigit c || c == '-' || c == '.' || c == '_'

/-- A byte of a plain host with an optional port. -/
def authByte (c : Char) : Bool := plainHostByte c || c == ':'

/-- A plain host, as `name` or `name:port`: a name of plain host bytes, then nothing or
one colon followed by digits (no user information, no escapes, no IP literal). -/
def plainHost (h : Str) : Bool := h.all authByte && validOptionalPort (cutFrom ':' h)

/-- A byte of a URL scheme after its first: a letter, a digit, `+`, `-` or `.`. -/
def schemeByte (c : Char) : Bool :=
  isAlpha c || isDigit c || c == '+' || c == '-' || c == '.'

/-- A URL scheme: a letter followed by scheme bytes. -/
def plainScheme : Str → Bool
  | [] => false
  | c :: cs => isAlpha c && cs.all schemeByte

/-- The path part of a plain URL: empty or starting with `/`, of plain bytes. -/
def plainPath (t : Str) : Bool := (t == [] || hasPrefix t ['/']) && t.all plainByte

/-! ## Example configurations -/

/-- Configuration with the single mount entry `/x` to `hdfs://N/z` in namespace `ns`. -/
def confMountX : HadoopConf :=
  [(mountKey "ns".toList "/x".toList, "hdfs://N/z".toList)]

/-- Configuration whose default file system is `viewfs://ns`, with the single mount entry
`/x` to `hdfs://N/z` in namespace `ns`. -/
def confDefaultNs : HadoopConf :=
  [("fs.defaultFS".toList, "viewfs://ns".toList),
   (mountKey "ns".toList "/x".toList, "hdfs://N/z".toList)]

/-- Configuration with the default file system `viewfs://nsX` and, in namespace `nsX`,
the mount entries `/user` and `/user/sub`. -/
def confViewfs : HadoopConf :=
  [("fs.defaultFS".toList, "viewfs://nsX".toList),
   (mountKey "nsX".toList "/user".toList, "hdfs://SunshineNameNode2/_user".toList),
   (mountKey "nsX".toList "/user/sub".toList, "hdfs://SunshineNameNode4/_sub".toList)]

/-- Configuration whose single mount entry, `/x` in namespace `ns`, has the target
`hdfs://N/%zz`, which `url.Parse` rejects (invalid escape). -/
def confBadTarget : HadoopConf :=
  [(mountKey "ns".toList "/x".toList, "hdfs://N/%zz".toList)]

/-- Configuration whose single mount entry, `/a` in namespace `nsX`, has a target that is
itself a viewfs URL. -/
def confChained : HadoopConf :=
  [(mountKey "nsX".toList "/a".toList, "viewfs://other/b".toList)]

/-- A process environment around `confChained`: configuration loaded, user `me`, no
`HADOOP_NAMENODE`. -/
def envChained : Env :=
  { conf := confChained, confErr := false, user := some "me".toList, hadoopNamenode := [] }

/-- Configuration of an HA name service `ns1` with the members `a` and `b`: the address
of `a` is present and empty, the address of `b` is `h:1`. -/
def confHaEmpty : HadoopConf :=
  [("dfs.ha.namenodes.ns1".toList, "a,b".toList),
   ("dfs.namenode.rpc-address.ns1.a".toList, []),
   ("dfs.namenode.rpc-address.ns1.b".toList, "h:1".toList)]

/-- Configuration of an HA name service `ns1` with the members `a` and `b`, where only
the address of `a` is present. -/
def confHaOne : HadoopConf :=
  [("dfs.ha.namenodes.ns1".toList, "a,b".toList),
   ("dfs.namenode.rpc-address.ns1.a".toList, "h:1".toList)]

/-- Configuration of an HA name service `ns1` whose members `a` and `b` have no address. -/
def confHaNone : HadoopConf :=
  [("dfs.ha.namenodes.ns1".toList, "a,b".toList)]

/-- Configuration whose default file system is the name service `ns1`, for which no
address is configured. -/
def confDefaultUnknown : HadoopConf :=
  [("fs.defaultFS".toList, "hdfs://ns1".toList)]

/-- Configuration with an address key for the name `nn1:8020`, and one for the name
service `ns1` next to HA keys of `ns1`. -/
def confDirect : HadoopConf :=
  [("dfs.namenode.rpc-address.nn1:8020".toList, "host9:9000".toList),
   ("dfs.namenode.rpc-address.ns1".toList, "host1:8020".toList),
   ("dfs.ha.namenodes.ns1".toList, "a,b".toList),
   ("dfs.namenode.rpc-address.ns1.a".toList, "h:1".toList)]

/-! ## The statements of the claims on `AddressesByNameServiceID`, in the words of the spec -/

/-- The HA member names of `nsid`: the comma-separated entries of `dfs.ha.namenodes.<nsid>`. -/
def haMembers (conf : HadoopConf) (nsid : Str) : List Str :=
  stringsSplit ',' (confValue conf ("dfs.ha.namenodes.".toList ++ nsid))

/-- The addresses of the HA members of `nsid` whose address key
`dfs.namenode.rpc-address.<nsid>.<member>` is present, in the order of the member list. -/
def presentMemberAddresses (conf : HadoopConf) (nsid : Str) : List Str :=
  (haMembers conf nsid).filterMap fun m =>
    confLookup conf ("dfs.namenode.rpc-address.".toList ++ nsid ++ ".".toList ++ m)

/-- The addresses of the HA members of `nsid` whose address key is present with a
non-empty value, in the order of the member list. -/
def nonEmptyMemberAddresses (conf : HadoopConf) (nsid : Str) : List Str :=
  (presentMemberAddresses conf nsid).filter fun a => a != []

/-- Configuration whose default file system `hdfs://nn1/%zz` is rejected by `url.Parse`
(invalid escape). -/
def confBadDefault : HadoopConf :=
  [("fs.defaultFS".toList, "hdfs://nn1/%zz".toList)]

/-- Configuration whose default file system has a port that is not a number. -/
def confBadPort : HadoopConf :=
  [("fs.defaultFS".toList, "hdfs://nn1:80a0".toList)]

/-! ## The statements of the claims on `normalizePaths`, in the words of the spec -/

/-- The path component of a raw input (empty when the input does not parse). -/
def urlPathOf (raw : Str) : Str := ((urlParse raw).map URL.Path).getD []

/-- The cleaned path of a schemeless input with path `p`: `p` itself when it is
absolute, else the path under the home directory `/user/<user>`. -/
def homePath (user p : Str) : Str :=
  if pathIsAbs p then p else pathJoin ["/user".toList, user, p]

/-- A process environment around `confViewfs`: configuration loaded, user `me`, no
`HADOOP_NAMENODE`. -/
def envViewfs : Env :=
  { conf := confViewfs, confErr := false, user := some "me".toList, hadoopNamenode := [] }

/-- A process environment in which loading the configuration fails. -/
def envLoadFails : Env :=
  { conf := [], confErr := true, user := some "me".toList, hadoopNamenode := [] }

/-- A process environment without any configuration: user `me`, no `HADOOP_NAMENODE`. -/
def envPlain : Env :=
  { conf := [], confErr := false, user := some "me".toList, hadoopNamenode := [] }

/-- Configuration with the default file system `viewfs://ns` and, in namespace `ns`, the
mount entry `/a` to `file:///x`, a target without a host, and the mount entry `/b` to
`hdfs://A/y`. -/
def confMixed : HadoopConf :=
  [("fs.defaultFS".toList, "viewfs://ns".toList),
   (mountKey "ns".toList "/a".toList, "file:///x".toList),
   (mountKey "ns".toList "/b".toList, "hdfs://A/y".toList)]

/-- A process environment around `confMixed`: configuration loaded, user `me`, no
`HADOOP_NAMENODE`. -/
def envMixed : Env :=
  { conf := confMixed, confErr := false, user := some "me".toList, hadoopNamenode := [] }

/-! ## Package `regexp`

The constructs of the one pattern the code uses, matched byte by byte.  The pattern
`([^\\]|^)[[*?]` excludes an ASCII byte in its class and names ASCII bytes otherwise, so a
search byte by byte and a search rune by rune succeed on the same strings. -/

/-- Regular expressions: a character class (negated or not), the start of the text `^`,
concatenation, alternation. -/
inductive Regex
  | cls (negated : Bool) (set : List Char)
  | bol
  | seq (a b : Regex)
  | alt (a b : Regex)
  deriving Repr

/-- The positions at which a match of the expression that starts at position `i` of `s`
can end. -/
def Regex.ends (s : Str) : Regex → Nat → List Nat
  | Regex.cls negated set, i =>
    match s[i]? with
    | some c => if set.elem c != negated then [i + 1] else []
    | none => []
  | Regex.bol, i => if i = 0 then [i] else []
  | Regex.seq a b, i => (a.ends s i).flatMap (b.ends s)
  | Regex.alt a b, i => a.ends s i ++ b.ends s i

/-- Go `regexp.MatchString`: whether the expression matches somewhere in `s`. -/
def regexpMatchString (re : Regex) (s : Str) : Bool :=
  (List.range (s.length + 1)).any fun i => !(re.ends s i).isEmpty

/-- The pattern of `hasGlob`, `([^\\]|^)[[*?]`. -/
def globPattern : Regex :=
  Regex.seq (Regex.alt (Regex.cls true ['\\']) Regex.bol) (Regex.cls false ['[', '*', '?'])

/-- The function `hasGlob` of `cmd/hdfs/paths.go`. -/
def hasGlob (fragment : Str) : Bool := regexpMatchString globPattern fragment

/-! ## Packages `unicode/utf8`, `path`, `strings`, `strconv`: what the glob expansion and the
trash relocation use -/

/-- Go `utf8.RuneError`. -/
def runeError : Nat := 65533

/-- Whether `b` is a UTF-8 continuation byte within `lo..hi`. -/
def inRange (lo hi : Nat) (b : Char) : Bool := lo ≤ b.toNat && b.toNat ≤ hi

/-- Go `utf8.DecodeRuneInString`: the first rune of `s` and its width in bytes;
`(RuneError, 0)` for the empty string, `(RuneError, 1)` for an invalid encoding. -/
def decodeRune : Str → Nat × Nat
  | [] => (runeError, 0)
  | s0 :: rest =>
    let b0 := s0.toNat
    if b0 < 128 then (b0, 1)
    else if b0 < 194 ∨ 244 < b0 then (runeError, 1)
    else if b0 < 224 then
      match rest with
      | s1 :: _ =>
        if inRange 128 191 s1 then ((b0 % 32) * 64 + s1.toNat % 64, 2) else (runeError, 1)
      | _ => (runeError, 1)
    else if b0 < 240 then
      let lo := if b0 = 224 then 160 else 128
      let hi := if b0 = 237 then 159 else 191
      match rest with
      | s1 :: s2 :: _ =>
        if inRange lo hi s1 then
          if inRange 128 191 s2 then
            ((b0 % 16) * 4096 + (s1.toNat % 64) * 64 + s2.toNat % 64, 3)
          else (runeError, 1)
        else (runeError, 1)
      | _ => (runeError, 1)
    else
      let lo := if b0 = 240 then 144 else 128
      let hi := if b0 = 244 then 143 else 191
      match rest with
      | s1 :: s2 :: s3 :: _ =>
        if inRange lo hi s1 then
          if inRange 128 191 s2 then
            if inRange 128 191 s3 then
              ((b0 % 8) * 262144 + (s1.toNat % 64) * 4096 + (s2.toNat % 64) * 64
                + s3.toNat % 64, 4)
            else (runeError, 1)
          else (runeError, 1)
        else (runeError, 1)
      | _ => (runeError, 1)

/-- Go `path.getEsc`: the next rune of a character class and what follows it; `none` for
`ErrBadPattern`. -/
def getEsc (chunk : Str) : Option (Nat × Str) :=
  match chunk with
  | [] => none
  | c :: rest =>
    if c = '-' ∨ c = ']' then none
    else
      let chunk1 := if c = '\\' then rest else chunk
      if chunk1 = [] then none
      else
        let rn := decodeRune chunk1
        if rn.1 = runeError ∧ rn.2 = 1 then none
        else if chunk1.drop rn.2 = [] then none
        else some (rn.1, chunk1.drop rn.2)

/-- The loop over the ranges of a character class in Go `path.matchChunk`, for the rune
`r` read from the name: whether one range holds `r`, and the pattern after the closing
bracket; `none` for `ErrBadPattern`. -/
def classRanges (r : Nat) : Nat → Str → Nat → Bool → Option (Bool × Str)
  | 0, _, _, _ => none
  | fuel + 1, chunk, nrange, matched =>
    match chunk with
    | ']' :: after =>
      if nrange > 0 then some (matched, after)
      else none
    | _ =>
      match getEsc chunk with
      | none => none
      | some (lo, chunk1) =>
        match chunk1 with
        | '-' :: chunk2 =>
          match getEsc chunk2 with
          | none => none
          | some (hi, chunk3) =>
            classRanges r fuel chunk3 (nrange + 1) (matched || (decide (lo ≤ r) && decide (r ≤ hi)))
        | _ => classRanges r fuel chunk1 (nrange + 1) (matched || decide (lo = r))

/-- Go `path.matchChunk`: what is left of `s` when the chunk matches at the front of
`s`; `none` when it does not match or the chunk is malformed. -/
def matchChunk : Nat → Str → Str → Option Str
  | 0, _, _ => none
  | fuel + 1, chunk, s =>
    match chunk with
    | [] => some s
    | c :: chunkTail =>
      match s with
      | [] => none
      | s0 :: sTail =>
        if c = '[' then
          let rn := decodeRune (s0 :: sTail)
          let ranges :=
            match chunkTail with
            | '^' :: after => (true, after)
            | _ => (false, chunkTail)
          match classRanges rn.1 (chunkTail.length + 1) ranges.2 0 false with
          | none => none
          | some (matched, chunkRest) =>
            if matched = ranges.1 then none
            else matchChunk fuel chunkRest ((s0 :: sTail).drop rn.2)
        else if c = '?' then
          if s0 = '/' then none
          else matchChunk fuel chunkTail ((s0 :: sTail).drop (decodeRune (s0 :: sTail)).2)
        else if c = '\\' then
          match chunkTail with
          | [] => none
          | e :: chunkRest => if e = s0 then matchChunk fuel chunkRest sTail else none
        else if c = s0 then matchChunk fuel chunkTail sTail
        else none

/-- The scan of Go `path.scanChunk` after the leading stars: the chunk up to the next
star outside a character class, and what follows. -/
def scanChunkBody : Bool → Str → Str × Str
  | _, [] => ([], [])
  | inrange, c :: rest =>
    if c = '\\' then
      match rest with
      | [] => ([c], [])
      | e :: rest2 =>
        let r := scanChunkBody inrange rest2
        (c :: e :: r.1, r.2)
    else if c = '*' ∧ inrange = false then ([], c :: rest)
    else
      let r := scanChunkBody (if c = '[' then true else if c = ']' then false else inrange) rest
      (c :: r.1, r.2)

/-- Go `path.scanChunk`: whether the pattern starts with stars, its first chunk, and the
rest. -/
def scanChunk (pattern : Str) : Bool × Str × Str :=
  let body := pattern.dropWhile (· = '*')
  let r := scanChunkBody false body
  (hasPrefix pattern ['*'], r.1, r.2)

/-- The loop of Go `path.Match` that looks for a match of a chunk after a star, skipping
`i + 1` bytes of the name without skipping a slash. -/
def matchAfterStar (chunk : Str) (last : Bool) : Str → Option Str
  | [] => none
  | c :: rest =>
    if c = '/' then none
    else
      match matchChunk (chunk.length + 1) chunk rest with
      | some t => if last ∧ t ≠ [] then matchAfterStar chunk last rest else some t
      | none => matchAfterStar chunk last rest

/-- The loop of Go `path.Match`. -/
def pathMatchLoop : Nat → Str → Str → Bool
  | 0, _, _ => false
  | fuel + 1, pattern, name =>
    if pattern = [] then name = []
    else
      let sc := scanChunk pattern
      let star := sc.1
      let chunk := sc.2.1
      let rest := sc.2.2
      if star ∧ chunk = [] then !containsByte name '/'
      else
        match matchChunk (chunk.length + 1) chunk name with
        | some t =>
          if t = [] ∨ rest ≠ [] then pathMatchLoop fuel rest t
          else if star then
            match matchAfterStar chunk (rest = []) name with
            | some t2 => pathMatchLoop fuel rest t2
            | none => false
          else false
        | none =>
          if star then
            match matchAfterStar chunk (rest = []) name with
            | some t2 => pathMatchLoop fuel rest t2
            | none => false
          else false

/-- Go `path.Match(pattern, name)`, as the code uses it: the boolean result, which is
false when the pattern is malformed. -/
def pathMatch (pattern name : Str) : Bool := pathMatchLoop (pattern.length + 1) pattern name

/-- Go `path.Dir`: the path up to its last slash, cleaned. -/
def pathDir (p : Str) : Str :=
  match beforeLast '/' p with
  | some d => filepathClean (d ++ ['/'])
  | none => filepathClean []

/-- Go `path.Base`: the last element of the path. -/
def pathBase (p : Str) : Str :=
  if p = [] then ['.']
  else
    let stripped := (p.reverse.dropWhile (· = '/')).reverse
    let last := (afterLast '/' stripped).getD stripped
    if last = [] then ['/'] else last

/-- Go `strings.Replace(s, old, new, 1)` for `old` different from `new`, from the
position the scan has reached: the first occurrence of `old` replaced by `new`. -/
def replaceFirstFrom (old new : Str) : Str → Str
  | [] => if old = [] then new else []
  | c :: cs =>
    if hasPrefix (c :: cs) old then new ++ (c :: cs).drop old.length
    else c :: replaceFirstFrom old new cs

/-- Go `strings.Replace(s, old, new, 1)`. -/
def stringsReplaceFirst (s old new : Str) : Str :=
  if old = new then s else replaceFirstFrom old new s

/-- Go `strconv.FormatInt(n, 10)`. -/
def formatInt (n : Int) : Str :=
  if n < 0 then '-' :: Nat.toDigits 10 n.natAbs else Nat.toDigits 10 n.natAbs

/-! ## The remote file system

The client of the remote file system is a parameter of the embedding: a record of
functions on a state `σ` of the remote side (which other processes may change between two
calls).  Every call is written to a log, so that statements can speak of the calls a
function issues. -/

/-- The answer of a remote call that returns a value and an error. -/
inductive Reply (α : Type)
  | ok (val : α)
  | err (e : RemoteErr)
  deriving DecidableEq, Repr

/-- `os.FileInfo`, as far as the code reads it. -/
structure FileInfo where
  Name : Str
  IsDir : Bool
  deriving DecidableEq, Repr

/-- The remote calls, and the reading of the clock. -/
inductive Call
  | serverDefaults
  | readDir (path : Str)
  | stat (path : Str)
  | pathExists (path : Str)
  | mkdirAll (path : Str)
  | renameForTrash (src dst : Str)
  | removeAll (path : Str)
  | now
  deriving DecidableEq, Repr

/-- `*hdfs.Client`, and the clock of the process. -/
structure Client (σ : Type) where
  /-- `c.User()` -/
  User : Str
  /-- `c.ServerDefaults()`, its field `TrashInterval` -/
  ServerDefaults : σ → Reply Int × σ
  /-- `c.ReadDir(path)` -/
  ReadDir : Str → σ → Reply (List FileInfo) × σ
  /-- `c.Stat(path)` -/
  Stat : Str → σ → Reply FileInfo × σ
  /-- `c.Exists(path)` -/
  Exists : Str → σ → Reply Bool × σ
  /-- `c.MkdirAll(path, PERMISSION)`: `none` for a nil error -/
  MkdirAll : Str → σ → Option RemoteErr × σ
  /-- `c.RenameForTrash(src, dst)`: `none` for a nil error -/
  RenameForTrash : Str → Str → σ → Option RemoteErr × σ
  /-- `time.Now().UnixMilli()` -/
  UnixMilli : σ → Int × σ

/-- The state of the remote side together with the log of the calls issued so far. -/
structure World (σ : Type) where
  state : σ
  log : List Call
  deriving DecidableEq

/-- `c.ServerDefaults()`, logged. -/
def doServerDefaults {σ : Type} (c : Client σ) (w : World σ) : Reply Int × World σ :=
  ((c.ServerDefaults w.state).1,
    { state := (c.ServerDefaults w.state).2, log := w.log ++ [Call.serverDefaults] })

/-- `c.ReadDir(path)`, logged. -/
def doReadDir {σ : Type} (c : Client σ) (path : Str) (w : World σ) :
    Reply (List FileInfo) × World σ :=
  ((c.ReadDir path w.state).1,
    { state := (c.ReadDir path w.state).2, log := w.log ++ [Call.readDir path] })

/-- `c.Stat(path)`, logged. -/
def doStat {σ : Type} (c : Client σ) (path : Str) (w : World σ) : Reply FileInfo × World σ :=
  ((c.Stat path w.state).1,
    { state := (c.Stat path w.state).2, log := w.log ++ [Call.stat path] })

/-- `c.Exists(path)`, logged. -/
def doExists {σ : Type} (c : Client σ) (path : Str) (w : World σ) : Reply Bool × World σ :=
  ((c.Exists path w.state).1,
    { state := (c.Exists path w.state).2, log := w.log ++ [Call.pathExists path] })

/-- `c.MkdirAll(path, PERMISSION)`, logged. -/
def doMkdirAll {σ : Type} (c : Client σ) (path : Str) (w : World σ) :
    Option RemoteErr × World σ :=
  ((c.MkdirAll path w.state).1,
    { state := (c.MkdirAll path w.state).2, log := w.log ++ [Call.mkdirAll path] })

/-- `c.RenameForTrash(src, dst)`, logged. -/
def doRenameForTrash {σ : Type} (c : Client σ) (src dst : Str) (w : World σ) :
    Option RemoteErr × World σ :=
  ((c.RenameForTrash src dst w.state).1,
    { state := (c.RenameForTrash src dst w.state).2,
      log := w.log ++ [Call.renameForTrash src dst] })

/-- `time.Now().UnixMilli()`, logged. -/
def doNow {σ : Type} (c : Client σ) (w : World σ) : Int × World σ :=
  ((c.UnixMilli w.state).1, { state := (c.UnixMilli w.state).2, log := w.log ++ [Call.now] })

/-! ## `cmd/hdfs/paths.go`: glob expansion -/

/-- The function `userDir`. -/
def userDir {σ : Type} (c : Client σ) : Str := pathJoin ["/user".toList, c.User]

/-- The function `trashRootDir`. -/
def trashRootDir {σ : Type} (c : Client σ) : Str :=
  pathJoin ["/user".toList, c.User, ".Trash".toList]

/-- The value of `splitAt` after the first loop of `expandGlobs`: the index of the first
part with a glob, else the last index (0 when there is no part). -/
def splitIndex (parts : List Str) : Nat :=
  if parts.findIdx hasGlob < parts.length then parts.findIdx hasGlob else parts.length - 1

/-- The loop of `expandGlobs` over the entries of the listing; `recurse` is the recursive
call of `expandGlobs`.  `none` when the recursion runs out of fuel. -/
def expandEntries {σ : Type} (c : Client σ)
    (recurse : Str → World σ → Option (Res (List Str) × World σ))
    (base glob next remainder : Str) :
    List FileInfo → List Str → World σ → Option (Res (List Str) × World σ)
  | [], res, w => some (Res.ok res, w)
  | fi :: rest, res, w =>
    if !pathMatch glob fi.Name then expandEntries c recurse base glob next remainder rest res w
    else
      let newPath := pathJoin [base, fi.Name, next, remainder]
      if hasGlob newPath then
        if fi.IsDir then
          match recurse newPath w with
          | none => none
          | some (Res.ok children, w1) =>
            expandEntries c recurse base glob next remainder rest (res ++ children) w1
          | some (Res.fail e, w1) => some (Res.fail e, w1)
          | some (Res.panicked, w1) => some (Res.panicked, w1)
        else expandEntries c recurse base glob next remainder rest res w
      else
        match doStat c newPath w with
        | (Reply.ok _, w1) =>
          expandEntries c recurse base glob next remainder rest (res ++ [newPath]) w1
        | (Reply.err e, w1) =>
          if e = RemoteErr.notExist then
            expandEntries c recurse base glob next remainder rest res w1
          else some (Res.fail (GoError.errRemote e), w1)

/-- The function `expandGlobs`, with the depth of its recursion bounded by `fuel`: `none`
when the bound is reached.  It panics on a path without a slash, where there is no part
to index. -/
def expandGlobs {σ : Type} (c : Client σ) :
    Nat → Str → World σ → Option (Res (List Str) × World σ)
  | 0, _, _ => none
  | fuel + 1, globbedPath, w =>
    let parts := (stringsSplit '/' globbedPath).drop 1
    let splitAt := splitIndex parts
    match parts[splitAt]? with
    | none => some (Res.panicked, w)
    | some glob =>
      let base := '/' :: pathJoin (parts.take splitAt)
      let next := if parts.length > splitAt + 1 then parts.getD (splitAt + 1) [] else []
      let remainder := if parts.length > splitAt + 1 then pathJoin (parts.drop (splitAt + 2)) else []
      match doReadDir c base w with
      | (Reply.err e, w1) => some (Res.fail (GoError.errRemote e), w1)
      | (Reply.ok list, w1) =>
        expandEntries c (expandGlobs c fuel) base glob next remainder list [] w1

/-- The loop of `expandPaths`. -/
def expandPathsFrom {σ : Type} (c : Client σ) (fuel : Nat) :
    List Str → List Str → World σ → Option (Res (List Str) × World σ)
  | [], res, w => some (Res.ok res, w)
  | p :: rest, res, w =>
    if hasGlob p then
      match expandGlobs c fuel p w with
      | none => none
      | some (Res.fail e, w1) => some (Res.fail e, w1)
      | some (Res.panicked, w1) => some (Res.panicked, w1)
      | some (Res.ok expanded, w1) =>
        if expanded.length = 0 then
          some (Res.fail (GoError.errPathError "stat".toList p RemoteErr.notExist), w1)
        else expandPathsFrom c fuel rest (res ++ expanded) w1
    else expandPathsFrom c fuel rest (res ++ [p]) w

/-- The function `expandPaths`; `fuel` bounds the depth of the recursion of
`expandGlobs`. -/
def expandPaths {σ : Type} (c : Client σ) (fuel : Nat) (paths : List Str) (w : World σ) :
    Option (Res (List Str) × World σ) :=
  expandPathsFrom c fuel paths [] w

/-! ## `cmd/hdfs/rm.go`: the move to the trash

The loops of `moveToTrash` are bounded by `fuel`; a function returns `none` when the bound
is reached. -/

/-- The loop `for !exists` of `moveToTrash`: the first of `path`, `Dir(path)`, ... that
exists. -/
def findExisting {σ : Type} (c : Client σ) :
    Nat → Str → World σ → Option (Res Str × World σ)
  | 0, _, _ => none
  | fuel + 1, existsFilePath, w =>
    match doExists c existsFilePath w with
    | (Reply.err e, w1) => some (Res.fail (GoError.errRemote e), w1)
    | (Reply.ok true, w1) => some (Res.ok existsFilePath, w1)
    | (Reply.ok false, w1) => findExisting c fuel (pathDir existsFilePath) w1

/-- The loop `for exists` of `moveToTrash`: the value of `trashPath` when the loop ends,
with the error of `Exists` when the loop was left by `break`. -/
def freeName {σ : Type} (c : Client σ) (orig : Str) :
    Nat → Str → World σ → Option ((Str × Option RemoteErr) × World σ)
  | 0, _, _ => none
  | fuel + 1, trashPath, w =>
    match doExists c trashPath w with
    | (Reply.err e, w1) => some ((trashPath, some e), w1)
    | (Reply.ok false, w1) => some ((trashPath, none), w1)
    | (Reply.ok true, w1) =>
      freeName c orig fuel (orig ++ formatInt (doNow c w1).1) (doNow c w1).2

/-- The loop `for i := 0; i < 2; i++` of `moveToTrash`, from the test of `i` on; `err` is
the value of the variable `err` (`none` for nil). -/
def trashLoop {σ : Type} (c : Client σ) (name : Str) :
    Nat → Nat → Str → Str → Option GoError → World σ → Option (Res Bool × World σ)
  | 0, _, _, _, _, _ => none
  | fuel + 1, i, baseTrashPath, trashPath, err, w =>
    if i < 2 then
      match doMkdirAll c baseTrashPath w with
      | (some e, w1) =>
        if e = RemoteErr.exist ∨ e = RemoteErr.notDir then
          match findExisting c fuel baseTrashPath w1 with
          | none => none
          | some (Res.fail e2, w2) => some (Res.fail e2, w2)
          | some (Res.panicked, w2) => some (Res.panicked, w2)
          | some (Res.ok existsFilePath, w2) =>
            let stamp := formatInt (doNow c w2).1
            let newBase :=
              stringsReplaceFirst baseTrashPath existsFilePath (existsFilePath ++ stamp)
            trashLoop c name fuel i newBase (pathJoin [newBase, pathBase trashPath]) none
              (doNow c w2).2
        else some (Res.fail (GoError.errRemote e), w1)
      | (none, w1) =>
        match freeName c trashPath fuel trashPath w1 with
        | none => none
        | some ((freePath, some e), w2) =>
          trashLoop c name fuel (i + 1) baseTrashPath freePath (some (GoError.errRemote e)) w2
        | some ((freePath, none), w2) =>
          match doRenameForTrash c name freePath w2 with
          | (none, w3) => some (Res.ok true, w3)
          | (some e, w3) =>
            trashLoop c name fuel (i + 1) baseTrashPath freePath (some (GoError.errRemote e)) w3
    else
      some (Res.fail (err.getD (GoError.errMoveFailed name trashPath)), w)

/-- The function `moveToTrash`: `Res.ok b` stands for `(b, nil)`, `Res.fail e` for
`(false, e)`. -/
def moveToTrash {σ : Type} (c : Client σ) (fuel : Nat) (name : Str) (forceTrash : Bool)
    (w : World σ) : Option (Res Bool × World σ) :=
  let relocate (w1 : World σ) : Option (Res Bool × World σ) :=
    let trashRoot := trashRootDir c
    if hasPrefix name trashRoot then some (Res.ok false, w1)
    else if hasPrefix (pathDir trashRoot) name then
      some (Res.fail (GoError.errContainsTrash name), w1)
    else
      let trashPath := pathJoin [trashRoot, "Current".toList, name]
      let baseTrashPath := pathDir trashPath
      trashLoop c name fuel 0 baseTrashPath trashPath none w1
  if !forceTrash then
    match doServerDefaults c w with
    | (Reply.err e, w1) => some (Res.fail (GoError.errRemote e), w1)
    | (Reply.ok trashInterval, w1) =>
      if trashInterval ≤ 0 then some (Res.ok false, w1) else relocate w1
  else relocate w

/-! ## Example clients -/

/-- A remote file system that never changes: the directory `/a` holds the files `x.txt`,
`y.txt` and `z.log`, trash is enabled, every creation and every move succeeds. -/
def exampleClient : Client Unit where
  User := "me".toList
  ServerDefaults := fun s => (Reply.ok 60, s)
  ReadDir := fun p s =>
    if p = "/a".toList then
      (Reply.ok [{ Name := "x.txt".toList, IsDir := false },
        { Name := "y.txt".toList, IsDir := false },
        { Name := "z.log".toList, IsDir := false }], s)
    else (Reply.err RemoteErr.notExist, s)
  Stat := fun p s =>
    if p = "/a/x.txt".toList ∨ p = "/a/y.txt".toList ∨ p = "/a/z.log".toList then
      (Reply.ok { Name := pathBase p, IsDir := false }, s)
    else (Reply.err RemoteErr.notExist, s)
  Exists := fun p s =>
    (Reply.ok (decide (p = "/a/x.txt".toList ∨ p = "/a/y.txt".toList ∨ p = "/a/z.log".toList)), s)
  MkdirAll := fun _ s => (none, s)
  RenameForTrash := fun _ _ s => (none, s)
  UnixMilli := fun s => (1700000000000, s)

/-- The remote file system of `exampleClient`, except that the query of the server
defaults fails. -/
def noDefaultsClient : Client Unit :=
  { exampleClient with ServerDefaults := fun s => (Reply.err (RemoteErr.other 1), s) }

/-- The world before any call. -/
def world0 : World Unit := { state := (), log := [] }

/-! ## The statements of the claims on `moveToTrash`, in the words of the spec -/

/-- Whether `name` lies under the directory `root`: it is `root` itself or a path below
`root`. -/
def liesUnder (root name : Str) : Bool := name == root || hasPrefix name (root ++ ['/'])

/-! ## The statements of the claims on the glob expansion, in the words of the spec -/

/-- Whether `s` holds a wildcard metacharacter that is not right after a backslash;
`esc` tells whether the byte before `s` is a backslash. -/
def unescapedMeta : Bool → Str → Bool
  | _, [] => false
  | esc, c :: cs =>
    ((c == '*' || c == '?' || c == '[') && !esc) || unescapedMeta (c == '\\') cs

/-- A name that holds none of the wildcard characters `*`, `?`, `[`. -/
def noWildcard (s : Str) : Bool := s.all fun c => c != '*' && c != '?' && c != '['

/-- A path segment that `path.Clean` keeps: not empty, not `.` or `..`, without `/`. -/
def cleanSeg (s : Str) : Bool :=
  s != [] && s != ['.'] && s != ['.', '.'] && s.all fun c => c != '/'

/-- The paths `base/name` of the listed entries whose name matches `glob` and which exist
at the point lookup, in the order of the listing; the lookups are issued one after the
other.  `none` when a lookup fails with an error other than not-found. -/
def keepExisting {σ : Type} (c : Client σ) (base glob : Str) :
    List FileInfo → World σ → Option (List Str × World σ)
  | [], w => some ([], w)
  | fi :: rest, w =>
    if pathMatch glob fi.Name then
      match doStat c (base ++ '/' :: fi.Name) w with
      | (Reply.ok _, w1) =>
        (keepExisting c base glob rest w1).map fun r => ((base ++ '/' :: fi.Name) :: r.1, r.2)
      | (Reply.err e, w1) =>
        if e = RemoteErr.notExist then keepExisting c base glob rest w1 else none
    else keepExisting c base glob rest w

/-! ## `cmd/hdfs/rm.go`: the loop of `rm` -/

/-- `*hdfs.Client` with the call `RemoveAll`, which `rm` issues. -/
structure RmClient (σ : Type) extends Client σ where
  /-- `c.RemoveAll(path)`: `none` for a nil error -/
  RemoveAll : Str → σ → Option RemoteErr × σ

/-- `c.RemoveAll(path)`, logged. -/
def doRemoveAll {σ : Type} (c : RmClient σ) (path : Str) (w : World σ) :
    Option RemoteErr × World σ :=
  ((c.RemoveAll path w.state).1,
    { state := (c.RemoveAll path w.state).2, log := w.log ++ [Call.removeAll path] })

/-- `errors.Is(err, os.ErrNotExist)`. -/
def isNotExist : GoError → Bool
  | GoError.errRemote RemoteErr.notExist => true
  | GoError.errPathError _ _ RemoteErr.notExist => true
  | _ => false

/-- How the body of the loop of `rm` ends for one path: the loop goes on with the value
of `status`, or `fatal` ends the process with an error, or the process panics. -/
inductive RmStep
  | next (status : Nat)
  | fatal (e : GoError)
  | panicked
  deriving DecidableEq, Repr

/-- The body of the loop of `rm`, for the expanded path `p`; `fuel` bounds the loops of
`moveToTrash`. -/
def rmOne {σ : Type} (c : RmClient σ) (fuel : Nat)
    (recursive force skipTrash forceTrash : Bool) (p : Str) (status : Nat) (w : World σ) :
    Option (RmStep × World σ) :=
  let remove (w2 : World σ) : Option (RmStep × World σ) :=
    match doRemoveAll c p w2 with
    | (some e, w3) => some (RmStep.fatal (GoError.errRemote e), w3)
    | (none, w3) => some (RmStep.next status, w3)
  match doStat c.toClient p w with
  | (Reply.err e, w1) =>
    if force ∧ e = RemoteErr.notExist then some (RmStep.next status, w1)
    else some (RmStep.next 1, w1)
  | (Reply.ok info, w1) =>
    if !recursive ∧ info.IsDir then some (RmStep.next 1, w1)
    else if !skipTrash then
      match moveToTrash c.toClient fuel p forceTrash w1 with
      | none => none
      | some (Res.panicked, w2) => some (RmStep.panicked, w2)
      | some (Res.fail e, w2) =>
        if force ∧ isNotExist e then some (RmStep.next status, w2)
        else some (RmStep.fatal e, w2)
      | some (Res.ok success, w2) =>
        if success then some (RmStep.next status, w2) else remove w2
    else remove w1

/-- The loop of `rm` over the expanded paths, from the value `status` on. -/
def rmLoop {σ : Type} (c : RmClient σ) (fuel : Nat)
    (recursive force skipTrash forceTrash : Bool) :
    List Str → Nat → World σ → Option (RmStep × World σ)
  | [], status, w => some (RmStep.next status, w)
  | p :: rest, status, w =>
    match rmOne c fuel recursive force skipTrash forceTrash p status w with
    | none => none
    | some (RmStep.next status1, w1) =>
      rmLoop c fuel recursive force skipTrash forceTrash rest status1 w1
    | some (RmStep.fatal e, w1) => some (RmStep.fatal e, w1)
    | some (RmStep.panicked, w1) => some (RmStep.panicked, w1)

/-! ## A record of the answers of the remote side -/

/-- A call together with the answer the remote side gave. -/
inductive Event
  | serverDefaults (reply : Reply Int)
  | readDir (path : Str) (reply : Reply (List FileInfo))
  | stat (path : Str) (reply : Reply FileInfo)
  | pathExists (path : Str) (reply : Reply Bool)
  | mkdirAll (path : Str) (reply : Option RemoteErr)
  | renameForTrash (src dst : Str) (reply : Option RemoteErr)
  | now (ms : Int)
  deriving DecidableEq

/-- The client `c` with a record: it answers as `c` does, and writes every call with its
answer at the end of the record it keeps next to the state of the remote side. -/
def recorded {σ : Type} (c : Client σ) : Client (σ × List Event) where
  User := c.User
  ServerDefaults := fun s =>
    ((c.ServerDefaults s.1).1,
      ((c.ServerDefaults s.1).2, s.2 ++ [Event.serverDefaults (c.ServerDefaults s.1).1]))
  ReadDir := fun p s =>
    ((c.ReadDir p s.1).1, ((c.ReadDir p s.1).2, s.2 ++ [Event.readDir p (c.ReadDir p s.1).1]))
  Stat := fun p s =>
    ((c.Stat p s.1).1, ((c.Stat p s.1).2, s.2 ++ [Event.stat p (c.Stat p s.1).1]))
  Exists := fun p s =>
    ((c.Exists p s.1).1, ((c.Exists p s.1).2, s.2 ++ [Event.pathExists p (c.Exists p s.1).1]))
  MkdirAll := fun p s =>
    ((c.MkdirAll p s.1).1, ((c.MkdirAll p s.1).2, s.2 ++ [Event.mkdirAll p (c.MkdirAll p s.1).1]))
  RenameForTrash := fun src dst s =>
    ((c.RenameForTrash src dst s.1).1,
      ((c.RenameForTrash src dst s.1).2,
        s.2 ++ [Event.renameForTrash src dst (c.RenameForTrash src dst s.1).1]))
  UnixMilli := fun s =>
    ((c.UnixMilli s.1).1, ((c.UnixMilli s.1).2, s.2 ++ [Event.now (c.UnixMilli s.1).1]))

/-- A world without the record of a recorded client. -/
def World.forget {σ : Type} (w : World (σ × List Event)) : World σ :=
  { state := w.state.1, log := w.log }

/-- Whether the event is a call of `RenameForTrash`. -/
def Event.isRename : Event → Bool
  | Event.renameForTrash _ _ _ => true
  | _ => false

/-- Whether the event is a call of `MkdirAll`. -/
def Event.isMkdir : Event → Bool
  | Event.mkdirAll _ _ => true
  | _ => false

/-- Whether the event is a call of `MkdirAll` that failed because a path exists or is
not a directory: the failure after which `moveToTrash` adjusts the parent directory. -/
def Event.isAdjust : Event → Bool
  | Event.mkdirAll _ (some e) => e == RemoteErr.exist || e == RemoteErr.notDir
  | _ => false

/-- Whether the event is a call that changes the remote file system. -/
def Event.isMutation (e : Event) : Bool := e.isMkdir || e.isRename

/-- Whether the call changes the remote file system. -/
def Call.isMutation : Call → Bool
  | Call.mkdirAll _ => true
  | Call.renameForTrash _ _ => true
  | Call.removeAll _ => true
  | _ => false

/-- Every call of `RenameForTrash` in the record has the source `name`, and comes right
after an existence check of its destination that answered "does not exist". -/
def RenamesChecked (name : Str) (evs : List Event) : Prop :=
  ∀ pre src dst rep post, evs = pre ++ Event.renameForTrash src dst rep :: post →
    src = name ∧ ∃ pre1, pre = pre1 ++ [Event.pathExists dst (Reply.ok false)]

/-! ## More example clients -/

/-- The remote file system of `exampleClient`, with trash disabled on the server. -/
def trashOffClient : Client Unit :=
  { exampleClient with ServerDefaults := fun s => (Reply.ok 0, s) }

/-- A remote side whose state counts the failures of `MkdirAll`: the first `n` calls of
`MkdirAll` fail because a path exists, which the existence checks confirm; from then on
creation succeeds, nothing exists and every move succeeds. -/
def stubbornClient (n : Nat) : Client Nat where
  User := "me".toList
  ServerDefaults := fun s => (Reply.ok 60, s)
  ReadDir := fun _ s => (Reply.err RemoteErr.notExist, s)
  Stat := fun _ s => (Reply.err RemoteErr.notExist, s)
  Exists := fun _ s => (Reply.ok (decide (s ≤ n)), s)
  MkdirAll := fun _ s => if s < n then (some RemoteErr.exist, s + 1) else (none, n + 1)
  RenameForTrash := fun _ _ s => (none, s)
  UnixMilli := fun s => (1700000000000, s)

/-- A remote file system in which `/user/me/.Trash` is a file: creating a directory
below it fails, and of the paths asked for only `/user/me/.Trash` exists. -/
def fileTrashClient : Client Unit where
  User := "me".toList
  ServerDefaults := fun s => (Reply.ok 60, s)
  ReadDir := fun _ s => (Reply.err RemoteErr.notExist, s)
  Stat := fun _ s => (Reply.err RemoteErr.notExist, s)
  Exists := fun p s => (Reply.ok (decide (p = "/user/me/.Trash".toList)), s)
  MkdirAll := fun p s =>
    if hasPrefix p "/user/me/.Trash/".toList then (some RemoteErr.notDir, s) else (none, s)
  RenameForTrash := fun _ _ s => (none, s)
  UnixMilli := fun s => (1700000000000, s)

/-- A remote side whose state is the list of the paths that exist in the trash: a move
to the trash adds its destination, creation succeeds, the clock stands at
1700000000000. -/
def trashFsClient : Client (List Str) where
  User := "me".toList
  ServerDefaults := fun s => (Reply.ok 60, s)
  ReadDir := fun _ s => (Reply.err RemoteErr.notExist, s)
  Stat := fun _ s => (Reply.err RemoteErr.notExist, s)
  Exists := fun p s => (Reply.ok (decide (p ∈ s)), s)
  MkdirAll := fun _ s => (none, s)
  RenameForTrash := fun _ dst s =>
    if dst ∈ s then (some RemoteErr.exist, s) else (none, dst :: s)
  UnixMilli := fun s => (1700000000000, s)

/-- A remote file system that never changes: the directory `/d` holds one entry, the
directory named `x*`. -/
def starClient : Client Unit where
  User := "me".toList
  ServerDefaults := fun s => (Reply.ok 60, s)
  ReadDir := fun p s =>
    if p = "/d".toList then (Reply.ok [{ Name := "x*".toList, IsDir := true }], s)
    else if p = "/d/x*".toList then (Reply.ok [], s)
    else (Reply.err RemoteErr.notExist, s)
  Stat := fun p s =>
    if p = "/d".toList ∨ p = "/d/x*".toList then
      (Reply.ok { Name := pathBase p, IsDir := true }, s)
    else (Reply.err RemoteErr.notExist, s)
  Exists := fun p s => (Reply.ok (decide (p = "/d".toList ∨ p = "/d/x*".toList)), s)
  MkdirAll := fun _ s => (none, s)
  RenameForTrash := fun _ _ s => (none, s)
  UnixMilli := fun s => (1700000000000, s)

/-! ## More statements of the claims on `moveToTrash`, in the words of the spec -/

/-- Whether the directory `name` is a strict ancestor of the path `root`: `name` is the
root directory and `root` another absolute path, or `root` is a path below `name`. -/
def strictAncestor (name root : Str) : Bool :=
  (name == ['/'] && root != ['/'] && hasPrefix root ['/'])
    || (name != [] && hasPrefix root (name ++ ['/']))

/-- The number of calls of `MkdirAll` in a log. -/
def countMkdirAll (log : List Call) : Nat :=
  log.countP fun call => match call with
    | Call.mkdirAll _ => true
    | _ => false

/-- The client `c` for `rm`, on a remote side where every path asked for is a directory
and `RemoveAll` succeeds. -/
def dirRmClient (c : Client Unit) : RmClient Unit :=
  { toClient := { c with Stat := fun p s => (Reply.ok { Name := pathBase p, IsDir := true }, s) },
    RemoveAll := fun _ s => (none, s) }

/-- Whether the event is a call of `MkdirAll` that is not followed by an adjustment of
the parent directory: it succeeded, or failed for another reason. -/
def Event.isAttempt (e : Event) : Bool := e.isMkdir && !e.isAdjust

/-- The world after `moveToTrash` has moved `/a/b` to the trash (trash forced) on the
recorded remote side of `stubbornClient 1`: one adjustment of the parent directory. -/
def stubbornOnceWorld : World (Nat × List Event) :=
  { state := (2,
      [Event.mkdirAll "/user/me/.Trash/Current/a".toList (some RemoteErr.exist),
       Event.pathExists "/user/me/.Trash/Current/a".toList (Reply.ok true),
       Event.now 1700000000000,
       Event.mkdirAll "/user/me/.Trash/Current/a1700000000000".toList none,
       Event.pathExists "/user/me/.Trash/Current/a1700000000000/b".toList (Reply.ok false),
       Event.renameForTrash "/a/b".toList
         "/user/me/.Trash/Current/a1700000000000/b".toList none]),
    log :=
      [Call.mkdirAll "/user/me/.Trash/Current/a".toList,
       Call.pathExists "/user/me/.Trash/Current/a".toList, Call.now,
       Call.mkdirAll "/user/me/.Trash/Current/a1700000000000".toList,
       Call.pathExists "/user/me/.Trash/Current/a1700000000000/b".toList,
       Call.renameForTrash "/a/b".toList "/user/me/.Trash/Current/a1700000000000/b".toList] }

/-- The record of a loop `for exists` of `moveToTrash` that starts with the candidate
`p`: the check of `p`; when the answer is "exists", a reading of the clock and the
record of the loop for the candidate `orig` followed by that reading; otherwise nothing
more. -/
def stampChain (orig : Str) : Str → List Event → Bool
  | p, [Event.pathExists q rep] => q == p && rep != Reply.ok true
  | p, Event.pathExists q (Reply.ok true) :: Event.now ms :: rest =>
    q == p && stampChain orig (orig ++ formatInt ms) rest
  | _, _ => false

/-- The recorded remote side of `trashFsClient` after `/a/b` has been moved to the trash
once: the trash holds `/user/me/.Trash/Current/a/b`; nothing recorded or logged yet. -/
def trashedOnce : World (List Str × List Event) :=
  { state := (["/user/me/.Trash/Current/a/b".toList], []), log := [] }

/-- The world `trashedOnce` after the loop `for exists` of `moveToTrash` has run for the
destination `/user/me/.Trash/Current/a/b`. -/
def trashedOnceChecked : World (List Str × List Event) :=
  { state := (["/user/me/.Trash/Current/a/b".toList],
      [Event.pathExists "/user/me/.Trash/Current/a/b".toList (Reply.ok true),
       Event.now 1700000000000,
       Event.pathExists "/user/me/.Trash/Current/a/b1700000000000".toList (Reply.ok false)]),
    log :=
      [Call.pathExists "/user/me/.Trash/Current/a/b".toList, Call.now,
       Call.pathExists "/user/me/.Trash/Current/a/b1700000000000".toList] }

/-- The world `trashedOnce` after `/a/b` has been moved to the trash once more. -/
def trashedTwice : World (List Str × List Event) :=
  { state := (["/user/me/.Trash/Current/a/b1700000000000".toList,
        "/user/me/.Trash/Current/a/b".toList],
      [Event.mkdirAll "/user/me/.Trash/Current/a".toList none,
       Event.pathExists "/user/me/.Trash/Current/a/b".toList (Reply.ok true),
       Event.now 1700000000000,
       Event.pathExists "/user/me/.Trash/Current/a/b1700000000000".toList (Reply.ok false),
       Event.renameForTrash "/a/b".toList
         "/user/me/.Trash/Current/a/b1700000000000".toList none]),
    log :=
      [Call.mkdirAll "/user/me/.Trash/Current/a".toList,
       Call.pathExists "/user/me/.Trash/Current/a/b".toList, Call.now,
       Call.pathExists "/user/me/.Trash/Current/a/b1700000000000".toList,
       Call.renameForTrash "/a/b".toList "/user/me/.Trash/Current/a/b1700000000000".toList] }

/-- The world before any call, with an empty record. -/
def recordedWorld0 : World (Unit × List Event) := { state := ((), []), log := [] }

/-- The world `recordedWorld0` after `moveToTrash` has moved `/a/b` to the trash on the
recorded remote side of `exampleClient`. -/
def movedOnce : World (Unit × List Event) :=
  { state := ((),
      [Event.mkdirAll "/user/me/.Trash/Current/a".toList none,
       Event.pathExists "/user/me/.Trash/Current/a/b".toList (Reply.ok false),
       Event.renameForTrash "/a/b".toList "/user/me/.Trash/Current/a/b".toList none]),
    log :=
      [Call.mkdirAll "/user/me/.Trash/Current/a".toList,
       Call.pathExists "/user/me/.Trash/Current/a/b".toList,
       Call.renameForTrash "/a/b".toList "/user/me/.Trash/Current/a/b".toList] }

/-! ## Lemmas on the string functions -/

theorem hasPrefix_append (pre s : Str) : hasPrefix (pre ++ s) pre = true := by
  unfold hasPrefix
  rw [List.isPrefixOf_iff_prefix]
  exact List.prefix_append pre s

theorem trimPrefix_append (pre s : Str) : trimPrefix (pre ++ s) pre = s := by
  simp [trimPrefix, hasPrefix_append]

theorem trimPrefix_of_not_hasPrefix (pre s : Str) (h : hasPrefix s pre = false) :
    trimPrefix s pre = s := by
  simp [trimPrefix, h]

/-! ## The loop of `ViewfsReparseFilename` -/

theorem reparseLoop_longest (conf : HadoopConf) (ns path : Str) (dirs : List Str)
    (i : Nat) (value : Str) (hi : 0 < i) (hmatch : mountAt conf ns dirs i = some value) :
    ∀ n, i ≤ n → (∀ j, i < j → j ≤ n → mountAt conf ns dirs j = none) →
      reparseLoop conf ns path dirs n = mountSubstitute value (dirs.drop i) := by
  intro n
  induction n with
  | zero => intro hin; omega
  | succ n ih =>
    intro hin hlonger
    rcases Nat.eq_or_lt_of_le hin with heq | hlt
    · subst heq
      simp only [reparseLoop]
      unfold mountAt at hmatch
      rw [hmatch]
    · have hnone : mountAt conf ns dirs (n + 1) = none := hlonger (n + 1) hlt (Nat.le_refl _)
      unfold mountAt at hnone
      simp only [reparseLoop]
      rw [hnone]
      exact ih (Nat.lt_succ_iff.mp hlt) (fun j hj hjn => hlonger j hj (Nat.le_succ_of_le hjn))

theorem reparseLoop_unmapped (conf : HadoopConf) (ns path : Str) (dirs : List Str) :
    ∀ n, (∀ j, 0 < j → j ≤ n → mountAt conf ns dirs j = none) →
      reparseLoop conf ns path dirs n = Res.ok (viewfsMarker ++ ns, path) := by
  intro n
  induction n with
  | zero => intro _; rfl
  | succ n ih =>
    intro hnone
    have h := hnone (n + 1) (Nat.succ_pos n) (Nat.le_refl _)
    unfold mountAt at h
    simp only [reparseLoop]
    rw [h]
    exact ih (fun j hj hjn => hnone j hj (Nat.le_succ_of_le hjn))

/-- Unfolding of `ViewfsReparseFilename` on a filename that parses and passes the two
checks. -/
theorem ViewfsReparseFilename_accepted (conf : HadoopConf) (rootnsid filename : Str) (u : URL)
    (nsid0 : Str) (hparse : urlParse filename = some u)
    (hscheme : u.Scheme = "viewfs".toList ∨ u.Scheme = [])
    (hhost : u.Host = [] ∨ rootnsid = [])
    (hns : reparseNsid conf rootnsid u.Host = Res.ok nsid0) :
    ViewfsReparseFilename conf rootnsid filename =
      reparseLoop conf (trimPrefix nsid0 viewfsMarker) u.Path (pathDirs u.Path)
        (pathDirs u.Path).length := by
  unfold ViewfsReparseFilename
  rw [hparse]
  have h1 : ¬ (u.Scheme ≠ "viewfs".toList ∧ u.Scheme ≠ []) := by
    rintro ⟨a, b⟩
    rcases hscheme with h | h
    · exact a h
    · exact b h
  have h2 : ¬ (u.Host ≠ [] ∧ rootnsid ≠ []) := by
    rintro ⟨a, b⟩
    rcases hhost with h | h
    · exact a h
    · exact b h
  simp only [h1, h2, if_false, hns]

/-! ## Lemmas on `url.Parse` -/

theorem cutBefore_of_not_mem (sep : Char) (s : Str) (h : sep ∉ s) : cutBefore sep s = s := by
  induction s with
  | nil => rfl
  | cons c cs ih =>
    have hc : c ≠ sep := fun e => h (by simp [e])
    have hcs : sep ∉ cs := fun e => h (by simp [e])
    simp [cutBefore, hc, ih hcs]

theorem cutAfter_of_not_mem (sep : Char) (s : Str) (h : sep ∉ s) : cutAfter sep s = [] := by
  induction s with
  | nil => rfl
  | cons c cs ih =>
    have hc : c ≠ sep := fun e => h (by simp [e])
    have hcs : sep ∉ cs := fun e => h (by simp [e])
    simp [cutAfter, hc, ih hcs]

theorem cutFrom_of_not_mem (sep : Char) (s : Str) (h : sep ∉ s) : cutFrom sep s = [] := by
  induction s with
  | nil => rfl
  | cons c cs ih =>
    have hc : c ≠ sep := fun e => h (by simp [e])
    have hcs : sep ∉ cs := fun e => h (by simp [e])
    simp [cutFrom, hc, ih hcs]

theorem cutBefore_append (sep : Char) (a b : Str) (h : sep ∉ a) :
    cutBefore sep (a ++ sep :: b) = a := by
  induction a with
  | nil => simp [cutBefore]
  | cons c cs ih =>
    have hc : c ≠ sep := fun e => h (by simp [e])
    have hcs : sep ∉ cs := fun e => h (by simp [e])
    simp [cutBefore, hc, ih hcs]

theorem cutFrom_append (sep : Char) (a b : Str) (h : sep ∉ a) :
    cutFrom sep (a ++ sep :: b) = sep :: b := by
  induction a with
  | nil => simp [cutFrom]
  | cons c cs ih =>
    have hc : c ≠ sep := fun e => h (by simp [e])
    have hcs : sep ∉ cs := fun e => h (by simp [e])
    simp [cutFrom, hc, ih hcs]

theorem afterLast_of_not_mem (sep : Char) (s : Str) (h : sep ∉ s) : afterLast sep s = none := by
  induction s with
  | nil => rfl
  | cons c cs ih =>
    have hc : c ≠ sep := fun e => h (by simp [e])
    have hcs : sep ∉ cs := fun e => h (by simp [e])
    simp [afterLast, hc, ih hcs]

theorem beforeLast_of_not_mem (sep : Char) (s : Str) (h : sep ∉ s) :
    beforeLast sep s = none := by
  induction s with
  | nil => rfl
  | cons c cs ih =>
    have hc : c ≠ sep := fun e => h (by simp [e])
    have hcs : sep ∉ cs := fun e => h (by simp [e])
    simp [beforeLast, hc, ih hcs]

theorem isAlpha_range (c : Char) (h : isAlpha c = true) : 65 ≤ c.toNat ∧ c.toNat ≤ 122 := by
  simp [isAlpha] at h
  omega

theorem isDigit_range (c : Char) (h : isDigit c = true) : 48 ≤ c.toNat ∧ c.toNat ≤ 57 := by
  simp [isDigit] at h
  omega

theorem unescape_cons_of_ne (mode : Encoding) (c : Char) (rest : Str) (hc : c ≠ '%') :
    unescape mode (c :: rest) =
      if (mode = Encoding.encodeHost ∨ mode = Encoding.encodeZone) ∧ c.toNat < 128
          ∧ shouldEscapeHost c = true then none
      else (unescape mode rest).map (c :: ·) := by
  rw [unescape]
  · intro a b r h _
    exact hc h
  · intro h
    exact hc h

theorem unescape_path_plain (s : Str) (h : '%' ∉ s) :
    unescape Encoding.encodePath s = some s := by
  induction s with
  | nil => simp [unescape]
  | cons c cs ih =>
    have hc : c ≠ '%' := fun e => h (by simp [e])
    have hcs : '%' ∉ cs := fun e => h (by simp [e])
    rw [unescape_cons_of_ne _ _ _ hc, ih hcs]
    simp

theorem plainHostByte_shouldEscape (c : Char) (h : plainHostByte c = true) :
    shouldEscapeHost c = false := by
  simp only [plainHostByte, Bool.or_eq_true, beq_iff_eq] at h
  rcases h with (((h | h) | h) | h) | h
  · simp [shouldEscapeHost, h]
  · simp [shouldEscapeHost, h]
  · subst h; decide
  · subst h; decide
  · subst h; decide

theorem authByte_shouldEscape (c : Char) (h : authByte c = true) :
    shouldEscapeHost c = false := by
  simp only [authByte, Bool.or_eq_true, beq_iff_eq] at h
  rcases h with h | h
  · exact plainHostByte_shouldEscape c h
  · subst h; decide

theorem authByte_ne (c d : Char) (h : authByte c = true) (hd : authByte d = false) :
    c ≠ d := by
  intro e
  subst e
  rw [h] at hd
  exact Bool.noConfusion hd

theorem authByte_not_mem (s : Str) (d : Char) (h : s.all authByte = true)
    (hd : authByte d = false) : d ∉ s := by
  intro hmem
  rw [List.all_eq_true] at h
  exact authByte_ne d d (h d hmem) hd rfl

theorem unescape_host_plain (s : Str) (h : s.all authByte = true) :
    unescape Encoding.encodeHost s = some s := by
  induction s with
  | nil => simp [unescape]
  | cons c cs ih =>
    simp only [List.all_cons, Bool.and_eq_true] at h
    have hc : c ≠ '%' := authByte_ne c '%' h.1 (by decide)
    rw [unescape_cons_of_ne _ _ _ hc, ih h.2]
    simp [authByte_shouldEscape c h.1]

theorem cutBefore_append_cutFrom (sep : Char) (s : Str) :
    cutBefore sep s ++ cutFrom sep s = s := by
  induction s with
  | nil => rfl
  | cons c cs ih =>
    by_cases hc : c = sep
    · simp [cutBefore, cutFrom, hc]
    · simp [cutBefore, cutFrom, hc, ih]

theorem not_mem_of_cutFrom_nil (sep : Char) (s : Str) (h : cutFrom sep s = []) : sep ∉ s := by
  induction s with
  | nil => simp
  | cons c cs ih =>
    by_cases hc : c = sep
    · simp [cutFrom, hc] at h
    · simp only [cutFrom, hc, if_false] at h
      simp only [List.mem_cons, not_or]
      exact ⟨fun e => hc e.symm, ih h⟩

theorem afterLast_append (sep : Char) (a b : Str) (h : sep ∉ b) :
    afterLast sep (a ++ sep :: b) = some b := by
  induction a with
  | nil => simp [afterLast, afterLast_of_not_mem sep b h]
  | cons c cs ih => simp [afterLast, ih]

theorem isDigit_ne_colon (ds : Str) (h : ds.all isDigit = true) : ':' ∉ ds := by
  intro hmem
  rw [List.all_eq_true] at h
  exact absurd (h ':' hmem) (by decide)

theorem plainHost_not_mem (s : Str) (d : Char) (h : plainHost s = true)
    (hd : authByte d = false) : d ∉ s := by
  simp only [plainHost, Bool.and_eq_true] at h
  exact authByte_not_mem s d h.1 hd

theorem parseHost_plain (s : Str) (h : plainHost s = true) : parseHost s = some s := by
  have hall : s.all authByte = true := by
    simp only [plainHost, Bool.and_eq_true] at h
    exact h.1
  have hport : validOptionalPort (cutFrom ':' s) = true := by
    simp only [plainHost, Bool.and_eq_true] at h
    exact h.2
  have h1 : hasPrefix s ['['] = false := by
    cases s with
    | nil => rfl
    | cons c cs =>
      simp only [List.all_cons, Bool.and_eq_true] at hall
      have hc : c ≠ '[' := authByte_ne c '[' hall.1 (by decide)
      simp [hasPrefix, List.isPrefixOf, Ne.symm hc]
  have hun := unescape_host_plain s hall
  cases hcut : cutFrom ':' s with
  | nil =>
    have h2 : afterLast ':' s = none :=
      afterLast_of_not_mem ':' s (not_mem_of_cutFrom_nil ':' s hcut)
    simp [parseHost, h1, h2, hun]
  | cons c ds =>
    rw [hcut] at hport
    simp only [validOptionalPort, Bool.and_eq_true, decide_eq_true_eq] at hport
    obtain ⟨hc, hds⟩ := hport
    subst hc
    have hsplit : s = cutBefore ':' s ++ ':' :: ds := by
      have := cutBefore_append_cutFrom ':' s
      rw [hcut] at this
      exact this.symm
    have h2 : afterLast ':' s = some ds := by
      rw [hsplit]
      exact afterLast_append ':' _ ds (isDigit_ne_colon ds hds)
    simp [parseHost, h1, h2, hun, validOptionalPort, hds]

theorem parseAuthority_plain (s : Str) (h : plainHost s = true) :
    parseAuthority s = some s := by
  have h1 : beforeLast '@' s = none :=
    beforeLast_of_not_mem '@' s (plainHost_not_mem s '@' h (by decide))
  simp [parseAuthority, h1, parseHost_plain s h]

theorem getSchemeFrom_scheme (raw rest : Str) (s seen : Str) (hseen : seen ≠ [])
    (hs : s.all schemeByte = true) :
    getSchemeFrom raw seen (s ++ ':' :: rest) = some (seen ++ s, rest) := by
  induction s generalizing seen with
  | nil =>
    have h1 : isAlpha ':' = false := by decide
    have h2 : isDigit ':' = false := by decide
    simp [getSchemeFrom, h1, h2, hseen]
  | cons c cs ih =>
    simp only [List.all_cons, Bool.and_eq_true] at hs
    have hrec := ih (seen ++ [c]) (by simp) hs.2
    simp only [List.append_assoc, List.singleton_append] at hrec
    by_cases ha : isAlpha c = true
    · simp [getSchemeFrom, ha, hrec]
    · have hb : isDigit c || c = '+' || c = '-' || c = '.' := by
        have := hs.1
        simp only [schemeByte, Bool.or_eq_true, beq_iff_eq] at this
        simp only [Bool.or_eq_true, decide_eq_true_eq]
        tauto
      simp [getSchemeFrom, ha, hb, hseen, hrec]

theorem getScheme_plain (sch rest : Str) (h : plainScheme sch = true) :
    getScheme (sch ++ ':' :: rest) = some (sch, rest) := by
  cases sch with
  | nil => simp [plainScheme] at h
  | cons c cs =>
    simp only [plainScheme, Bool.and_eq_true] at h
    have := getSchemeFrom_scheme (c :: cs ++ ':' :: rest) rest cs [c] (by simp) h.2
    simp only [List.cons_append, List.nil_append] at this
    simp [getScheme, getSchemeFrom, h.1, this]

theorem getScheme_slash (rest : Str) : getScheme ('/' :: rest) = some ([], '/' :: rest) := by
  have h1 : isAlpha '/' = false := by decide
  have h2 : isDigit '/' = false := by decide
  simp [getScheme, getSchemeFrom, h1, h2]

theorem plainByte_of_range (c : Char) (h1 : 43 ≤ c.toNat) (h2 : c.toNat ≤ 122)
    (h3 : c.toNat ≠ 63) : plainByte c = true := by
  have e1 : c ≠ '#' := by
    intro e; subst e; exact absurd h1 (by decide)
  have e2 : c ≠ '?' := by
    intro e; subst e; exact h3 (by decide)
  have e3 : c ≠ '%' := by
    intro e; subst e; exact absurd h1 (by decide)
  have e4 : ¬ c.toNat < 32 := by omega
  have e5 : ¬ c.toNat = 127 := by omega
  simp [plainByte, e1, e2, e3, e4, e5]

theorem plainByte_of_isAlpha (c : Char) (h : isAlpha c = true) : plainByte c = true := by
  have := isAlpha_range c h
  exact plainByte_of_range c (by omega) (by omega) (by omega)

theorem plainByte_of_isDigit (c : Char) (h : isDigit c = true) : plainByte c = true := by
  have := isDigit_range c h
  exact plainByte_of_range c (by omega) (by omega) (by omega)

theorem plainByte_of_schemeByte (c : Char) (h : schemeByte c = true) : plainByte c = true := by
  simp only [schemeByte, Bool.or_eq_true, beq_iff_eq] at h
  rcases h with (((h | h) | h) | h) | h
  · exact plainByte_of_isAlpha c h
  · exact plainByte_of_isDigit c h
  · subst h; decide
  · subst h; decide
  · subst h; decide

theorem plainByte_of_plainHostByte (c : Char) (h : plainHostByte c = true) :
    plainByte c = true := by
  simp only [plainHostByte, Bool.or_eq_true, beq_iff_eq] at h
  rcases h with (((h | h) | h) | h) | h
  · exact plainByte_of_isAlpha c h
  · exact plainByte_of_isDigit c h
  · subst h; decide
  · subst h; decide
  · subst h; decide

theorem plainByte_not_mem (s : Str) (d : Char) (h : s.all plainByte = true)
    (hd : plainByte d = false) : d ∉ s := by
  intro hmem
  rw [List.all_eq_true] at h
  have := h d hmem
  rw [hd] at this
  exact Bool.noConfusion this

theorem plainByte_noCTL (s : Str) (h : s.all plainByte = true) :
    stringContainsCTLByte s = false := by
  induction s with
  | nil => rfl
  | cons c cs ih =>
    simp only [List.all_cons, Bool.and_eq_true] at h
    have hc := h.1
    simp only [plainByte, Bool.and_eq_true, Bool.not_eq_true'] at hc
    have ih2 := ih h.2
    simp only [stringContainsCTLByte] at ih2 ⊢
    simp [List.any_cons, hc.1.1.1, ih2]

/-- A schemeless absolute path of plain bytes that does not start with `//` parses to
itself: no scheme, no host, the path unchanged. -/
theorem urlParse_plain_path (p : Str) (habs : hasPrefix p ['/'] = true)
    (hnet : hasPrefix p ['/', '/'] = false) (hplain : p.all plainByte = true) :
    urlParse p = some { Scheme := [], Host := [], Path := p } := by
  have hhash : '#' ∉ p := plainByte_not_mem p '#' hplain (by decide)
  have hq : '?' ∉ p := plainByte_not_mem p '?' hplain (by decide)
  have hpct : '%' ∉ p := plainByte_not_mem p '%' hplain (by decide)
  cases p with
  | nil => simp [hasPrefix, List.isPrefixOf] at habs
  | cons c cs =>
    have hc : c = '/' := by
      simp [hasPrefix, List.isPrefixOf] at habs
      exact habs.symm
    subst hc
    have hstar : ('/' :: cs) ≠ ['*'] := by
      intro e
      injection e with e1 _
      exact absurd e1 (by decide)
    unfold urlParse
    rw [cutBefore_of_not_mem '#' _ hhash, cutAfter_of_not_mem '#' _ hhash]
    unfold parseNoFragment
    rw [plainByte_noCTL _ hplain, getScheme_slash]
    simp only [Bool.false_eq_true, if_false, hstar, toLower, List.map_nil,
      cutBefore_of_not_mem '?' _ hq, habs, hnet, unescape_path_plain _ hpct]
    simp

/-- A plain URL `scheme://host` followed by a plain path parses to that host and that
path. -/
theorem urlParse_plain_url (sch host path : Str) (hsch : plainScheme sch = true)
    (hhost : plainHost host = true) (hpath : plainPath path = true) :
    urlParse (sch ++ "://".toList ++ host ++ path) =
      some { Scheme := toLower sch, Host := host, Path := path } := by
  have e : "://".toList = [':', '/', '/'] := rfl
  rw [e]
  simp only [plainPath, Bool.and_eq_true, Bool.or_eq_true, beq_iff_eq] at hpath
  obtain ⟨hshape, hpathPlain⟩ := hpath
  have hhostPlain : host.all plainByte = true := by
    rw [List.all_eq_true]
    intro c hc
    simp only [plainHost, Bool.and_eq_true, List.all_eq_true] at hhost
    have hb := hhost.1 c hc
    simp only [authByte, Bool.or_eq_true, beq_iff_eq] at hb
    rcases hb with hb | hb
    · exact plainByte_of_plainHostByte c hb
    · subst hb; decide
  have hslash : '/' ∉ host := plainHost_not_mem host '/' hhost (by decide)
  have hcutB : cutBefore '/' (host ++ path) = host := by
    rcases hshape with h | h
    · subst h; simpa using cutBefore_of_not_mem '/' host hslash
    · cases path with
      | nil => simpa using cutBefore_of_not_mem '/' host hslash
      | cons c cs =>
        have hc : c = '/' := by
          simp [hasPrefix, List.isPrefixOf] at h
          exact h.symm
        subst hc
        exact cutBefore_append '/' host cs hslash
  have hcutF : cutFrom '/' (host ++ path) = path := by
    rcases hshape with h | h
    · subst h; simpa using cutFrom_of_not_mem '/' host hslash
    · cases path with
      | nil => simpa using cutFrom_of_not_mem '/' host hslash
      | cons c cs =>
        have hc : c = '/' := by
          simp [hasPrefix, List.isPrefixOf] at h
          exact h.symm
        subst hc
        exact cutFrom_append '/' host cs hslash
  cases sch with
  | nil => simp [plainScheme] at hsch
  | cons a as =>
    have hsch2 := hsch
    simp only [plainScheme, Bool.and_eq_true] at hsch2
    have hrestPlain : ('/' :: '/' :: (host ++ path)).all plainByte = true := by
      have h1 : plainByte '/' = true := by decide
      simp [List.all_cons, List.all_append, h1, hhostPlain, hpathPlain]
    have hall : (a :: as ++ [':', '/', '/'] ++ host ++ path).all plainByte = true := by
      have h0 : plainByte ':' = true := by decide
      have h1 : plainByte '/' = true := by decide
      have h2 : as.all plainByte = true := by
        rw [List.all_eq_true]
        intro c hc
        have := hsch2.2
        rw [List.all_eq_true] at this
        exact plainByte_of_schemeByte c (this c hc)
      simp [List.all_cons, List.all_append, h0, h1, h2, plainByte_of_isAlpha a hsch2.1,
        hhostPlain, hpathPlain]
    have hhash := plainByte_not_mem _ '#' hall (by decide)
    have hq := plainByte_not_mem _ '?' hrestPlain (by decide)
    have hpct := plainByte_not_mem _ '%' hpathPlain (by decide)
    have hstar : (a :: as ++ [':', '/', '/'] ++ host ++ path) ≠ ['*'] := by
      intro e1
      simp only [List.cons_append] at e1
      injection e1 with e2 _
      subst e2
      exact absurd hsch2.1 (by decide)
    have hgs : getScheme (a :: as ++ [':', '/', '/'] ++ host ++ path) =
        some (a :: as, '/' :: '/' :: (host ++ path)) := by
      have := getScheme_plain (a :: as) ('/' :: '/' :: (host ++ path)) hsch
      simpa using this
    have hp1 : hasPrefix ('/' :: '/' :: (host ++ path)) ['/'] = true := by
      simp [hasPrefix, List.isPrefixOf]
    have hp2 : hasPrefix ('/' :: '/' :: (host ++ path)) ['/', '/'] = true := by
      simp [hasPrefix, List.isPrefixOf]
    unfold urlParse
    rw [cutBefore_of_not_mem '#' _ hhash, cutAfter_of_not_mem '#' _ hhash]
    unfold parseNoFragment
    rw [plainByte_noCTL _ hall, hgs]
    simp only [Bool.false_eq_true, if_false, hstar, cutBefore_of_not_mem '?' _ hq, hp1, hp2,
      List.drop_succ_cons, List.drop_zero, hcutB, hcutF, parseAuthority_plain host hhost,
      unescape_path_plain _ hpct]
    simp [toLower]

/-! ## Lemmas on `strings.Split`, `strings.Join` and `filepath.Join` -/

theorem stringsSplit_ne_nil (sep : Char) (s : Str) : stringsSplit sep s ≠ [] := by
  induction s with
  | nil => simp [stringsSplit]
  | cons c cs ih =>
    unfold stringsSplit
    split
    · simp
    · split <;> simp

theorem stringsSplit_of_not_mem (sep : Char) (s : Str) (h : sep ∉ s) :
    stringsSplit sep s = [s] := by
  induction s with
  | nil => rfl
  | cons c cs ih =>
    have hc : c ≠ sep := fun e => h (by simp [e])
    have hcs : sep ∉ cs := fun e => h (by simp [e])
    simp [stringsSplit, hc, ih hcs]

theorem stringsSplit_append (sep : Char) (a b : Str) (h : sep ∉ a) :
    stringsSplit sep (a ++ sep :: b) = a :: stringsSplit sep b := by
  induction a with
  | nil => simp [stringsSplit]
  | cons c cs ih =>
    have hc : c ≠ sep := fun e => h (by simp [e])
    have hcs : sep ∉ cs := fun e => h (by simp [e])
    simp [stringsSplit, hc, ih hcs]

theorem stringsJoin_cons_cons (sep : Char) (a b : Str) (rest : List Str) :
    stringsJoin sep (a :: b :: rest) = a ++ sep :: stringsJoin sep (b :: rest) := rfl

/-- Splitting a joined list gives the list back when no element holds the separator. -/
theorem stringsSplit_join (sep : Char) (segs : List Str) (hne : segs ≠ [])
    (h : ∀ s ∈ segs, sep ∉ s) : stringsSplit sep (stringsJoin sep segs) = segs := by
  induction segs with
  | nil => exact absurd rfl hne
  | cons a rest ih =>
    cases rest with
    | nil => simpa [stringsJoin] using stringsSplit_of_not_mem sep a (h a (by simp))
    | cons b rest2 =>
      rw [stringsJoin_cons_cons, stringsSplit_append sep a _ (h a (by simp)),
        ih (by simp) (fun s hs => h s (List.mem_cons_of_mem _ hs))]

theorem plainSeg_spec (s : Str) (h : plainSeg s = true) :
    s ≠ [] ∧ s ≠ ['.'] ∧ s ≠ ['.', '.'] ∧ '/' ∉ s ∧ s.all plainByte = true := by
  simp only [plainSeg, Bool.and_eq_true, bne_iff_ne, ne_eq, List.all_eq_true] at h
  obtain ⟨⟨⟨h1, h2⟩, h3⟩, h4⟩ := h
  refine ⟨h1, h2, h3, ?_, ?_⟩
  · intro hmem
    exact (h4 '/' hmem).2 rfl
  · rw [List.all_eq_true]
    intro c hc
    exact (h4 c hc).1

theorem cleanStep_plain (rooted : Bool) (stack : List Str) (seg : Str)
    (h : plainSeg seg = true) : cleanStep rooted stack seg = seg :: stack := by
  obtain ⟨h1, h2, h3, _, _⟩ := plainSeg_spec seg h
  simp [cleanStep, h1, h2, h3]

theorem foldl_cleanStep_plain (rooted : Bool) (segs : List Str)
    (h : ∀ s ∈ segs, plainSeg s = true) :
    ∀ stack, segs.foldl (cleanStep rooted) stack = segs.reverse ++ stack := by
  induction segs with
  | nil => intro stack; rfl
  | cons a rest ih =>
    intro stack
    rw [List.foldl_cons, cleanStep_plain rooted stack a (h a (by simp)),
      ih (fun s hs => h s (List.mem_cons_of_mem _ hs))]
    simp

/-- The join of plain segments holds only plain bytes. -/
theorem stringsJoin_plain (segs : List Str) (h : ∀ s ∈ segs, plainSeg s = true) :
    (stringsJoin '/' segs).all plainByte = true := by
  induction segs with
  | nil => rfl
  | cons a rest ih =>
    have ha := (plainSeg_spec a (h a (by simp))).2.2.2.2
    cases rest with
    | nil => simpa [stringsJoin] using ha
    | cons b rest2 =>
      have hrec := ih (fun s hs => h s (List.mem_cons_of_mem _ hs))
      have hs : plainByte '/' = true := by decide
      rw [stringsJoin_cons_cons, List.all_append, List.all_cons, ha, hs, hrec]
      rfl

/-- The join of a non-empty list of plain segments does not start with `/`. -/
theorem stringsJoin_plain_head (segs : List Str) (hne : segs ≠ [])
    (h : ∀ s ∈ segs, plainSeg s = true) :
    hasPrefix (stringsJoin '/' segs) ['/'] = false := by
  cases segs with
  | nil => exact absurd rfl hne
  | cons a rest =>
    obtain ⟨h1, _, _, h4, _⟩ := plainSeg_spec a (h a (by simp))
    cases a with
    | nil => exact absurd rfl h1
    | cons c cs =>
      have hc : c ≠ '/' := fun e => h4 (by simp [e])
      cases rest <;> simp [stringsJoin, hasPrefix, List.isPrefixOf, Ne.symm hc]

/-- `filepath.Join` of plain segments is their join by `/`: nothing is cleaned away. -/
theorem filepathJoin_plain (segs : List Str) (hne : segs ≠ [])
    (h : ∀ s ∈ segs, plainSeg s = true) : filepathJoin segs = stringsJoin '/' segs := by
  cases segs with
  | nil => exact absurd rfl hne
  | cons a rest =>
    have ha := (plainSeg_spec a (h a (by simp))).1
    have hsplit : stringsSplit '/' (stringsJoin '/' (a :: rest)) = a :: rest :=
      stringsSplit_join '/' (a :: rest) (by simp) (fun s hs => (plainSeg_spec s (h s hs)).2.2.2.1)
    have hrooted := stringsJoin_plain_head (a :: rest) (by simp) h
    simp only [filepathJoin, ha, if_false, filepathClean, hrooted, hsplit,
      foldl_cleanStep_plain false (a :: rest) h []]
    simp

/-- The segments of an absolute path built from segments without `/`. -/
theorem pathDirs_join (segs : List Str) (h : ∀ s ∈ segs, '/' ∉ s) :
    pathDirs (stringsJoin '/' ([] :: segs)) = [] :: segs := by
  have hsplit : stringsSplit '/' (stringsJoin '/' ([] :: segs)) = [] :: segs :=
    stringsSplit_join '/' ([] :: segs) (by simp) (by
      intro s hs
      rcases List.mem_cons.mp hs with e | e
      · subst e; simp
      · exact h s e)
  simp [pathDirs, hsplit]

/-! ## C1: substitution of the mount target -/

set_option maxRecDepth 100000 in
/-- C1, counterexample.  With the single mount entry `/x` to `hdfs://N/z` (so that no longer
prefix has an entry), the suffix is not appended as it is: `/x/a/../y` gives `/z/y` and not
`/z/a/../y`, `/x/y/` gives `/z/y` and not `/z/y/`, and `/x/%2541`, whose path is `/x/%41`,
gives `/z/A`. -/
theorem C1_counterexample :
    ViewfsReparseFilename confMountX "ns".toList "/x/a/../y".toList
        = Res.ok ("N".toList, "/z/y".toList)
    ∧ ViewfsReparseFilename confMountX "ns".toList "/x/a/../y".toList
        ≠ Res.ok ("N".toList, "/z/a/../y".toList)
    ∧ ViewfsReparseFilename confMountX "ns".toList "/x/y/".toList
        = Res.ok ("N".toList, "/z/y".toList)
    ∧ urlParse "/x/%2541".toList
        = some { Scheme := [], Host := [], Path := "/x/%41".toList }
    ∧ ViewfsReparseFilename confMountX "ns".toList "/x/%2541".toList
        = Res.ok ("N".toList, "/z/A".toList) := by
  decide

theorem take_succ_cons_nil (segs : List Str) (j : Nat) :
    (([] : Str) :: segs).take (j + 1) = [] :: segs.take j := rfl

/-- C1 (amended).  Let the filename be schemeless and host-less with the absolute path
`P/S`, where `P` is made of the segments `segsP` (`P` is empty or `/` followed by their
join) and `S` is the join of the non-empty list `segsS` of plain segments (not empty, not
`.` or `..`, without control bytes, `%`, `?`, `#`); let the mount entry of the effective
namespace at `P` be the plain URL `sch://host` followed by `target`, and let no longer
prefix of `P/S` have a mount entry.  Then `ViewfsReparseFilename` returns
`(host, target/S)` with a nil error. -/
theorem C1_reparse_substitutes_mount_target (conf : HadoopConf)
    (rootnsid filename nsid0 ns : Str) (segsP segsS : List Str) (sch host target : Str)
    (hparse : urlParse filename
      = some { Scheme := [], Host := [], Path := stringsJoin '/' ([] :: (segsP ++ segsS)) })
    (hns : reparseNsid conf rootnsid [] = Res.ok nsid0)
    (htrim : trimPrefix nsid0 viewfsMarker = ns)
    (hP : ∀ s ∈ segsP, '/' ∉ s) (hS : ∀ s ∈ segsS, plainSeg s = true)
    (hSne : segsS ≠ [])
    (hsch : plainScheme sch = true) (hhost : plainHost host = true)
    (htarget : plainPath target = true)
    (hmount : confLookup conf (mountKey ns (stringsJoin '/' ([] :: segsP)))
      = some (sch ++ "://".toList ++ host ++ target))
    (hlonger : ∀ j, segsP.length < j → j ≤ (segsP ++ segsS).length →
      confLookup conf (mountKey ns (stringsJoin '/' ([] :: (segsP ++ segsS).take j))) = none) :
    ViewfsReparseFilename conf rootnsid filename
      = Res.ok (host, target ++ "/".toList ++ stringsJoin '/' segsS) := by
  have hall : ∀ s ∈ segsP ++ segsS, '/' ∉ s := by
    intro s hs
    rcases List.mem_append.mp hs with h | h
    · exact hP s h
    · exact (plainSeg_spec s (hS s h)).2.2.2.1
  rw [ViewfsReparseFilename_accepted conf rootnsid filename _ nsid0 hparse (Or.inr rfl)
    (Or.inl rfl) hns, htrim]
  simp only []
  rw [pathDirs_join (segsP ++ segsS) hall]
  -- the loop stops at the prefix P
  have hi : mountAt conf ns ([] :: (segsP ++ segsS)) (segsP.length + 1)
      = some (sch ++ "://".toList ++ host ++ target) := by
    unfold mountAt
    rw [take_succ_cons_nil, List.take_left']
    · exact hmount
    · rfl
  rw [reparseLoop_longest conf ns _ ([] :: (segsP ++ segsS)) (segsP.length + 1) _
    (Nat.succ_pos _) hi ([] :: (segsP ++ segsS)).length]
  · -- the substitution
    have hdrop : ([] :: (segsP ++ segsS)).drop (segsP.length + 1) = segsS := by
      simp
    rw [hdrop]
    unfold mountSubstitute
    simp only []
    rw [filepathJoin_plain segsS hSne hS]
    have hpath : plainPath (target ++ "/".toList ++ stringsJoin '/' segsS) = true := by
      have e : "/".toList = ['/'] := rfl
      rw [e]
      simp only [plainPath, Bool.and_eq_true, Bool.or_eq_true, beq_iff_eq] at htarget ⊢
      refine ⟨Or.inr ?_, ?_⟩
      · rcases htarget.1 with h | h
        · subst h; simp [hasPrefix, List.isPrefixOf]
        · cases target with
          | nil => simp [hasPrefix, List.isPrefixOf]
          | cons c cs =>
            simp only [hasPrefix, List.isPrefixOf, Bool.and_true, beq_iff_eq] at h
            subst h
            simp [hasPrefix, List.isPrefixOf]
      · have h1 : plainByte '/' = true := by decide
        simp [List.all_append, htarget.2, h1, stringsJoin_plain segsS hS]
    have := urlParse_plain_url sch host _ hsch hhost hpath
    simp only [List.append_assoc] at this ⊢
    rw [this]
  · simp only [List.length_cons, List.length_append]
    have : 0 < segsS.length := List.length_pos.mpr hSne
    omega
  · intro j hj hjn
    obtain ⟨k, rfl⟩ : ∃ k, j = k + 1 := ⟨j - 1, by omega⟩
    unfold mountAt
    rw [take_succ_cons_nil]
    apply hlonger k (by omega)
    simp only [List.length_cons] at hjn
    omega

set_option maxRecDepth 100000 in
/-- C1, witness: `/x/y` reparsed with an empty root namespace, the default namespace `ns`
and the mount entry `/x` to `hdfs://N/z` gives `("N", "/z/y")`. -/
theorem C1_reparse_substitutes_mount_target_witness :
    ViewfsReparseFilename confDefaultNs [] "/x/y".toList
      = Res.ok ("N".toList, "/z/y".toList) :=
  C1_reparse_substitutes_mount_target confDefaultNs [] "/x/y".toList "viewfs://ns".toList
    "ns".toList ["x".toList] ["y".toList] "hdfs".toList "N".toList "/z".toList
    (by decide) (by decide) (by decide) (by decide) (by decide) (by decide) (by decide)
    (by decide) (by decide) (by decide)
    (by
      intro j h1 h2
      have hj : j = 2 := by
        simp only [List.length_append, List.length_cons, List.length_nil] at h1 h2
        omega
      subst hj
      decide)

/-- A schemeless absolute filename made of plain segments parses to itself, so that the
first hypothesis of `C1_reparse_substitutes_mount_target` holds for it. -/
theorem urlParse_plain_segments (segs : List Str) (hne : segs ≠ [])
    (hall : ∀ s ∈ segs, plainSeg s = true) :
    urlParse (stringsJoin '/' ([] :: segs))
      = some { Scheme := [], Host := [], Path := stringsJoin '/' ([] :: segs) } := by
  obtain ⟨a, rest, hseg⟩ : ∃ a rest, segs = a :: rest := by
    cases h : segs with
    | nil => exact absurd h hne
    | cons a rest => exact ⟨a, rest, rfl⟩
  have hfile : stringsJoin '/' ([] :: segs) = '/' :: stringsJoin '/' segs := by
    rw [hseg]; rfl
  have hjoinPlain := stringsJoin_plain segs hall
  have hjoinHead := stringsJoin_plain_head segs hne hall
  apply urlParse_plain_path
  · rw [hfile]; simp [hasPrefix, List.isPrefixOf]
  · rw [hfile]
    cases hj : stringsJoin '/' segs with
    | nil => simp [hasPrefix, List.isPrefixOf]
    | cons c cs =>
      rw [hj] at hjoinHead
      simp only [hasPrefix, List.isPrefixOf, Bool.and_true, beq_eq_false_iff_ne] at hjoinHead
      simp [hasPrefix, List.isPrefixOf, hjoinHead]
  · rw [hfile, List.all_cons, hjoinPlain]; decide

/-! ## C2, C3: longest prefix, and no prefix -/

/-- C2.  Mount resolution in `ViewfsReparseFilename` is longest-prefix-match over path
segments: when the filename is accepted and `i` is the largest number of leading segments
(the empty first segment included, so `i = 1` is the empty prefix) whose join has a mount
entry in the effective namespace, the result is the substitution computed from that entry
and the segments after the first `i`, whatever entries shorter prefixes have. -/
theorem C2_reparse_longest_match (conf : HadoopConf) (rootnsid filename : Str) (u : URL)
    (nsid0 : Str) (i : Nat) (value : Str)
    (hparse : urlParse filename = some u)
    (hscheme : u.Scheme = "viewfs".toList ∨ u.Scheme = [])
    (hhost : u.Host = [] ∨ rootnsid = [])
    (hns : reparseNsid conf rootnsid u.Host = Res.ok nsid0)
    (hi : 0 < i) (hile : i ≤ (pathDirs u.Path).length)
    (hmatch : mountAt conf (trimPrefix nsid0 viewfsMarker) (pathDirs u.Path) i = some value)
    (hlonger : ∀ j, i < j → j ≤ (pathDirs u.Path).length →
      mountAt conf (trimPrefix nsid0 viewfsMarker) (pathDirs u.Path) j = none) :
    ViewfsReparseFilename conf rootnsid filename
      = mountSubstitute value ((pathDirs u.Path).drop i) := by
  rw [ViewfsReparseFilename_accepted conf rootnsid filename u nsid0 hparse hscheme hhost hns]
  exact reparseLoop_longest conf _ u.Path (pathDirs u.Path) i value hi hmatch _ hile hlonger

set_option maxRecDepth 100000 in
/-- C2, witness: with mount entries at `/user` and at `/user/sub`, the path `/user/sub/f`
is resolved through the entry at `/user/sub`, not through the one at `/user`. -/
theorem C2_reparse_longest_match_witness :
    ViewfsReparseFilename confViewfs [] "/user/sub/f".toList
        = Res.ok ("SunshineNameNode4".toList, "/_sub/f".toList)
    ∧ mountAt confViewfs "nsX".toList (pathDirs "/user/sub/f".toList) 2
        = some "hdfs://SunshineNameNode2/_user".toList :=
  ⟨C2_reparse_longest_match confViewfs [] "/user/sub/f".toList
      { Scheme := [], Host := [], Path := "/user/sub/f".toList } "viewfs://nsX".toList 3
      "hdfs://SunshineNameNode4/_sub".toList (by decide) (by decide) (by decide) (by decide)
      (by decide) (by decide) (by decide)
      (by
        intro j h1 h2
        have hj : j = 4 := by
          have : (pathDirs "/user/sub/f".toList).length = 4 := by decide
          simp only [this] at h2
          omega
        subst hj
        decide),
    by decide⟩

/-- C3.  When the filename is accepted and no prefix of its path, the empty prefix
included, has a mount entry in the effective namespace `ns`, `ViewfsReparseFilename`
returns the identifier `viewfs://ns`, which is viewfs-shaped, with the path of the filename
unchanged and a nil error. -/
theorem C3_reparse_unmapped (conf : HadoopConf) (rootnsid filename : Str) (u : URL)
    (nsid0 : Str)
    (hparse : urlParse filename = some u)
    (hscheme : u.Scheme = "viewfs".toList ∨ u.Scheme = [])
    (hhost : u.Host = [] ∨ rootnsid = [])
    (hns : reparseNsid conf rootnsid u.Host = Res.ok nsid0)
    (hnone : ∀ j, 0 < j → j ≤ (pathDirs u.Path).length →
      mountAt conf (trimPrefix nsid0 viewfsMarker) (pathDirs u.Path) j = none) :
    ViewfsReparseFilename conf rootnsid filename
        = Res.ok (viewfsMarker ++ trimPrefix nsid0 viewfsMarker, u.Path)
    ∧ hasPrefix (viewfsMarker ++ trimPrefix nsid0 viewfsMarker) viewfsMarker = true := by
  refine ⟨?_, hasPrefix_append _ _⟩
  rw [ViewfsReparseFilename_accepted conf rootnsid filename u nsid0 hparse hscheme hhost hns]
  exact reparseLoop_unmapped conf _ u.Path (pathDirs u.Path) _ hnone

set_option maxRecDepth 100000 in
/-- C3, witness: `/norm` has no mount entry in namespace `nsX`, so the result is
`("viewfs://nsX", "/norm")`. -/
theorem C3_reparse_unmapped_witness :
    ViewfsReparseFilename confViewfs "viewfs://nsX".toList "/norm".toList
        = Res.ok ("viewfs://nsX".toList, "/norm".toList)
    ∧ hasPrefix "viewfs://nsX".toList viewfsMarker = true :=
  C3_reparse_unmapped confViewfs "viewfs://nsX".toList "/norm".toList
    { Scheme := [], Host := [], Path := "/norm".toList } "viewfs://nsX".toList
    (by decide) (by decide) (by decide) (by decide)
    (by
      intro j h1 h2
      have h3 : (pathDirs "/norm".toList).length = 2 := by decide
      simp only [h3] at h2
      have hj : j = 1 ∨ j = 2 := by omega
      rcases hj with hj | hj <;> subst hj <;> decide)

/-! ## The host of a parsed URL holds no slash -/

theorem toNat_ofNat_byte (n : Nat) (h : n < 256) : (Char.ofNat n).toNat = n := by
  have hv : n.isValidChar := Or.inl (by omega)
  simp only [Char.ofNat, hv, dif_pos, Char.ofNatAux, Char.toNat]
  simp [UInt32.toNat]

theorem unhex_le (c : Char) : unhex c ≤ 15 := by
  have e0 : '0'.toNat = 48 := rfl
  have e1 : 'a'.toNat = 97 := rfl
  have e2 : 'f'.toNat = 102 := rfl
  have e3 : 'A'.toNat = 65 := rfl
  have e4 : 'F'.toNat = 70 := rfl
  unfold unhex
  split
  · rename_i h
    have := isDigit_range c h
    omega
  · split
    · omega
    · split
      · omega
      · omega

theorem unescape_no_slash (mode : Encoding)
    (hm : mode = Encoding.encodeHost ∨ mode = Encoding.encodeZone) :
    ∀ x h, unescape mode x = some h → '/' ∉ h := by
  intro x
  induction x using unescape.induct mode with
  | case1 =>
    intro h e
    simp [unescape] at e
    subst e
    simp
  | case2 a b rest hhex hrej =>
    intro h e
    simp [unescape, hhex, hrej] at e
  | case3 a b rest hhex v hnot hrej =>
    intro h e
    rw [unescape] at e
    simp only [hhex, if_true, hnot, if_false] at e
    rw [if_pos hrej] at e
    exact Option.noConfusion e
  | case4 a b rest hhex v hnot1 hnot2 ih =>
    intro h e
    rw [unescape] at e
    simp only [hhex, if_true, hnot1, if_false] at e
    rw [if_neg hnot2] at e
    cases hr : unescape mode rest with
    | none => rw [hr] at e; exact Option.noConfusion e
    | some h2 =>
      rw [hr] at e
      simp only [Option.map_some'] at e
      injection e with e
      subst e
      have hv : Char.ofNat (unhex a * 16 + unhex b) ≠ '/' := by
        intro hv
        have hshould : shouldEscapeHost '/' = true := by decide
        have h25 : a = '2' ∧ b = '5' → False := by
          rintro ⟨ha, hb⟩
          subst ha; subst hb
          exact absurd hv (by decide)
        rcases hm with hm | hm
        · have h8 : ¬ unhex a < 8 := by
            intro h8
            exact hnot1 ⟨hm, h8, fun h => h25 h⟩
          have hbyte := toNat_ofNat_byte (unhex a * 16 + unhex b)
            (by have := unhex_le a; have := unhex_le b; omega)
          rw [hv] at hbyte
          have e47 : '/'.toNat = 47 := rfl
          omega
        · apply hnot2
          refine ⟨hm, fun h => h25 h, ?_, ?_⟩
          · show Char.ofNat (unhex a * 16 + unhex b) ≠ ' '
            rw [hv]; decide
          · show shouldEscapeHost (Char.ofNat (unhex a * 16 + unhex b)) = true
            rw [hv]; exact hshould
      simp only [List.mem_cons, not_or]
      exact ⟨fun e => hv e.symm, ih h2 hr⟩
  | case5 a b rest hhex =>
    intro h e
    simp [unescape, hhex] at e
  | case6 tail hshort =>
    intro h e
    rw [unescape] at e
    · exact Option.noConfusion e
    · intro a b rest e2
      exact hshort a b rest e2
  | case7 c rest hshape hc hrej =>
    intro h e
    rw [unescape_cons_of_ne mode c rest (fun e => hc e), if_pos hrej] at e
    exact Option.noConfusion e
  | case8 c rest hshape hc hacc ih =>
    intro h e
    rw [unescape_cons_of_ne mode c rest (fun e => hc e), if_neg hacc] at e
    cases hr : unescape mode rest with
    | none => rw [hr] at e; exact Option.noConfusion e
    | some h2 =>
      rw [hr] at e
      simp only [Option.map_some'] at e
      injection e with e
      subst e
      have hc2 : c ≠ '/' := by
        intro e
        subst e
        exact hacc ⟨hm, by decide, by decide⟩
      simp only [List.mem_cons, not_or]
      exact ⟨fun e => hc2 e.symm, ih h2 hr⟩

theorem parseHost_no_slash (x h : Str) (e : parseHost x = some h) : '/' ∉ h := by
  have hH := unescape_no_slash Encoding.encodeHost (Or.inl rfl)
  have hZ := unescape_no_slash Encoding.encodeZone (Or.inr rfl)
  unfold parseHost at e
  split at e
  · split at e
    · rename_i inner colonPort _ _
      split at e
      · exact Option.noConfusion e
      · split at e
        · rename_i h1 zone _
          cases e1 : unescape Encoding.encodeHost h1 with
          | none => rw [e1] at e; exact Option.noConfusion e
          | some host1 =>
            cases e2 : unescape Encoding.encodeZone zone with
            | none => rw [e1, e2] at e; exact Option.noConfusion e
            | some host2 =>
              cases e3 : unescape Encoding.encodeHost (']' :: colonPort) with
              | none => rw [e1, e2, e3] at e; exact Option.noConfusion e
              | some host3 =>
                rw [e1, e2, e3] at e
                simp only [Option.bind_some, Option.map_some', Option.some_bind] at e
                injection e with e
                subst e
                simp only [List.mem_append, not_or]
                exact ⟨⟨hH _ _ e1, hZ _ _ e2⟩, hH _ _ e3⟩
        · exact hH _ _ e
    · exact Option.noConfusion e
  · split at e
    · split at e
      · exact Option.noConfusion e
      · exact hH _ _ e
    · exact hH _ _ e

theorem parseAuthority_no_slash (x h : Str) (e : parseAuthority x = some h) : '/' ∉ h := by
  unfold parseAuthority at e
  split at e
  · rename_i userinfo h0 _ _
    cases e1 : parseHost h0 with
    | none => rw [e1] at e; exact Option.noConfusion e
    | some host =>
      rw [e1] at e
      simp only [Option.some_bind] at e
      have hhost := parseHost_no_slash h0 host e1
      split at e
      · exact Option.noConfusion e
      · split at e
        · cases e2 : unescape Encoding.encodeUserPassword userinfo with
          | none => rw [e2] at e; exact Option.noConfusion e
          | some _ =>
            rw [e2] at e
            simp only [Option.map_some'] at e
            injection e with e
            subst e
            exact hhost
        · cases e2 : unescape Encoding.encodeUserPassword (cutBefore ':' userinfo) with
          | none => rw [e2] at e; exact Option.noConfusion e
          | some _ =>
            cases e3 : unescape Encoding.encodeUserPassword (cutAfter ':' userinfo) with
            | none => rw [e2, e3] at e; exact Option.noConfusion e
            | some _ =>
              rw [e2, e3] at e
              simp only [Option.some_bind, Option.map_some'] at e
              injection e with e
              subst e
              exact hhost
  · exact parseHost_no_slash x h e

theorem parseNoFragment_no_slash (s : Str) (u : URL) (e : parseNoFragment s = some u) :
    '/' ∉ u.Host := by
  unfold parseNoFragment at e
  split at e
  · exact Option.noConfusion e
  · split at e
    · injection e with e; subst e; simp
    · split at e
      · exact Option.noConfusion e
      · rename_i scheme0 rest0 _
        simp only [] at e
        split at e
        · injection e with e; subst e; simp
        · split at e
          · exact Option.noConfusion e
          · split at e
            · cases e1 : parseAuthority (cutBefore '/' (List.drop 2 (cutBefore '?' rest0))) with
              | none => rw [e1] at e; exact Option.noConfusion e
              | some host =>
                rw [e1] at e
                simp only [Option.some_bind] at e
                cases e2 : unescape Encoding.encodePath
                    (cutFrom '/' (List.drop 2 (cutBefore '?' rest0))) with
                | none => rw [e2] at e; exact Option.noConfusion e
                | some path =>
                  rw [e2] at e
                  simp only [Option.map_some'] at e
                  injection e with e
                  subst e
                  exact parseAuthority_no_slash _ _ e1
            · cases e2 : unescape Encoding.encodePath (cutBefore '?' rest0) with
              | none => rw [e2] at e; exact Option.noConfusion e
              | some path =>
                rw [e2] at e
                simp only [Option.map_some'] at e
                injection e with e
                subst e
                simp

/-- The host of a URL accepted by `url.Parse` holds no slash. -/
theorem urlParse_host_no_slash (s : Str) (u : URL) (e : urlParse s = some u) :
    '/' ∉ u.Host := by
  unfold urlParse at e
  cases e1 : parseNoFragment (cutBefore '#' s) with
  | none => rw [e1] at e; exact Option.noConfusion e
  | some u1 =>
    rw [e1] at e
    simp only [Option.some_bind] at e
    have h1 := parseNoFragment_no_slash _ _ e1
    split at e
    · injection e with e; subst e; exact h1
    · cases e2 : unescape Encoding.encodeFragment (cutAfter '#' s) with
      | none => rw [e2] at e; exact Option.noConfusion e
      | some _ =>
        rw [e2] at e
        simp only [Option.map_some'] at e
        injection e with e
        subst e
        exact h1

theorem hasPrefix_viewfsMarker_mem (s : Str) (h : hasPrefix s viewfsMarker = true) :
    '/' ∈ s := by
  unfold hasPrefix at h
  rw [List.isPrefixOf_iff_prefix] at h
  obtain ⟨t, rfl⟩ := h
  have : '/' ∈ viewfsMarker := by decide
  exact List.mem_append_left t this

/-- The host of a URL accepted by `url.Parse` never starts with `viewfs://`. -/
theorem urlParse_host_not_viewfs (s : Str) (u : URL) (e : urlParse s = some u) :
    hasPrefix u.Host viewfsMarker = false := by
  cases h : hasPrefix u.Host viewfsMarker with
  | false => rfl
  | true => exact absurd (hasPrefix_viewfsMarker_mem _ h) (urlParse_host_no_slash s u e)

/-! ## C4: when `ViewfsReparseFilename` fails -/

theorem reparseLoop_not_fail (conf : HadoopConf) (ns path : Str) (dirs : List Str) (e : GoError) :
    ∀ n, reparseLoop conf ns path dirs n ≠ Res.fail e := by
  intro n
  induction n with
  | zero => simp [reparseLoop]
  | succ n ih =>
    simp only [reparseLoop]
    split
    · unfold mountSubstitute
      simp only []
      split <;> simp
    · exact ih

theorem DefaultNSID_not_fail (conf : HadoopConf) (e : GoError) :
    DefaultNSID conf ≠ Res.fail e := by
  unfold DefaultNSID
  simp only []
  split
  · simp
  · split
    · split <;> simp
    · simp

theorem reparseNsid_not_fail (conf : HadoopConf) (rootnsid host : Str) (e : GoError) :
    reparseNsid conf rootnsid host ≠ Res.fail e := by
  unfold reparseNsid
  simp only []
  by_cases h : (if host = [] then rootnsid else host) = []
  · rw [if_pos h]
    exact DefaultNSID_not_fail conf e
  · rw [if_neg h]
    simp

theorem ViewfsReparseFilename_none (conf : HadoopConf) (rootnsid filename : Str)
    (hp : urlParse filename = none) :
    ViewfsReparseFilename conf rootnsid filename = Res.fail GoError.errInvalidHDFSFilename := by
  unfold ViewfsReparseFilename
  rw [hp]

theorem ViewfsReparseFilename_some (conf : HadoopConf) (rootnsid filename : Str) (u : URL)
    (hp : urlParse filename = some u) :
    ViewfsReparseFilename conf rootnsid filename =
      if u.Scheme ≠ "viewfs".toList ∧ u.Scheme ≠ [] then
        Res.fail GoError.errInvalidHDFSFilename
      else if u.Host ≠ [] ∧ rootnsid ≠ [] then Res.fail GoError.errInvalidHDFSFilename
      else
        match reparseNsid conf rootnsid u.Host with
        | Res.ok nsid0 =>
          reparseLoop conf (trimPrefix nsid0 viewfsMarker) u.Path (pathDirs u.Path)
            (pathDirs u.Path).length
        | Res.fail e => Res.fail e
        | Res.panicked => Res.panicked := by
  unfold ViewfsReparseFilename
  rw [hp]

/-- `ViewfsReparseFilename` returns a non-nil error exactly when the filename does not
parse, or its scheme is neither empty nor `viewfs`, or it has a host while `rootnsid` is
not empty; the error is then `errInvalidHDFSFilename`. -/
theorem ViewfsReparseFilename_fail_iff (conf : HadoopConf) (rootnsid filename : Str)
    (e : GoError) :
    ViewfsReparseFilename conf rootnsid filename = Res.fail e ↔
      e = GoError.errInvalidHDFSFilename ∧
        (urlParse filename = none ∨ ∃ u, urlParse filename = some u ∧
          ((u.Scheme ≠ "viewfs".toList ∧ u.Scheme ≠ []) ∨ (u.Host ≠ [] ∧ rootnsid ≠ []))) := by
  cases hp : urlParse filename with
  | none =>
    rw [ViewfsReparseFilename_none conf rootnsid filename hp]
    constructor
    · intro h
      injection h with h
      exact ⟨h.symm, Or.inl rfl⟩
    · rintro ⟨h, _⟩
      rw [h]
  | some u =>
    rw [ViewfsReparseFilename_some conf rootnsid filename u hp]
    by_cases h1 : u.Scheme ≠ "viewfs".toList ∧ u.Scheme ≠ []
    · rw [if_pos h1]
      constructor
      · intro h
        injection h with h
        exact ⟨h.symm, Or.inr ⟨u, rfl, Or.inl h1⟩⟩
      · rintro ⟨h, _⟩
        rw [h]
    · by_cases h2 : u.Host ≠ [] ∧ rootnsid ≠ []
      · rw [if_neg h1, if_pos h2]
        constructor
        · intro h
          injection h with h
          exact ⟨h.symm, Or.inr ⟨u, rfl, Or.inr h2⟩⟩
        · rintro ⟨h, _⟩
          rw [h]
      · rw [if_neg h1, if_neg h2]
        constructor
        · intro h
          exfalso
          cases hn : reparseNsid conf rootnsid u.Host with
          | ok nsid0 =>
            rw [hn] at h
            exact reparseLoop_not_fail conf _ _ _ e _ h
          | fail e2 => exact reparseNsid_not_fail conf rootnsid u.Host e2 hn
          | panicked =>
            rw [hn] at h
            exact Res.noConfusion h
        · rintro ⟨_, h | ⟨u2, hu, h⟩⟩
          · exact Option.noConfusion h
          · injection hu with hu
            subst hu
            rcases h with h | h
            · exact absurd h h1
            · exact absurd h h2

set_option maxRecDepth 100000 in
/-- C4, failing input.  The filename `/x/y` parses, has no scheme and no host, and its
prefix `/x` has the mount target `hdfs://N/%zz`; the substituted URL `hdfs://N/%zz/y` is
rejected by `url.Parse`, the code drops that error and dereferences the nil URL, so the
call ends in a panic: it returns neither a result with a nil error nor an error. -/
theorem C4_reparse_panics_on_unparsable_target :
    urlParse "/x/y".toList = some { Scheme := [], Host := [], Path := "/x/y".toList }
    ∧ urlParse "hdfs://N/%zz/y".toList = none
    ∧ ViewfsReparseFilename confBadTarget "ns".toList "/x/y".toList = Res.panicked := by
  decide

/-! ## C5: a mount target that is itself a viewfs URL -/

set_option maxRecDepth 100000 in
/-- C5.  The mount entry `/a` of namespace `nsX` has the viewfs target
`viewfs://other/b`.  Reparsing `/a/c` returns the identifier `other`, the name of a viewfs
namespace, without the marker `viewfs://` by which `normalizePaths` tells an unresolved
result; so `normalizePaths` on `viewfs://nsX/a/c` does not reject the input as an unmapped
mount point: it returns the viewfs namespace `other` as the resolved cluster identity. -/
theorem C5_viewfs_target_returned_as_identity :
    ViewfsReparseFilename confChained "viewfs://nsX".toList "/a/c".toList
        = Res.ok ("other".toList, "/b/c".toList)
    ∧ hasPrefix "other".toList viewfsMarker = false
    ∧ normalizePaths envChained ["viewfs://nsX/a/c".toList]
        = Res.ok (["/b/c".toList], "other".toList) := by
  decide

theorem reparseNsid_root (conf : HadoopConf) (rootnsid : Str) (h : rootnsid ≠ []) :
    reparseNsid conf rootnsid [] = Res.ok rootnsid := by
  simp [reparseNsid, h]

/-- The extent of the defect of chained mounts: whenever the mount entry matched for the
path of a viewfs URL has a target that is itself a viewfs URL, `ViewfsReparseFilename`
returns the host of the target, a viewfs namespace, as identifier; that identifier never
begins with `viewfs://`, so the test of `normalizePaths` for an unresolved result cannot
fire, and `normalizePaths` returns the viewfs namespace (when it is not empty) as the
resolved cluster identity. -/
theorem chained_mount_returns_target_host (env : Env) (rawurl : Str) (url u t : URL)
    (i : Nat) (value : Str)
    (henv : env.confErr = false)
    (hraw : urlParse rawurl = some url) (hrawScheme : url.Scheme = "viewfs".toList)
    (hrawHost : url.Host ≠ [])
    (hparse : urlParse url.Path = some u)
    (hscheme : u.Scheme = "viewfs".toList ∨ u.Scheme = [])
    (hhost : u.Host = [])
    (hi : 0 < i) (hile : i ≤ (pathDirs u.Path).length)
    (hmatch : mountAt env.conf url.Host (pathDirs u.Path) i = some value)
    (hlonger : ∀ j, i < j → j ≤ (pathDirs u.Path).length →
      mountAt env.conf url.Host (pathDirs u.Path) j = none)
    (htarget : urlParse (value ++ "/".toList ++ filepathJoin ((pathDirs u.Path).drop i))
      = some t)
    (_htScheme : t.Scheme = "viewfs".toList) (htHost : t.Host ≠ []) :
    ViewfsReparseFilename env.conf (viewfsMarker ++ url.Host) url.Path
        = Res.ok (t.Host, t.Path)
    ∧ hasPrefix t.Host viewfsMarker = false
    ∧ normalizePaths env [rawurl] = Res.ok ([t.Path], t.Host) := by
  have hroot : viewfsMarker ++ url.Host ≠ [] := by
    intro e
    exact hrawHost (List.append_eq_nil.mp e).2
  have hns : reparseNsid env.conf (viewfsMarker ++ url.Host) u.Host
      = Res.ok (viewfsMarker ++ url.Host) := by
    rw [hhost]
    exact reparseNsid_root env.conf _ hroot
  have hre : ViewfsReparseFilename env.conf (viewfsMarker ++ url.Host) url.Path
      = Res.ok (t.Host, t.Path) := by
    rw [ViewfsReparseFilename_accepted env.conf _ url.Path u _ hparse hscheme (Or.inl hhost) hns,
      trimPrefix_append,
      reparseLoop_longest env.conf url.Host u.Path (pathDirs u.Path) i value hi hmatch _ hile
        hlonger]
    unfold mountSubstitute
    simp only []
    rw [htarget]
  have hnot := urlParse_host_not_viewfs _ t htarget
  refine ⟨hre, hnot, ?_⟩
  have hs1 : url.Scheme ≠ [] := by
    rw [hrawScheme]; decide
  have hone : normalizeOne env [] rawurl = Res.ok (t.Host, t.Path) := by
    unfold normalizeOne
    rw [hraw]
    have hs2 : ¬ ("viewfs".toList = ([] : Str)) := by decide
    simp only [hs1, if_false, hrawScheme, true_or, if_true, hrawHost, ne_eq, not_false_eq_true,
      hre, hnot, Bool.false_eq_true, not_true_eq_false, false_and, hs2]
  unfold normalizePaths
  simp only [henv, Bool.false_eq_true, if_false, normalizeLoop, hone, List.nil_append, htHost,
    ne_eq, not_false_eq_true, true_or, if_true]

set_option maxRecDepth 100000 in
/-- An instance of `chained_mount_returns_target_host`: the viewfs URL
`viewfs://nsX/a/c` with the mount entry `/a` to `viewfs://other/b`. -/
theorem chained_mount_returns_target_host_example :
    ViewfsReparseFilename confChained (viewfsMarker ++ "nsX".toList) "/a/c".toList
        = Res.ok ("other".toList, "/b/c".toList)
    ∧ hasPrefix "other".toList viewfsMarker = false
    ∧ normalizePaths envChained ["viewfs://nsX/a/c".toList]
        = Res.ok (["/b/c".toList], "other".toList) :=
  chained_mount_returns_target_host envChained "viewfs://nsX/a/c".toList
    { Scheme := "viewfs".toList, Host := "nsX".toList, Path := "/a/c".toList }
    { Scheme := [], Host := [], Path := "/a/c".toList }
    { Scheme := "viewfs".toList, Host := "other".toList, Path := "/b/c".toList }
    2 "viewfs://other/b".toList
    (by decide) (by decide) (by decide) (by decide) (by decide) (by decide) (by decide)
    (by decide) (by decide) (by decide)
    (by
      intro j h1 h2
      have h3 : (pathDirs "/a/c".toList).length = 3 := by decide
      simp only [h3] at h2
      have hj : j = 3 := by omega
      subst hj
      decide)
    (by decide) (by decide) (by decide)

/-! ## C6: the effective namespace -/

set_option maxRecDepth 100000 in
/-- C6, counterexample.  With the default file system `viewfs://nsX`: for `X` empty the
root namespace `viewfs://` is used as it is (namespace empty) while the empty root namespace
falls back to the default (namespace `nsX`); for `X = viewfs://nsX` only one marker is
stripped from `viewfs://viewfs://nsX`. -/
theorem C6_counterexample :
    ViewfsReparseFilename confViewfs (viewfsMarker ++ []) "/norm".toList
        = Res.ok ("viewfs://".toList, "/norm".toList)
    ∧ ViewfsReparseFilename confViewfs [] "/norm".toList
        = Res.ok ("viewfs://nsX".toList, "/norm".toList)
    ∧ ViewfsReparseFilename confViewfs (viewfsMarker ++ "viewfs://nsX".toList) "/norm".toList
        = Res.ok ("viewfs://viewfs://nsX".toList, "/norm".toList)
    ∧ ViewfsReparseFilename confViewfs "viewfs://nsX".toList "/norm".toList
        = Res.ok ("viewfs://nsX".toList, "/norm".toList) := by
  decide

theorem reparseNsid_default (conf : HadoopConf) :
    reparseNsid conf [] [] = DefaultNSID conf := by
  simp [reparseNsid]

/-- C6 (amended).  For every configuration, every `X` that does not itself begin with
`viewfs://` and every filename `p` without a host component: when `X` is not empty,
`ViewfsReparseFilename("viewfs://" + X, p)` equals `ViewfsReparseFilename(X, p)`; and when
`DefaultNSID()` is `"viewfs://" + X`, both equal `ViewfsReparseFilename("", p)`. -/
theorem C6_reparse_effective_namespace (conf : HadoopConf) (X p : Str)
    (hX : hasPrefix X viewfsMarker = false)
    (hp : ∀ u, urlParse p = some u → u.Host = []) :
    (X ≠ [] →
      ViewfsReparseFilename conf (viewfsMarker ++ X) p = ViewfsReparseFilename conf X p)
    ∧ (DefaultNSID conf = Res.ok (viewfsMarker ++ X) →
      ViewfsReparseFilename conf (viewfsMarker ++ X) p = ViewfsReparseFilename conf [] p
      ∧ ViewfsReparseFilename conf X p = ViewfsReparseFilename conf [] p) := by
  have hmarker : viewfsMarker ++ X ≠ [] := by
    intro e
    have := (List.append_eq_nil.mp e).1
    exact absurd this (by decide)
  cases hparse : urlParse p with
  | none =>
    simp only [ViewfsReparseFilename_none conf _ p hparse, implies_true, and_self]
  | some u =>
    have hhost := hp u hparse
    have hc : ∀ r : Str, ¬ (u.Host ≠ [] ∧ r ≠ []) := fun r h => h.1 hhost
    have hroot : reparseNsid conf (viewfsMarker ++ X) u.Host = Res.ok (viewfsMarker ++ X) := by
      rw [hhost]; exact reparseNsid_root conf _ hmarker
    simp only [ViewfsReparseFilename_some conf _ p u hparse, hc, if_false, hroot,
      trimPrefix_append]
    constructor
    · intro hne
      have hx : reparseNsid conf X u.Host = Res.ok X := by
        rw [hhost]; exact reparseNsid_root conf _ hne
      simp only [hx, trimPrefix_of_not_hasPrefix _ _ hX]
    · intro hdef
      have hd : reparseNsid conf [] u.Host = Res.ok (viewfsMarker ++ X) := by
        rw [hhost, reparseNsid_default, hdef]
      simp only [hd, trimPrefix_append, true_and]
      by_cases hne : X = []
      · subst hne
        simp only [hd, trimPrefix_append]
      · have hx : reparseNsid conf X u.Host = Res.ok X := by
          rw [hhost]; exact reparseNsid_root conf _ hne
        simp only [hx, trimPrefix_of_not_hasPrefix _ _ hX]

set_option maxRecDepth 100000 in
/-- C6, witness: `X = nsX`, the default file system `viewfs://nsX` and the path
`/user/sub`: the three calls agree, on the target of the mount entry `/user/sub`. -/
theorem C6_reparse_effective_namespace_witness :
    ViewfsReparseFilename confViewfs (viewfsMarker ++ "nsX".toList) "/user/sub".toList
        = ViewfsReparseFilename confViewfs "nsX".toList "/user/sub".toList
    ∧ ViewfsReparseFilename confViewfs (viewfsMarker ++ "nsX".toList) "/user/sub".toList
        = ViewfsReparseFilename confViewfs [] "/user/sub".toList
    ∧ ViewfsReparseFilename confViewfs "nsX".toList "/user/sub".toList
        = ViewfsReparseFilename confViewfs [] "/user/sub".toList
    ∧ ViewfsReparseFilename confViewfs [] "/user/sub".toList
        = Res.ok ("SunshineNameNode4".toList, "/_sub/".toList) :=
  have h := C6_reparse_effective_namespace confViewfs "nsX".toList "/user/sub".toList
    (by decide)
    (by
      intro u h
      have hu : urlParse "/user/sub".toList
          = some { Scheme := [], Host := [], Path := "/user/sub".toList } := by decide
      rw [hu] at h
      injection h with h
      subst h
      rfl)
  ⟨h.1 (by decide), (h.2 (by decide)).1, (h.2 (by decide)).2, by decide⟩

/-! ## `sort.Strings` -/

theorem strLe_total (a b : Str) : strLe a b = true ∨ strLe b a = true := by
  induction a generalizing b with
  | nil => left; cases b <;> rfl
  | cons x xs ih =>
    cases b with
    | nil => right; rfl
    | cons y ys =>
      simp only [strLe, Bool.or_eq_true, Bool.and_eq_true, decide_eq_true_eq]
      rcases Nat.lt_trichotomy x.toNat y.toNat with h | h | h
      · exact Or.inl (Or.inl h)
      · have hxy : x = y := by
          rw [← Char.ofNat_toNat x, ← Char.ofNat_toNat y, h]
        subst hxy
        rcases ih ys with h2 | h2
        · exact Or.inl (Or.inr ⟨rfl, h2⟩)
        · exact Or.inr (Or.inr ⟨rfl, h2⟩)
      · exact Or.inr (Or.inl h)

theorem strLe_trans (a b c : Str) (hab : strLe a b = true) (hbc : strLe b c = true) :
    strLe a c = true := by
  induction a generalizing b c with
  | nil => cases c <;> rfl
  | cons x xs ih =>
    cases b with
    | nil => simp [strLe] at hab
    | cons y ys =>
      cases c with
      | nil => simp [strLe] at hbc
      | cons z zs =>
        simp only [strLe, Bool.or_eq_true, Bool.and_eq_true, decide_eq_true_eq] at hab hbc ⊢
        rcases hab with h1 | ⟨h1, h1'⟩
        · rcases hbc with h2 | ⟨h2, _⟩
          · exact Or.inl (Nat.lt_trans h1 h2)
          · subst h2; exact Or.inl h1
        · subst h1
          rcases hbc with h2 | ⟨h2, h2'⟩
          · exact Or.inl h2
          · exact Or.inr ⟨h2, ih ys zs h1' h2'⟩

theorem insertSorted_perm (x : Str) (l : List Str) : (insertSorted x l).Perm (x :: l) := by
  induction l with
  | nil => exact List.Perm.refl _
  | cons y ys ih =>
    unfold insertSorted
    split
    · exact List.Perm.refl _
    · exact (List.Perm.cons y ih).trans (List.Perm.swap x y ys)

theorem insertSorted_sorted (x : Str) (l : List Str)
    (h : l.Pairwise (fun a b => strLe a b = true)) :
    (insertSorted x l).Pairwise (fun a b => strLe a b = true) := by
  induction l with
  | nil => simp [insertSorted]
  | cons y ys ih =>
    rw [List.pairwise_cons] at h
    unfold insertSorted
    split
    · rename_i hxy
      rw [List.pairwise_cons]
      refine ⟨?_, List.pairwise_cons.mpr h⟩
      intro b hb
      rcases List.mem_cons.mp hb with e | e
      · subst e; exact hxy
      · exact strLe_trans x y b hxy (h.1 b e)
    · rename_i hxy
      have hyx : strLe y x = true := by
        rcases strLe_total x y with h1 | h1
        · exact absurd h1 hxy
        · exact h1
      rw [List.pairwise_cons]
      refine ⟨?_, ih h.2⟩
      intro b hb
      have hb2 := (insertSorted_perm x ys).subset hb
      rcases List.mem_cons.mp hb2 with e | e
      · subst e; exact hyx
      · exact h.1 b e

/-- The result of `sort.Strings` is a permutation of its argument. -/
theorem sortStrings_perm (l : List Str) : (sortStrings l).Perm l := by
  induction l with
  | nil => exact List.Perm.refl _
  | cons x xs ih => exact (insertSorted_perm x _).trans (List.Perm.cons x ih)

/-- The result of `sort.Strings` is in increasing byte-wise lexicographic order. -/
theorem sortStrings_sorted (l : List Str) :
    (sortStrings l).Pairwise (fun a b => strLe a b = true) := by
  induction l with
  | nil => exact List.Pairwise.nil
  | cons x xs ih => exact insertSorted_sorted x _ ih

/-! ## C7, C8, C9: `AddressesByNameServiceID` -/

theorem filterMap_haAddress (conf : HadoopConf) (nsid : Str) (ms : List Str) :
    ms.filterMap (haAddress conf nsid) =
      (ms.filterMap fun m =>
        confLookup conf ("dfs.namenode.rpc-address.".toList ++ nsid ++ ".".toList ++ m)).filter
        fun a => a != [] := by
  induction ms with
  | nil => rfl
  | cons m rest ih =>
    simp only [List.filterMap_cons, haAddress]
    cases h : confLookup conf ("dfs.namenode.rpc-address.".toList ++ nsid ++ ".".toList ++ m) with
    | none => simpa [haAddress] using ih
    | some addr =>
      by_cases ha : addr = []
      · subst ha
        simpa [haAddress] using ih
      · have hb : (addr != []) = true := by simpa using ha
        simp only [ne_eq, ha, not_false_eq_true, if_true, List.filter_cons, hb]
        rw [ih]

/-- Unfolding of `AddressesByNameServiceID` on a name-service id without a direct address
key. -/
theorem AddressesByNameServiceID_ha (conf : HadoopConf) (nsid : Str)
    (hv : hasPrefix nsid viewfsMarker = false) (hc : containsByte nsid ':' = false)
    (hdirect : confLookup conf ("dfs.namenode.rpc-address.".toList ++ nsid) = none) :
    AddressesByNameServiceID conf nsid =
      if nonEmptyMemberAddresses conf nsid = [] then ["111".toList]
      else sortStrings (nonEmptyMemberAddresses conf nsid) := by
  unfold AddressesByNameServiceID
  simp only [hv, hc, Bool.or_self, Bool.false_eq_true, if_false, hdirect,
    filterMap_haAddress, Nat.le_zero_eq, List.length_eq_zero]
  rfl

set_option maxRecDepth 100000 in
/-- C7, counterexample.  The name service `ns1` has the HA members `a` and `b`; both
address keys are present, the one of `a` with an empty value.  The addresses of the
members whose key is present are `""` and `h:1`, but the result is `[h:1]`. -/
theorem C7_counterexample :
    confLookup confHaEmpty ("dfs.namenode.rpc-address.".toList ++ "ns1".toList) = none
    ∧ haMembers confHaEmpty "ns1".toList = ["a".toList, "b".toList]
    ∧ presentMemberAddresses confHaEmpty "ns1".toList = [[], "h:1".toList]
    ∧ sortStrings (presentMemberAddresses confHaEmpty "ns1".toList) = [[], "h:1".toList]
    ∧ AddressesByNameServiceID confHaEmpty "ns1".toList = ["h:1".toList] := by
  decide

/-- C7 (amended).  For every configuration and every name-service id `nsid` (no colon, no
viewfs marker in front) without a direct address key, when at least one HA member of
`nsid` has an address key that is present with a non-empty value,
`AddressesByNameServiceID(nsid)` is exactly the sorted list of those non-empty addresses: it
is in increasing lexicographic order and a permutation of them. -/
theorem C7_ha_addresses_sorted (conf : HadoopConf) (nsid : Str)
    (hv : hasPrefix nsid viewfsMarker = false) (hc : containsByte nsid ':' = false)
    (hdirect : confLookup conf ("dfs.namenode.rpc-address.".toList ++ nsid) = none)
    (hsome : nonEmptyMemberAddresses conf nsid ≠ []) :
    AddressesByNameServiceID conf nsid = sortStrings (nonEmptyMemberAddresses conf nsid)
    ∧ (AddressesByNameServiceID conf nsid).Pairwise (fun a b => strLe a b = true)
    ∧ (AddressesByNameServiceID conf nsid).Perm (nonEmptyMemberAddresses conf nsid) := by
  have h : AddressesByNameServiceID conf nsid
      = sortStrings (nonEmptyMemberAddresses conf nsid) := by
    rw [AddressesByNameServiceID_ha conf nsid hv hc hdirect, if_neg hsome]
  rw [h]
  exact ⟨rfl, sortStrings_sorted _, sortStrings_perm _⟩

set_option maxRecDepth 100000 in
/-- C7, witness: member list `a,b` where only the address key of `a` is present, with
value `h:1`; the result is exactly `[h:1]`. -/
theorem C7_ha_addresses_sorted_witness :
    AddressesByNameServiceID confHaOne "ns1".toList = ["h:1".toList]
    ∧ (AddressesByNameServiceID confHaOne "ns1".toList).Pairwise (fun a b => strLe a b = true)
    ∧ (AddressesByNameServiceID confHaOne "ns1".toList).Perm ["h:1".toList] :=
  C7_ha_addresses_sorted confHaOne "ns1".toList (by decide) (by decide) (by decide)
    (by decide)

set_option maxRecDepth 100000 in
/-- C8, counterexample.  The configuration has the address key
`dfs.namenode.rpc-address.nn1:8020` with value `host9:9000`, but for the name `nn1:8020`,
which holds a colon, the name itself is returned. -/
theorem C8_counterexample :
    confLookup confDirect ("dfs.namenode.rpc-address.".toList ++ "nn1:8020".toList)
        = some "host9:9000".toList
    ∧ AddressesByNameServiceID confDirect "nn1:8020".toList = ["nn1:8020".toList] := by
  decide

/-- C8 (amended).  For every configuration and every name-service id `nsid` that holds no
colon and does not begin with `viewfs://`, when the address key
`dfs.namenode.rpc-address.<nsid>` is present, `AddressesByNameServiceID(nsid)` is exactly
the one-element list of that key's value, whatever HA keys are configured. -/
theorem C8_direct_address (conf : HadoopConf) (nsid addr : Str)
    (hv : hasPrefix nsid viewfsMarker = false) (hc : containsByte nsid ':' = false)
    (hdirect : confLookup conf ("dfs.namenode.rpc-address.".toList ++ nsid) = some addr) :
    AddressesByNameServiceID conf nsid = [addr] := by
  unfold AddressesByNameServiceID
  simp only [hv, hc, Bool.or_self, Bool.false_eq_true, if_false, hdirect]

set_option maxRecDepth 100000 in
/-- C8, witness: `ns1` has a direct address key and HA keys as well; the direct address
is returned. -/
theorem C8_direct_address_witness :
    AddressesByNameServiceID confDirect "ns1".toList = ["host1:8020".toList] :=
  C8_direct_address confDirect "ns1".toList "host1:8020".toList (by decide) (by decide)
    (by decide)

set_option maxRecDepth 100000 in
/-- C9, failing input.  The name service `ns1` has no direct address key and none of its
HA members has an address, yet the result is the non-empty list `["111"]`; the same for
a name service the configuration does not know at all, and for `Namenodes` when the
default name service has no address. -/
theorem C9_placeholder_returned :
    confLookup confHaNone ("dfs.namenode.rpc-address.".toList ++ "ns1".toList) = none
    ∧ nonEmptyMemberAddresses confHaNone "ns1".toList = []
    ∧ AddressesByNameServiceID confHaNone "ns1".toList = ["111".toList]
    ∧ AddressesByNameServiceID [] "ns1".toList = ["111".toList]
    ∧ Namenodes confDefaultUnknown = Res.ok ["111".toList] := by
  decide

/-! ## C10: `CheckTypeOfNameAddressString` -/

open TypeOfNamenodeAddressString in
/-- C10.  `CheckTypeOfNameAddressString` gives every reference one kind, by these rules in
order: a reference starting with `viewfs://` is `TNAS_ViewfsNameServiceID`; otherwise a
reference holding a colon is `TNAS_SimpleAddress`; otherwise a reference equal to one of the
comma-separated entries of `dfs.nameservices` (the entries `strings.Split` gives, so the
single empty entry when the key is absent or empty), or for which the key
`dfs.ha.namenodes.<ref>` is configured, is `TNAS_SimpleNameServiceID`; anything else is
`TNAS_SimpleAddress`. -/
theorem C10_classification (conf : HadoopConf) (ref : Str) :
    CheckTypeOfNameAddressString conf ref =
      if hasPrefix ref viewfsMarker = true then TNAS_ViewfsNameServiceID
      else if ':' ∈ ref then TNAS_SimpleAddress
      else if ref ∈ stringsSplit ',' (confValue conf "dfs.nameservices".toList)
          ∨ (confLookup conf ("dfs.ha.namenodes.".toList ++ ref)).isSome = true then
        TNAS_SimpleNameServiceID
      else TNAS_SimpleAddress := by
  unfold CheckTypeOfNameAddressString
  by_cases h1 : hasPrefix ref viewfsMarker = true
  · simp only [h1, if_true]
  · by_cases h2 : ':' ∈ ref
    · have h2b : containsByte ref ':' = true := by
        simpa [containsByte] using h2
      simp only [h1, if_false, h2b, h2, if_true]
    · have h2b : containsByte ref ':' = false := by
        simpa [containsByte] using h2
      simp only [h1, if_false, h2b, h2, Bool.false_eq_true]
      by_cases h3 : ref ∈ stringsSplit ',' (confValue conf "dfs.nameservices".toList)
      · have h3b : (stringsSplit ',' (confValue conf "dfs.nameservices".toList)).any
            (fun v => decide (ref = v)) = true := by
          rw [List.any_eq_true]
          exact ⟨ref, h3, by simp⟩
        simp only [h3b, if_true, h3, true_or]
      · have h3b : (stringsSplit ',' (confValue conf "dfs.nameservices".toList)).any
            (fun v => decide (ref = v)) = false := by
          rw [Bool.eq_false_iff]
          intro hany
          rw [List.any_eq_true] at hany
          obtain ⟨v, hv, he⟩ := hany
          have : ref = v := by simpa using he
          subst this
          exact h3 hv
        simp only [h3b, Bool.false_eq_true, if_false, h3, false_or]

/-! ## C11: the bare id of a viewfs namespace -/

open TypeOfNamenodeAddressString in
/-- `CheckTypeOfNameAddressString` answers `TNAS_ViewfsNameServiceID` only for a reference
that begins with `viewfs://`: the mount table is not looked at. -/
theorem CheckType_viewfs_iff (conf : HadoopConf) (ref : Str) :
    CheckTypeOfNameAddressString conf ref = TNAS_ViewfsNameServiceID ↔
      hasPrefix ref viewfsMarker = true := by
  unfold CheckTypeOfNameAddressString
  cases h1 : hasPrefix ref viewfsMarker with
  | true => simp
  | false =>
    simp only [Bool.false_eq_true, if_false, iff_false]
    by_cases h2 : containsByte ref ':' = true
    · rw [if_pos h2]; exact fun h => TypeOfNamenodeAddressString.noConfusion h
    · rw [if_neg h2]
      by_cases h3 : (stringsSplit ',' (confValue conf "dfs.nameservices".toList)).any
          (fun v => decide (ref = v)) = true
      · rw [if_pos h3]; exact fun h => TypeOfNamenodeAddressString.noConfusion h
      · rw [if_neg h3]
        by_cases h4 : (confLookup conf ("dfs.ha.namenodes.".toList ++ ref)).isSome = true
        · rw [if_pos h4]; exact fun h => TypeOfNamenodeAddressString.noConfusion h
        · rw [if_neg h4]; exact fun h => TypeOfNamenodeAddressString.noConfusion h

set_option maxRecDepth 100000 in
open TypeOfNamenodeAddressString in
/-- C11, failing input.  The configuration defines a mount table for the namespace `nsX`
(entries at `/user` and `/user/sub`), yet the bare id `nsX` is classified
`TNAS_SimpleAddress`, not `TNAS_ViewfsNameServiceID`; only `viewfs://nsX` is. -/
theorem C11_bare_viewfs_id_is_simple_address :
    confLookup confViewfs (mountKey "nsX".toList "/user".toList)
        = some "hdfs://SunshineNameNode2/_user".toList
    ∧ CheckTypeOfNameAddressString confViewfs "nsX".toList = TNAS_SimpleAddress
    ∧ CheckTypeOfNameAddressString confViewfs "viewfs://nsX".toList
        = TNAS_ViewfsNameServiceID := by
  decide

/-! ## C12: `DefaultNSID` -/

/-- What `DefaultNSID` returns when it returns: a value that begins with `viewfs://` as
it is, the host of a value that begins with `hdfs://` and parses, the empty string for
every value that begins with neither. -/
theorem DefaultNSID_cases (conf : HadoopConf) :
    (hasPrefix (DefaultFS conf) viewfsMarker = true →
      DefaultNSID conf = Res.ok (DefaultFS conf))
    ∧ (hasPrefix (DefaultFS conf) viewfsMarker = false →
        hasPrefix (DefaultFS conf) "hdfs://".toList = true →
        ∀ u, urlParse (DefaultFS conf) = some u → DefaultNSID conf = Res.ok u.Host)
    ∧ (hasPrefix (DefaultFS conf) viewfsMarker = false →
        hasPrefix (DefaultFS conf) "hdfs://".toList = false →
        DefaultNSID conf = Res.ok []) := by
  refine ⟨?_, ?_, ?_⟩
  · intro h
    unfold DefaultNSID
    simp only [h, if_true]
  · intro h1 h2 u hu
    unfold DefaultNSID
    simp only [h1, h2, hu, Bool.false_eq_true, if_false, if_true]
  · intro h1 h2
    unfold DefaultNSID
    simp only [h1, h2, Bool.false_eq_true, if_false]

set_option maxRecDepth 100000 in
/-- C12, failing input.  The default file system `hdfs://nn1/%zz` begins with `hdfs://`
but is rejected by `url.Parse`; the code drops that error and reads the host of the nil
URL, so `DefaultNSID` ends in a panic: it returns neither a host nor the empty string.
The same for `hdfs://nn1:80a0`. -/
theorem C12_default_nsid_panics_on_unparsable_url :
    DefaultFS confBadDefault = "hdfs://nn1/%zz".toList
    ∧ urlParse "hdfs://nn1/%zz".toList = none
    ∧ DefaultNSID confBadDefault = Res.panicked
    ∧ DefaultNSID confBadPort = Res.panicked := by
  decide

/-! ## The first loop of `normalizePaths` -/

/-- One iteration on an `hdfs` URL. -/
theorem normalizeOne_hdfs (env : Env) (namenode raw : Str) (u : URL)
    (hparse : urlParse raw = some u) (hs : u.Scheme = "hdfs".toList) :
    normalizeOne env namenode raw =
      if u.Host ≠ [] then
        if namenode ≠ [] ∧ namenode ≠ u.Host then Res.fail GoError.errMultipleNamenodeUrls
        else Res.ok (u.Host, u.Path)
      else Res.ok (namenode, u.Path) := by
  have h1 : ¬ ("hdfs".toList = ([] : Str)) := by decide
  have h2 : ¬ ("hdfs".toList = "viewfs".toList) := by decide
  unfold normalizeOne
  rw [hparse]
  simp only [hs, h1, h2, if_false, or_true, if_true]

/-- One iteration on a schemeless input without a host. -/
theorem normalizeOne_plain (env : Env) (namenode raw user : Str) (u : URL)
    (hparse : urlParse raw = some u) (hs : u.Scheme = []) (hh : u.Host = [])
    (huser : env.user = some user) :
    normalizeOne env namenode raw = Res.ok (namenode, homePath user u.Path) := by
  unfold normalizeOne homePath
  rw [hparse]
  simp only [hs, hh, if_true, huser, ne_eq, not_true_eq_false, if_false]
  by_cases habs : pathIsAbs u.Path = true
  · simp [habs]
  · simp [habs]

end Hdfs

namespace Hdfs

/-- What a successful iteration does to `namenode`: it is kept for an input without a
host; for an input with a host it was empty or already the identity of the input, which
is the host itself unless the scheme is `viewfs`. -/
theorem normalizeOne_ok_host (env : Env) (namenode raw n1 cp : Str) (u : URL)
    (hparse : urlParse raw = some u)
    (hok : normalizeOne env namenode raw = Res.ok (n1, cp)) :
    (u.Host = [] → n1 = namenode)
    ∧ (u.Host ≠ [] → (namenode = [] ∨ namenode = n1)
        ∧ (u.Scheme ≠ "viewfs".toList → n1 = u.Host)) := by
  unfold normalizeOne at hok
  rw [hparse] at hok
  simp only [] at hok
  split at hok
  · exact Res.noConfusion hok
  · exact Res.noConfusion hok
  · rename_i cleanPath _
    by_cases hh : u.Host = []
    · rw [if_neg (by simpa using hh)] at hok
      injection hok with hok
      injection hok with e1 e2
      exact ⟨fun _ => e1.symm, fun h => absurd hh h⟩
    · rw [if_pos hh] at hok
      refine ⟨fun h => absurd h hh, fun _ => ?_⟩
      split at hok
      · exact Res.noConfusion hok
      · exact Res.noConfusion hok
      · rename_i nsid newPath hres
        by_cases hc : namenode ≠ [] ∧ namenode ≠ nsid
        · rw [if_pos hc] at hok
          exact Res.noConfusion hok
        · rw [if_neg hc] at hok
          injection hok with hok
          injection hok with e1 e2
          subst e1
          refine ⟨?_, ?_⟩
          · by_cases hn : namenode = []
            · exact Or.inl hn
            · right
              by_contra hne
              exact hc ⟨hn, hne⟩
          · intro hs
            rw [if_neg hs] at hres
            injection hres with hres
            injection hres with e3 _
            exact e3.symm

/-- Invariant of the first loop: when it succeeds, every host of a non-viewfs input is the
final `namenode`, and a `namenode` that was set before the loop is kept. -/
theorem normalizeLoop_ok_hosts (env : Env) :
    ∀ (rest : List Str) (namenode : Str) (acc ps : List Str) (id : Str),
      normalizeLoop env namenode acc rest = Res.ok (ps, id) →
      (namenode ≠ [] → id = namenode)
      ∧ ∀ raw ∈ rest, ∀ u, urlParse raw = some u → u.Scheme ≠ "viewfs".toList →
          u.Host ≠ [] → u.Host = id := by
  intro rest
  induction rest with
  | nil =>
    intro namenode acc ps id h
    simp only [normalizeLoop] at h
    injection h with h
    injection h with _ e2
    exact ⟨fun _ => e2.symm, fun raw hr => absurd hr (List.not_mem_nil raw)⟩
  | cons raw rest ih =>
    intro namenode acc ps id h
    simp only [normalizeLoop] at h
    split at h
    · exact Res.noConfusion h
    · exact Res.noConfusion h
    · rename_i n1 cp hone
      obtain ⟨ih1, ih2⟩ := ih n1 (acc ++ [cp]) ps id h
      have hkeep : namenode ≠ [] → n1 = namenode := by
        intro hn
        cases hp : urlParse raw with
        | none =>
          unfold normalizeOne at hone
          rw [hp] at hone
          exact Res.noConfusion hone
        | some u =>
          obtain ⟨a, b⟩ := normalizeOne_ok_host env namenode raw n1 cp u hp hone
          by_cases hh : u.Host = []
          · exact a hh
          · rcases (b hh).1 with e | e
            · exact absurd e hn
            · exact e.symm
      refine ⟨?_, ?_⟩
      · intro hn
        have e := hkeep hn
        rw [← e]
        exact ih1 (by rw [e]; exact hn)
      · intro r hr u hu hs hh
        rcases List.mem_cons.mp hr with e | e
        · subst e
          obtain ⟨_, b⟩ := normalizeOne_ok_host env namenode r n1 cp u hu hone
          have e1 : n1 = u.Host := (b hh).2 hs
          have : id = n1 := ih1 (by rw [e1]; exact hh)
          rw [this, e1]
        · exact ih2 r e u hu hs hh

/-! ## C13: at most one cluster per invocation -/

/-- On `hdfs` URLs the first loop either succeeds or fails with the multiple-namenode
error. -/
theorem normalizeLoop_hdfs (env : Env) :
    ∀ (rest : List Str), (∀ raw ∈ rest, ∃ u, urlParse raw = some u ∧ u.Scheme = "hdfs".toList) →
      ∀ (namenode : Str) (acc : List Str),
        normalizeLoop env namenode acc rest = Res.fail GoError.errMultipleNamenodeUrls
        ∨ ∃ ps id, normalizeLoop env namenode acc rest = Res.ok (ps, id) := by
  intro rest
  induction rest with
  | nil =>
    intro _ namenode acc
    exact Or.inr ⟨acc, namenode, rfl⟩
  | cons raw rest ih =>
    intro hall namenode acc
    obtain ⟨u, hp, hs⟩ := hall raw (List.mem_cons_self raw rest)
    have hrest := ih (fun r hr => hall r (List.mem_cons_of_mem raw hr))
    simp only [normalizeLoop, normalizeOne_hdfs env namenode raw u hp hs]
    by_cases hh : u.Host ≠ []
    · rw [if_pos hh]
      by_cases hc : namenode ≠ [] ∧ namenode ≠ u.Host
      · rw [if_pos hc]
        exact Or.inl rfl
      · rw [if_neg hc]
        exact hrest u.Host (acc ++ [u.Path])
    · rw [if_neg hh]
      exact hrest namenode (acc ++ [u.Path])

set_option maxRecDepth 100000 in
/-- C13, counterexample.  The single input `viewfs://nsX/user/f` carries the host `nsX`;
`normalizePaths` succeeds and returns the identity `SunshineNameNode2`, which is not that
host.  And when loading the configuration fails, the list `hdfs://A/foo`, `hdfs://B/bar`
fails with the error of the configuration, not with the multiple-namenode error. -/
theorem C13_counterexample :
    urlParse "viewfs://nsX/user/f".toList
        = some { Scheme := "viewfs".toList, Host := "nsX".toList, Path := "/user/f".toList }
    ∧ normalizePaths envViewfs ["viewfs://nsX/user/f".toList]
        = Res.ok (["/_user/f".toList], "SunshineNameNode2".toList)
    ∧ normalizePaths envLoadFails ["hdfs://A/foo".toList, "hdfs://B/bar".toList]
        = Res.fail GoError.errLoadConf := by
  decide

/-- C13 (amended).  When the configuration loads: for every list of `hdfs` URLs that
contains two inputs with different non-empty hosts, `normalizePaths` fails with the
multiple-namenode error (no paths, no identity); and whenever `normalizePaths` succeeds,
the host of every input that carries one and whose scheme is not `viewfs` equals the
returned identity. -/
theorem C13_one_cluster_per_invocation (env : Env) (paths : List Str)
    (henv : env.confErr = false) :
    ((∀ raw ∈ paths, ∃ u, urlParse raw = some u ∧ u.Scheme = "hdfs".toList) →
      (∃ a b ua ub, a ∈ paths ∧ b ∈ paths ∧ urlParse a = some ua ∧ urlParse b = some ub
        ∧ ua.Host ≠ [] ∧ ub.Host ≠ [] ∧ ua.Host ≠ ub.Host) →
      normalizePaths env paths = Res.fail GoError.errMultipleNamenodeUrls)
    ∧ (∀ ps id, normalizePaths env paths = Res.ok (ps, id) →
        ∀ raw ∈ paths, ∀ u, urlParse raw = some u → u.Scheme ≠ "viewfs".toList →
          u.Host ≠ [] → u.Host = id) := by
  have hscheme : ¬ ("hdfs".toList = "viewfs".toList) := by decide
  constructor
  · intro hall ⟨a, b, ua, ub, ha, hb, hpa, hpb, hna, hnb, hne⟩
    unfold normalizePaths
    simp only [henv, Bool.false_eq_true, if_false]
    rcases normalizeLoop_hdfs env paths hall [] [] with h | ⟨ps, id, h⟩
    · rw [h]
    · exfalso
      obtain ⟨_, hinv⟩ := normalizeLoop_ok_hosts env paths [] [] ps id h
      have hsa : ua.Scheme ≠ "viewfs".toList := by
        obtain ⟨u, hu, hs⟩ := hall a ha
        rw [hpa] at hu
        injection hu with hu
        subst hu
        rw [hs]
        exact hscheme
      have hsb : ub.Scheme ≠ "viewfs".toList := by
        obtain ⟨u, hu, hs⟩ := hall b hb
        rw [hpb] at hu
        injection hu with hu
        subst hu
        rw [hs]
        exact hscheme
      have e1 := hinv a ha ua hpa hsa hna
      have e2 := hinv b hb ub hpb hsb hnb
      exact hne (e1.trans e2.symm)
  · intro ps id hok raw hr u hu hs hh
    unfold normalizePaths at hok
    simp only [henv, Bool.false_eq_true, if_false] at hok
    split at hok
    · exact Res.noConfusion hok
    · exact Res.noConfusion hok
    · rename_i cleanPaths namenode hloop
      obtain ⟨_, hinv⟩ := normalizeLoop_ok_hosts env paths [] [] cleanPaths namenode hloop
      have e1 := hinv raw hr u hu hs hh
      by_cases hc : namenode ≠ [] ∨ env.hadoopNamenode ≠ []
      · rw [if_pos hc] at hok
        injection hok with hok
        injection hok with _ e2
        rw [e1, e2]
      · exfalso
        apply hc
        left
        rw [← e1]
        exact hh

set_option maxRecDepth 100000 in
/-- C13, witness: the inputs `hdfs://A/foo` and `hdfs://B/bar` fail with the
multiple-namenode error. -/
theorem C13_one_cluster_per_invocation_witness :
    normalizePaths envViewfs ["hdfs://A/foo".toList, "hdfs://B/bar".toList]
      = Res.fail GoError.errMultipleNamenodeUrls :=
  (C13_one_cluster_per_invocation envViewfs ["hdfs://A/foo".toList, "hdfs://B/bar".toList]
    (by decide)).1
    (by
      intro raw hr
      simp only [List.mem_cons, List.mem_singleton, List.not_mem_nil, or_false] at hr
      rcases hr with e | e
      · subst e
        exact ⟨{ Scheme := "hdfs".toList, Host := "A".toList, Path := "/foo".toList },
          by decide, by decide⟩
      · subst e
        exact ⟨{ Scheme := "hdfs".toList, Host := "B".toList, Path := "/bar".toList },
          by decide, by decide⟩)
    ⟨"hdfs://A/foo".toList, "hdfs://B/bar".toList,
      { Scheme := "hdfs".toList, Host := "A".toList, Path := "/foo".toList },
      { Scheme := "hdfs".toList, Host := "B".toList, Path := "/bar".toList },
      by decide, by decide, by decide, by decide, by decide, by decide, by decide⟩

/-! ## C14: schemeless inputs -/

/-- The first loop on schemeless inputs without a host: every input is cleaned on its
own, `namenode` is kept. -/
theorem normalizeLoop_plain (env : Env) (user : Str) (huser : env.user = some user) :
    ∀ (rest : List Str),
      (∀ raw ∈ rest, ∃ u, urlParse raw = some u ∧ u.Scheme = [] ∧ u.Host = []) →
      ∀ (namenode : Str) (acc : List Str),
        normalizeLoop env namenode acc rest
          = Res.ok (acc ++ rest.map (fun raw => homePath user (urlPathOf raw)), namenode) := by
  intro rest
  induction rest with
  | nil =>
    intro _ namenode acc
    simp [normalizeLoop]
  | cons raw rest ih =>
    intro hall namenode acc
    obtain ⟨u, hp, hs, hh⟩ := hall raw (List.mem_cons_self raw rest)
    have hpath : urlPathOf raw = u.Path := by simp [urlPathOf, hp]
    simp only [normalizeLoop, normalizeOne_plain env namenode raw user u hp hs hh huser]
    rw [ih (fun r hr => hall r (List.mem_cons_of_mem raw hr)), List.map_cons, hpath]
    simp

set_option maxRecDepth 100000 in
/-- C14, counterexample.  Without configuration and override, the absolute inputs
`/logs/100%25` and `/a?b` are schemeless and host-less, but they are not returned as
given: the first comes back as `/logs/100%`, the second as `/a`. -/
theorem C14_counterexample :
    urlParse "/logs/100%25".toList
        = some { Scheme := [], Host := [], Path := "/logs/100%".toList }
    ∧ normalizePaths envPlain ["/logs/100%25".toList, "/a?b".toList]
        = Res.ok (["/logs/100%".toList, "/a".toList], []) := by
  decide

/-- C14 (amended).  When the configuration loads, the user is resolved, no
`HADOOP_NAMENODE` override is set and the default identity is not viewfs-shaped, then for
inputs that all parse without scheme and host `normalizePaths` returns one cleaned path
per input, in input order, with an empty identity: the path component `p` of the input
(URL-decoded, without query and fragment) is returned as it is when it is absolute and as
`path.Join("/user", user, p)` when it is relative; an absolute input of plain bytes that
does not start with `//` is returned exactly as given. -/
theorem C14_schemeless_inputs (env : Env) (user d : Str) (paths : List Str)
    (henv : env.confErr = false) (huser : env.user = some user)
    (hover : env.hadoopNamenode = [])
    (hdef : DefaultNSID env.conf = Res.ok d) (hd : hasPrefix d viewfsMarker = false)
    (hin : ∀ raw ∈ paths, ∃ u, urlParse raw = some u ∧ u.Scheme = [] ∧ u.Host = []) :
    normalizePaths env paths
        = Res.ok (paths.map (fun raw => homePath user (urlPathOf raw)), [])
    ∧ (∀ raw, pathIsAbs (urlPathOf raw) = false →
        homePath user (urlPathOf raw) = pathJoin ["/user".toList, user, urlPathOf raw])
    ∧ (∀ raw, hasPrefix raw ['/'] = true → hasPrefix raw ['/', '/'] = false →
        raw.all plainByte = true → homePath user (urlPathOf raw) = raw) := by
  refine ⟨?_, ?_, ?_⟩
  · unfold normalizePaths
    simp only [henv, Bool.false_eq_true, if_false,
      normalizeLoop_plain env user huser paths hin [] [], List.nil_append, hover, ne_eq,
      not_true_eq_false, or_self, hdef, hd, Bool.not_false, if_true]
  · intro raw hrel
    simp [homePath, hrel]
  · intro raw h1 h2 h3
    have hp := urlParse_plain_path raw h1 h2 h3
    have hpath : urlPathOf raw = raw := by simp [urlPathOf, hp]
    have habs : pathIsAbs raw = true := h1
    simp [homePath, hpath, habs]

set_option maxRecDepth 100000 in
/-- C14, witness: without configuration, for the user `me`, the relative input `a/b`
becomes `/user/me/a/b` and the absolute input `/tmp/x` is returned as given. -/
theorem C14_schemeless_inputs_witness :
    normalizePaths envPlain ["a/b".toList, "/tmp/x".toList]
      = Res.ok (["/user/me/a/b".toList, "/tmp/x".toList], []) :=
  (C14_schemeless_inputs envPlain "me".toList [] ["a/b".toList, "/tmp/x".toList]
    (by decide) (by decide) (by decide) (by decide) (by decide)
    (by
      intro raw hr
      simp only [List.mem_cons, List.mem_singleton, List.not_mem_nil, or_false] at hr
      rcases hr with e | e
      · subst e
        exact ⟨{ Scheme := [], Host := [], Path := "a/b".toList }, by decide, rfl, rfl⟩
      · subst e
        exact ⟨{ Scheme := [], Host := [], Path := "/tmp/x".toList }, by decide, rfl, rfl⟩)).1

/-! ## C15: the reparse against the default viewfs namespace -/

/-- What holds when the second loop of `normalizePaths` succeeds: the returned identity is
not empty, every path was reparsed with a nil error to a result that is not viewfs-shaped,
the returned paths are the reparsed paths in input order, and the identity of every result
is the returned identity or is empty. -/
theorem reparseDefaultLoop_ok (conf : HadoopConf) (d : Str) :
    ∀ (rest : List Str) (namenode : Str) (acc ps : List Str) (id : Str),
      reparseDefaultLoop conf d namenode acc rest = Res.ok (ps, id) →
      id ≠ [] ∧ (namenode ≠ [] → id = namenode)
      ∧ ∃ results : List (Str × Str),
          rest.map (ViewfsReparseFilename conf d) = results.map Res.ok
          ∧ ps = acc ++ results.map Prod.snd
          ∧ ∀ r ∈ results, hasPrefix r.1 viewfsMarker = false ∧ (r.1 = [] ∨ r.1 = id) := by
  intro rest
  induction rest with
  | nil =>
    intro namenode acc ps id h
    simp only [reparseDefaultLoop] at h
    by_cases hn : namenode = []
    · rw [if_pos hn] at h
      exact Res.noConfusion h
    · rw [if_neg hn] at h
      injection h with h
      injection h with e1 e2
      subst e1; subst e2
      exact ⟨hn, fun _ => rfl, [], rfl, by simp, fun r hr => absurd hr (List.not_mem_nil r)⟩
  | cons p rest ih =>
    intro namenode acc ps id h
    simp only [reparseDefaultLoop] at h
    split at h
    · exact Res.noConfusion h
    · exact Res.noConfusion h
    · rename_i nsid newpath hre
      by_cases hv : hasPrefix nsid viewfsMarker = true
      · rw [if_pos hv] at h
        exact Res.noConfusion h
      · rw [if_neg hv] at h
        by_cases hc : namenode ≠ [] ∧ namenode ≠ nsid
        · rw [if_pos hc] at h
          exact Res.noConfusion h
        · rw [if_neg hc] at h
          obtain ⟨h1, h2, results, h3, h4, h5⟩ := ih nsid (acc ++ [newpath]) ps id h
          refine ⟨h1, ?_, (nsid, newpath) :: results, ?_, ?_, ?_⟩
          · intro hn
            have e : namenode = nsid := by
              by_contra hne
              exact hc ⟨hn, hne⟩
            rw [e]
            exact h2 (by rw [← e]; exact hn)
          · simp only [List.map_cons, hre, h3]
          · rw [h4]
            simp
          · intro r hr
            rcases List.mem_cons.mp hr with e | e
            · subst e
              refine ⟨by simpa using hv, ?_⟩
              by_cases hn : nsid = []
              · exact Or.inl hn
              · exact Or.inr (h2 hn).symm
            · exact h5 r e

set_option maxRecDepth 100000 in
/-- C15, failing input.  The default identity is `viewfs://ns`; `/a/f` reparses to the
empty identity (its mount target `file:///x` has no host) and `/b/g` to the identity `A`.
For the inputs `/a/f`, `/b/g` the call succeeds with the identity `A`, although the first
result has another identity; for the same inputs in the other order it fails with the
multiple-namenode error. -/
theorem C15_default_reparse_accepts_disagreeing_results :
    DefaultNSID confMixed = Res.ok "viewfs://ns".toList
    ∧ ViewfsReparseFilename confMixed "viewfs://ns".toList "/a/f".toList
        = Res.ok ([], "/x/f".toList)
    ∧ ViewfsReparseFilename confMixed "viewfs://ns".toList "/b/g".toList
        = Res.ok ("A".toList, "/y/g".toList)
    ∧ normalizePaths envMixed ["/a/f".toList, "/b/g".toList]
        = Res.ok (["/x/f".toList, "/y/g".toList], "A".toList)
    ∧ normalizePaths envMixed ["/b/g".toList, "/a/f".toList]
        = Res.fail GoError.errMultipleNamenodeUrls := by
  decide

/-! ## C16: `hasGlob` -/

theorem isEmpty_false_iff_exists_mem (l : List Nat) : l.isEmpty = false ↔ ∃ e, e ∈ l := by
  cases l with
  | nil => simp
  | cons a t => simp

theorem cls_ends_mem (s : Str) (negated : Bool) (set : List Char) (k e : Nat) :
    e ∈ (Regex.cls negated set).ends s k ↔
      ∃ c, s[k]? = some c ∧ (decide (c ∈ set) != negated) = true ∧ e = k + 1 := by
  simp only [Regex.ends]
  cases hk : s[k]? with
  | none => simp
  | some c =>
    have he : List.elem c set = decide (c ∈ set) := by simp
    simp only [he]
    by_cases h : decide (c ∈ set) = negated
    · simp [h]
    · simp [h]

/-- The matches of the pattern of `hasGlob` that start at position `j`: a byte other than
a backslash followed by a metacharacter, or a metacharacter at the start of the text. -/
theorem globPattern_ends (s : Str) (j : Nat) :
    (globPattern.ends s j).isEmpty = false ↔
      (∃ b c, s[j]? = some b ∧ b ≠ '\\' ∧ s[j + 1]? = some c
          ∧ (c = '[' ∨ c = '*' ∨ c = '?'))
      ∨ (j = 0 ∧ ∃ c, s[0]? = some c ∧ (c = '[' ∨ c = '*' ∨ c = '?')) := by
  rw [isEmpty_false_iff_exists_mem]
  simp only [globPattern, Regex.ends.eq_3, Regex.ends.eq_4, List.mem_flatMap, List.mem_append,
    cls_ends_mem]
  have hmeta : ∀ c : Char, (decide (c ∈ ['[', '*', '?']) != false) = true ↔
      (c = '[' ∨ c = '*' ∨ c = '?') := by
    intro c
    simp
  have hesc : ∀ b : Char, (decide (b ∈ ['\\']) != true) = true ↔ b ≠ '\\' := by
    intro b
    simp
  constructor
  · rintro ⟨e, m, hm, c, hc1, hc2, _⟩
    rcases hm with ⟨b, hb1, hb2, hb3⟩ | hm
    · left
      subst hb3
      exact ⟨b, c, hb1, (hesc b).mp hb2, hc1, (hmeta c).mp hc2⟩
    · right
      simp only [Regex.ends] at hm
      by_cases h0 : j = 0
      · subst h0
        simp only [if_true, List.mem_singleton] at hm
        subst hm
        exact ⟨rfl, c, hc1, (hmeta c).mp hc2⟩
      · simp [h0] at hm
  · rintro (⟨b, c, hb1, hb2, hc1, hc2⟩ | ⟨h0, c, hc1, hc2⟩)
    · exact ⟨j + 1 + 1, j + 1, Or.inl ⟨b, hb1, (hesc b).mpr hb2, rfl⟩, c, hc1,
        (hmeta c).mpr hc2, rfl⟩
    · subst h0
      refine ⟨0 + 1, 0, Or.inr ?_, c, hc1, (hmeta c).mpr hc2, rfl⟩
      simp [Regex.ends]

/-- C16.  `hasGlob(s)` is true exactly when `s` holds an unescaped wildcard metacharacter:
there is a position `i` such that `s[i]` is one of `*`, `?`, `[` and either `i = 0` or the
byte right before it is not a backslash. -/
theorem C16_hasGlob_iff (s : Str) :
    hasGlob s = true ↔
      ∃ i c, s[i]? = some c ∧ (c = '*' ∨ c = '?' ∨ c = '[')
        ∧ (i = 0 ∨ ∃ b, s[i - 1]? = some b ∧ b ≠ '\\') := by
  unfold hasGlob regexpMatchString
  rw [List.any_eq_true]
  constructor
  · rintro ⟨j, _, hj⟩
    have hj2 : (globPattern.ends s j).isEmpty = false := by simpa using hj
    rcases (globPattern_ends s j).mp hj2 with ⟨b, c, hb1, hb2, hc1, hc2⟩ | ⟨_, c, hc1, hc2⟩
    · refine ⟨j + 1, c, hc1, ?_, Or.inr ⟨b, by simpa using hb1, hb2⟩⟩
      tauto
    · refine ⟨0, c, hc1, ?_, Or.inl rfl⟩
      tauto
  · rintro ⟨i, c, hc1, hc2, hpre⟩
    have hc3 : c = '[' ∨ c = '*' ∨ c = '?' := by tauto
    have hlt : i < s.length := by
      rcases Nat.lt_or_ge i s.length with h | h
      · exact h
      · rw [List.getElem?_eq_none h] at hc1
        exact Option.noConfusion hc1
    rcases hpre with h0 | ⟨b, hb1, hb2⟩
    · subst h0
      refine ⟨0, List.mem_range.mpr (Nat.succ_pos _), ?_⟩
      have := (globPattern_ends s 0).mpr (Or.inr ⟨rfl, c, hc1, hc3⟩)
      simp [this]
    · by_cases h0 : i = 0
      · subst h0
        refine ⟨0, List.mem_range.mpr (Nat.succ_pos _), ?_⟩
        have := (globPattern_ends s 0).mpr (Or.inr ⟨rfl, c, hc1, hc3⟩)
        simp [this]
      · obtain ⟨k, rfl⟩ : ∃ k, i = k + 1 := ⟨i - 1, by omega⟩
        simp only [Nat.add_sub_cancel] at hb1
        refine ⟨k, List.mem_range.mpr (by omega), ?_⟩
        have := (globPattern_ends s k).mpr (Or.inl ⟨b, c, hb1, hb2, hc1, hc3⟩)
        simp [this]

/-! ## C18, C19: `expandPaths` -/

theorem expandPathsFrom_noGlob {σ : Type} (c : Client σ) (fuel : Nat) :
    ∀ (paths res : List Str) (w : World σ), (∀ p ∈ paths, hasGlob p = false) →
      expandPathsFrom c fuel paths res w = some (Res.ok (res ++ paths), w) := by
  intro paths
  induction paths with
  | nil =>
    intro res w _
    simp [expandPathsFrom]
  | cons p rest ih =>
    intro res w h
    have hp : hasGlob p = false := h p (List.mem_cons_self p rest)
    simp only [expandPathsFrom, hp, Bool.false_eq_true, if_false]
    rw [ih (res ++ [p]) w (fun q hq => h q (List.mem_cons_of_mem p hq))]
    simp

theorem expandPathsFrom_append {σ : Type} (c : Client σ) (fuel : Nat) :
    ∀ (pre rest res res1 : List Str) (w w1 : World σ),
      expandPathsFrom c fuel pre res w = some (Res.ok res1, w1) →
      expandPathsFrom c fuel (pre ++ rest) res w = expandPathsFrom c fuel rest res1 w1 := by
  intro pre
  induction pre with
  | nil =>
    intro rest res res1 w w1 h
    simp only [expandPathsFrom] at h
    injection h with h
    injection h with h1 h2
    injection h1 with h1
    subst h1; subst h2
    rfl
  | cons p pre ih =>
    intro rest res res1 w w1 h
    simp only [List.cons_append, expandPathsFrom] at h ⊢
    by_cases hg : hasGlob p = true
    · rw [if_pos hg] at h ⊢
      cases he : expandGlobs c fuel p w with
      | none => rw [he] at h; exact Option.noConfusion h
      | some r =>
        obtain ⟨r1, w2⟩ := r
        rw [he] at h
        cases r1 with
        | fail e =>
          simp only [] at h
          injection h with h
          injection h with h1 _
          exact Res.noConfusion h1
        | panicked =>
          simp only [] at h
          injection h with h
          injection h with h1 _
          exact Res.noConfusion h1
        | ok expanded =>
          simp only [] at h ⊢
          by_cases hz : expanded.length = 0
          · rw [if_pos hz] at h
            injection h with h
            injection h with h1 _
            exact Res.noConfusion h1
          · rw [if_neg hz] at h ⊢
            exact ih rest _ res1 w2 w1 h
    · rw [if_neg hg] at h ⊢
      exact ih rest _ res1 w w1 h

/-- C18.  When the paths before `p` are expanded without error and the
wildcard-containing path `p` then expands to zero entries, `expandPaths` fails, returning
no paths, with the not-found path error `PathError{"stat", p, ErrNotExist}`, whose path is
the unexpanded input `p`. -/
theorem C18_empty_expansion_fails {σ : Type} (c : Client σ) (fuel : Nat)
    (pre post res1 : List Str) (p : Str) (w w1 w2 : World σ)
    (hpre : expandPaths c fuel pre w = some (Res.ok res1, w1))
    (hglob : hasGlob p = true)
    (hempty : expandGlobs c fuel p w1 = some (Res.ok [], w2)) :
    expandPaths c fuel (pre ++ p :: post) w
      = some (Res.fail (GoError.errPathError "stat".toList p RemoteErr.notExist), w2) := by
  unfold expandPaths at hpre ⊢
  rw [expandPathsFrom_append c fuel pre (p :: post) [] res1 w w1 hpre]
  simp only [expandPathsFrom, hglob, if_true, hempty, List.length_nil]

/-- C19.  For every list of paths none of which holds an unescaped wildcard, `expandPaths`
returns the same list, and the state of the remote side and the log of the calls are what
they were: no remote call is issued. -/
theorem C19_no_wildcard_unchanged {σ : Type} (c : Client σ) (fuel : Nat)
    (paths : List Str) (w : World σ) (h : ∀ p ∈ paths, hasGlob p = false) :
    expandPaths c fuel paths w = some (Res.ok paths, w) := by
  unfold expandPaths
  rw [expandPathsFrom_noGlob c fuel paths [] w h]
  simp

end Hdfs

namespace Hdfs

set_option maxRecDepth 100000 in
/-- C18, witness: `/a/*.csv` matches no entry of `/a`; after the plain path `/tmp/f`, the
call fails with the not-found error for `/a/*.csv`. -/
theorem C18_empty_expansion_fails_witness :
    expandPaths exampleClient 1 ["/tmp/f".toList, "/a/*.csv".toList, "/a/*.txt".toList] world0
      = some (Res.fail (GoError.errPathError "stat".toList "/a/*.csv".toList RemoteErr.notExist),
          { state := (), log := [Call.readDir "/a".toList] }) :=
  C18_empty_expansion_fails exampleClient 1 ["/tmp/f".toList] ["/a/*.txt".toList]
    ["/tmp/f".toList] "/a/*.csv".toList world0 world0
    { state := (), log := [Call.readDir "/a".toList] }
    (by decide) (by decide) (by decide)

set_option maxRecDepth 100000 in
/-- C19, witness: the paths `/a/b` and `/c\*` hold no unescaped wildcard and come back
unchanged, without any call. -/
theorem C19_no_wildcard_unchanged_witness :
    expandPaths exampleClient 0 ["/a/b".toList, "/c\\*".toList] world0
      = some (Res.ok ["/a/b".toList, "/c\\*".toList], world0) :=
  C19_no_wildcard_unchanged exampleClient 0 ["/a/b".toList, "/c\\*".toList] world0
    (by decide)

/-! ## C20: a target that lies under the trash root -/

theorem hasPrefix_of_liesUnder (root name : Str) (h : liesUnder root name = true) :
    hasPrefix name root = true := by
  simp only [liesUnder, Bool.or_eq_true, beq_iff_eq] at h
  rcases h with h | h
  · subst h
    simpa using hasPrefix_append name []
  · unfold hasPrefix at h ⊢
    rw [List.isPrefixOf_iff_prefix] at h ⊢
    exact (List.prefix_append root ['/']).trans h

set_option maxRecDepth 100000 in
/-- C20, counterexample.  The target `/user/me/.Trash/Current/x` lies under the trash root
`/user/me/.Trash`; trash is not forced and the query of the server defaults fails.
`moveToTrash` returns that error, not the fallback signal `(false, nil)`. -/
theorem C20_counterexample :
    trashRootDir noDefaultsClient = "/user/me/.Trash".toList
    ∧ liesUnder (trashRootDir noDefaultsClient) "/user/me/.Trash/Current/x".toList = true
    ∧ moveToTrash noDefaultsClient 4 "/user/me/.Trash/Current/x".toList false world0
        = some (Res.fail (GoError.errRemote (RemoteErr.other 1)),
            { state := (), log := [Call.serverDefaults] }) := by
  decide

/-- C20 (amended).  For every target path that lies under the resolved trash root,
`moveToTrash` returns without invoking relocation: the only call it can issue is the
query of the server defaults (when trash is not forced), so no `MkdirAll` and no
`RenameForTrash` is issued.  It signals the direct-delete fallback `(false, nil)`, unless
trash is not forced and the query of the server defaults fails: then it returns the
error of the query. -/
theorem C20_target_under_trash_root {σ : Type} (c : Client σ) (fuel : Nat) (name : Str)
    (forceTrash : Bool) (w : World σ) (hunder : liesUnder (trashRootDir c) name = true) :
    ∃ r w1, moveToTrash c fuel name forceTrash w = some (r, w1)
      ∧ w1.log = w.log ++ (if forceTrash then [] else [Call.serverDefaults])
      ∧ ((forceTrash = true ∨ ∃ n, (c.ServerDefaults w.state).1 = Reply.ok n) →
          r = Res.ok false)
      ∧ (forceTrash = false → ∀ e, (c.ServerDefaults w.state).1 = Reply.err e →
          r = Res.fail (GoError.errRemote e)) := by
  have hp := hasPrefix_of_liesUnder _ _ hunder
  cases forceTrash with
  | true =>
    refine ⟨Res.ok false, w, ?_, by simp, fun _ => rfl, fun h => Bool.noConfusion h⟩
    simp [moveToTrash, hp]
  | false =>
    cases hd : (c.ServerDefaults w.state).1 with
    | err e =>
      refine ⟨Res.fail (GoError.errRemote e), (doServerDefaults c w).2, ?_, ?_, ?_, ?_⟩
      · simp [moveToTrash, doServerDefaults, hd]
      · simp [doServerDefaults]
      · rintro (h | ⟨n, h⟩)
        · exact Bool.noConfusion h
        · exact Reply.noConfusion h
      · intro _ e2 h2
        injection h2 with h2
        rw [h2]
    | ok n =>
      refine ⟨Res.ok false, (doServerDefaults c w).2, ?_, ?_, fun _ => rfl, ?_⟩
      · by_cases hn : n ≤ 0
        · simp [moveToTrash, doServerDefaults, hd, hn]
        · simp [moveToTrash, doServerDefaults, hd, hn, hp]
      · simp [doServerDefaults]
      · intro _ e h
        exact Reply.noConfusion h

set_option maxRecDepth 100000 in
/-- C20, witness: with trash enabled on the server, the target
`/user/me/.Trash/Current/x` gives the fallback signal after the query of the server
defaults alone. -/
theorem C20_target_under_trash_root_witness :
    (∃ r w1, moveToTrash exampleClient 4 "/user/me/.Trash/Current/x".toList false world0
        = some (r, w1)
      ∧ w1.log = world0.log ++ (if false then [] else [Call.serverDefaults])
      ∧ ((false = true ∨ ∃ n, (exampleClient.ServerDefaults world0.state).1 = Reply.ok n) →
          r = Res.ok false)
      ∧ (false = false → ∀ e, (exampleClient.ServerDefaults world0.state).1 = Reply.err e →
          r = Res.fail (GoError.errRemote e)))
    ∧ moveToTrash exampleClient 4 "/user/me/.Trash/Current/x".toList false world0
        = some (Res.ok false, { state := (), log := [Call.serverDefaults] }) :=
  ⟨C20_target_under_trash_root exampleClient 4 "/user/me/.Trash/Current/x".toList false
    world0 (by decide), by decide⟩

/-! ## `hasGlob` as a scan -/

theorem unescapedMeta_iff (s : Str) :
    ∀ esc, unescapedMeta esc s = true ↔
      (esc = false ∧ ∃ c, s[0]? = some c ∧ (c = '[' ∨ c = '*' ∨ c = '?'))
      ∨ ∃ j b c, s[j]? = some b ∧ b ≠ '\\' ∧ s[j + 1]? = some c
          ∧ (c = '[' ∨ c = '*' ∨ c = '?') := by
  induction s with
  | nil =>
    intro esc
    simp [unescapedMeta]
  | cons a t ih =>
    intro esc
    simp only [unescapedMeta, Bool.or_eq_true, Bool.and_eq_true, beq_iff_eq,
      Bool.not_eq_true', ih]
    constructor
    · rintro (⟨hm, he⟩ | h)
      · left
        exact ⟨he, a, by simp, by tauto⟩
      · right
        rcases h with ⟨hb, c, hc1, hc2⟩ | ⟨j, b, c, hb1, hb2, hc1, hc2⟩
        · refine ⟨0, a, c, by simp, ?_, by simpa using hc1, hc2⟩
          intro e
          subst e
          simp at hb
        · exact ⟨j + 1, b, c, by simpa using hb1, hb2, by simpa using hc1, hc2⟩
    · rintro (⟨he, c, hc1, hc2⟩ | ⟨j, b, c, hb1, hb2, hc1, hc2⟩)
      · left
        simp only [List.getElem?_cons_zero, Option.some.injEq] at hc1
        subst hc1
        exact ⟨by tauto, he⟩
      · right
        cases j with
        | zero =>
          left
          simp only [List.getElem?_cons_zero, Option.some.injEq] at hb1
          subst hb1
          refine ⟨by simpa using hb2, c, by simpa using hc1, hc2⟩
        | succ k =>
          right
          exact ⟨k, b, c, by simpa using hb1, hb2, by simpa using hc1, hc2⟩

/-- `hasGlob` scans for a metacharacter that is not right after a backslash. -/
theorem hasGlob_eq_unescapedMeta (s : Str) : hasGlob s = unescapedMeta false s := by
  rw [Bool.eq_iff_iff, unescapedMeta_iff]
  unfold hasGlob regexpMatchString
  rw [List.any_eq_true]
  constructor
  · rintro ⟨j, _, hj⟩
    have hj2 : (globPattern.ends s j).isEmpty = false := by simpa using hj
    rcases (globPattern_ends s j).mp hj2 with ⟨b, c, hb1, hb2, hc1, hc2⟩ | ⟨_, c, hc1, hc2⟩
    · exact Or.inr ⟨j, b, c, hb1, hb2, hc1, hc2⟩
    · exact Or.inl ⟨rfl, c, hc1, hc2⟩
  · rintro (⟨_, c, hc1, hc2⟩ | ⟨j, b, c, hb1, hb2, hc1, hc2⟩)
    · refine ⟨0, List.mem_range.mpr (Nat.succ_pos _), ?_⟩
      have := (globPattern_ends s 0).mpr (Or.inr ⟨rfl, c, hc1, hc2⟩)
      simp [this]
    · have hlt : j < s.length := by
        rcases Nat.lt_or_ge j s.length with h | h
        · exact h
        · rw [List.getElem?_eq_none h] at hb1
          exact Option.noConfusion hb1
      refine ⟨j, List.mem_range.mpr (by omega), ?_⟩
      have := (globPattern_ends s j).mpr (Or.inl ⟨b, c, hb1, hb2, hc1, hc2⟩)
      simp [this]

theorem unescapedMeta_append_slash (a t : Str) :
    ∀ esc, unescapedMeta esc (a ++ '/' :: t) = (unescapedMeta esc a || unescapedMeta false t) := by
  induction a with
  | nil =>
    intro esc
    have h1 : ('/' == '*' || '/' == '?' || '/' == '[') = false := by decide
    have h2 : ('/' == '\\') = false := by decide
    simp [unescapedMeta, h1, h2]
  | cons c cs ih =>
    intro esc
    have e : unescapedMeta esc (c :: cs ++ '/' :: t)
        = (((c == '*' || c == '?' || c == '[') && !esc)
            || unescapedMeta (c == '\\') (cs ++ '/' :: t)) := rfl
    rw [e, ih]
    simp only [unescapedMeta, Bool.or_assoc]

theorem unescapedMeta_noWildcard (s : Str) (h : noWildcard s = true) :
    ∀ esc, unescapedMeta esc s = false := by
  induction s with
  | nil => intro esc; rfl
  | cons c cs ih =>
    intro esc
    simp only [noWildcard, List.all_cons, Bool.and_eq_true, bne_iff_ne, ne_eq] at h
    have hcs : noWildcard cs = true := by
      simp only [noWildcard]
      exact h.2
    simp [unescapedMeta, h.1.1.1, h.1.1.2, h.1.2, ih hcs]

/-- A path made of segments without an unescaped wildcard holds none. -/
theorem hasGlob_join (segs : List Str) (h : ∀ s ∈ segs, hasGlob s = false) :
    hasGlob (stringsJoin '/' segs) = false := by
  rw [hasGlob_eq_unescapedMeta]
  induction segs with
  | nil => rfl
  | cons a rest ih =>
    have ha : unescapedMeta false a = false := by
      rw [← hasGlob_eq_unescapedMeta]
      exact h a (List.mem_cons_self a rest)
    cases rest with
    | nil => simpa [stringsJoin] using ha
    | cons b rest2 =>
      rw [stringsJoin_cons_cons, unescapedMeta_append_slash, ha,
        ih (fun s hs => h s (List.mem_cons_of_mem a hs))]
      rfl

/-! ## `path.Join` on clean segments -/

theorem cleanSeg_spec (s : Str) (h : cleanSeg s = true) :
    s ≠ [] ∧ s ≠ ['.'] ∧ s ≠ ['.', '.'] ∧ '/' ∉ s := by
  simp only [cleanSeg, Bool.and_eq_true, bne_iff_ne, ne_eq, List.all_eq_true] at h
  obtain ⟨⟨⟨h1, h2⟩, h3⟩, h4⟩ := h
  exact ⟨h1, h2, h3, fun hmem => h4 '/' hmem rfl⟩

theorem cleanStep_cleanSeg (rooted : Bool) (stack : List Str) (seg : Str)
    (h : cleanSeg seg = true) : cleanStep rooted stack seg = seg :: stack := by
  obtain ⟨h1, h2, h3, _⟩ := cleanSeg_spec seg h
  simp [cleanStep, h1, h2, h3]

theorem cleanStep_nil (rooted : Bool) (stack : List Str) :
    cleanStep rooted stack [] = stack := by
  simp [cleanStep]

/-- Cleaning keeps the clean segments and drops the empty ones. -/
theorem foldl_cleanStep_mixed (rooted : Bool) (segs : List Str)
    (h : ∀ s ∈ segs, s = [] ∨ cleanSeg s = true) :
    ∀ stack, segs.foldl (cleanStep rooted) stack
      = (segs.filter (fun s => s != [])).reverse ++ stack := by
  induction segs with
  | nil => intro stack; rfl
  | cons a rest ih =>
    intro stack
    have hrest := ih (fun s hs => h s (List.mem_cons_of_mem _ hs))
    rcases h a (List.mem_cons_self a rest) with ha | ha
    · subst ha
      rw [List.foldl_cons, cleanStep_nil, hrest]
      simp
    · have hne : a ≠ [] := (cleanSeg_spec a ha).1
      have hb : (a != []) = true := by simpa using hne
      rw [List.foldl_cons, cleanStep_cleanSeg rooted stack a ha, hrest, List.filter_cons, hb]
      simp

/-- The cleaning of a rooted path whose segments are clean or empty: the clean segments,
joined. -/
theorem filepathClean_rooted (segs : List Str)
    (h : ∀ s ∈ segs, s = [] ∨ cleanSeg s = true) :
    filepathClean ('/' :: stringsJoin '/' segs)
      = '/' :: stringsJoin '/' (segs.filter (fun s => s != [])) := by
  have hslash : ∀ s ∈ segs, '/' ∉ s := by
    intro s hs
    rcases h s hs with e | e
    · subst e; simp
    · exact (cleanSeg_spec s e).2.2.2
  have hsplit : stringsSplit '/' ('/' :: stringsJoin '/' segs)
      = [] :: stringsSplit '/' (stringsJoin '/' segs) := by
    simp [stringsSplit]
  have hfold : (stringsSplit '/' (stringsJoin '/' segs)).foldl (cleanStep true) []
      = (segs.filter (fun s => s != [])).reverse := by
    cases segs with
    | nil => simp [stringsJoin, stringsSplit, cleanStep]
    | cons a rest =>
      rw [stringsSplit_join '/' (a :: rest) (by simp) hslash,
        foldl_cleanStep_mixed true (a :: rest) h []]
      simp
  have hrooted : hasPrefix ('/' :: stringsJoin '/' segs) ['/'] = true := by
    simp [hasPrefix, List.isPrefixOf]
  unfold filepathClean
  simp only [hrooted, if_true, hsplit, List.foldl_cons, cleanStep_nil, hfold, List.reverse_reverse]

/-- `path.Join` of clean segments is their join by `/`. -/
theorem pathJoin_cleanSegs (segs : List Str) (hne : segs ≠ [])
    (h : ∀ s ∈ segs, cleanSeg s = true) : pathJoin segs = stringsJoin '/' segs := by
  cases segs with
  | nil => exact absurd rfl hne
  | cons a rest =>
    obtain ⟨ha, _, _, hsl⟩ := cleanSeg_spec a (h a (by simp))
    have hsplit : stringsSplit '/' (stringsJoin '/' (a :: rest)) = a :: rest :=
      stringsSplit_join '/' (a :: rest) (by simp) (fun s hs => (cleanSeg_spec s (h s hs)).2.2.2)
    have hrooted : hasPrefix (stringsJoin '/' (a :: rest)) ['/'] = false := by
      cases a with
      | nil => exact absurd rfl ha
      | cons c cs =>
        have hc : c ≠ '/' := fun e => hsl (by simp [e])
        cases rest <;> simp [stringsJoin, hasPrefix, List.isPrefixOf, Ne.symm hc]
    have hfold := foldl_cleanStep_mixed false (a :: rest) (fun s hs => Or.inr (h s hs)) []
    have hfilter : (a :: rest).filter (fun s => s != []) = a :: rest := by
      rw [List.filter_eq_self]
      intro s hs
      simpa using (cleanSeg_spec s (h s hs)).1
    unfold pathJoin
    simp only [filepathJoin, ha, if_false, filepathClean, hrooted, hsplit, hfold, hfilter]
    simp

theorem stringsJoin_append (sep : Char) (x : Str) (l1 : List Str) (y : Str) (l2 : List Str) :
    stringsJoin sep ((x :: l1) ++ (y :: l2))
      = stringsJoin sep (x :: l1) ++ sep :: stringsJoin sep (y :: l2) := by
  induction l1 generalizing x with
  | nil => rfl
  | cons z l ih =>
    have e1 : stringsJoin sep ((x :: z :: l) ++ (y :: l2))
        = x ++ sep :: stringsJoin sep ((z :: l) ++ (y :: l2)) := rfl
    rw [e1, ih z, stringsJoin_cons_cons]
    simp

/-- The path `expandGlobs` builds for an entry: `path.Join(base, name, "", "")` is
`base/name` when the segments of `base` and the name are clean. -/
theorem pathJoin_entry (baseSegs : List Str) (name : Str)
    (hbase : ∀ s ∈ baseSegs, cleanSeg s = true) (hname : cleanSeg name = true) :
    pathJoin ['/' :: stringsJoin '/' baseSegs, name, [], []]
      = stringsJoin '/' ([] :: baseSegs) ++ '/' :: name := by
  have hfilter : ∀ l : List Str, (∀ s ∈ l, cleanSeg s = true) →
      l.filter (fun s => s != []) = l := by
    intro l hl
    rw [List.filter_eq_self]
    intro s hs
    simpa using (cleanSeg_spec s (hl s hs)).1
  have hnameNe : (name != []) = true := by simpa using (cleanSeg_spec name hname).1
  unfold pathJoin
  cases baseSegs with
  | nil =>
    have e : stringsJoin '/' [['/'], name, [], []] = '/' :: stringsJoin '/' [[], name, [], []] := by
      simp [stringsJoin]
    have hmixed : ∀ s ∈ [[], name, [], []], s = [] ∨ cleanSeg s = true := by
      intro s hs
      simp only [List.mem_cons, List.mem_singleton, List.not_mem_nil, or_false] at hs
      rcases hs with e | e | e | e
      · exact Or.inl e
      · exact Or.inr (e ▸ hname)
      · exact Or.inl e
      · exact Or.inl e
    simp only [filepathJoin, stringsJoin.eq_1, List.cons_ne_nil, if_false]
    rw [e, filepathClean_rooted _ hmixed]
    simp [List.filter, hnameNe, stringsJoin]
  | cons a rest =>
    have e : stringsJoin '/' ['/' :: stringsJoin '/' (a :: rest), name, [], []]
        = '/' :: stringsJoin '/' ((a :: rest) ++ [name, [], []]) := by
      rw [stringsJoin_append '/' a rest name [[], []]]
      simp [stringsJoin]
    have hmixed : ∀ s ∈ (a :: rest) ++ [name, [], []], s = [] ∨ cleanSeg s = true := by
      intro s hs
      rcases List.mem_append.mp hs with h1 | h1
      · exact Or.inr (hbase s h1)
      · simp only [List.mem_cons, List.mem_singleton, List.not_mem_nil, or_false] at h1
        rcases h1 with e | e | e
        · exact Or.inr (e ▸ hname)
        · exact Or.inl e
        · exact Or.inl e
    have hfil : ((a :: rest) ++ [name, [], []]).filter (fun s => s != []) = (a :: rest) ++ [name] := by
      rw [List.filter_append, hfilter (a :: rest) hbase]
      simp [List.filter, hnameNe]
    have hjoin : stringsJoin '/' ((a :: rest) ++ [name])
        = stringsJoin '/' (a :: rest) ++ '/' :: name := by
      rw [stringsJoin_append '/' a rest name []]
      simp [stringsJoin]
    simp only [filepathJoin, List.cons_ne_nil, if_false]
    rw [e, filepathClean_rooted _ hmixed, hfil, hjoin]
    simp [stringsJoin]

/-! ## C17: a wildcard in the last segment -/

theorem findIdx_append_last (p : Str → Bool) (l : List Str) (x : Str)
    (hl : ∀ s ∈ l, p s = false) (hx : p x = true) :
    (l ++ [x]).findIdx p = l.length := by
  induction l with
  | nil => simp [List.findIdx_cons, hx]
  | cons a rest ih =>
    have ha : p a = false := hl a (List.mem_cons_self a rest)
    rw [List.cons_append, List.findIdx_cons, ha, List.length_cons,
      ih (fun s hs => hl s (List.mem_cons_of_mem a hs))]
    rfl

theorem hasGlob_entry (baseSegs : List Str) (name : Str)
    (hbase : ∀ s ∈ baseSegs, hasGlob s = false) (hname : noWildcard name = true) :
    hasGlob (stringsJoin '/' ([] :: baseSegs) ++ '/' :: name) = false := by
  have hn : hasGlob name = false := by
    rw [hasGlob_eq_unescapedMeta]
    exact unescapedMeta_noWildcard name hname false
  have e : stringsJoin '/' ([] :: baseSegs) ++ '/' :: name
      = stringsJoin '/' (([] :: baseSegs) ++ [name]) := by
    rw [stringsJoin_append '/' [] baseSegs name []]
    simp [stringsJoin]
  rw [e]
  apply hasGlob_join
  intro s hs
  rcases List.mem_append.mp hs with h | h
  · rcases List.mem_cons.mp h with h2 | h2
    · subst h2; decide
    · exact hbase s h2
  · simp only [List.mem_singleton] at h
    subst h
    exact hn

/-- The loop of `expandGlobs` over the entries, when the pattern is the last segment and
the names of the entries are clean and without wildcard characters: it keeps what
`keepExisting` keeps. -/
theorem expandEntries_last {σ : Type} (c : Client σ)
    (recurse : Str → World σ → Option (Res (List Str) × World σ))
    (baseSegs : List Str) (glob : Str)
    (hbase : ∀ s ∈ baseSegs, cleanSeg s = true ∧ hasGlob s = false) :
    ∀ (entries : List FileInfo) (res ps : List Str) (w w2 : World σ),
      (∀ fi ∈ entries, cleanSeg fi.Name = true ∧ noWildcard fi.Name = true) →
      keepExisting c (stringsJoin '/' ([] :: baseSegs)) glob entries w = some (ps, w2) →
      expandEntries c recurse ('/' :: stringsJoin '/' baseSegs) glob [] [] entries res w
        = some (Res.ok (res ++ ps), w2) := by
  intro entries
  induction entries with
  | nil =>
    intro res ps w w2 _ hk
    simp only [keepExisting, Option.some.injEq, Prod.mk.injEq] at hk
    obtain ⟨h1, h2⟩ := hk
    subst h1; subst h2
    simp [expandEntries]
  | cons fi rest ih =>
    intro res ps w w2 hnames hk
    have hfi := hnames fi (List.mem_cons_self fi rest)
    have hrest : ∀ f ∈ rest, cleanSeg f.Name = true ∧ noWildcard f.Name = true :=
      fun f hf => hnames f (List.mem_cons_of_mem fi hf)
    have hpath := pathJoin_entry baseSegs fi.Name (fun s hs => (hbase s hs).1) hfi.1
    have hng := hasGlob_entry baseSegs fi.Name (fun s hs => (hbase s hs).2) hfi.2
    simp only [keepExisting] at hk
    simp only [expandEntries, hpath, hng, Bool.false_eq_true, if_false]
    by_cases hm : pathMatch glob fi.Name = true
    · simp only [hm, if_true, Bool.not_true, Bool.false_eq_true, if_false] at hk ⊢
      cases hs : doStat c (stringsJoin '/' ([] :: baseSegs) ++ '/' :: fi.Name) w with
      | mk reply w1 =>
        rw [hs] at hk
        cases reply with
        | ok info =>
          simp only [] at hk ⊢
          cases hk2 : keepExisting c (stringsJoin '/' ([] :: baseSegs)) glob rest w1 with
          | none => rw [hk2] at hk; exact Option.noConfusion hk
          | some r =>
            rw [hk2] at hk
            simp only [Option.map_some', Option.some.injEq, Prod.mk.injEq] at hk
            obtain ⟨h1, h2⟩ := hk
            have := ih (res ++ [stringsJoin '/' ([] :: baseSegs) ++ '/' :: fi.Name]) r.1 w1 r.2
              hrest (by rw [hk2])
            rw [this, ← h1, ← h2]
            simp
        | err e =>
          simp only [] at hk ⊢
          by_cases he : e = RemoteErr.notExist
          · rw [if_pos he] at hk ⊢
            exact ih res ps w1 w2 hrest hk
          · rw [if_neg he] at hk
            exact Option.noConfusion hk
    · have hm2 : pathMatch glob fi.Name = false := by simpa using hm
      simp only [hm2, Bool.false_eq_true, if_false, Bool.not_false, if_true] at hk ⊢
      exact ih res ps w w2 hrest hk

/-- C17.  Let the path be `base/pattern`, where `base` is made of clean segments without
an unescaped wildcard (the path is cleaned, as `expandGlobs` assumes) and the last segment
`pattern` holds one; let the listing of the directory `base` succeed with entries whose
names are clean and hold no wildcard character, and let every point lookup answer found
or not found.  Then `expandGlobs` returns exactly the paths `base/name`, in
directory-listing order, of the listed entries whose name matches the pattern and which
exist at the point lookup. -/
theorem C17_expand_last_segment {σ : Type} (c : Client σ) (fuel : Nat)
    (baseSegs : List Str) (pattern : Str) (entries : List FileInfo) (ps : List Str)
    (w w2 : World σ)
    (hbase : ∀ s ∈ baseSegs, cleanSeg s = true ∧ hasGlob s = false)
    (hpat : '/' ∉ pattern) (hglob : hasGlob pattern = true)
    (hlist : (doReadDir c ('/' :: stringsJoin '/' baseSegs) w).1 = Reply.ok entries)
    (hnames : ∀ fi ∈ entries, cleanSeg fi.Name = true ∧ noWildcard fi.Name = true)
    (hkeep : keepExisting c (stringsJoin '/' ([] :: baseSegs)) pattern entries
      (doReadDir c ('/' :: stringsJoin '/' baseSegs) w).2 = some (ps, w2)) :
    expandGlobs c (fuel + 1) (stringsJoin '/' ([] :: (baseSegs ++ [pattern]))) w
      = some (Res.ok ps, w2) := by
  have hslash : ∀ s ∈ ([] : Str) :: (baseSegs ++ [pattern]), '/' ∉ s := by
    intro s hs
    rcases List.mem_cons.mp hs with e | e
    · subst e; simp
    · rcases List.mem_append.mp e with e | e
      · exact (cleanSeg_spec s (hbase s e).1).2.2.2
      · simp only [List.mem_singleton] at e
        subst e
        exact hpat
  have hsplit : (stringsSplit '/' (stringsJoin '/' ([] :: (baseSegs ++ [pattern])))).drop 1
      = baseSegs ++ [pattern] := by
    rw [stringsSplit_join '/' _ (by simp) hslash]
    rfl
  have hidx : splitIndex (baseSegs ++ [pattern]) = baseSegs.length := by
    unfold splitIndex
    rw [findIdx_append_last hasGlob baseSegs pattern (fun s hs => (hbase s hs).2) hglob]
    simp
  have hget : (baseSegs ++ [pattern])[baseSegs.length]? = some pattern := by
    simp
  have htake : (baseSegs ++ [pattern]).take baseSegs.length = baseSegs := by
    simp
  have hjoin : pathJoin baseSegs = stringsJoin '/' baseSegs := by
    cases hb : baseSegs with
    | nil => rfl
    | cons a rest =>
      rw [← hb]
      exact pathJoin_cleanSegs baseSegs (by rw [hb]; simp) (fun s hs => (hbase s hs).1)
  have hlen : ¬ ((baseSegs ++ [pattern]).length > baseSegs.length + 1) := by
    simp
  have hread : doReadDir c ('/' :: stringsJoin '/' baseSegs) w
      = (Reply.ok entries, (doReadDir c ('/' :: stringsJoin '/' baseSegs) w).2) := by
    rw [← hlist]
  unfold expandGlobs
  simp only [hsplit, hidx, hget, htake, hjoin, hlen, if_false]
  rw [hread]
  simp only []
  have := expandEntries_last c (expandGlobs c fuel) baseSegs pattern hbase entries [] ps
    (doReadDir c ('/' :: stringsJoin '/' baseSegs) w).2 w2 hnames hkeep
  simpa using this

set_option maxRecDepth 100000 in
/-- C17, witness: `/a/*.txt` against the directory `/a` that holds `x.txt`, `y.txt` and
`z.log` gives exactly `/a/x.txt` and `/a/y.txt`. -/
theorem C17_expand_last_segment_witness :
    expandGlobs exampleClient 1 "/a/*.txt".toList world0
      = some (Res.ok ["/a/x.txt".toList, "/a/y.txt".toList],
          { state := (),
            log := [Call.readDir "/a".toList, Call.stat "/a/x.txt".toList,
              Call.stat "/a/y.txt".toList] }) :=
  C17_expand_last_segment exampleClient 0 ["a".toList] "*.txt".toList
    [{ Name := "x.txt".toList, IsDir := false }, { Name := "y.txt".toList, IsDir := false },
      { Name := "z.log".toList, IsDir := false }]
    ["/a/x.txt".toList, "/a/y.txt".toList] world0
    { state := (),
      log := [Call.readDir "/a".toList, Call.stat "/a/x.txt".toList,
        Call.stat "/a/y.txt".toList] }
    (by decide) (by decide) (by decide) (by decide) (by decide) (by decide)

/-! ## C23: a filename with the scheme `hdfs` -/

/-- `ViewfsReparseFilename` rejects every filename whose scheme is neither `viewfs` nor
empty, whatever the configuration and `rootnsid`. -/
theorem ViewfsReparseFilename_other_scheme (conf : HadoopConf) (rootnsid filename : Str)
    (u : URL) (hu : urlParse filename = some u)
    (hs : u.Scheme ≠ "viewfs".toList ∧ u.Scheme ≠ []) :
    ViewfsReparseFilename conf rootnsid filename
      = Res.fail GoError.errInvalidHDFSFilename := by
  unfold ViewfsReparseFilename
  rw [hu]
  simp only [hs, and_self, if_true, ne_eq, not_false_eq_true]

set_option maxRecDepth 100000 in
/-- C23.  With an empty `rootnsid`, `ViewfsReparseFilename` rejects the filenames
`hdfs://nsX/cloud/sub` and `hdfs://nsZ/app/sub` with `errInvalidHDFSFilename`, in every
configuration: it returns neither `("SunshineNameNode1", "/_cloud/sub")` nor
`("nsZ", "/app/sub")` with a nil error. -/
theorem C23_hdfs_filename_rejected (conf : HadoopConf) :
    ViewfsReparseFilename conf [] "hdfs://nsX/cloud/sub".toList
        = Res.fail GoError.errInvalidHDFSFilename
    ∧ ViewfsReparseFilename conf [] "hdfs://nsZ/app/sub".toList
        = Res.fail GoError.errInvalidHDFSFilename := by
  constructor
  · exact ViewfsReparseFilename_other_scheme conf [] _
      { Scheme := "hdfs".toList, Host := "nsX".toList, Path := "/cloud/sub".toList }
      (by decide) (by decide)
  · exact ViewfsReparseFilename_other_scheme conf [] _
      { Scheme := "hdfs".toList, Host := "nsZ".toList, Path := "/app/sub".toList }
      (by decide) (by decide)

/-! ## C28: a sibling of the trash root -/

/-- With trash forced, a target of which the trash root is a string prefix gets the
direct-delete fallback `(false, nil)` without a single call. -/
theorem moveToTrash_forced_hasPrefix {σ : Type} (c : Client σ) (fuel : Nat) (name : Str)
    (w : World σ) (h : hasPrefix name (trashRootDir c) = true) :
    moveToTrash c fuel name true w = some (Res.ok false, w) := by
  simp [moveToTrash, h]

set_option maxRecDepth 100000 in
/-- C28.  The path `/user/me/.Trashcan/x` is not under the trash root `/user/me/.Trash`,
of which it only shares the string prefix.  With trash forced, `moveToTrash` returns the
direct-delete fallback `(false, nil)` for it without a single call, and `rm` removes the
path directly: the record of the calls of `rm` holds `RemoveAll` and no relocation. -/
theorem C28_sibling_of_trash_root_falls_back :
    trashRootDir exampleClient = "/user/me/.Trash".toList
    ∧ liesUnder (trashRootDir exampleClient) "/user/me/.Trashcan/x".toList = false
    ∧ (∀ fuel, moveToTrash exampleClient fuel "/user/me/.Trashcan/x".toList true world0
        = some (Res.ok false, world0))
    ∧ rmOne (dirRmClient exampleClient) 4 true false false true
          "/user/me/.Trashcan/x".toList 0 world0
        = some (RmStep.next 0, { state := (), log := [Call.stat "/user/me/.Trashcan/x".toList,
            Call.removeAll "/user/me/.Trashcan/x".toList] }) := by
  refine ⟨by decide, by decide, ?_, by decide⟩
  intro fuel
  exact moveToTrash_forced_hasPrefix exampleClient fuel _ world0 (by decide)

/-! ## The shape of a cleaned rooted path, and of the trash root -/

theorem stringsSplit_no_sep (sep : Char) (s : Str) : ∀ seg ∈ stringsSplit sep s, sep ∉ seg := by
  induction s with
  | nil => intro seg h; simp [stringsSplit] at h; subst h; simp
  | cons c cs ih =>
    intro seg h
    unfold stringsSplit at h
    by_cases hc : c = sep
    · rw [if_pos hc] at h
      rcases List.mem_cons.mp h with e | e
      · subst e; simp
      · exact ih seg e
    · rw [if_neg hc] at h
      cases hs : stringsSplit sep cs with
      | nil => exact absurd hs (stringsSplit_ne_nil sep cs)
      | cons a rest =>
        rw [hs] at h ih
        rcases List.mem_cons.mp h with e | e
        · subst e
          intro hm
          rcases List.mem_cons.mp hm with e2 | e2
          · exact hc e2.symm
          · exact ih a (by simp) e2
        · exact ih seg (List.mem_cons_of_mem _ e)

theorem stringsSplit_append_last (sep : Char) (a b : Str) (h : sep ∉ b) :
    stringsSplit sep (a ++ sep :: b) = stringsSplit sep a ++ [b] := by
  induction a with
  | nil => simp [stringsSplit, stringsSplit_of_not_mem sep b h]
  | cons c cs ih =>
    by_cases hc : c = sep
    · simp [stringsSplit, hc, ih]
    · cases hs : stringsSplit sep cs with
      | nil => exact absurd hs (stringsSplit_ne_nil sep cs)
      | cons x rest =>
        rw [hs] at ih
        simp [stringsSplit, hc, ih, hs]

/-- A step of the cleaning of a rooted path keeps only clean segments. -/
theorem cleanStep_rooted_clean (stack : List Str) (seg : Str)
    (hstack : ∀ s ∈ stack, cleanSeg s = true) (hseg : '/' ∉ seg) :
    ∀ s ∈ cleanStep true stack seg, cleanSeg s = true := by
  unfold cleanStep
  by_cases h1 : seg = [] ∨ seg = ['.']
  · rw [if_pos h1]; exact hstack
  · rw [if_neg h1]
    by_cases h2 : seg = ['.', '.']
    · rw [if_pos h2]
      cases stack with
      | nil => simp
      | cons top below =>
        have htop := hstack top (by simp)
        have hne : top ≠ ['.', '.'] := (cleanSeg_spec top htop).2.2.1
        simp only [hne, if_false]
        intro s hs
        exact hstack s (List.mem_cons_of_mem _ hs)
    · rw [if_neg h2]
      intro s hs
      rcases List.mem_cons.mp hs with e | e
      · subst e
        push_neg at h1
        simp only [cleanSeg, Bool.and_eq_true, bne_iff_ne, ne_eq, List.all_eq_true]
        exact ⟨⟨⟨h1.1, h1.2⟩, h2⟩, fun x hx => by
          have : x ≠ '/' := fun e => hseg (e ▸ hx)
          simpa using this⟩
      · exact hstack s e

theorem foldl_cleanStep_rooted_clean (segs : List Str) (hsegs : ∀ s ∈ segs, '/' ∉ s) :
    ∀ stack, (∀ s ∈ stack, cleanSeg s = true) →
      ∀ s ∈ segs.foldl (cleanStep true) stack, cleanSeg s = true := by
  induction segs with
  | nil => intro stack h; exact h
  | cons a rest ih =>
    intro stack h
    exact ih (fun s hs => hsegs s (List.mem_cons_of_mem _ hs)) _
      (cleanStep_rooted_clean stack a h (hsegs a (by simp)))

/-- The trash root is a rooted path of clean segments, the last of which is `.Trash`. -/
theorem trashRootDir_shape {σ : Type} (c : Client σ) :
    ∃ segs : List Str, (∀ s ∈ segs, cleanSeg s = true)
      ∧ trashRootDir c = '/' :: stringsJoin '/' (segs ++ [".Trash".toList]) := by
  have hsplit : stringsSplit '/' ("/user".toList ++ '/' :: (c.User ++ '/' :: ".Trash".toList))
      = stringsSplit '/' ("/user".toList ++ '/' :: c.User) ++ [".Trash".toList] := by
    have := stringsSplit_append_last '/' ("/user".toList ++ '/' :: c.User) ".Trash".toList
      (by decide)
    simpa using this
  refine ⟨((stringsSplit '/' ("/user".toList ++ '/' :: c.User)).foldl (cleanStep true) []).reverse,
    ?_, ?_⟩
  · intro s hs
    exact foldl_cleanStep_rooted_clean _ (stringsSplit_no_sep '/' _) [] (by simp) s
      (List.mem_reverse.mp hs)
  · have e1 : trashRootDir c
        = filepathClean ("/user".toList ++ '/' :: (c.User ++ '/' :: ".Trash".toList)) := by
      simp [trashRootDir, pathJoin, filepathJoin, stringsJoin]
    rw [e1]
    unfold filepathClean
    have hr : hasPrefix ("/user".toList ++ '/' :: (c.User ++ '/' :: ".Trash".toList)) ['/']
        = true := by
      simp [hasPrefix]
    simp only [hr, if_true]
    rw [hsplit, List.foldl_append]
    simp only [List.foldl_cons, List.foldl_nil]
    rw [cleanStep_cleanSeg true _ ".Trash".toList (by decide)]
    simp

/-! ## `path.Dir` of a cleaned rooted path -/

theorem beforeLast_append (sep : Char) (a b : Str) (h : sep ∉ b) :
    beforeLast sep (a ++ sep :: b) = some a := by
  induction a with
  | nil => simp [beforeLast, beforeLast_of_not_mem sep b h]
  | cons c cs ih => simp [beforeLast, ih]

/-- A rooted path of clean segments, seen as what is before its last slash, the slash,
and the last segment. -/
theorem rooted_snoc (segs : List Str) (t : Str) :
    '/' :: stringsJoin '/' (segs ++ [t])
      = (if segs = [] then [] else '/' :: stringsJoin '/' segs) ++ '/' :: t := by
  cases segs with
  | nil => rfl
  | cons x l =>
    have h := stringsJoin_append '/' x l t []
    have e : stringsJoin '/' [t] = t := rfl
    rw [e] at h
    simp only [reduceCtorEq, if_false]
    rw [h]
    rfl

/-- `path.Dir` of a rooted path of clean segments drops the last segment. -/
theorem pathDir_snoc (segs : List Str) (t : Str) (hsegs : ∀ s ∈ segs, cleanSeg s = true)
    (ht : '/' ∉ t) :
    pathDir ('/' :: stringsJoin '/' (segs ++ [t])) = '/' :: stringsJoin '/' segs := by
  unfold pathDir
  rw [rooted_snoc, beforeLast_append '/' _ t ht]
  cases segs with
  | nil => decide
  | cons x l =>
    simp only [reduceCtorEq, if_false]
    have hmixed : ∀ s ∈ (x :: l) ++ [[]], s = [] ∨ cleanSeg s = true := by
      intro s hs
      rcases List.mem_append.mp hs with e | e
      · exact Or.inr (hsegs s e)
      · simp at e; exact Or.inl e
    have e1 : ('/' :: stringsJoin '/' (x :: l)) ++ ['/']
        = '/' :: stringsJoin '/' ((x :: l) ++ [[]]) := by
      rw [stringsJoin_append '/' x l [] []]
      simp [stringsJoin]
    rw [e1, filepathClean_rooted _ hmixed]
    congr 2
    rw [List.filter_append]
    have hf : (x :: l).filter (fun s => s != []) = x :: l := by
      rw [List.filter_eq_self]
      intro s hs
      have := (cleanSeg_spec s (hsegs s hs)).1
      simpa using this
    rw [hf]
    simp

/-- A directory given with its closing slash at the front of a path lies before the last
slash of the path. -/
theorem prefix_before_last_slash (t : Str) (ht : '/' ∉ t) :
    ∀ (name a : Str), name ++ ['/'] <+: a ++ '/' :: t → name <+: a := by
  intro name
  induction name with
  | nil => intro a _; exact List.nil_prefix
  | cons x n ih =>
    intro a h
    cases a with
    | nil =>
      exfalso
      simp only [List.nil_append, List.cons_append] at h
      have h2 := (List.cons_prefix_cons.mp h).2
      have hmem : '/' ∈ n ++ ['/'] := by simp
      exact ht (h2.subset hmem)
    | cons y a1 =>
      simp only [List.cons_append] at h
      obtain ⟨hxy, h2⟩ := List.cons_prefix_cons.mp h
      subst hxy
      exact List.cons_prefix_cons.mpr ⟨rfl, ih a1 h2⟩

/-- For a strict ancestor of the trash root, both tests of `moveToTrash` on the target
are settled: the trash root is no prefix of it, and it is a prefix of the parent of the
trash root. -/
theorem strictAncestor_tests {σ : Type} (c : Client σ) (name : Str)
    (hanc : strictAncestor name (trashRootDir c) = true) :
    hasPrefix name (trashRootDir c) = false
      ∧ hasPrefix (pathDir (trashRootDir c)) name = true := by
  obtain ⟨segs, hsegs, hR⟩ := trashRootDir_shape c
  have hD : pathDir (trashRootDir c) = '/' :: stringsJoin '/' segs := by
    rw [hR]; exact pathDir_snoc segs _ hsegs (by decide)
  have hsplit := rooted_snoc segs ".Trash".toList
  rw [← hR] at hsplit
  simp only [strictAncestor, Bool.or_eq_true, Bool.and_eq_true, beq_iff_eq, bne_iff_ne,
    ne_eq] at hanc
  rcases hanc with ⟨⟨hn, hne⟩, _⟩ | ⟨hne, hpre⟩
  · subst hn
    constructor
    · cases hp : hasPrefix ['/'] (trashRootDir c) with
      | false => rfl
      | true =>
        exfalso
        unfold hasPrefix at hp
        rw [List.isPrefixOf_iff_prefix] at hp
        rw [hR] at hp hne
        have hlen := hp.length_le
        simp only [List.length_cons, List.length_nil] at hlen
        have : stringsJoin '/' (segs ++ [".Trash".toList]) = [] :=
          List.eq_nil_of_length_eq_zero (by omega)
        exact hne (by rw [this])
    · rw [hD]; simp [hasPrefix]
  · unfold hasPrefix at hpre ⊢
    rw [List.isPrefixOf_iff_prefix] at hpre
    constructor
    · cases hp : (trashRootDir c).isPrefixOf name with
      | false => rfl
      | true =>
        exfalso
        rw [List.isPrefixOf_iff_prefix] at hp
        have h1 := hp.length_le
        have h2 := hpre.length_le
        simp only [List.length_append, List.length_cons, List.length_nil] at h2
        omega
    · rw [List.isPrefixOf_iff_prefix, hD]
      rw [hsplit] at hpre
      have hname := prefix_before_last_slash ".Trash".toList (by decide) name _ hpre
      by_cases hs : segs = []
      · rw [if_pos hs] at hname
        exact absurd (List.prefix_nil.mp hname) hne
      · rw [if_neg hs] at hname
        exact hname

/-! ## C21: a target that is a strict ancestor of the trash root -/

set_option maxRecDepth 100000 in
/-- C21, counterexample.  The directory `/user` is a strict ancestor of the trash root
`/user/me/.Trash`.  With trash not forced and disabled on the server (interval 0),
`moveToTrash` returns the direct-delete fallback `(false, nil)` for it, and `rm -r`
removes `/user` directly.  Written with a closing slash, the ancestor `/user/me/` is not
recognised even with trash forced: `moveToTrash` creates a directory and moves the
target. -/
theorem C21_counterexample :
    trashRootDir trashOffClient = "/user/me/.Trash".toList
    ∧ strictAncestor "/user".toList (trashRootDir trashOffClient) = true
    ∧ moveToTrash trashOffClient 4 "/user".toList false world0
        = some (Res.ok false, { state := (), log := [Call.serverDefaults] })
    ∧ rmOne (dirRmClient trashOffClient) 4 true false false false "/user".toList 0 world0
        = some (RmStep.next 0, { state := (), log := [Call.stat "/user".toList,
            Call.serverDefaults, Call.removeAll "/user".toList] })
    ∧ moveToTrash exampleClient 4 "/user/me/".toList true world0
        = some (Res.ok true, { state := (), log :=
            [Call.mkdirAll "/user/me/.Trash/Current/user".toList,
             Call.pathExists "/user/me/.Trash/Current/user/me".toList,
             Call.renameForTrash "/user/me/".toList
               "/user/me/.Trash/Current/user/me".toList] }) := by
  decide

/-- C21 (amended).  For every target path that is a strict ancestor of the trash root,
when trash is forced or the server answers the query of its defaults with a positive
trash interval, `moveToTrash` fails with the trash-root-conflict error and issues no
mutating call: the only call it can issue is the query of the server defaults (when
trash is not forced). -/
theorem C21_ancestor_of_trash_root {σ : Type} (c : Client σ) (fuel : Nat) (name : Str)
    (forceTrash : Bool) (w : World σ)
    (hanc : strictAncestor name (trashRootDir c) = true)
    (hon : forceTrash = true ∨ ∃ n, 0 < n ∧ (c.ServerDefaults w.state).1 = Reply.ok n) :
    ∃ w1, moveToTrash c fuel name forceTrash w
        = some (Res.fail (GoError.errContainsTrash name), w1)
      ∧ w1.log = w.log ++ (if forceTrash then [] else [Call.serverDefaults]) := by
  obtain ⟨h1, h2⟩ := strictAncestor_tests c name hanc
  cases forceTrash with
  | true =>
    refine ⟨w, ?_, by simp⟩
    simp [moveToTrash, h1, h2]
  | false =>
    rcases hon with h | ⟨n, hn, hd⟩
    · exact Bool.noConfusion h
    · refine ⟨(doServerDefaults c w).2, ?_, by simp [doServerDefaults]⟩
      have hn2 : ¬ n ≤ 0 := by omega
      simp [moveToTrash, doServerDefaults, hd, hn2, h1, h2]

set_option maxRecDepth 100000 in
/-- C21, witness: with trash enabled on the server, trashing `/user` fails with the
trash-root-conflict error after the query of the server defaults alone. -/
theorem C21_ancestor_of_trash_root_witness :
    strictAncestor "/user".toList (trashRootDir exampleClient) = true
    ∧ (∃ n, 0 < n ∧ (exampleClient.ServerDefaults world0.state).1 = Reply.ok n)
    ∧ (∃ w1, moveToTrash exampleClient 4 "/user".toList false world0
          = some (Res.fail (GoError.errContainsTrash "/user".toList), w1)
        ∧ w1.log = world0.log ++ (if false then [] else [Call.serverDefaults])) :=
  ⟨by decide, ⟨60, by decide, rfl⟩,
    C21_ancestor_of_trash_root exampleClient 4 "/user".toList false world0 (by decide)
      (Or.inr ⟨60, by decide, rfl⟩)⟩

/-! ## One pass of the loop of `moveToTrash` -/

theorem trashLoop_zero {σ : Type} (c : Client σ) (name : Str) (i : Nat) (base tp : Str)
    (err : Option GoError) (w : World σ) : trashLoop c name 0 i base tp err w = none := rfl

/-- The ways one pass of the loop of `moveToTrash` can go. -/
theorem trashLoop_step {σ : Type} (c : Client σ) (name : Str) (fuel i : Nat) (base tp : Str)
    (err : Option GoError) (w : World σ) (r : Res Bool) (w1 : World σ)
    (h : trashLoop c name (fuel + 1) i base tp err w = some (r, w1)) :
    (¬ i < 2 ∧ r = Res.fail (err.getD (GoError.errMoveFailed name tp)) ∧ w1 = w)
    ∨ (i < 2 ∧ ∃ e, (doMkdirAll c base w).1 = some e
        ∧ ¬ (e = RemoteErr.exist ∨ e = RemoteErr.notDir)
        ∧ r = Res.fail (GoError.errRemote e) ∧ w1 = (doMkdirAll c base w).2)
    ∨ (i < 2 ∧ ∃ e, (doMkdirAll c base w).1 = some e
        ∧ (e = RemoteErr.exist ∨ e = RemoteErr.notDir)
        ∧ ∃ e2, findExisting c fuel base (doMkdirAll c base w).2 = some (Res.fail e2, w1)
          ∧ r = Res.fail e2)
    ∨ (i < 2 ∧ ∃ e, (doMkdirAll c base w).1 = some e
        ∧ (e = RemoteErr.exist ∨ e = RemoteErr.notDir)
        ∧ findExisting c fuel base (doMkdirAll c base w).2 = some (Res.panicked, w1)
        ∧ r = Res.panicked)
    ∨ (i < 2 ∧ ∃ e, (doMkdirAll c base w).1 = some e
        ∧ (e = RemoteErr.exist ∨ e = RemoteErr.notDir)
        ∧ ∃ found w2, findExisting c fuel base (doMkdirAll c base w).2
            = some (Res.ok found, w2)
          ∧ trashLoop c name fuel i
              (stringsReplaceFirst base found (found ++ formatInt (doNow c w2).1))
              (pathJoin [stringsReplaceFirst base found (found ++ formatInt (doNow c w2).1),
                pathBase tp])
              none (doNow c w2).2 = some (r, w1))
    ∨ (i < 2 ∧ (doMkdirAll c base w).1 = none
        ∧ ∃ fp e w2, freeName c tp fuel tp (doMkdirAll c base w).2 = some ((fp, some e), w2)
          ∧ trashLoop c name fuel (i + 1) base fp (some (GoError.errRemote e)) w2
              = some (r, w1))
    ∨ (i < 2 ∧ (doMkdirAll c base w).1 = none
        ∧ ∃ fp w2, freeName c tp fuel tp (doMkdirAll c base w).2 = some ((fp, none), w2)
          ∧ (doRenameForTrash c name fp w2).1 = none
          ∧ r = Res.ok true ∧ w1 = (doRenameForTrash c name fp w2).2)
    ∨ (i < 2 ∧ (doMkdirAll c base w).1 = none
        ∧ ∃ fp e w2, freeName c tp fuel tp (doMkdirAll c base w).2 = some ((fp, none), w2)
          ∧ (doRenameForTrash c name fp w2).1 = some e
          ∧ trashLoop c name fuel (i + 1) base fp (some (GoError.errRemote e))
              (doRenameForTrash c name fp w2).2 = some (r, w1)) := by
  unfold trashLoop at h
  by_cases hi : i < 2
  · rw [if_pos hi] at h
    right
    rcases hm : doMkdirAll c base w with ⟨m, wm⟩
    rw [hm] at h
    cases m with
    | some e =>
      simp only at h
      by_cases hadj : e = RemoteErr.exist ∨ e = RemoteErr.notDir
      · rw [if_pos hadj] at h
        right
        cases hf : findExisting c fuel base wm with
        | none => rw [hf] at h; exact Option.noConfusion h
        | some p =>
          rcases p with ⟨rf, w2⟩
          rw [hf] at h
          cases rf with
          | fail e2 =>
            simp only [Option.some.injEq, Prod.mk.injEq] at h
            left
            exact ⟨hi, e, rfl, hadj, e2, by rw [← h.2], h.1.symm⟩
          | panicked =>
            simp only [Option.some.injEq, Prod.mk.injEq] at h
            right; left
            exact ⟨hi, e, rfl, hadj, by rw [← h.2], h.1.symm⟩
          | ok found =>
            simp only at h
            right; right; left
            exact ⟨hi, e, rfl, hadj, found, w2, rfl, h⟩
      · rw [if_neg hadj] at h
        simp only [Option.some.injEq, Prod.mk.injEq] at h
        left
        exact ⟨hi, e, rfl, hadj, h.1.symm, h.2.symm⟩
    | none =>
      simp only at h
      right; right; right; right
      cases hf : freeName c tp fuel tp wm with
      | none => rw [hf] at h; exact Option.noConfusion h
      | some p =>
        rcases p with ⟨⟨fp, oe⟩, w2⟩
        rw [hf] at h
        cases oe with
        | some e =>
          simp only at h
          left
          exact ⟨hi, rfl, fp, e, w2, rfl, h⟩
        | none =>
          simp only at h
          right
          rcases hr : doRenameForTrash c name fp w2 with ⟨rr, w3⟩
          rw [hr] at h
          cases rr with
          | none =>
            simp only [Option.some.injEq, Prod.mk.injEq] at h
            left
            exact ⟨hi, rfl, fp, w2, rfl, by rw [hr], h.1.symm, by rw [hr]; exact h.2.symm⟩
          | some e =>
            simp only at h
            right
            exact ⟨hi, rfl, fp, e, w2, rfl, by rw [hr], by rw [hr]; exact h⟩
  · rw [if_neg hi] at h
    simp only [Option.some.injEq, Prod.mk.injEq] at h
    left
    exact ⟨hi, h.1.symm, h.2.symm⟩

/-- The ways one pass of the loop `for !exists` of `moveToTrash` can go. -/
theorem findExisting_step {σ : Type} (c : Client σ) (fuel : Nat) (p : Str) (w : World σ)
    (r : Res Str) (w1 : World σ) (h : findExisting c (fuel + 1) p w = some (r, w1)) :
    (∃ e, (doExists c p w).1 = Reply.err e ∧ r = Res.fail (GoError.errRemote e)
        ∧ w1 = (doExists c p w).2)
    ∨ ((doExists c p w).1 = Reply.ok true ∧ r = Res.ok p ∧ w1 = (doExists c p w).2)
    ∨ ((doExists c p w).1 = Reply.ok false
        ∧ findExisting c fuel (pathDir p) (doExists c p w).2 = some (r, w1)) := by
  unfold findExisting at h
  rcases hx : doExists c p w with ⟨x, wx⟩
  rw [hx] at h
  cases x with
  | err e =>
    simp only [Option.some.injEq, Prod.mk.injEq] at h
    exact Or.inl ⟨e, rfl, h.1.symm, h.2.symm⟩
  | ok b =>
    cases b with
    | true =>
      simp only [Option.some.injEq, Prod.mk.injEq] at h
      exact Or.inr (Or.inl ⟨rfl, h.1.symm, h.2.symm⟩)
    | false =>
      simp only at h
      exact Or.inr (Or.inr ⟨rfl, h⟩)

/-- The ways one pass of the loop `for exists` of `moveToTrash` can go. -/
theorem freeName_step {σ : Type} (c : Client σ) (orig : Str) (fuel : Nat) (tp : Str)
    (w : World σ) (fp : Str) (oe : Option RemoteErr) (w1 : World σ)
    (h : freeName c orig (fuel + 1) tp w = some ((fp, oe), w1)) :
    (∃ e, (doExists c tp w).1 = Reply.err e ∧ fp = tp ∧ oe = some e
        ∧ w1 = (doExists c tp w).2)
    ∨ ((doExists c tp w).1 = Reply.ok false ∧ fp = tp ∧ oe = none
        ∧ w1 = (doExists c tp w).2)
    ∨ ((doExists c tp w).1 = Reply.ok true
        ∧ freeName c orig fuel (orig ++ formatInt (doNow c (doExists c tp w).2).1)
            (doNow c (doExists c tp w).2).2 = some ((fp, oe), w1)) := by
  unfold freeName at h
  rcases hx : doExists c tp w with ⟨x, wx⟩
  rw [hx] at h
  cases x with
  | err e =>
    simp only [Option.some.injEq, Prod.mk.injEq] at h
    exact Or.inl ⟨e, rfl, h.1.1.symm, h.1.2.symm, h.2.symm⟩
  | ok b =>
    cases b with
    | false =>
      simp only [Option.some.injEq, Prod.mk.injEq] at h
      exact Or.inr (Or.inl ⟨rfl, h.1.1.symm, h.1.2.symm, h.2.symm⟩)
    | true =>
      simp only at h
      exact Or.inr (Or.inr ⟨rfl, h⟩)

/-- The loop `for !exists` does not panic. -/
theorem findExisting_not_panicked {σ : Type} (c : Client σ) :
    ∀ (fuel : Nat) (p : Str) (w w1 : World σ),
      findExisting c fuel p w ≠ some (Res.panicked, w1) := by
  intro fuel
  induction fuel with
  | zero => intro p w w1 h; exact Option.noConfusion h
  | succ n ih =>
    intro p w w1 h
    rcases findExisting_step c n p w _ _ h with ⟨e, _, hr, _⟩ | ⟨_, hr, _⟩ | ⟨_, h2⟩
    · exact Res.noConfusion hr
    · exact Res.noConfusion hr
    · exact ih _ _ _ h2

/-- Once the loop of `moveToTrash` is entered, the result is success or an error: never
the direct-delete fallback `(false, nil)`, never a panic. -/
theorem trashLoop_result {σ : Type} (c : Client σ) (name : Str) :
    ∀ (fuel i : Nat) (base tp : Str) (err : Option GoError) (w : World σ) (r : Res Bool)
      (w1 : World σ), trashLoop c name fuel i base tp err w = some (r, w1) →
      r = Res.ok true ∨ ∃ e, r = Res.fail e := by
  intro fuel
  induction fuel with
  | zero => intro i base tp err w r w1 h; exact Option.noConfusion h
  | succ n ih =>
    intro i base tp err w r w1 h
    rcases trashLoop_step c name n i base tp err w r w1 h with
      ⟨_, hr, _⟩ | ⟨_, e, _, _, hr, _⟩ | ⟨_, e, _, _, e2, _, hr⟩ | ⟨_, e, _, _, hf, _⟩
      | ⟨_, e, _, _, found, w2, _, h2⟩ | ⟨_, _, fp, e, w2, _, h2⟩ | ⟨_, _, fp, w2, _, _, hr, _⟩
      | ⟨_, _, fp, e, w2, _, _, h2⟩
    · exact Or.inr ⟨_, hr⟩
    · exact Or.inr ⟨_, hr⟩
    · exact Or.inr ⟨_, hr⟩
    · exact absurd hf (findExisting_not_panicked c _ _ _ _)
    · exact ih _ _ _ _ _ _ _ h2
    · exact ih _ _ _ _ _ _ _ h2
    · exact Or.inl hr
    · exact ih _ _ _ _ _ _ _ h2

/-- The loop `for !exists` issues existence checks only. -/
theorem findExisting_log {σ : Type} (c : Client σ) :
    ∀ (fuel : Nat) (p : Str) (w : World σ) (r : Res Str) (w1 : World σ),
      findExisting c fuel p w = some (r, w1) →
      ∃ l, w1.log = w.log ++ l ∧ ∀ call ∈ l, call.isMutation = false := by
  intro fuel
  induction fuel with
  | zero => intro p w r w1 h; exact Option.noConfusion h
  | succ n ih =>
    intro p w r w1 h
    have hone : ∀ call ∈ [Call.pathExists p], call.isMutation = false := by
      intro call hc; simp at hc; subst hc; rfl
    rcases findExisting_step c n p w _ _ h with ⟨e, _, _, hw⟩ | ⟨_, _, hw⟩ | ⟨_, h2⟩
    · exact ⟨[Call.pathExists p], by rw [hw]; rfl, hone⟩
    · exact ⟨[Call.pathExists p], by rw [hw]; rfl, hone⟩
    · obtain ⟨l, hl, hmut⟩ := ih _ _ _ _ h2
      refine ⟨Call.pathExists p :: l, ?_, ?_⟩
      · rw [hl]; simp [doExists]
      · intro call hc
        rcases List.mem_cons.mp hc with e | e
        · subst e; rfl
        · exact hmut call e

/-- The loop `for exists` issues existence checks and reads the clock only. -/
theorem freeName_log {σ : Type} (c : Client σ) (orig : Str) :
    ∀ (fuel : Nat) (tp : Str) (w : World σ) (fp : Str) (oe : Option RemoteErr)
      (w1 : World σ), freeName c orig fuel tp w = some ((fp, oe), w1) →
      ∃ l, w1.log = w.log ++ l ∧ ∀ call ∈ l, call.isMutation = false := by
  intro fuel
  induction fuel with
  | zero => intro tp w fp oe w1 h; exact Option.noConfusion h
  | succ n ih =>
    intro tp w fp oe w1 h
    have hone : ∀ call ∈ [Call.pathExists tp], call.isMutation = false := by
      intro call hc; simp at hc; subst hc; rfl
    rcases freeName_step c orig n tp w _ _ _ h with ⟨e, _, _, _, hw⟩ | ⟨_, _, _, hw⟩ | ⟨_, h2⟩
    · exact ⟨[Call.pathExists tp], by rw [hw]; rfl, hone⟩
    · exact ⟨[Call.pathExists tp], by rw [hw]; rfl, hone⟩
    · obtain ⟨l, hl, hmut⟩ := ih _ _ _ _ _ h2
      refine ⟨Call.pathExists tp :: Call.now :: l, ?_, ?_⟩
      · rw [hl]; simp [doExists, doNow]
      · intro call hc
        rcases List.mem_cons.mp hc with e | e
        · subst e; rfl
        · rcases List.mem_cons.mp e with e | e
          · subst e; rfl
          · exact hmut call e

/-- The loop of `moveToTrash` never issues `RemoveAll`. -/
theorem trashLoop_log {σ : Type} (c : Client σ) (name : Str) :
    ∀ (fuel i : Nat) (base tp : Str) (err : Option GoError) (w : World σ) (r : Res Bool)
      (w1 : World σ), trashLoop c name fuel i base tp err w = some (r, w1) →
      ∃ l, w1.log = w.log ++ l ∧ ∀ q, Call.removeAll q ∉ l := by
  intro fuel
  induction fuel with
  | zero => intro i base tp err w r w1 h; exact Option.noConfusion h
  | succ n ih =>
    intro i base tp err w r w1 h
    have hnm : ∀ (l : List Call), (∀ call ∈ l, call.isMutation = false) →
        ∀ q, Call.removeAll q ∉ l := by
      intro l hl q hq
      have := hl _ hq
      simp [Call.isMutation] at this
    rcases trashLoop_step c name n i base tp err w r w1 h with
      ⟨_, _, hw⟩ | ⟨_, e, _, _, _, hw⟩ | ⟨_, e, _, _, e2, hf, _⟩ | ⟨_, e, _, _, hf, _⟩
      | ⟨_, e, _, _, found, w2, hf, h2⟩ | ⟨_, _, fp, e, w2, hf, h2⟩
      | ⟨_, _, fp, w2, hf, _, _, hw⟩ | ⟨_, _, fp, e, w2, hf, _, h2⟩
    · exact ⟨[], by rw [hw]; simp, by simp⟩
    · exact ⟨[Call.mkdirAll base], by rw [hw]; rfl, by simp⟩
    · obtain ⟨l, hl, hmut⟩ := findExisting_log c _ _ _ _ _ hf
      refine ⟨Call.mkdirAll base :: l, by rw [hl]; simp [doMkdirAll], ?_⟩
      intro q hq
      rcases List.mem_cons.mp hq with e | e
      · exact Call.noConfusion e
      · exact hnm l hmut q e
    · exact absurd hf (findExisting_not_panicked c _ _ _ _)
    · obtain ⟨l, hl, hmut⟩ := findExisting_log c _ _ _ _ _ hf
      obtain ⟨l2, hl2, hno⟩ := ih _ _ _ _ _ _ _ h2
      refine ⟨Call.mkdirAll base :: (l ++ Call.now :: l2), ?_, ?_⟩
      · rw [hl2]; simp [doNow, hl, doMkdirAll]
      · intro q hq
        rcases List.mem_cons.mp hq with e | e
        · exact Call.noConfusion e
        · rcases List.mem_append.mp e with e | e
          · exact hnm l hmut q e
          · rcases List.mem_cons.mp e with e | e
            · exact Call.noConfusion e
            · exact hno q e
    · obtain ⟨l, hl, hmut⟩ := freeName_log c _ _ _ _ _ _ _ hf
      obtain ⟨l2, hl2, hno⟩ := ih _ _ _ _ _ _ _ h2
      refine ⟨Call.mkdirAll base :: (l ++ l2), ?_, ?_⟩
      · rw [hl2]; simp [hl, doMkdirAll]
      · intro q hq
        rcases List.mem_cons.mp hq with e | e
        · exact Call.noConfusion e
        · rcases List.mem_append.mp e with e | e
          · exact hnm l hmut q e
          · exact hno q e
    · obtain ⟨l, hl, hmut⟩ := freeName_log c _ _ _ _ _ _ _ hf
      refine ⟨Call.mkdirAll base :: (l ++ [Call.renameForTrash name fp]), ?_, ?_⟩
      · rw [hw]; simp [doRenameForTrash, hl, doMkdirAll]
      · intro q hq
        rcases List.mem_cons.mp hq with e | e
        · exact Call.noConfusion e
        · rcases List.mem_append.mp e with e | e
          · exact hnm l hmut q e
          · simp at e
    · obtain ⟨l, hl, hmut⟩ := freeName_log c _ _ _ _ _ _ _ hf
      obtain ⟨l2, hl2, hno⟩ := ih _ _ _ _ _ _ _ h2
      refine ⟨Call.mkdirAll base :: (l ++ Call.renameForTrash name fp :: l2), ?_, ?_⟩
      · rw [hl2]; simp [doRenameForTrash, hl, doMkdirAll]
      · intro q hq
        rcases List.mem_cons.mp hq with e | e
        · exact Call.noConfusion e
        · rcases List.mem_append.mp e with e | e
          · exact hnm l hmut q e
          · rcases List.mem_cons.mp e with e | e
            · exact Call.noConfusion e
            · exact hno q e

/-! ## The ways `moveToTrash` can go -/

/-- The part of `moveToTrash` after the query of the server defaults. -/
theorem moveToTrash_relocate {σ : Type} (c : Client σ) (fuel : Nat) (name : Str)
    (w0 : World σ) (r : Res Bool) (w1 : World σ)
    (h : (if hasPrefix name (trashRootDir c) then some (Res.ok false, w0)
          else if hasPrefix (pathDir (trashRootDir c)) name then
            some (Res.fail (GoError.errContainsTrash name), w0)
          else trashLoop c name fuel 0
            (pathDir (pathJoin [trashRootDir c, "Current".toList, name]))
            (pathJoin [trashRootDir c, "Current".toList, name]) none w0) = some (r, w1)) :
    (hasPrefix name (trashRootDir c) = true ∧ r = Res.ok false ∧ w1 = w0)
    ∨ (hasPrefix name (trashRootDir c) = false
        ∧ hasPrefix (pathDir (trashRootDir c)) name = true
        ∧ r = Res.fail (GoError.errContainsTrash name) ∧ w1 = w0)
    ∨ (hasPrefix name (trashRootDir c) = false
        ∧ hasPrefix (pathDir (trashRootDir c)) name = false
        ∧ trashLoop c name fuel 0
            (pathDir (pathJoin [trashRootDir c, "Current".toList, name]))
            (pathJoin [trashRootDir c, "Current".toList, name]) none w0 = some (r, w1)) := by
  cases h1 : hasPrefix name (trashRootDir c) with
  | true =>
    rw [h1] at h
    simp only [if_true, Option.some.injEq, Prod.mk.injEq] at h
    exact Or.inl ⟨rfl, h.1.symm, h.2.symm⟩
  | false =>
    rw [h1] at h
    simp only [Bool.false_eq_true, if_false] at h
    cases h2 : hasPrefix (pathDir (trashRootDir c)) name with
    | true =>
      rw [h2] at h
      simp only [if_true, Option.some.injEq, Prod.mk.injEq] at h
      exact Or.inr (Or.inl ⟨rfl, rfl, h.1.symm, h.2.symm⟩)
    | false =>
      rw [h2] at h
      simp only [Bool.false_eq_true, if_false] at h
      exact Or.inr (Or.inr ⟨rfl, rfl, h⟩)

/-- The ways `moveToTrash` can go: the query of the server defaults fails or tells that
trash is disabled; or, from the world `w0` after the query (the world at the call when
trash is forced), the target is refused by one of the two tests on its name, or the loop
is entered. -/
theorem moveToTrash_step {σ : Type} (c : Client σ) (fuel : Nat) (name : Str)
    (forceTrash : Bool) (w : World σ) (r : Res Bool) (w1 : World σ)
    (h : moveToTrash c fuel name forceTrash w = some (r, w1)) :
    (forceTrash = false ∧ ∃ e, (c.ServerDefaults w.state).1 = Reply.err e
        ∧ r = Res.fail (GoError.errRemote e) ∧ w1 = (doServerDefaults c w).2)
    ∨ (forceTrash = false ∧ ∃ n, (c.ServerDefaults w.state).1 = Reply.ok n ∧ n ≤ 0
        ∧ r = Res.ok false ∧ w1 = (doServerDefaults c w).2)
    ∨ ((forceTrash = true ∨ ∃ n, (c.ServerDefaults w.state).1 = Reply.ok n ∧ 0 < n)
        ∧ ((hasPrefix name (trashRootDir c) = true ∧ r = Res.ok false
            ∧ w1 = if forceTrash then w else (doServerDefaults c w).2)
          ∨ (hasPrefix name (trashRootDir c) = false
            ∧ hasPrefix (pathDir (trashRootDir c)) name = true
            ∧ r = Res.fail (GoError.errContainsTrash name)
            ∧ w1 = if forceTrash then w else (doServerDefaults c w).2)
          ∨ (hasPrefix name (trashRootDir c) = false
            ∧ hasPrefix (pathDir (trashRootDir c)) name = false
            ∧ trashLoop c name fuel 0
                (pathDir (pathJoin [trashRootDir c, "Current".toList, name]))
                (pathJoin [trashRootDir c, "Current".toList, name]) none
                (if forceTrash then w else (doServerDefaults c w).2) = some (r, w1)))) := by
  cases forceTrash with
  | true =>
    right; right
    refine ⟨Or.inl rfl, ?_⟩
    simp only [if_true]
    apply moveToTrash_relocate c fuel name w r w1
    simpa [moveToTrash] using h
  | false =>
    cases hd : (c.ServerDefaults w.state).1 with
    | err e =>
      left
      refine ⟨rfl, e, rfl, ?_⟩
      simp [moveToTrash, doServerDefaults, hd] at h
      exact ⟨h.1.symm, by rw [← h.2]; rfl⟩
    | ok n =>
      by_cases hn : n ≤ 0
      · right; left
        refine ⟨rfl, n, rfl, hn, ?_⟩
        simp [moveToTrash, doServerDefaults, hd, hn] at h
        exact ⟨h.1.symm, by rw [← h.2]; rfl⟩
      · right; right
        refine ⟨Or.inr ⟨n, rfl, by omega⟩, ?_⟩
        simp only [Bool.false_eq_true, if_false]
        apply moveToTrash_relocate c fuel name _ r w1
        simpa [moveToTrash, doServerDefaults, hd, hn] using h

/-! ## C27: the fallback signal comes before any mutating call -/

/-- The calls of a run of `moveToTrash` that returns the direct-delete fallback
`(false, nil)`: none when trash is forced, else the query of the server defaults. -/
theorem moveToTrash_fallback_log {σ : Type} (c : Client σ) (fuel : Nat) (name : Str)
    (forceTrash : Bool) (w w1 : World σ)
    (h : moveToTrash c fuel name forceTrash w = some (Res.ok false, w1)) :
    w1.log = w.log ++ (if forceTrash then [] else [Call.serverDefaults]) := by
  rcases moveToTrash_step c fuel name forceTrash w _ _ h with
    ⟨_, e, _, hr, _⟩ | ⟨hf, n, _, _, _, hw⟩ | ⟨_, ⟨_, _, hw⟩ | ⟨_, _, hr, _⟩ | ⟨_, _, h2⟩⟩
  · exact Res.noConfusion hr
  · rw [hw, hf]; rfl
  · rw [hw]; cases forceTrash <;> simp [doServerDefaults]
  · exact Res.noConfusion hr
  · rcases trashLoop_result c name _ _ _ _ _ _ _ _ h2 with hr | ⟨e, hr⟩
    · simp at hr
    · exact Res.noConfusion hr

/-- The calls of a run of `moveToTrash`: `RemoveAll` is not among them. -/
theorem moveToTrash_log {σ : Type} (c : Client σ) (fuel : Nat) (name : Str)
    (forceTrash : Bool) (w : World σ) (r : Res Bool) (w1 : World σ)
    (h : moveToTrash c fuel name forceTrash w = some (r, w1)) :
    ∃ l, w1.log = w.log ++ l ∧ ∀ q, Call.removeAll q ∉ l := by
  have hentry : ∃ l0, (if forceTrash then w else (doServerDefaults c w).2).log = w.log ++ l0
      ∧ ∀ q, Call.removeAll q ∉ l0 := by
    cases forceTrash with
    | true => exact ⟨[], by simp, by simp⟩
    | false => exact ⟨[Call.serverDefaults], by simp [doServerDefaults], by simp⟩
  rcases moveToTrash_step c fuel name forceTrash w _ _ h with
    ⟨_, e, _, _, hw⟩ | ⟨_, n, _, _, _, hw⟩ | ⟨_, ⟨_, _, hw⟩ | ⟨_, _, _, hw⟩ | ⟨_, _, h2⟩⟩
  · exact ⟨[Call.serverDefaults], by rw [hw]; rfl, by simp⟩
  · exact ⟨[Call.serverDefaults], by rw [hw]; rfl, by simp⟩
  · rw [hw]; exact hentry
  · rw [hw]; exact hentry
  · obtain ⟨l0, hl0, hno0⟩ := hentry
    obtain ⟨l, hl, hno⟩ := trashLoop_log c name _ _ _ _ _ _ _ _ h2
    refine ⟨l0 ++ l, by rw [hl, hl0, List.append_assoc], ?_⟩
    intro q hq
    rcases List.mem_append.mp hq with e | e
    · exact hno0 q e
    · exact hno q e

/-- C27.  Whenever `moveToTrash` returns the direct-delete fallback `(false, nil)`, the
only call it has issued is the query of the server defaults (none at all when trash is
forced): no `MkdirAll`, no `RenameForTrash`.  And whenever the body of the loop of `rm`
issues `RemoveAll` for a path, its calls for that path are the `Stat`, the query of the
server defaults when `moveToTrash` was called without trash forced, and the `RemoveAll`:
`rm` never removes a path directly after a call that changed the remote side. -/
theorem C27_fallback_without_mutation {σ : Type} (c : RmClient σ) (fuel : Nat) (name : Str)
    (forceTrash : Bool) (w : World σ) :
    (∀ w1, moveToTrash c.toClient fuel name forceTrash w = some (Res.ok false, w1) →
        w1.log = w.log ++ (if forceTrash then [] else [Call.serverDefaults]))
    ∧ (∀ recursive force skipTrash status out w1,
        rmOne c fuel recursive force skipTrash forceTrash name status w = some (out, w1) →
        (∃ q, Call.removeAll q ∈ w1.log.drop w.log.length) →
        w1.log = w.log ++ Call.stat name
          :: ((if skipTrash ∨ forceTrash then [] else [Call.serverDefaults])
            ++ [Call.removeAll name])) := by
  refine ⟨fun w1 h => moveToTrash_fallback_log c.toClient fuel name forceTrash w w1 h, ?_⟩
  intro recursive force skipTrash status out w1 h ⟨q, hq⟩
  have hremove : ∀ (w2 : World σ),
      (match doRemoveAll c name w2 with
        | (some e, w3) => some (RmStep.fatal (GoError.errRemote e), w3)
        | (none, w3) => some (RmStep.next status, w3)) = some (out, w1) →
      w1.log = w2.log ++ [Call.removeAll name] := by
    intro w2 h2
    rcases hx : doRemoveAll c name w2 with ⟨x, w3⟩
    rw [hx] at h2
    have hw3 : w3.log = w2.log ++ [Call.removeAll name] := by
      have := congrArg (fun p => p.2.log) hx
      simpa [doRemoveAll] using this.symm
    cases x with
    | some e =>
      simp only [Option.some.injEq, Prod.mk.injEq] at h2
      rw [← h2.2]; exact hw3
    | none =>
      simp only [Option.some.injEq, Prod.mk.injEq] at h2
      rw [← h2.2]; exact hw3
  have hstat : (doStat c.toClient name w).2.log = w.log ++ [Call.stat name] := rfl
  have hdrop : ∀ (l : List Call), w1.log = w.log ++ l → (∀ q, Call.removeAll q ∉ l) → False := by
    intro l hl hno
    rw [hl, List.drop_left] at hq
    exact hno q hq
  unfold rmOne at h
  rcases hs : doStat c.toClient name w with ⟨x, ws⟩
  rw [hs] at h
  have hws : ws.log = w.log ++ [Call.stat name] := by rw [← hstat, hs]
  cases x with
  | err e =>
    exfalso
    simp only at h
    by_cases hc : force = true ∧ e = RemoteErr.notExist
    · rw [if_pos hc] at h
      simp only [Option.some.injEq, Prod.mk.injEq] at h
      exact hdrop [Call.stat name] (by rw [← h.2, hws]) (by simp)
    · rw [if_neg hc] at h
      simp only [Option.some.injEq, Prod.mk.injEq] at h
      exact hdrop [Call.stat name] (by rw [← h.2, hws]) (by simp)
  | ok info =>
    simp only at h
    by_cases hc : (!recursive) = true ∧ info.IsDir = true
    · exfalso
      rw [if_pos hc] at h
      simp only [Option.some.injEq, Prod.mk.injEq] at h
      exact hdrop [Call.stat name] (by rw [← h.2, hws]) (by simp)
    · rw [if_neg hc] at h
      cases skipTrash with
      | true =>
        simp only [Bool.not_true, Bool.false_eq_true, if_false] at h
        rw [hremove ws h, hws]
        simp
      | false =>
        simp only [Bool.not_false, if_true] at h
        cases hm : moveToTrash c.toClient fuel name forceTrash ws with
        | none => rw [hm] at h; exact Option.noConfusion h
        | some p =>
          rcases p with ⟨r, w2⟩
          rw [hm] at h
          obtain ⟨l, hl, hno⟩ := moveToTrash_log c.toClient fuel name forceTrash ws r w2 hm
          have hfail : w1 = w2 → False := by
            intro e
            refine hdrop (Call.stat name :: l) ?_ ?_
            · rw [e, hl, hws]; simp
            · intro q hq
              rcases List.mem_cons.mp hq with e | e
              · exact Call.noConfusion e
              · exact hno q e
          cases r with
          | panicked =>
            simp only [Option.some.injEq, Prod.mk.injEq] at h
            exact absurd h.2.symm hfail
          | fail e =>
            simp only at h
            by_cases hc2 : force = true ∧ isNotExist e = true
            · rw [if_pos hc2] at h
              simp only [Option.some.injEq, Prod.mk.injEq] at h
              exact absurd h.2.symm hfail
            · rw [if_neg hc2] at h
              simp only [Option.some.injEq, Prod.mk.injEq] at h
              exact absurd h.2.symm hfail
          | ok success =>
            cases success with
            | true =>
              simp only [if_true, Option.some.injEq, Prod.mk.injEq] at h
              exact absurd h.2.symm hfail
            | false =>
              simp only [Bool.false_eq_true, if_false] at h
              have hfb := moveToTrash_fallback_log c.toClient fuel name forceTrash ws w2 hm
              rw [hremove w2 h, hfb, hws]
              cases forceTrash <;> simp

set_option maxRecDepth 100000 in
/-- C27, witness: with trash disabled on the server, `moveToTrash` returns the fallback
for `/a/b` after the query of the server defaults alone, and `rm -r` then removes the
path: its calls are the `Stat`, the query and the `RemoveAll`. -/
theorem C27_fallback_without_mutation_witness :
    moveToTrash (dirRmClient trashOffClient).toClient 4 "/a/b".toList false world0
        = some (Res.ok false, { state := (), log := [Call.serverDefaults] })
    ∧ rmOne (dirRmClient trashOffClient) 4 true false false false "/a/b".toList 0 world0
        = some (RmStep.next 0, { state := (), log := [Call.stat "/a/b".toList,
            Call.serverDefaults, Call.removeAll "/a/b".toList] })
    ∧ ({ state := (), log := [Call.serverDefaults] } : World Unit).log
        = world0.log ++ (if false then [] else [Call.serverDefaults])
    ∧ ({ state := (), log := [Call.stat "/a/b".toList, Call.serverDefaults,
          Call.removeAll "/a/b".toList] } : World Unit).log
        = world0.log ++ Call.stat "/a/b".toList
          :: ((if false ∨ false then [] else [Call.serverDefaults])
            ++ [Call.removeAll "/a/b".toList]) :=
  ⟨by decide, by decide,
    (C27_fallback_without_mutation (dirRmClient trashOffClient) 4 "/a/b".toList false
      world0).1 _ (by decide),
    (C27_fallback_without_mutation (dirRmClient trashOffClient) 4 "/a/b".toList false
      world0).2 true false false 0 (RmStep.next 0) _ (by decide)
      ⟨"/a/b".toList, by decide⟩⟩

/-! ## C25: the adjustments of the parent directory are not counted -/

theorem countMkdirAll_append (l1 l2 : List Call) :
    countMkdirAll (l1 ++ l2) = countMkdirAll l1 + countMkdirAll l2 := by
  simp [countMkdirAll, List.countP_append]

/-- On the remote side of `stubbornClient n` that has failed `s` times, with `m` failures
to come, the loop of `moveToTrash` ends with success after `m + 1` calls of `MkdirAll`,
`m` of them followed by an adjustment of the parent directory. -/
theorem trashLoop_stubborn (n : Nat) (name : Str) :
    ∀ (m s : Nat) (base tp : Str) (err : Option GoError) (log : List Call), s + m = n →
      ∃ w1, trashLoop (stubbornClient n) name (m + 2) 0 base tp err { state := s, log := log }
          = some (Res.ok true, w1)
        ∧ countMkdirAll w1.log = countMkdirAll log + (m + 1) := by
  intro m
  induction m with
  | zero =>
    intro s base tp err log hs
    simp only [Nat.add_zero] at hs
    subst hs
    refine ⟨{ state := s + 1, log := log ++ [Call.mkdirAll base, Call.pathExists tp,
      Call.renameForTrash name tp] }, ?_, ?_⟩
    · simp [trashLoop, freeName, doMkdirAll, doExists, doRenameForTrash, stubbornClient]
    · simp [countMkdirAll, List.countP_append, List.countP_cons]
  | succ k ih =>
    intro s base tp err log hs
    have hlt : s < n := by omega
    have hle : s + 1 ≤ n := by omega
    obtain ⟨w1, h1, h2⟩ := ih (s + 1)
      (stringsReplaceFirst base base (base ++ formatInt 1700000000000))
      (pathJoin [stringsReplaceFirst base base (base ++ formatInt 1700000000000), pathBase tp])
      none (log ++ [Call.mkdirAll base, Call.pathExists base, Call.now]) (by omega)
    refine ⟨w1, ?_, ?_⟩
    · rw [← h1]
      have e : k + 1 + 2 = (k + 2) + 1 := by omega
      rw [e]
      conv => lhs; unfold trashLoop
      simp [findExisting, doMkdirAll, doExists, doNow, stubbornClient, hlt, hle]
    · rw [h2, countMkdirAll_append]
      simp [countMkdirAll, List.countP_cons]
      omega

set_option maxRecDepth 100000 in
/-- On the remote side of `stubbornClient 3`, one call of `moveToTrash` makes the
adjustment of the parent directory three times. -/
theorem moveToTrash_stubborn_three :
    moveToTrash (stubbornClient 3) 5 "/a/b".toList true { state := 0, log := [] }
      = some (Res.ok true, { state := 4, log :=
          [Call.mkdirAll "/user/me/.Trash/Current/a".toList,
           Call.pathExists "/user/me/.Trash/Current/a".toList, Call.now,
           Call.mkdirAll "/user/me/.Trash/Current/a1700000000000".toList,
           Call.pathExists "/user/me/.Trash/Current/a1700000000000".toList, Call.now,
           Call.mkdirAll "/user/me/.Trash/Current/a17000000000001700000000000".toList,
           Call.pathExists "/user/me/.Trash/Current/a17000000000001700000000000".toList,
           Call.now,
           Call.mkdirAll
             "/user/me/.Trash/Current/a170000000000017000000000001700000000000".toList,
           Call.pathExists
             "/user/me/.Trash/Current/a170000000000017000000000001700000000000/b".toList,
           Call.renameForTrash "/a/b".toList
             "/user/me/.Trash/Current/a170000000000017000000000001700000000000/b".toList] }) := by
  decide

/-- C25, counterexample.  On a remote side whose first three calls of `MkdirAll` fail
because a path exists, one call of `moveToTrash` (trash forced, target `/a/b`) makes the
adjustment of the parent directory three times and issues four calls of `MkdirAll`.  And
for every `n` there is a remote side on which it makes the adjustment `n` times and
issues `n + 1` calls of `MkdirAll` before it succeeds: neither the adjustments nor the
calls of `MkdirAll` are bounded. -/
theorem C25_counterexample :
    (∃ w1, moveToTrash (stubbornClient 3) 5 "/a/b".toList true { state := 0, log := [] }
          = some (Res.ok true, w1)
        ∧ countMkdirAll w1.log = 4)
    ∧ ∀ n : Nat, ∃ fuel w1,
      moveToTrash (stubbornClient n) fuel "/a/b".toList true { state := 0, log := [] }
          = some (Res.ok true, w1)
        ∧ countMkdirAll w1.log = n + 1 := by
  refine ⟨⟨_, moveToTrash_stubborn_three, by decide⟩, ?_⟩
  intro n
  obtain ⟨w1, h1, h2⟩ := trashLoop_stubborn n "/a/b".toList n 0
    (pathDir (pathJoin [trashRootDir (stubbornClient n), "Current".toList, "/a/b".toList]))
    (pathJoin [trashRootDir (stubbornClient n), "Current".toList, "/a/b".toList]) none []
    (by omega)
  refine ⟨n + 2, w1, ?_, by simpa [countMkdirAll] using h2⟩
  rw [← h1]
  have hroot : trashRootDir (stubbornClient n) = "/user/me/.Trash".toList := by
    show pathJoin ["/user".toList, "me".toList, ".Trash".toList] = _
    decide
  have ha : hasPrefix "/a/b".toList (trashRootDir (stubbornClient n)) = false := by
    rw [hroot]; decide
  have hb : hasPrefix (pathDir (trashRootDir (stubbornClient n))) "/a/b".toList = false := by
    rw [hroot]; decide
  unfold moveToTrash
  simp only [Bool.not_true, Bool.false_eq_true, if_false, ha, hb]

/-! ## The record of a run of `moveToTrash` -/

theorem doExists_recorded {σ : Type} (c : Client σ) (p : Str) (w : World (σ × List Event)) :
    (doExists (recorded c) p w).2.state.2
      = w.state.2 ++ [Event.pathExists p (doExists (recorded c) p w).1] := rfl

theorem doNow_recorded {σ : Type} (c : Client σ) (w : World (σ × List Event)) :
    (doNow (recorded c) w).2.state.2 = w.state.2 ++ [Event.now (doNow (recorded c) w).1] := rfl

theorem doMkdirAll_recorded {σ : Type} (c : Client σ) (p : Str) (w : World (σ × List Event)) :
    (doMkdirAll (recorded c) p w).2.state.2
      = w.state.2 ++ [Event.mkdirAll p (doMkdirAll (recorded c) p w).1] := rfl

theorem doRenameForTrash_recorded {σ : Type} (c : Client σ) (src dst : Str)
    (w : World (σ × List Event)) :
    (doRenameForTrash (recorded c) src dst w).2.state.2
      = w.state.2 ++ [Event.renameForTrash src dst (doRenameForTrash (recorded c) src dst w).1] :=
  rfl

theorem doServerDefaults_recorded {σ : Type} (c : Client σ) (w : World (σ × List Event)) :
    (doServerDefaults (recorded c) w).2.state.2
      = w.state.2 ++ [Event.serverDefaults (doServerDefaults (recorded c) w).1] := rfl

/-- The record of the loop `for !exists`: existence checks only. -/
theorem findExisting_events {σ : Type} (c : Client σ) :
    ∀ (fuel : Nat) (p : Str) (w : World (σ × List Event)) (r : Res Str)
      (w1 : World (σ × List Event)), findExisting (recorded c) fuel p w = some (r, w1) →
      ∃ evs, w1.state.2 = w.state.2 ++ evs ∧ ∀ e ∈ evs, e.isMutation = false := by
  intro fuel
  induction fuel with
  | zero => intro p w r w1 h; exact Option.noConfusion h
  | succ n ih =>
    intro p w r w1 h
    have hone : ∀ e ∈ [Event.pathExists p (doExists (recorded c) p w).1],
        e.isMutation = false := by
      intro e he; simp at he; subst he; rfl
    rcases findExisting_step (recorded c) n p w _ _ h with
      ⟨e, _, _, hw⟩ | ⟨_, _, hw⟩ | ⟨_, h2⟩
    · exact ⟨_, by rw [hw, doExists_recorded], hone⟩
    · exact ⟨_, by rw [hw, doExists_recorded], hone⟩
    · obtain ⟨evs, hevs, hq⟩ := ih _ _ _ _ h2
      refine ⟨Event.pathExists p (doExists (recorded c) p w).1 :: evs, ?_, ?_⟩
      · rw [hevs, doExists_recorded]; simp
      · intro e he
        rcases List.mem_cons.mp he with e1 | e1
        · subst e1; rfl
        · exact hq e e1

/-- The record of the loop `for exists`: existence checks and readings of the clock
only; when the loop ends without error, the last of them is the check of the path the
loop ends with, answered "does not exist"; and that path is the one the loop started
with, or `orig` followed by one reading of the clock. -/
theorem freeName_events {σ : Type} (c : Client σ) (orig : Str) :
    ∀ (fuel : Nat) (tp : Str) (w : World (σ × List Event)) (fp : Str)
      (oe : Option RemoteErr) (w1 : World (σ × List Event)),
      freeName (recorded c) orig fuel tp w = some ((fp, oe), w1) →
      ∃ evs, w1.state.2 = w.state.2 ++ evs ∧ (∀ e ∈ evs, e.isMutation = false)
        ∧ (oe = none → ∃ pre, evs = pre ++ [Event.pathExists fp (Reply.ok false)])
        ∧ (fp = tp ∨ ∃ ms, fp = orig ++ formatInt ms) := by
  intro fuel
  induction fuel with
  | zero => intro tp w fp oe w1 h; exact Option.noConfusion h
  | succ n ih =>
    intro tp w fp oe w1 h
    have hone : ∀ e ∈ [Event.pathExists tp (doExists (recorded c) tp w).1],
        e.isMutation = false := by
      intro e he; simp at he; subst he; rfl
    rcases freeName_step (recorded c) orig n tp w _ _ _ h with
      ⟨e, _, hfp, hoe, hw⟩ | ⟨hx, hfp, _, hw⟩ | ⟨_, h2⟩
    · refine ⟨_, by rw [hw, doExists_recorded], hone, ?_, Or.inl hfp⟩
      intro h0; rw [hoe] at h0; exact Option.noConfusion h0
    · refine ⟨_, by rw [hw, doExists_recorded], hone, ?_, Or.inl hfp⟩
      intro _
      exact ⟨[], by rw [hx, hfp]; rfl⟩
    · obtain ⟨evs, hevs, hq, hlast, hform⟩ := ih _ _ _ _ _ h2
      refine ⟨Event.pathExists tp (doExists (recorded c) tp w).1
        :: Event.now (doNow (recorded c) (doExists (recorded c) tp w).2).1 :: evs, ?_, ?_, ?_, ?_⟩
      · rw [hevs, doNow_recorded, doExists_recorded]; simp
      · intro e he
        rcases List.mem_cons.mp he with e1 | e1
        · subst e1; rfl
        · rcases List.mem_cons.mp e1 with e1 | e1
          · subst e1; rfl
          · exact hq e e1
      · intro h0
        obtain ⟨pre, hpre⟩ := hlast h0
        exact ⟨_ :: _ :: pre, by rw [hpre]; rfl⟩
      · rcases hform with e1 | ⟨ms, e1⟩
        · exact Or.inr ⟨_, e1⟩
        · exact Or.inr ⟨ms, e1⟩

theorem countP_quiet (p : Event → Bool) (evs : List Event)
    (hp : ∀ e, p e = true → e.isMutation = true) (hq : ∀ e ∈ evs, e.isMutation = false) :
    evs.countP p = 0 := by
  rw [List.countP_eq_zero]
  intro e he hpe
  have := hq e he
  rw [hp e hpe] at this
  exact Bool.noConfusion this

theorem isMkdir_eq (e : Event) :
    (if e.isMkdir then 1 else 0)
      = (if e.isAdjust then 1 else 0) + (if e.isAttempt then 1 else 0) := by
  cases e with
  | mkdirAll p rep =>
    cases rep with
    | none => simp [Event.isMkdir, Event.isAdjust, Event.isAttempt]
    | some x => cases x <;> simp [Event.isMkdir, Event.isAdjust, Event.isAttempt]
  | _ => simp [Event.isMkdir, Event.isAdjust, Event.isAttempt]

theorem countP_isMkdir (evs : List Event) :
    evs.countP Event.isMkdir = evs.countP Event.isAdjust + evs.countP Event.isAttempt := by
  induction evs with
  | nil => rfl
  | cons e rest ih =>
    have h := isMkdir_eq e
    simp only [List.countP_cons, ih]
    omega

theorem isRename_mkdirAll (p : Str) (rep : Option RemoteErr) :
    (Event.mkdirAll p rep).isRename = false := rfl

theorem isRename_now (ms : Int) : (Event.now ms).isRename = false := rfl

theorem isRename_renameForTrash (src dst : Str) (rep : Option RemoteErr) :
    (Event.renameForTrash src dst rep).isRename = true := rfl

theorem isAttempt_now (ms : Int) : (Event.now ms).isAttempt = false := rfl

theorem isAttempt_renameForTrash (src dst : Str) (rep : Option RemoteErr) :
    (Event.renameForTrash src dst rep).isAttempt = false := rfl

theorem isAttempt_mkdirAll_none (p : Str) : (Event.mkdirAll p none).isAttempt = true := rfl

theorem isAttempt_mkdirAll_adjust (p : Str) (e : RemoteErr)
    (h : e = RemoteErr.exist ∨ e = RemoteErr.notDir) :
    (Event.mkdirAll p (some e)).isAttempt = false := by
  rcases h with h | h <;> subst h <;> rfl

/-- The record of the loop of `moveToTrash`, from the pass `i` on: at most `2 - i` calls
of `RenameForTrash`, and at most `2 - i` calls of `MkdirAll` that are not followed by an
adjustment of the parent directory. -/
theorem trashLoop_counts {σ : Type} (c : Client σ) (name : Str) :
    ∀ (fuel i : Nat) (base tp : Str) (err : Option GoError) (w : World (σ × List Event))
      (r : Res Bool) (w1 : World (σ × List Event)),
      trashLoop (recorded c) name fuel i base tp err w = some (r, w1) →
      ∃ evs, w1.state.2 = w.state.2 ++ evs
        ∧ evs.countP Event.isRename ≤ 2 - i
        ∧ evs.countP Event.isAttempt ≤ 2 - i := by
  intro fuel
  induction fuel with
  | zero => intro i base tp err w r w1 h; exact Option.noConfusion h
  | succ n ih =>
    intro i base tp err w r w1 h
    have hren : ∀ e : Event, e.isRename = true → e.isMutation = true := by
      intro e he; simp [Event.isMutation, he]
    have hdone : ∀ e : Event, e.isAttempt = true → e.isMutation = true := by
      intro e he
      simp only [Event.isAttempt, Bool.and_eq_true] at he
      simp [Event.isMutation, he.1]
    rcases trashLoop_step (recorded c) name n i base tp err w r w1 h with
      ⟨_, _, hw⟩ | ⟨hi, e, hm, hadj, _, hw⟩ | ⟨hi, e, hm, hadj, e2, hf, _⟩ | ⟨_, e, _, _, hf, _⟩
      | ⟨hi, e, hm, hadj, found, w2, hf, h2⟩ | ⟨hi, hm, fp, e, w2, hf, h2⟩
      | ⟨hi, hm, fp, w2, hf, hrn, _, hw⟩ | ⟨hi, hm, fp, e, w2, hf, hrn, h2⟩
    · exact ⟨[], by rw [hw]; simp, by simp, by simp⟩
    · refine ⟨[Event.mkdirAll base (some e)], by rw [hw, doMkdirAll_recorded, hm], ?_, ?_⟩
      · simp only [List.countP_cons, List.countP_nil, isRename_mkdirAll]
        simp
      · simp only [List.countP_cons, List.countP_nil]
        split <;> omega
    · obtain ⟨evs, hevs, hq⟩ := findExisting_events c _ _ _ _ _ hf
      refine ⟨Event.mkdirAll base (some e) :: evs, ?_, ?_, ?_⟩
      · rw [hevs, doMkdirAll_recorded, hm]; simp
      · simp only [List.countP_cons, isRename_mkdirAll, countP_quiet _ evs hren hq]
        simp
      · simp only [List.countP_cons, isAttempt_mkdirAll_adjust base e hadj,
          countP_quiet _ evs hdone hq]
        simp
    · exact absurd hf (findExisting_not_panicked _ _ _ _ _)
    · obtain ⟨evs, hevs, hq⟩ := findExisting_events c _ _ _ _ _ hf
      obtain ⟨evs2, hevs2, hr2, hd2⟩ := ih _ _ _ _ _ _ _ h2
      refine ⟨Event.mkdirAll base (some e) :: (evs ++ Event.now (doNow (recorded c) w2).1 :: evs2),
        ?_, ?_, ?_⟩
      · rw [hevs2, doNow_recorded, hevs, doMkdirAll_recorded, hm]; simp
      · simp only [List.countP_cons, List.countP_append, countP_quiet _ evs hren hq,
          isRename_mkdirAll, isRename_now, Bool.false_eq_true, if_false]
        omega
      · simp only [List.countP_cons, List.countP_append, countP_quiet _ evs hdone hq,
          isAttempt_mkdirAll_adjust base e hadj, isAttempt_now, Bool.false_eq_true, if_false]
        omega
    · obtain ⟨evs, hevs, hq, _, _⟩ := freeName_events c _ _ _ _ _ _ _ hf
      obtain ⟨evs2, hevs2, hr2, hd2⟩ := ih _ _ _ _ _ _ _ h2
      refine ⟨Event.mkdirAll base none :: (evs ++ evs2), ?_, ?_, ?_⟩
      · rw [hevs2, hevs, doMkdirAll_recorded, hm]; simp
      · simp only [List.countP_cons, List.countP_append, countP_quiet _ evs hren hq,
          isRename_mkdirAll, Bool.false_eq_true, if_false]
        omega
      · simp only [List.countP_cons, List.countP_append, countP_quiet _ evs hdone hq,
          isAttempt_mkdirAll_none, if_true]
        omega
    · obtain ⟨evs, hevs, hq, _, _⟩ := freeName_events c _ _ _ _ _ _ _ hf
      refine ⟨Event.mkdirAll base none :: (evs ++ [Event.renameForTrash name fp none]),
        ?_, ?_, ?_⟩
      · rw [hw, doRenameForTrash_recorded, hrn, hevs, doMkdirAll_recorded, hm]; simp
      · simp only [List.countP_cons, List.countP_append, countP_quiet _ evs hren hq,
          isRename_mkdirAll, isRename_renameForTrash, List.countP_nil, Bool.false_eq_true,
          if_false, if_true]
        omega
      · simp only [List.countP_cons, List.countP_append, countP_quiet _ evs hdone hq,
          isAttempt_mkdirAll_none, isAttempt_renameForTrash, List.countP_nil,
          Bool.false_eq_true, if_false, if_true]
        omega
    · obtain ⟨evs, hevs, hq, _, _⟩ := freeName_events c _ _ _ _ _ _ _ hf
      obtain ⟨evs2, hevs2, hr2, hd2⟩ := ih _ _ _ _ _ _ _ h2
      refine ⟨Event.mkdirAll base none
        :: (evs ++ Event.renameForTrash name fp (some e) :: evs2), ?_, ?_, ?_⟩
      · rw [hevs2, doRenameForTrash_recorded, hrn, hevs, doMkdirAll_recorded, hm]; simp
      · simp only [List.countP_cons, List.countP_append, countP_quiet _ evs hren hq,
          isRename_mkdirAll, isRename_renameForTrash, Bool.false_eq_true, if_false, if_true]
        omega
      · simp only [List.countP_cons, List.countP_append, countP_quiet _ evs hdone hq,
          isAttempt_mkdirAll_none, isAttempt_renameForTrash, Bool.false_eq_true, if_false,
          if_true]
        omega

/-- The record of the part of `moveToTrash` before the tests on the target: the query
of the server defaults, when trash is not forced. -/
theorem moveToTrash_entry_events {σ : Type} (c : Client σ) (forceTrash : Bool)
    (w : World (σ × List Event)) :
    (if forceTrash then w else (doServerDefaults (recorded c) w).2).state.2
      = w.state.2 ++ (if forceTrash then []
          else [Event.serverDefaults (doServerDefaults (recorded c) w).1]) := by
  cases forceTrash with
  | true => simp
  | false => simp [doServerDefaults_recorded]

/-- The record of a run of `moveToTrash`: nothing, or the query of the server defaults,
followed by the record of the loop when the loop is entered. -/
theorem moveToTrash_events {σ : Type} (c : Client σ) (fuel : Nat) (name : Str)
    (forceTrash : Bool) (w : World (σ × List Event)) (r : Res Bool)
    (w1 : World (σ × List Event))
    (h : moveToTrash (recorded c) fuel name forceTrash w = some (r, w1)) :
    (∃ rep, w1.state.2 = w.state.2 ++ (if forceTrash then [] else [Event.serverDefaults rep]))
    ∨ (∃ rep, trashLoop (recorded c) name fuel 0
          (pathDir (pathJoin [trashRootDir (recorded c), "Current".toList, name]))
          (pathJoin [trashRootDir (recorded c), "Current".toList, name]) none
          (if forceTrash then w else (doServerDefaults (recorded c) w).2) = some (r, w1)
        ∧ (if forceTrash then w else (doServerDefaults (recorded c) w).2).state.2
            = w.state.2 ++ (if forceTrash then [] else [Event.serverDefaults rep])) := by
  rcases moveToTrash_step (recorded c) fuel name forceTrash w _ _ h with
    ⟨hf, e, _, _, hw⟩ | ⟨hf, n, _, _, _, hw⟩ | ⟨_, ⟨_, _, hw⟩ | ⟨_, _, _, hw⟩ | ⟨_, _, h2⟩⟩
  · exact Or.inl ⟨_, by rw [hw, hf, doServerDefaults_recorded]; rfl⟩
  · exact Or.inl ⟨_, by rw [hw, hf, doServerDefaults_recorded]; rfl⟩
  · exact Or.inl ⟨_, by rw [hw]; exact moveToTrash_entry_events c forceTrash w⟩
  · exact Or.inl ⟨_, by rw [hw]; exact moveToTrash_entry_events c forceTrash w⟩
  · exact Or.inr ⟨_, h2, moveToTrash_entry_events c forceTrash w⟩

/-- C25 (amended).  In the record of one run of `moveToTrash`, on every remote side: at
most two calls of `RenameForTrash`; at most two calls of `MkdirAll` that are not
followed by an adjustment of the parent directory (they succeed, or fail for another
reason than an existing path or a non-directory); so the number of calls of `MkdirAll`
is at most the number of adjustments plus two. -/
theorem C25_attempts_bounded {σ : Type} (c : Client σ) (fuel : Nat) (name : Str)
    (forceTrash : Bool) (w : World (σ × List Event)) (r : Res Bool)
    (w1 : World (σ × List Event))
    (h : moveToTrash (recorded c) fuel name forceTrash w = some (r, w1)) :
    ∃ evs, w1.state.2 = w.state.2 ++ evs
      ∧ evs.countP Event.isRename ≤ 2
      ∧ evs.countP Event.isAttempt ≤ 2
      ∧ evs.countP Event.isMkdir = evs.countP Event.isAdjust + evs.countP Event.isAttempt
      ∧ evs.countP Event.isMkdir ≤ evs.countP Event.isAdjust + 2 := by
  have hfinish : ∀ evs : List Event, evs.countP Event.isRename ≤ 2 →
      evs.countP Event.isAttempt ≤ 2 →
      evs.countP Event.isRename ≤ 2 ∧ evs.countP Event.isAttempt ≤ 2
        ∧ evs.countP Event.isMkdir = evs.countP Event.isAdjust + evs.countP Event.isAttempt
        ∧ evs.countP Event.isMkdir ≤ evs.countP Event.isAdjust + 2 := by
    intro evs h1 h2
    have h3 := countP_isMkdir evs
    exact ⟨h1, h2, h3, by omega⟩
  rcases moveToTrash_events c fuel name forceTrash w r w1 h with ⟨rep, hw⟩ | ⟨rep, h2, h0⟩
  · refine ⟨_, hw, hfinish _ ?_ ?_⟩
    · cases forceTrash <;> simp [Event.isRename]
    · cases forceTrash <;> simp [Event.isAttempt, Event.isMkdir]
  · obtain ⟨evs, hevs, hr, hd⟩ := trashLoop_counts c name _ _ _ _ _ _ _ _ h2
    refine ⟨(if forceTrash then [] else [Event.serverDefaults rep]) ++ evs,
      by rw [hevs, h0, List.append_assoc], hfinish _ ?_ ?_⟩
    · rw [List.countP_append]
      have : (if forceTrash then [] else [Event.serverDefaults rep]).countP Event.isRename
          = 0 := by
        cases forceTrash <;> simp [Event.isRename]
      omega
    · rw [List.countP_append]
      have : (if forceTrash then [] else [Event.serverDefaults rep]).countP Event.isAttempt
          = 0 := by
        cases forceTrash <;> simp [Event.isAttempt, Event.isMkdir]
      omega

set_option maxRecDepth 100000 in
/-- C25, witness: on a remote side whose first call of `MkdirAll` fails because a path
exists, the record of the run holds one adjustment, two calls of `MkdirAll` and one call
of `RenameForTrash`. -/
theorem C25_attempts_bounded_witness :
    moveToTrash (recorded (stubbornClient 1)) 5 "/a/b".toList true
        { state := (0, []), log := [] } = some (Res.ok true, stubbornOnceWorld)
    ∧ ∃ evs : List Event, stubbornOnceWorld.state.2 = [] ++ evs
      ∧ evs.countP Event.isRename ≤ 2
      ∧ evs.countP Event.isAttempt ≤ 2
      ∧ evs.countP Event.isMkdir = evs.countP Event.isAdjust + evs.countP Event.isAttempt
      ∧ evs.countP Event.isMkdir ≤ evs.countP Event.isAdjust + 2 :=
  ⟨by decide,
    C25_attempts_bounded (stubbornClient 1) 5 "/a/b".toList true
      { state := (0, []), log := [] } (Res.ok true) stubbornOnceWorld (by decide)⟩

/-! ## A recorded client answers as the client itself -/

theorem doExists_forget {σ : Type} (c : Client σ) (p : Str) (w : World (σ × List Event)) :
    doExists c p w.forget
      = ((doExists (recorded c) p w).1, (doExists (recorded c) p w).2.forget) := rfl

theorem doNow_forget {σ : Type} (c : Client σ) (w : World (σ × List Event)) :
    doNow c w.forget = ((doNow (recorded c) w).1, (doNow (recorded c) w).2.forget) := rfl

theorem doMkdirAll_forget {σ : Type} (c : Client σ) (p : Str) (w : World (σ × List Event)) :
    doMkdirAll c p w.forget
      = ((doMkdirAll (recorded c) p w).1, (doMkdirAll (recorded c) p w).2.forget) := rfl

theorem doRenameForTrash_forget {σ : Type} (c : Client σ) (src dst : Str)
    (w : World (σ × List Event)) :
    doRenameForTrash c src dst w.forget
      = ((doRenameForTrash (recorded c) src dst w).1,
          (doRenameForTrash (recorded c) src dst w).2.forget) := rfl

theorem doServerDefaults_forget {σ : Type} (c : Client σ) (w : World (σ × List Event)) :
    doServerDefaults c w.forget
      = ((doServerDefaults (recorded c) w).1, (doServerDefaults (recorded c) w).2.forget) := rfl

theorem findExisting_recorded {σ : Type} (c : Client σ) :
    ∀ (fuel : Nat) (p : Str) (w : World (σ × List Event)),
      findExisting c fuel p w.forget
        = (findExisting (recorded c) fuel p w).map fun x => (x.1, x.2.forget) := by
  intro fuel
  induction fuel with
  | zero => intro p w; rfl
  | succ n ih =>
    intro p w
    unfold findExisting
    rw [doExists_forget]
    rcases hx : doExists (recorded c) p w with ⟨x, wx⟩
    cases x with
    | err e => rfl
    | ok b =>
      cases b with
      | true => rfl
      | false => exact ih _ _

theorem freeName_recorded {σ : Type} (c : Client σ) (orig : Str) :
    ∀ (fuel : Nat) (tp : Str) (w : World (σ × List Event)),
      freeName c orig fuel tp w.forget
        = (freeName (recorded c) orig fuel tp w).map fun x => (x.1, x.2.forget) := by
  intro fuel
  induction fuel with
  | zero => intro tp w; rfl
  | succ n ih =>
    intro tp w
    unfold freeName
    rw [doExists_forget]
    rcases hx : doExists (recorded c) tp w with ⟨x, wx⟩
    cases x with
    | err e => rfl
    | ok b =>
      cases b with
      | false => rfl
      | true =>
        simp only
        rw [doNow_forget]
        exact ih _ _

theorem trashLoop_recorded {σ : Type} (c : Client σ) (name : Str) :
    ∀ (fuel i : Nat) (base tp : Str) (err : Option GoError) (w : World (σ × List Event)),
      trashLoop c name fuel i base tp err w.forget
        = (trashLoop (recorded c) name fuel i base tp err w).map fun x => (x.1, x.2.forget) := by
  intro fuel
  induction fuel with
  | zero => intro i base tp err w; rfl
  | succ n ih =>
    intro i base tp err w
    unfold trashLoop
    by_cases hi : i < 2
    · rw [if_pos hi, if_pos hi, doMkdirAll_forget]
      rcases hm : doMkdirAll (recorded c) base w with ⟨m, wm⟩
      cases m with
      | some e =>
        simp only
        by_cases hadj : e = RemoteErr.exist ∨ e = RemoteErr.notDir
        · rw [if_pos hadj, if_pos hadj, findExisting_recorded]
          cases hf : findExisting (recorded c) n base wm with
          | none => rfl
          | some x =>
            rcases x with ⟨rf, w2⟩
            cases rf with
            | fail e2 => rfl
            | panicked => rfl
            | ok found =>
              simp only [Option.map_some']
              rw [doNow_forget]
              exact ih _ _ _ _ _
        · rw [if_neg hadj, if_neg hadj]; rfl
      | none =>
        simp only
        rw [freeName_recorded]
        cases hf : freeName (recorded c) tp n tp wm with
        | none => rfl
        | some x =>
          rcases x with ⟨⟨fp, oe⟩, w2⟩
          cases oe with
          | some e =>
            simp only [Option.map_some']
            exact ih _ _ _ _ _
          | none =>
            simp only [Option.map_some']
            rw [doRenameForTrash_forget]
            rcases hr : doRenameForTrash (recorded c) name fp w2 with ⟨rr, w3⟩
            cases rr with
            | none => rfl
            | some e =>
              simp only
              exact ih _ _ _ _ _
    · rw [if_neg hi, if_neg hi]; rfl

/-- A run of `moveToTrash` on the recorded client is the run on the client itself, with
the record next to the state: same result, same calls, same state of the remote side. -/
theorem moveToTrash_recorded {σ : Type} (c : Client σ) (fuel : Nat) (name : Str)
    (forceTrash : Bool) (w : World (σ × List Event)) :
    moveToTrash c fuel name forceTrash w.forget
      = (moveToTrash (recorded c) fuel name forceTrash w).map fun x => (x.1, x.2.forget) := by
  have hroot : trashRootDir (recorded c) = trashRootDir c := rfl
  unfold moveToTrash
  rw [hroot]
  cases forceTrash with
  | true =>
    simp only [Bool.not_true, Bool.false_eq_true, if_false]
    by_cases h1 : hasPrefix name (trashRootDir c) = true
    · rw [if_pos h1, if_pos h1]; rfl
    · rw [if_neg h1, if_neg h1]
      by_cases h2 : hasPrefix (pathDir (trashRootDir c)) name = true
      · rw [if_pos h2, if_pos h2]; rfl
      · rw [if_neg h2, if_neg h2]
        exact trashLoop_recorded c name _ _ _ _ _ _
  | false =>
    simp only [Bool.not_false, if_true]
    rw [doServerDefaults_forget]
    rcases hd : doServerDefaults (recorded c) w with ⟨d, wd⟩
    cases d with
    | err e => rfl
    | ok n =>
      simp only
      by_cases hn : n ≤ 0
      · rw [if_pos hn, if_pos hn]; rfl
      · rw [if_neg hn, if_neg hn]
        by_cases h1 : hasPrefix name (trashRootDir c) = true
        · rw [if_pos h1, if_pos h1]; rfl
        · rw [if_neg h1, if_neg h1]
          by_cases h2 : hasPrefix (pathDir (trashRootDir c)) name = true
          · rw [if_pos h2, if_pos h2]; rfl
          · rw [if_neg h2, if_neg h2]
            exact trashLoop_recorded c name _ _ _ _ _ _

/-! ## C24: the destination is checked right before the move -/

theorem RenamesChecked_of_quiet (name : Str) (evs : List Event)
    (hq : ∀ e ∈ evs, e.isMutation = false) : RenamesChecked name evs := by
  intro pre src dst rep post h
  have hmem : Event.renameForTrash src dst rep ∈ evs := by rw [h]; simp
  have := hq _ hmem
  simp [Event.isMutation, Event.isRename] at this

theorem RenamesChecked_append (name : Str) (a b : List Event)
    (ha : RenamesChecked name a) (hb : RenamesChecked name b) :
    RenamesChecked name (a ++ b) := by
  intro pre src dst rep post h
  rcases List.append_eq_append_iff.mp h with ⟨a1, hpre, hb1⟩ | ⟨c1, ha1, hc1⟩
  · obtain ⟨hs, p1, hp1⟩ := hb a1 src dst rep post hb1
    exact ⟨hs, a ++ p1, by rw [hpre, hp1, List.append_assoc]⟩
  · cases c1 with
    | nil =>
      simp only [List.nil_append] at hc1
      obtain ⟨_, p1, hp1⟩ := hb [] src dst rep post hc1.symm
      simp at hp1
    | cons y c2 =>
      simp only [List.cons_append, List.cons.injEq] at hc1
      obtain ⟨hy, _⟩ := hc1
      subst hy
      exact ha pre src dst rep c2 ha1

theorem RenamesChecked_cons (name : Str) (e : Event) (evs : List Event)
    (he : e.isRename = false) (h : RenamesChecked name evs) :
    RenamesChecked name (e :: evs) := by
  have h1 : RenamesChecked name [e] := by
    intro pre src dst rep post h0
    have hmem : Event.renameForTrash src dst rep ∈ [e] := by rw [h0]; simp
    simp only [List.mem_singleton] at hmem
    rw [← hmem] at he
    exact Bool.noConfusion he
  exact RenamesChecked_append name [e] evs h1 h

/-- A move right after a loop `for exists` that ended without error. -/
theorem RenamesChecked_move (name fp : Str) (rep : Option RemoteErr) (evs pre : List Event)
    (hq : ∀ e ∈ evs, e.isMutation = false)
    (hlast : evs = pre ++ [Event.pathExists fp (Reply.ok false)]) :
    RenamesChecked name (evs ++ [Event.renameForTrash name fp rep]) := by
  intro pre1 src dst rep1 post h
  rcases List.eq_nil_or_concat post with hp | ⟨post1, z, hp⟩
  · subst hp
    have h2 := List.append_inj' h rfl
    obtain ⟨h3, h4⟩ := h2
    simp only [List.cons.injEq, and_true] at h4
    injection h4 with h5 h6 h7
    subst h5 h6
    exact ⟨rfl, pre, by rw [← h3, hlast]⟩
  · exfalso
    subst hp
    have h1 : evs ++ [Event.renameForTrash name fp rep]
        = (pre1 ++ Event.renameForTrash src dst rep1 :: post1) ++ [z] := by
      rw [h]; simp
    have h2 := (List.append_inj' h1 rfl).1
    have hmem : Event.renameForTrash src dst rep1 ∈ evs := by rw [h2]; simp
    have := hq _ hmem
    simp [Event.isMutation, Event.isRename] at this

/-- In the record of the loop of `moveToTrash`, every call of `RenameForTrash` has the
source `name` and comes right after the check of its destination, answered "does not
exist". -/
theorem trashLoop_checked {σ : Type} (c : Client σ) (name : Str) :
    ∀ (fuel i : Nat) (base tp : Str) (err : Option GoError) (w : World (σ × List Event))
      (r : Res Bool) (w1 : World (σ × List Event)),
      trashLoop (recorded c) name fuel i base tp err w = some (r, w1) →
      ∃ evs, w1.state.2 = w.state.2 ++ evs ∧ RenamesChecked name evs := by
  intro fuel
  induction fuel with
  | zero => intro i base tp err w r w1 h; exact Option.noConfusion h
  | succ n ih =>
    intro i base tp err w r w1 h
    rcases trashLoop_step (recorded c) name n i base tp err w r w1 h with
      ⟨_, _, hw⟩ | ⟨hi, e, hm, hadj, _, hw⟩ | ⟨hi, e, hm, hadj, e2, hf, _⟩ | ⟨_, e, _, _, hf, _⟩
      | ⟨hi, e, hm, hadj, found, w2, hf, h2⟩ | ⟨hi, hm, fp, e, w2, hf, h2⟩
      | ⟨hi, hm, fp, w2, hf, hrn, _, hw⟩ | ⟨hi, hm, fp, e, w2, hf, hrn, h2⟩
    · exact ⟨[], by rw [hw]; simp, RenamesChecked_of_quiet name [] (by simp)⟩
    · exact ⟨[Event.mkdirAll base (some e)], by rw [hw, doMkdirAll_recorded, hm],
        RenamesChecked_cons name _ [] rfl (RenamesChecked_of_quiet name [] (by simp))⟩
    · obtain ⟨evs, hevs, hq⟩ := findExisting_events c _ _ _ _ _ hf
      exact ⟨Event.mkdirAll base (some e) :: evs,
        by rw [hevs, doMkdirAll_recorded, hm]; simp,
        RenamesChecked_cons name _ evs rfl (RenamesChecked_of_quiet name evs hq)⟩
    · exact absurd hf (findExisting_not_panicked _ _ _ _ _)
    · obtain ⟨evs, hevs, hq⟩ := findExisting_events c _ _ _ _ _ hf
      obtain ⟨evs2, hevs2, hc2⟩ := ih _ _ _ _ _ _ _ h2
      refine ⟨Event.mkdirAll base (some e) :: (evs ++ Event.now (doNow (recorded c) w2).1 :: evs2),
        ?_, ?_⟩
      · rw [hevs2, doNow_recorded, hevs, doMkdirAll_recorded, hm]; simp
      · exact RenamesChecked_cons name _ _ rfl
          (RenamesChecked_append name _ _ (RenamesChecked_of_quiet name evs hq)
            (RenamesChecked_cons name _ _ rfl hc2))
    · obtain ⟨evs, hevs, hq, _, _⟩ := freeName_events c _ _ _ _ _ _ _ hf
      obtain ⟨evs2, hevs2, hc2⟩ := ih _ _ _ _ _ _ _ h2
      refine ⟨Event.mkdirAll base none :: (evs ++ evs2), ?_, ?_⟩
      · rw [hevs2, hevs, doMkdirAll_recorded, hm]; simp
      · exact RenamesChecked_cons name _ _ rfl
          (RenamesChecked_append name _ _ (RenamesChecked_of_quiet name evs hq) hc2)
    · obtain ⟨evs, hevs, hq, hlast, _⟩ := freeName_events c _ _ _ _ _ _ _ hf
      obtain ⟨pre, hpre⟩ := hlast rfl
      refine ⟨Event.mkdirAll base none :: (evs ++ [Event.renameForTrash name fp none]),
        ?_, ?_⟩
      · rw [hw, doRenameForTrash_recorded, hrn, hevs, doMkdirAll_recorded, hm]; simp
      · exact RenamesChecked_cons name _ _ rfl (RenamesChecked_move name fp none evs pre hq hpre)
    · obtain ⟨evs, hevs, hq, hlast, _⟩ := freeName_events c _ _ _ _ _ _ _ hf
      obtain ⟨pre, hpre⟩ := hlast rfl
      obtain ⟨evs2, hevs2, hc2⟩ := ih _ _ _ _ _ _ _ h2
      refine ⟨Event.mkdirAll base none
        :: ((evs ++ [Event.renameForTrash name fp (some e)]) ++ evs2), ?_, ?_⟩
      · rw [hevs2, doRenameForTrash_recorded, hrn, hevs, doMkdirAll_recorded, hm]; simp
      · exact RenamesChecked_cons name _ _ rfl
          (RenamesChecked_append name _ _
            (RenamesChecked_move name fp (some e) evs pre hq hpre) hc2)

/-- The record of a loop `for exists` that starts with the candidate `tp`. -/
theorem freeName_stampChain {σ : Type} (c : Client σ) (orig : Str) :
    ∀ (fuel : Nat) (tp : Str) (w : World (σ × List Event)) (fp : Str)
      (oe : Option RemoteErr) (w1 : World (σ × List Event)),
      freeName (recorded c) orig fuel tp w = some ((fp, oe), w1) →
      ∃ evs, w1.state.2 = w.state.2 ++ evs ∧ stampChain orig tp evs = true := by
  intro fuel
  induction fuel with
  | zero => intro tp w fp oe w1 h; exact Option.noConfusion h
  | succ n ih =>
    intro tp w fp oe w1 h
    rcases freeName_step (recorded c) orig n tp w _ _ _ h with
      ⟨e, hx, _, _, hw⟩ | ⟨hx, _, _, hw⟩ | ⟨hx, h2⟩
    · exact ⟨_, by rw [hw, doExists_recorded], by rw [hx]; simp [stampChain]⟩
    · exact ⟨_, by rw [hw, doExists_recorded], by rw [hx]; simp [stampChain]⟩
    · obtain ⟨evs, hevs, hch⟩ := ih _ _ _ _ _ h2
      refine ⟨Event.pathExists tp (Reply.ok true)
        :: Event.now (doNow (recorded c) (doExists (recorded c) tp w).2).1 :: evs, ?_, ?_⟩
      · rw [hevs, doNow_recorded, doExists_recorded, hx]; simp
      · simp [stampChain, hch]

theorem toDigitsCore_ne_nil (b : Nat) :
    ∀ (fuel n : Nat) (ds : List Char), (fuel ≠ 0 ∨ ds ≠ []) →
      Nat.toDigitsCore b fuel n ds ≠ [] := by
  intro fuel
  induction fuel with
  | zero =>
    intro n ds h
    rcases h with h | h
    · exact absurd rfl h
    · simpa [Nat.toDigitsCore] using h
  | succ k ih =>
    intro n ds _
    simp only [Nat.toDigitsCore]
    split
    · simp
    · exact ih _ _ (Or.inr (by simp))

theorem formatInt_ne_nil (n : Int) : formatInt n ≠ [] := by
  unfold formatInt
  split
  · simp
  · exact toDigitsCore_ne_nil 10 _ _ _ (Or.inl (by omega))

/-- The run of `moveToTrash` that finds its computed destination in place: the directory
is created, the destination `P` exists, the clock is read, `P` followed by the reading
does not exist, and the target is moved there. -/
theorem moveToTrash_second {σ : Type} (c : Client σ) (fuel : Nat) (name : Str)
    (v w1 w2 w3 w4 w5 : World σ) (t : Int)
    (hn1 : hasPrefix name (trashRootDir c) = false)
    (hn2 : hasPrefix (pathDir (trashRootDir c)) name = false)
    (hmk : doMkdirAll c (pathDir (pathJoin [trashRootDir c, "Current".toList, name])) v
      = (none, w1))
    (hex : doExists c (pathJoin [trashRootDir c, "Current".toList, name]) w1
      = (Reply.ok true, w2))
    (hnow : doNow c w2 = (t, w3))
    (hfree : doExists c (pathJoin [trashRootDir c, "Current".toList, name] ++ formatInt t) w3
      = (Reply.ok false, w4))
    (hrn : doRenameForTrash c name
      (pathJoin [trashRootDir c, "Current".toList, name] ++ formatInt t) w4 = (none, w5)) :
    moveToTrash c (fuel + 3) name true v = some (Res.ok true, w5) := by
  have h1 : (doNow c w2).1 = t := by rw [hnow]
  have h2 : (doNow c w2).2 = w3 := by rw [hnow]
  unfold moveToTrash
  simp only [Bool.not_true, Bool.false_eq_true, if_false, hn1, hn2]
  unfold trashLoop
  simp only [Nat.zero_lt_two, if_true, hmk]
  unfold freeName
  simp only [hex, h1, h2]
  unfold freeName
  simp only [hfree, hrn]

/-- C24.  On every remote side, in the record of a run of `moveToTrash`, every call of
`RenameForTrash` moves the target `name`, and comes right after the existence check of
its destination, which answered "does not exist".  In the record of the loop
`for exists` started with the computed destination `orig`, every candidate after the first
is `orig` followed by the reading of the clock made right before its check (the readings
do not accumulate), and each is checked before the loop goes on or ends.  And when the
computed destination `P` exists, the clock reads `t`, and `P` followed by `t` does not
exist, `moveToTrash` moves the target to `P` followed by `t`, which differs from `P`: the
second of two moves of the same path gets an entry of its own, with a timestamp suffix. -/
theorem C24_destination_checked {σ : Type} (c : Client σ) (fuel : Nat) (name : Str)
    (forceTrash : Bool) (w : World (σ × List Event)) :
    (∀ r w1, moveToTrash (recorded c) fuel name forceTrash w = some (r, w1) →
      ∃ evs, w1.state.2 = w.state.2 ++ evs
        ∧ ∀ pre src dst rep post, evs = pre ++ Event.renameForTrash src dst rep :: post →
            src = name ∧ ∃ pre1, pre = pre1 ++ [Event.pathExists dst (Reply.ok false)])
    ∧ (∀ orig fp oe w1, freeName (recorded c) orig fuel orig w = some ((fp, oe), w1) →
      ∃ evs, w1.state.2 = w.state.2 ++ evs ∧ stampChain orig orig evs = true
        ∧ (fp = orig ∨ ∃ ms, fp = orig ++ formatInt ms))
    ∧ (∀ (v w1 w2 w3 w4 w5 : World σ) (t : Int),
      hasPrefix name (trashRootDir c) = false →
      hasPrefix (pathDir (trashRootDir c)) name = false →
      doMkdirAll c (pathDir (pathJoin [trashRootDir c, "Current".toList, name])) v
        = (none, w1) →
      doExists c (pathJoin [trashRootDir c, "Current".toList, name]) w1
        = (Reply.ok true, w2) →
      doNow c w2 = (t, w3) →
      doExists c (pathJoin [trashRootDir c, "Current".toList, name] ++ formatInt t) w3
        = (Reply.ok false, w4) →
      doRenameForTrash c name
        (pathJoin [trashRootDir c, "Current".toList, name] ++ formatInt t) w4 = (none, w5) →
      moveToTrash c (fuel + 3) name true v = some (Res.ok true, w5)
        ∧ w5.log = v.log ++
          [Call.mkdirAll (pathDir (pathJoin [trashRootDir c, "Current".toList, name])),
           Call.pathExists (pathJoin [trashRootDir c, "Current".toList, name]), Call.now,
           Call.pathExists (pathJoin [trashRootDir c, "Current".toList, name] ++ formatInt t),
           Call.renameForTrash name
             (pathJoin [trashRootDir c, "Current".toList, name] ++ formatInt t)]
        ∧ pathJoin [trashRootDir c, "Current".toList, name] ++ formatInt t
            ≠ pathJoin [trashRootDir c, "Current".toList, name]) := by
  refine ⟨?_, ?_, ?_⟩
  · intro r w1 h
    rcases moveToTrash_events c fuel name forceTrash w r w1 h with ⟨rep, hw⟩ | ⟨rep, h2, h0⟩
    · refine ⟨_, hw, ?_⟩
      apply RenamesChecked_of_quiet name
      intro e he
      cases forceTrash with
      | true => simp at he
      | false => simp at he; subst he; rfl
    · obtain ⟨evs, hevs, hc⟩ := trashLoop_checked c name _ _ _ _ _ _ _ _ h2
      refine ⟨(if forceTrash then [] else [Event.serverDefaults rep]) ++ evs,
        by rw [hevs, h0, List.append_assoc], ?_⟩
      apply RenamesChecked_append name _ _ _ hc
      apply RenamesChecked_of_quiet name
      intro e he
      cases forceTrash with
      | true => simp at he
      | false => simp at he; subst he; rfl
  · intro orig fp oe w1 h
    obtain ⟨evs, hevs, hch⟩ := freeName_stampChain c orig _ _ _ _ _ _ h
    obtain ⟨evs2, hevs2, _, _, hform⟩ := freeName_events c orig _ _ _ _ _ _ h
    exact ⟨evs, hevs, hch, hform⟩
  · intro v w1 w2 w3 w4 w5 t hn1 hn2 hmk hex hnow hfree hrn
    refine ⟨moveToTrash_second c fuel name v w1 w2 w3 w4 w5 t hn1 hn2 hmk hex hnow hfree hrn,
      ?_, ?_⟩
    · have e1 := congrArg (fun p => p.2.log) hmk
      have e2 := congrArg (fun p => p.2.log) hex
      have e3 := congrArg (fun p => p.2.log) hnow
      have e4 := congrArg (fun p => p.2.log) hfree
      have e5 := congrArg (fun p => p.2.log) hrn
      simp only [doMkdirAll, doExists, doNow, doRenameForTrash] at e1 e2 e3 e4 e5
      rw [← e5, ← e4, ← e3, ← e2, ← e1]
      simp
    · intro h
      exact formatInt_ne_nil t (List.append_right_eq_self.mp h)

set_option maxRecDepth 100000 in
/-- C24, witness: the remote side of `trashFsClient` on which `/a/b` has been moved to
the trash once; the second move goes to `/user/me/.Trash/Current/a/b1700000000000`. -/
theorem C24_destination_checked_witness :
    moveToTrash (recorded trashFsClient) 5 "/a/b".toList true trashedOnce
        = some (Res.ok true, trashedTwice)
    ∧ (∃ evs, trashedTwice.state.2 = trashedOnce.state.2 ++ evs
        ∧ ∀ pre src dst rep post, evs = pre ++ Event.renameForTrash src dst rep :: post →
            src = "/a/b".toList
              ∧ ∃ pre1, pre = pre1 ++ [Event.pathExists dst (Reply.ok false)])
    ∧ (∃ evs, trashedOnceChecked.state.2 = trashedOnce.state.2 ++ evs
        ∧ stampChain "/user/me/.Trash/Current/a/b".toList
            "/user/me/.Trash/Current/a/b".toList evs = true
        ∧ ("/user/me/.Trash/Current/a/b1700000000000".toList
              = "/user/me/.Trash/Current/a/b".toList
            ∨ ∃ ms, "/user/me/.Trash/Current/a/b1700000000000".toList
              = "/user/me/.Trash/Current/a/b".toList ++ formatInt ms))
    ∧ moveToTrash trashFsClient (5 + 3) "/a/b".toList true trashedOnce.forget
        = some (Res.ok true, trashedTwice.forget) :=
  ⟨by decide,
    (C24_destination_checked trashFsClient 5 "/a/b".toList true trashedOnce).1
      (Res.ok true) trashedTwice (by decide),
    (C24_destination_checked trashFsClient 5 "/a/b".toList true trashedOnce).2.1
      "/user/me/.Trash/Current/a/b".toList "/user/me/.Trash/Current/a/b1700000000000".toList
      none trashedOnceChecked (by decide),
    ((C24_destination_checked trashFsClient 5 "/a/b".toList true trashedOnce).2.2
      trashedOnce.forget
      { state := ["/user/me/.Trash/Current/a/b".toList],
        log := [Call.mkdirAll "/user/me/.Trash/Current/a".toList] }
      { state := ["/user/me/.Trash/Current/a/b".toList],
        log := [Call.mkdirAll "/user/me/.Trash/Current/a".toList,
          Call.pathExists "/user/me/.Trash/Current/a/b".toList] }
      { state := ["/user/me/.Trash/Current/a/b".toList],
        log := [Call.mkdirAll "/user/me/.Trash/Current/a".toList,
          Call.pathExists "/user/me/.Trash/Current/a/b".toList, Call.now] }
      { state := ["/user/me/.Trash/Current/a/b".toList],
        log := [Call.mkdirAll "/user/me/.Trash/Current/a".toList,
          Call.pathExists "/user/me/.Trash/Current/a/b".toList, Call.now,
          Call.pathExists "/user/me/.Trash/Current/a/b1700000000000".toList] }
      trashedTwice.forget 1700000000000
      (by decide) (by decide) (by decide) (by decide) (by decide) (by decide)
      (by decide)).1⟩

/-! ## C22: the destinations of the move -/

theorem stringsJoin_append_nonempty (sep : Char) (l1 l2 : List Str) (h1 : l1 ≠ [])
    (h2 : l2 ≠ []) :
    stringsJoin sep (l1 ++ l2) = stringsJoin sep l1 ++ sep :: stringsJoin sep l2 := by
  cases l1 with
  | nil => exact absurd rfl h1
  | cons x t1 =>
    cases l2 with
    | nil => exact absurd rfl h2
    | cons y t2 => exact stringsJoin_append sep x t1 y t2

/-- For a cleaned absolute target, the computed destination is the trash root, followed
by `/Current`, followed by the target. -/
theorem trashPath_eq {σ : Type} (c : Client σ) (name : Str) (segs : List Str)
    (hne : segs ≠ []) (hsegs : ∀ s ∈ segs, cleanSeg s = true)
    (hname : name = '/' :: stringsJoin '/' segs) :
    pathJoin [trashRootDir c, "Current".toList, name]
      = trashRootDir c ++ "/Current".toList ++ name := by
  obtain ⟨tsegs, htsegs, hR⟩ := trashRootDir_shape c
  have hRne : trashRootDir c ≠ [] := by rw [hR]; simp
  have e1 : pathJoin [trashRootDir c, "Current".toList, name]
      = filepathClean (trashRootDir c ++ '/' :: ("Current".toList ++ '/' :: name)) := by
    simp [pathJoin, filepathJoin, hRne, stringsJoin]
  have hA : tsegs ++ [".Trash".toList] ≠ [] := by simp
  have e2 : trashRootDir c ++ '/' :: ("Current".toList ++ '/' :: name)
      = '/' :: stringsJoin '/' ((tsegs ++ [".Trash".toList]) ++ ("Current".toList :: [] :: segs)) := by
    rw [stringsJoin_append_nonempty '/' _ _ hA (by simp), hR, hname]
    have e3 : stringsJoin '/' ("Current".toList :: [] :: segs)
        = "Current".toList ++ '/' :: ([] ++ '/' :: stringsJoin '/' segs) := by
      cases segs with
      | nil => exact absurd rfl hne
      | cons a rest => rfl
    rw [e3]
    simp
  have hmixed : ∀ s ∈ (tsegs ++ [".Trash".toList]) ++ ("Current".toList :: [] :: segs),
      s = [] ∨ cleanSeg s = true := by
    intro s hs
    rcases List.mem_append.mp hs with h | h
    · rcases List.mem_append.mp h with h | h
      · exact Or.inr (htsegs s h)
      · rw [List.mem_singleton.mp h]; exact Or.inr (by decide)
    · rcases List.mem_cons.mp h with h | h
      · rw [h]; exact Or.inr (by decide)
      · rcases List.mem_cons.mp h with h | h
        · exact Or.inl h
        · exact Or.inr (hsegs s h)
  have hfilter : ((tsegs ++ [".Trash".toList]) ++ ("Current".toList :: [] :: segs)).filter
      (fun s => s != []) = (tsegs ++ [".Trash".toList]) ++ ("Current".toList :: segs) := by
    have hf : ∀ l : List Str, (∀ s ∈ l, cleanSeg s = true) →
        l.filter (fun s => s != []) = l := by
      intro l hl
      rw [List.filter_eq_self]
      intro s hs
      have := (cleanSeg_spec s (hl s hs)).1
      simpa using this
    rw [List.filter_append, List.filter_append, hf tsegs htsegs]
    have h1 : [".Trash".toList].filter (fun s => s != []) = [".Trash".toList] := by decide
    have h2 : ("Current".toList :: [] :: segs).filter (fun s => s != [])
        = "Current".toList :: segs := by
      have h3 : ("Current".toList :: [] :: segs)
          = ["Current".toList, []] ++ segs := rfl
      rw [h3, List.filter_append, hf segs hsegs]
      have h4 : ["Current".toList, ([] : Str)].filter (fun s => s != []) = ["Current".toList] := by
        decide
      rw [h4]; rfl
    rw [h1, h2]
  rw [e1, e2, filepathClean_rooted _ hmixed, hfilter,
    stringsJoin_append_nonempty '/' _ _ hA (by simp), hR, hname]
  have e4 : stringsJoin '/' ("Current".toList :: segs)
      = "Current".toList ++ '/' :: stringsJoin '/' segs := by
    cases segs with
    | nil => exact absurd rfl hne
    | cons a rest => rfl
  rw [e4]
  simp

theorem hasPrefix_append_right (s pre x : Str) (h : hasPrefix s pre = true) :
    hasPrefix (s ++ x) pre = true := by
  unfold hasPrefix at h ⊢
  rw [List.isPrefixOf_iff_prefix] at h ⊢
  exact h.trans (List.prefix_append s x)

/-- Without an adjustment of the parent directory, every destination of a move in the
loop of `moveToTrash` starts with the destination the loop was entered with. -/
theorem trashLoop_destinations {σ : Type} (c : Client σ) (name P : Str) :
    ∀ (fuel i : Nat) (base tp : Str) (err : Option GoError) (w : World (σ × List Event))
      (r : Res Bool) (w1 : World (σ × List Event)), hasPrefix tp P = true →
      trashLoop (recorded c) name fuel i base tp err w = some (r, w1) →
      ∃ evs, w1.state.2 = w.state.2 ++ evs
        ∧ ((∀ e ∈ evs, e.isAdjust = false) →
            ∀ src dst rep, Event.renameForTrash src dst rep ∈ evs →
              src = name ∧ hasPrefix dst P = true) := by
  intro fuel
  induction fuel with
  | zero => intro i base tp err w r w1 _ h; exact Option.noConfusion h
  | succ n ih =>
    intro i base tp err w r w1 htp h
    have hquiet : ∀ (evs : List Event), (∀ e ∈ evs, e.isMutation = false) →
        ∀ src dst rep, Event.renameForTrash src dst rep ∉ evs := by
      intro evs hq src dst rep hmem
      have := hq _ hmem
      simp [Event.isMutation, Event.isRename] at this
    have hadjust : ∀ (e : RemoteErr) (rest : List Event),
        (e = RemoteErr.exist ∨ e = RemoteErr.notDir) →
        ¬ ∀ x ∈ Event.mkdirAll base (some e) :: rest, x.isAdjust = false := by
      intro e rest hadj hall
      have h0 := hall (Event.mkdirAll base (some e)) (by simp)
      rcases hadj with h1 | h1 <;> subst h1 <;> exact Bool.noConfusion h0
    have hfree : ∀ (fp : Str), (fp = tp ∨ ∃ ms, fp = tp ++ formatInt ms) →
        hasPrefix fp P = true := by
      intro fp hfp
      rcases hfp with e1 | ⟨ms, e1⟩
      · rw [e1]; exact htp
      · rw [e1]; exact hasPrefix_append_right tp P _ htp
    rcases trashLoop_step (recorded c) name n i base tp err w r w1 h with
      ⟨_, _, hw⟩ | ⟨hi, e, hm, hadj, _, hw⟩ | ⟨hi, e, hm, hadj, e2, hf, _⟩ | ⟨_, e, _, _, hf, _⟩
      | ⟨hi, e, hm, hadj, found, w2, hf, h2⟩ | ⟨hi, hm, fp, e, w2, hf, h2⟩
      | ⟨hi, hm, fp, w2, hf, hrn, _, hw⟩ | ⟨hi, hm, fp, e, w2, hf, hrn, h2⟩
    · exact ⟨[], by rw [hw]; simp, fun _ src dst rep hmem => by simp at hmem⟩
    · refine ⟨[Event.mkdirAll base (some e)], by rw [hw, doMkdirAll_recorded, hm], ?_⟩
      intro _ src dst rep hmem
      simp at hmem
    · obtain ⟨evs, hevs, hq⟩ := findExisting_events c _ _ _ _ _ hf
      exact ⟨Event.mkdirAll base (some e) :: evs,
        by rw [hevs, doMkdirAll_recorded, hm]; simp,
        fun hall => absurd hall (hadjust e evs hadj)⟩
    · exact absurd hf (findExisting_not_panicked _ _ _ _ _)
    · obtain ⟨evs, hevs, hq⟩ := findExisting_events c _ _ _ _ _ hf
      obtain ⟨evs2, hevs2, _⟩ := trashLoop_counts c name _ _ _ _ _ _ _ _ h2
      exact ⟨Event.mkdirAll base (some e) :: (evs ++ Event.now (doNow (recorded c) w2).1 :: evs2),
        by rw [hevs2, doNow_recorded, hevs, doMkdirAll_recorded, hm]; simp,
        fun hall => absurd hall (hadjust e _ hadj)⟩
    · obtain ⟨evs, hevs, hq, _, hform⟩ := freeName_events c _ _ _ _ _ _ _ hf
      obtain ⟨evs2, hevs2, hd2⟩ := ih _ _ _ _ _ _ _ (hfree fp hform) h2
      refine ⟨Event.mkdirAll base none :: (evs ++ evs2), ?_, ?_⟩
      · rw [hevs2, hevs, doMkdirAll_recorded, hm]; simp
      · intro hall src dst rep hmem
        rcases List.mem_cons.mp hmem with e1 | e1
        · exact Event.noConfusion e1
        · rcases List.mem_append.mp e1 with e1 | e1
          · exact absurd e1 (hquiet evs hq src dst rep)
          · exact hd2 (fun x hx => hall x (by simp [hx])) src dst rep e1
    · obtain ⟨evs, hevs, hq, _, hform⟩ := freeName_events c _ _ _ _ _ _ _ hf
      refine ⟨Event.mkdirAll base none :: (evs ++ [Event.renameForTrash name fp none]),
        ?_, ?_⟩
      · rw [hw, doRenameForTrash_recorded, hrn, hevs, doMkdirAll_recorded, hm]; simp
      · intro _ src dst rep hmem
        rcases List.mem_cons.mp hmem with e1 | e1
        · exact Event.noConfusion e1
        · rcases List.mem_append.mp e1 with e1 | e1
          · exact absurd e1 (hquiet evs hq src dst rep)
          · simp only [List.mem_singleton] at e1
            injection e1 with e2 e3 e4
            rw [e2, e3]
            exact ⟨rfl, hfree fp hform⟩
    · obtain ⟨evs, hevs, hq, _, hform⟩ := freeName_events c _ _ _ _ _ _ _ hf
      obtain ⟨evs2, hevs2, hd2⟩ := ih _ _ _ _ _ _ _ (hfree fp hform) h2
      refine ⟨Event.mkdirAll base none
        :: (evs ++ Event.renameForTrash name fp (some e) :: evs2), ?_, ?_⟩
      · rw [hevs2, doRenameForTrash_recorded, hrn, hevs, doMkdirAll_recorded, hm]; simp
      · intro hall src dst rep hmem
        rcases List.mem_cons.mp hmem with e1 | e1
        · exact Event.noConfusion e1
        · rcases List.mem_append.mp e1 with e1 | e1
          · exact absurd e1 (hquiet evs hq src dst rep)
          · rcases List.mem_cons.mp e1 with e1 | e1
            · injection e1 with e2 e3 e4
              rw [e2, e3]
              exact ⟨rfl, hfree fp hform⟩
            · exact hd2 (fun x hx => hall x (by simp [hx])) src dst rep e1

set_option maxRecDepth 100000 in
/-- C22, counterexample.  On a remote side where `/user/me/.Trash` is a file, the
creation of `/user/me/.Trash/Current/a` fails; `moveToTrash` finds `/user/me/.Trash` as
the existing path, renames that segment of the destination, and moves `/a/b` to
`/user/me/.Trash1700000000000/Current/a/b`, which does not lie under
`/user/me/.Trash/Current/`. -/
theorem C22_counterexample :
    trashRootDir fileTrashClient = "/user/me/.Trash".toList
    ∧ moveToTrash fileTrashClient 5 "/a/b".toList true world0
        = some (Res.ok true, { state := (), log :=
            [Call.mkdirAll "/user/me/.Trash/Current/a".toList,
             Call.pathExists "/user/me/.Trash/Current/a".toList,
             Call.pathExists "/user/me/.Trash/Current".toList,
             Call.pathExists "/user/me/.Trash".toList, Call.now,
             Call.mkdirAll "/user/me/.Trash1700000000000/Current/a".toList,
             Call.pathExists "/user/me/.Trash1700000000000/Current/a/b".toList,
             Call.renameForTrash "/a/b".toList
               "/user/me/.Trash1700000000000/Current/a/b".toList] })
    ∧ hasPrefix "/user/me/.Trash1700000000000/Current/a/b".toList
        (trashRootDir fileTrashClient ++ "/Current/".toList) = false := by
  decide

set_option maxRecDepth 100000 in
/-- A target that is not cleaned: `path.Join` resolves its `..` elements against the
trash directories, and the destination is `/x`. -/
theorem moveToTrash_dotdot :
    moveToTrash exampleClient 5 "/../../../../x".toList true world0
      = some (Res.ok true, { state := (), log :=
          [Call.mkdirAll "/".toList, Call.pathExists "/x".toList,
           Call.renameForTrash "/../../../../x".toList "/x".toList] }) := by
  decide

/-- The run of `moveToTrash` in which the creation of the directory succeeds at once,
the computed destination is free, and the move succeeds. -/
theorem moveToTrash_first {σ : Type} (c : Client σ) (fuel : Nat) (name : Str)
    (v w1 w2 w3 : World σ)
    (hn1 : hasPrefix name (trashRootDir c) = false)
    (hn2 : hasPrefix (pathDir (trashRootDir c)) name = false)
    (hmk : doMkdirAll c (pathDir (pathJoin [trashRootDir c, "Current".toList, name])) v
      = (none, w1))
    (hfree : doExists c (pathJoin [trashRootDir c, "Current".toList, name]) w1
      = (Reply.ok false, w2))
    (hrn : doRenameForTrash c name (pathJoin [trashRootDir c, "Current".toList, name]) w2
      = (none, w3)) :
    moveToTrash c (fuel + 2) name true v = some (Res.ok true, w3) := by
  unfold moveToTrash
  simp only [Bool.not_true, Bool.false_eq_true, if_false, hn1, hn2]
  unfold trashLoop
  simp only [Nat.zero_lt_two, if_true, hmk]
  unfold freeName
  simp only [hfree, hrn]

/-! ## C26: a directory whose name holds a wildcard character -/

set_option maxRecDepth 100000 in
theorem expandGlobs_star_inner : ∀ (n : Nat) (w : World Unit),
    expandGlobs starClient n "/d/x*".toList w = none := by
  intro n
  induction n with
  | zero => intro w; rfl
  | succ k ih =>
    intro w
    have h1 : (stringsSplit '/' "/d/x*".toList).drop 1 = ["d".toList, "x*".toList] := by decide
    have h2 : splitIndex ["d".toList, "x*".toList] = 1 := by decide
    have h3 : ('/' :: pathJoin (["d".toList, "x*".toList].take 1)) = "/d".toList := by decide
    have h4 : doReadDir starClient "/d".toList w
        = (Reply.ok [{ Name := "x*".toList, IsDir := true }],
            { state := (), log := w.log ++ [Call.readDir "/d".toList] }) := rfl
    have h5 : pathMatch "x*".toList "x*".toList = true := by decide
    have h6 : pathJoin ["/d".toList, "x*".toList, [], []] = "/d/x*".toList := by decide
    have h7 : hasGlob "/d/x*".toList = true := by decide
    have h8 : ["d".toList, "x*".toList][1]? = some "x*".toList := rfl
    have h9 : (if ["d".toList, "x*".toList].length > 1 + 1 then
        ["d".toList, "x*".toList].getD (1 + 1) [] else []) = [] := by decide
    have h10 : (if ["d".toList, "x*".toList].length > 1 + 1 then
        pathJoin (["d".toList, "x*".toList].drop (1 + 2)) else []) = [] := by decide
    unfold expandGlobs
    simp only [h1, h2, h8, h3, h4, h9, h10]
    unfold expandEntries
    simp only [h5, h6, h7, ih, Bool.not_true, Bool.false_eq_true, if_false, if_true]

set_option maxRecDepth 100000 in
/-- On the remote side of `starClient`, the expansion of `/d/x*` lists `/d`, finds the
directory `x*`, whose name matches the pattern `x*`, and calls itself on the joined path,
which is `/d/x*` again. -/
theorem expandGlobs_star_step (n : Nat) (w : World Unit) :
    expandGlobs starClient (n + 1) "/d/x*".toList w
      = match expandGlobs starClient n "/d/x*".toList
          { state := (), log := w.log ++ [Call.readDir "/d".toList] } with
        | none => none
        | some (Res.ok children, w1) => some (Res.ok ([] ++ children), w1)
        | some (Res.fail e, w1) => some (Res.fail e, w1)
        | some (Res.panicked, w1) => some (Res.panicked, w1) := by
  have h1 : (stringsSplit '/' "/d/x*".toList).drop 1 = ["d".toList, "x*".toList] := by decide
  have h2 : splitIndex ["d".toList, "x*".toList] = 1 := by decide
  have h3 : ('/' :: pathJoin (["d".toList, "x*".toList].take 1)) = "/d".toList := by decide
  have h4 : doReadDir starClient "/d".toList w
      = (Reply.ok [{ Name := "x*".toList, IsDir := true }],
          { state := (), log := w.log ++ [Call.readDir "/d".toList] }) := rfl
  have h5 : pathMatch "x*".toList "x*".toList = true := by decide
  have h6 : pathJoin ["/d".toList, "x*".toList, [], []] = "/d/x*".toList := by decide
  have h7 : hasGlob "/d/x*".toList = true := by decide
  have h8 : ["d".toList, "x*".toList][1]? = some "x*".toList := rfl
  have h9 : (if ["d".toList, "x*".toList].length > 1 + 1 then
      ["d".toList, "x*".toList].getD (1 + 1) [] else []) = [] := by decide
  have h10 : (if ["d".toList, "x*".toList].length > 1 + 1 then
      pathJoin (["d".toList, "x*".toList].drop (1 + 2)) else []) = [] := by decide
  conv => lhs; unfold expandGlobs
  simp only [h1, h2, h8, h3, h4, h9, h10]
  unfold expandEntries
  simp only [h5, h6, h7, Bool.not_true, Bool.false_eq_true, if_false, if_true]
  cases expandGlobs starClient n "/d/x*".toList
      { state := (), log := w.log ++ [Call.readDir "/d".toList] } with
  | none => rfl
  | some p =>
    rcases p with ⟨r, w1⟩
    cases r with
    | ok children => simp [expandEntries]
    | fail e => rfl
    | panicked => rfl

set_option maxRecDepth 100000 in
theorem expandGlobs_star_outer : ∀ (n : Nat) (w : World Unit),
    expandGlobs starClient n "/d/*".toList w = none := by
  intro n
  cases n with
  | zero => intro w; rfl
  | succ k =>
    intro w
    have h1 : (stringsSplit '/' "/d/*".toList).drop 1 = ["d".toList, "*".toList] := by decide
    have h2 : splitIndex ["d".toList, "*".toList] = 1 := by decide
    have h3 : ('/' :: pathJoin (["d".toList, "*".toList].take 1)) = "/d".toList := by decide
    have h4 : doReadDir starClient "/d".toList w
        = (Reply.ok [{ Name := "x*".toList, IsDir := true }],
            { state := (), log := w.log ++ [Call.readDir "/d".toList] }) := rfl
    have h5 : pathMatch "*".toList "x*".toList = true := by decide
    have h6 : pathJoin ["/d".toList, "x*".toList, [], []] = "/d/x*".toList := by decide
    have h7 : hasGlob "/d/x*".toList = true := by decide
    have h8 : ["d".toList, "*".toList][1]? = some "*".toList := rfl
    have h9 : (if ["d".toList, "*".toList].length > 1 + 1 then
        ["d".toList, "*".toList].getD (1 + 1) [] else []) = [] := by decide
    have h10 : (if ["d".toList, "*".toList].length > 1 + 1 then
        pathJoin (["d".toList, "*".toList].drop (1 + 2)) else []) = [] := by decide
    unfold expandGlobs
    simp only [h1, h2, h8, h3, h4, h9, h10]
    unfold expandEntries
    simp only [h5, h6, h7, expandGlobs_star_inner, Bool.not_true, Bool.false_eq_true,
      if_false, if_true]

/-- C26.  The remote side of `starClient` is a finite tree that never changes: the
directory `/d` holds one entry, the directory named `x*`.  The path `/d/*` holds a
wildcard, yet its expansion does not terminate: for every bound on the depth of the
recursion the bound is reached, in `expandGlobs` and so in `expandPaths`.  The recursive
call for the entry `x*` is on `/d/x*`, and the call on `/d/x*` calls itself on `/d/x*`:
not on a path with fewer wildcard segments. -/
theorem C26_expansion_does_not_terminate :
    hasGlob "/d/*".toList = true
    ∧ (∀ fuel w, expandGlobs starClient fuel "/d/*".toList w = none)
    ∧ (∀ fuel w, expandPaths starClient fuel ["/d/*".toList] w = none)
    ∧ (∀ fuel w, expandGlobs starClient fuel "/d/x*".toList w = none)
    ∧ (∀ n w, expandGlobs starClient (n + 1) "/d/x*".toList w
        = match expandGlobs starClient n "/d/x*".toList
            { state := (), log := w.log ++ [Call.readDir "/d".toList] } with
          | none => none
          | some (Res.ok children, w1) => some (Res.ok ([] ++ children), w1)
          | some (Res.fail e, w1) => some (Res.fail e, w1)
          | some (Res.panicked, w1) => some (Res.panicked, w1)) := by
  refine ⟨by decide, expandGlobs_star_outer, ?_, expandGlobs_star_inner,
    expandGlobs_star_step⟩
  intro fuel w
  have h : hasGlob "/d/*".toList = true := by decide
  simp only [expandPaths, expandPathsFrom, h, if_true, expandGlobs_star_outer]

/-! ## The adjustment of the parent directory, on cleaned paths -/

theorem digitChar_ne_slash (k : Nat) : Nat.digitChar k ≠ '/' := by
  by_cases h : k < 16
  · interval_cases k <;> decide
  · unfold Nat.digitChar
    iterate 16 rw [if_neg (by omega)]
    decide

theorem toDigitsCore_no_slash (b : Nat) :
    ∀ (fuel n : Nat) (ds : List Char), '/' ∉ ds → '/' ∉ Nat.toDigitsCore b fuel n ds := by
  intro fuel
  induction fuel with
  | zero => intro n ds h; simpa [Nat.toDigitsCore] using h
  | succ k ih =>
    intro n ds h
    have hcons : '/' ∉ Nat.digitChar (n % b) :: ds := by
      intro hm
      rcases List.mem_cons.mp hm with e | e
      · exact digitChar_ne_slash _ e.symm
      · exact h e
    simp only [Nat.toDigitsCore]
    split
    · exact hcons
    · exact ih _ _ hcons

theorem formatInt_no_slash (n : Int) : '/' ∉ formatInt n := by
  unfold formatInt
  split
  · intro hm
    rcases List.mem_cons.mp hm with e | e
    · exact absurd e (by decide)
    · exact toDigitsCore_no_slash 10 _ _ [] (by simp) e
  · exact toDigitsCore_no_slash 10 _ _ [] (by simp)

/-- A clean segment followed by bytes other than the slash is a clean segment. -/
theorem cleanSeg_append (s x : Str) (hs : cleanSeg s = true) (hx : '/' ∉ x) :
    cleanSeg (s ++ x) = true := by
  obtain ⟨h1, h2, h3, h4⟩ := cleanSeg_spec s hs
  simp only [cleanSeg, Bool.and_eq_true, bne_iff_ne, ne_eq, List.all_eq_true]
  refine ⟨⟨⟨?_, ?_⟩, ?_⟩, ?_⟩
  · intro h; exact h1 (List.append_eq_nil.mp h).1
  · intro h
    cases s with
    | nil => exact h1 rfl
    | cons a t =>
      simp only [List.cons_append, List.cons.injEq, List.append_eq_nil] at h
      obtain ⟨ha, ht, _⟩ := h
      exact h2 (by rw [ha, ht])
  · intro h
    cases s with
    | nil => exact h1 rfl
    | cons a t =>
      cases t with
      | nil =>
        simp only [List.cons_append, List.nil_append, List.cons.injEq] at h
        exact h2 (by rw [h.1])
      | cons b u =>
        simp only [List.cons_append, List.cons.injEq, List.append_eq_nil] at h
        obtain ⟨ha, hb, hu, _⟩ := h
        exact h3 (by rw [ha, hb, hu])
  · intro c hc
    have : c ≠ '/' := by
      intro e
      rcases List.mem_append.mp hc with h | h
      · exact h4 (e ▸ h)
      · exact hx (e ▸ h)
    simpa using this

/-- `path.Base` of a path that ends with a slash and a segment is the segment. -/
theorem pathBase_snoc (a last : Str) (hne : last ≠ []) (hsl : '/' ∉ last) :
    pathBase (a ++ '/' :: last) = last := by
  have hp : a ++ '/' :: last ≠ [] := by simp
  have hrev : (a ++ '/' :: last).reverse = last.reverse ++ '/' :: a.reverse := by simp
  have hdrop : ((a ++ '/' :: last).reverse.dropWhile (· = '/')).reverse = a ++ '/' :: last := by
    rw [hrev]
    cases hl : last.reverse with
    | nil => exact absurd (List.reverse_eq_nil_iff.mp hl) hne
    | cons z t =>
      have hz : z ≠ '/' := by
        intro e
        have : z ∈ last.reverse := by rw [hl]; simp
        exact hsl (e ▸ List.mem_reverse.mp this)
      have hd : ((z :: t) ++ '/' :: a.reverse).dropWhile (· = '/')
          = (z :: t) ++ '/' :: a.reverse := by
        simp [List.dropWhile, hz]
      rw [hd, ← hl, ← hrev, List.reverse_reverse]
  unfold pathBase
  rw [if_neg hp]
  simp only [hdrop, afterLast_append '/' a last hsl, Option.getD_some, hne, if_false]

/-- The loop `for !exists` ends with success only on a path it reached from `base` by
`path.Dir`, and that the remote side reported as existing. -/
theorem findExisting_found {σ : Type} (c : Client σ) :
    ∀ (fuel : Nat) (p : Str) (w : World (σ × List Event)) (found : Str)
      (w1 : World (σ × List Event)),
      findExisting (recorded c) fuel p w = some (Res.ok found, w1) →
      ∃ k evs, found = Nat.iterate pathDir k p ∧ w1.state.2 = w.state.2 ++ evs
        ∧ Event.pathExists found (Reply.ok true) ∈ evs := by
  intro fuel
  induction fuel with
  | zero => intro p w found w1 h; exact Option.noConfusion h
  | succ n ih =>
    intro p w found w1 h
    rcases findExisting_step (recorded c) n p w _ _ h with
      ⟨e, _, hr, _⟩ | ⟨hx, hr, hw⟩ | ⟨_, h2⟩
    · exact Res.noConfusion hr
    · injection hr with hr
      refine ⟨0, [Event.pathExists p (Reply.ok true)], hr, ?_, by rw [hr]; simp⟩
      rw [hw, doExists_recorded, hx]
    · obtain ⟨k, evs, hk, hevs, hmem⟩ := ih _ _ _ _ h2
      refine ⟨k + 1, Event.pathExists p (doExists (recorded c) p w).1 :: evs, ?_, ?_, ?_⟩
      · rw [hk]; rfl
      · rw [hevs, doExists_recorded]; simp
      · exact List.mem_cons_of_mem _ hmem

/-- `path.Dir`, applied `k` times to a rooted path of clean segments, drops the last `k`
segments. -/
theorem pathDir_iterate : ∀ (k : Nat) (segs : List Str), (∀ s ∈ segs, cleanSeg s = true) →
    Nat.iterate pathDir k ('/' :: stringsJoin '/' segs)
      = '/' :: stringsJoin '/' (segs.take (segs.length - k)) := by
  intro k
  induction k with
  | zero => intro segs _; simp
  | succ n ih =>
    intro segs hsegs
    rcases List.eq_nil_or_concat segs with h | ⟨init, t, h⟩
    · subst h
      have h0 : pathDir ('/' :: stringsJoin '/' []) = '/' :: stringsJoin '/' [] := by decide
      show Nat.iterate pathDir n (pathDir ('/' :: stringsJoin '/' [])) = _
      rw [h0, ih [] (by simp)]
      simp
    · rw [List.concat_eq_append] at h
      subst h
      have hinit : ∀ s ∈ init, cleanSeg s = true :=
        fun s hs => hsegs s (List.mem_append_left _ hs)
      have ht : '/' ∉ t := (cleanSeg_spec t (hsegs t (by simp))).2.2.2
      show Nat.iterate pathDir n (pathDir ('/' :: stringsJoin '/' (init ++ [t]))) = _
      rw [pathDir_snoc init t hinit ht, ih init hinit]
      congr 2
      have hlen : (init ++ [t]).length - (n + 1) = init.length - n := by
        simp
      rw [hlen, List.take_append_of_le_length (by omega)]

theorem stringsJoin_take_length (sep : Char) (l : List Str) :
    ∀ j, (stringsJoin sep (l.take j)).length ≤ (stringsJoin sep l).length := by
  induction l with
  | nil => intro j; simp
  | cons a rest ih =>
    intro j
    cases j with
    | zero => simp [stringsJoin]
    | succ i =>
      cases rest with
      | nil => simp
      | cons b rest2 =>
        cases i with
        | zero => simp [stringsJoin]
        | succ i2 =>
          have h := ih (i2 + 1)
          simp only [List.take_succ_cons] at h ⊢
          rw [stringsJoin_cons_cons, stringsJoin_cons_cons]
          simp only [List.length_append, List.length_cons]
          omega

/-- A segment at the end of a joined path, followed by more bytes. -/
theorem stringsJoin_snoc_append (sep : Char) (l : List Str) (seg x : Str) :
    stringsJoin sep (l ++ [seg ++ x]) = stringsJoin sep (l ++ [seg]) ++ x := by
  cases l with
  | nil => rfl
  | cons a rest =>
    have h1 := stringsJoin_append sep a rest (seg ++ x) []
    have h2 := stringsJoin_append sep a rest seg []
    have e1 : stringsJoin sep [seg ++ x] = seg ++ x := rfl
    have e2 : stringsJoin sep [seg] = seg := rfl
    rw [h1, h2, e1, e2]
    simp

theorem replaceFirst_at_front (old new rest : Str) (hne : old ≠ []) (hdiff : old ≠ new) :
    stringsReplaceFirst (old ++ rest) old new = new ++ rest := by
  unfold stringsReplaceFirst
  rw [if_neg hdiff]
  cases old with
  | nil => exact absurd rfl hne
  | cons a t =>
    have h : hasPrefix (a :: t ++ rest) (a :: t) = true := hasPrefix_append (a :: t) rest
    show replaceFirstFrom (a :: t) new (a :: (t ++ rest)) = _
    unfold replaceFirstFrom
    have h' : hasPrefix (a :: (t ++ rest)) (a :: t) = true := h
    rw [if_pos h']
    simp

/-- `path.Join` of a rooted path of clean segments and one more clean segment. -/
theorem pathJoin_snoc (l : List Str) (last : Str) (hl : ∀ s ∈ l, cleanSeg s = true)
    (hlast : cleanSeg last = true) :
    pathJoin ['/' :: stringsJoin '/' l, last] = '/' :: stringsJoin '/' (l ++ [last]) := by
  have e1 : pathJoin ['/' :: stringsJoin '/' l, last]
      = filepathClean (('/' :: stringsJoin '/' l) ++ '/' :: last) := by
    simp [pathJoin, filepathJoin, stringsJoin]
  have hf : ∀ l2 : List Str, (∀ s ∈ l2, cleanSeg s = true) →
      l2.filter (fun s => s != []) = l2 := by
    intro l2 hl2
    rw [List.filter_eq_self]
    intro s hs
    have := (cleanSeg_spec s (hl2 s hs)).1
    simpa using this
  have hall : ∀ s ∈ l ++ [last], cleanSeg s = true := by
    intro s hs
    rcases List.mem_append.mp hs with h | h
    · exact hl s h
    · rw [List.mem_singleton.mp h]; exact hlast
  rw [e1]
  cases l with
  | nil =>
    have e2 : ('/' :: stringsJoin '/' ([] : List Str)) ++ '/' :: last
        = '/' :: stringsJoin '/' [[], last] := rfl
    have hmixed : ∀ s ∈ [([] : Str), last], s = [] ∨ cleanSeg s = true := by
      intro s hs
      rcases List.mem_cons.mp hs with h | h
      · exact Or.inl h
      · rw [List.mem_singleton.mp h]; exact Or.inr hlast
    rw [e2, filepathClean_rooted _ hmixed]
    have e3 : [([] : Str), last].filter (fun s => s != []) = [last] := by
      rw [List.filter_cons_of_neg (by simp)]
      exact hf [last] (by intro s hs; rw [List.mem_singleton.mp hs]; exact hlast)
    rw [e3]
    rfl
  | cons a rest =>
    have e2 : ('/' :: stringsJoin '/' (a :: rest)) ++ '/' :: last
        = '/' :: stringsJoin '/' ((a :: rest) ++ [last]) := by
      have h := stringsJoin_append '/' a rest last []
      have e : stringsJoin '/' [last] = last := rfl
      rw [h, e]
      rfl
    rw [e2, filepathClean_rooted _ (fun s hs => Or.inr (hall s hs)), hf _ hall]

theorem stringsJoin_append_rest (sep : Char) (l1 l2 : List Str) (h1 : l1 ≠ []) :
    stringsJoin sep (l1 ++ l2)
      = stringsJoin sep l1 ++ (if l2 = [] then [] else sep :: stringsJoin sep l2) := by
  cases l2 with
  | nil => simp
  | cons y t =>
    rw [if_neg (by simp)]
    exact stringsJoin_append_nonempty sep l1 (y :: t) h1 (by simp)

/-- The adjustment of the parent directory `base`, a rooted path of the clean segments
`cs` followed by the clean segments `bs`, when the existing path `found` lies below the
path of `cs`: one of the segments of `bs` gets the stamp. -/
theorem adjust_shape (cs bs : List Str)
    (hbs : ∀ s ∈ bs, cleanSeg s = true) (hall : ∀ s ∈ cs ++ bs, cleanSeg s = true)
    (k : Nat) (stamp found : Str) (hst : '/' ∉ stamp) (hstne : stamp ≠ [])
    (hfound : found = Nat.iterate pathDir k ('/' :: stringsJoin '/' (cs ++ bs)))
    (hunder : hasPrefix found ('/' :: stringsJoin '/' cs ++ ['/']) = true) :
    ∃ bs1, (∀ s ∈ bs1, cleanSeg s = true)
      ∧ stringsReplaceFirst ('/' :: stringsJoin '/' (cs ++ bs)) found (found ++ stamp)
        = '/' :: stringsJoin '/' (cs ++ bs1) := by
  rw [pathDir_iterate k _ hall] at hfound
  have hlen : (cs ++ bs).length = cs.length + bs.length := List.length_append cs bs
  generalize hjd : (cs ++ bs).length - k = j at hfound
  have hj : cs.length < j := by
    by_contra hle
    have hle : j ≤ cs.length := by omega
    rw [List.take_append_of_le_length hle] at hfound
    unfold hasPrefix at hunder
    rw [List.isPrefixOf_iff_prefix] at hunder
    have h1 := hunder.length_le
    have h2 := stringsJoin_take_length '/' cs j
    rw [hfound] at h1
    simp only [List.length_append, List.length_cons, List.length_nil] at h1
    omega
  obtain ⟨i, hi⟩ : ∃ i, j = cs.length + (i + 1) := ⟨j - cs.length - 1, by omega⟩
  rw [hi, List.take_append] at hfound
  have hile : i + 1 ≤ bs.length := by omega
  have htake : bs.take (i + 1) ≠ [] := by
    intro h
    have := congrArg List.length h
    simp only [List.length_take, List.length_nil] at this
    omega
  rcases List.eq_nil_or_concat (bs.take (i + 1)) with h | ⟨b1, seg, h⟩
  · exact absurd h htake
  · rw [List.concat_eq_append] at h
    have hbsplit : bs = (b1 ++ [seg]) ++ bs.drop (i + 1) := by
      rw [← h, List.take_append_drop]
    have hseg : cleanSeg seg = true := hbs seg (by rw [hbsplit]; simp)
    have hb1 : ∀ s ∈ b1, cleanSeg s = true :=
      fun s hs => hbs s (by rw [hbsplit]; simp [hs])
    have hb2 : ∀ s ∈ bs.drop (i + 1), cleanSeg s = true :=
      fun s hs => hbs s (List.mem_of_mem_drop hs)
    refine ⟨b1 ++ [seg ++ stamp] ++ bs.drop (i + 1), ?_, ?_⟩
    · intro s hs
      rcases List.mem_append.mp hs with h1 | h1
      · rcases List.mem_append.mp h1 with h1 | h1
        · exact hb1 s h1
        · rw [List.mem_singleton.mp h1]; exact cleanSeg_append seg stamp hseg hst
      · exact hb2 s h1
    · rw [h] at hfound
      have hbase : '/' :: stringsJoin '/' (cs ++ bs)
          = found ++ (if bs.drop (i + 1) = [] then []
              else '/' :: stringsJoin '/' (bs.drop (i + 1))) := by
        rw [hfound]
        conv => lhs; rw [hbsplit]
        rw [← List.append_assoc cs, stringsJoin_append_rest '/' _ _ (by simp)]
        rfl
      have hne : found ≠ [] := by rw [hfound]; simp
      have hdiff : found ≠ found ++ stamp := by
        intro e
        exact hstne (List.self_eq_append_right.mp e)
      rw [hbase, replaceFirst_at_front found (found ++ stamp) _ hne hdiff, hfound]
      have e1 : cs ++ (b1 ++ [seg ++ stamp] ++ bs.drop (i + 1))
          = (cs ++ b1 ++ [seg ++ stamp]) ++ bs.drop (i + 1) := by simp
      have eR : stringsJoin '/' ((cs ++ b1 ++ [seg ++ stamp]) ++ bs.drop (i + 1))
          = stringsJoin '/' (cs ++ b1 ++ [seg ++ stamp])
            ++ (if bs.drop (i + 1) = [] then []
                else '/' :: stringsJoin '/' (bs.drop (i + 1))) :=
        stringsJoin_append_rest '/' _ _ (by simp)
      have eS : stringsJoin '/' (cs ++ b1 ++ [seg ++ stamp])
          = stringsJoin '/' (cs ++ b1 ++ [seg]) ++ stamp :=
        stringsJoin_snoc_append '/' (cs ++ b1) seg stamp
      rw [e1, eR, eS]
      simp

/-- A rooted path of the clean segments `cs`, followed by more segments, lies under the
path of `cs`. -/
theorem hasPrefix_under (cs more : List Str) (hcs : cs ≠ []) (hmore : more ≠ []) :
    hasPrefix ('/' :: stringsJoin '/' (cs ++ more)) ('/' :: stringsJoin '/' cs ++ ['/'])
      = true := by
  rw [stringsJoin_append_nonempty '/' cs more hcs hmore]
  unfold hasPrefix
  rw [List.isPrefixOf_iff_prefix]
  exact ⟨stringsJoin '/' more, by simp⟩

/-- When every path that an existence check reports as existing lies under the directory
of the segments `cs`, every destination of a move in the loop of `moveToTrash` lies
under that directory: the parent directory and the destination stay rooted paths of
clean segments that start with `cs`. -/
theorem trashLoop_layout {σ : Type} (c : Client σ) (name : Str) (cs : List Str)
    (hcs : cs ≠ []) (hcsc : ∀ s ∈ cs, cleanSeg s = true) :
    ∀ (fuel i : Nat) (base tp : Str) (err : Option GoError) (w : World (σ × List Event))
      (r : Res Bool) (w1 : World (σ × List Event)) (bs : List Str) (last : Str),
      (∀ s ∈ bs, cleanSeg s = true) → cleanSeg last = true →
      base = '/' :: stringsJoin '/' (cs ++ bs) →
      tp = '/' :: stringsJoin '/' (cs ++ bs ++ [last]) →
      trashLoop (recorded c) name fuel i base tp err w = some (r, w1) →
      ∃ evs, w1.state.2 = w.state.2 ++ evs
        ∧ ((∀ p, Event.pathExists p (Reply.ok true) ∈ evs →
              hasPrefix p ('/' :: stringsJoin '/' cs ++ ['/']) = true) →
            ∀ src dst rep, Event.renameForTrash src dst rep ∈ evs →
              src = name ∧ hasPrefix dst ('/' :: stringsJoin '/' cs ++ ['/']) = true) := by
  intro fuel
  induction fuel with
  | zero => intro i base tp err w r w1 bs last _ _ _ _ h; exact Option.noConfusion h
  | succ n ih =>
    intro i base tp err w r w1 bs last hbs hlast hbase htp h
    have hquiet : ∀ (evs : List Event), (∀ e ∈ evs, e.isMutation = false) →
        ∀ src dst rep, Event.renameForTrash src dst rep ∉ evs := by
      intro evs hq src dst rep hmem
      have := hq _ hmem
      simp [Event.isMutation, Event.isRename] at this
    have hall : ∀ s ∈ cs ++ bs, cleanSeg s = true := by
      intro s hs
      rcases List.mem_append.mp hs with h1 | h1
      · exact hcsc s h1
      · exact hbs s h1
    -- the destination after the loop `for exists`
    have hfree : ∀ (fp : Str), (fp = tp ∨ ∃ ms, fp = tp ++ formatInt ms) →
        ∃ last1, cleanSeg last1 = true ∧ fp = '/' :: stringsJoin '/' (cs ++ bs ++ [last1]) := by
      intro fp hfp
      rcases hfp with e1 | ⟨ms, e1⟩
      · exact ⟨last, hlast, by rw [e1, htp]⟩
      · refine ⟨last ++ formatInt ms,
          cleanSeg_append last _ hlast (formatInt_no_slash ms), ?_⟩
        rw [e1, htp, stringsJoin_snoc_append]
        rfl
    have hdst : ∀ (fp : Str), (fp = tp ∨ ∃ ms, fp = tp ++ formatInt ms) →
        hasPrefix fp ('/' :: stringsJoin '/' cs ++ ['/']) = true := by
      intro fp hfp
      obtain ⟨last1, _, e1⟩ := hfree fp hfp
      rw [e1, List.append_assoc]
      exact hasPrefix_under cs (bs ++ [last1]) hcs (by simp)
    rcases trashLoop_step (recorded c) name n i base tp err w r w1 h with
      ⟨_, _, hw⟩ | ⟨hi, e, hm, hadj, _, hw⟩ | ⟨hi, e, hm, hadj, e2, hf, _⟩ | ⟨_, e, _, _, hf, _⟩
      | ⟨hi, e, hm, hadj, found, w2, hf, h2⟩ | ⟨hi, hm, fp, e, w2, hf, h2⟩
      | ⟨hi, hm, fp, w2, hf, hrn, _, hw⟩ | ⟨hi, hm, fp, e, w2, hf, hrn, h2⟩
    · exact ⟨[], by rw [hw]; simp, fun _ src dst rep hmem => by simp at hmem⟩
    · refine ⟨[Event.mkdirAll base (some e)], by rw [hw, doMkdirAll_recorded, hm], ?_⟩
      intro _ src dst rep hmem
      simp at hmem
    · obtain ⟨evs, hevs, hq⟩ := findExisting_events c _ _ _ _ _ hf
      refine ⟨Event.mkdirAll base (some e) :: evs,
        by rw [hevs, doMkdirAll_recorded, hm]; simp, ?_⟩
      intro _ src dst rep hmem
      rcases List.mem_cons.mp hmem with e1 | e1
      · exact Event.noConfusion e1
      · exact absurd e1 (hquiet evs hq src dst rep)
    · exact absurd hf (findExisting_not_panicked _ _ _ _ _)
    · obtain ⟨k, evs, hk, hevs, hmemf⟩ := findExisting_found c _ _ _ _ _ hf
      obtain ⟨evsq, hevsq, hq⟩ := findExisting_events c _ _ _ _ _ hf
      have hsame : evs = evsq := List.append_cancel_left (hevs.symm.trans hevsq)
      -- the run after the adjustment, for whatever shape the new paths have
      by_cases hunder : hasPrefix found ('/' :: stringsJoin '/' cs ++ ['/']) = true
      · rw [hbase] at hk
        obtain ⟨bs1, hbs1, hnew⟩ := adjust_shape cs bs hbs hall k
          (formatInt (doNow (recorded c) w2).1) found (formatInt_no_slash _)
          (formatInt_ne_nil _) hk hunder
        have hall1 : ∀ s ∈ cs ++ bs1, cleanSeg s = true := by
          intro s hs
          rcases List.mem_append.mp hs with h1 | h1
          · exact hcsc s h1
          · exact hbs1 s h1
        have hbase1 : pathBase tp = last := by
          rw [htp, stringsJoin_append_nonempty '/' (cs ++ bs) [last] (by simp [hcs]) (by simp)]
          exact pathBase_snoc ('/' :: stringsJoin '/' (cs ++ bs)) last
            (cleanSeg_spec last hlast).1 (cleanSeg_spec last hlast).2.2.2
        rw [hbase, hnew, hbase1, pathJoin_snoc (cs ++ bs1) last hall1 hlast] at h2
        obtain ⟨evs2, hevs2, hd2⟩ := ih _ _ _ _ _ _ _ bs1 last hbs1 hlast rfl rfl h2
        refine ⟨Event.mkdirAll base (some e)
          :: (evs ++ Event.now (doNow (recorded c) w2).1 :: evs2), ?_, ?_⟩
        · rw [hevs2, doNow_recorded, hevs, doMkdirAll_recorded, hm]; simp
        · intro hH src dst rep hmem
          rcases List.mem_cons.mp hmem with e1 | e1
          · exact Event.noConfusion e1
          · rcases List.mem_append.mp e1 with e1 | e1
            · rw [hsame] at e1
              exact absurd e1 (hquiet evsq hq src dst rep)
            · rcases List.mem_cons.mp e1 with e1 | e1
              · exact Event.noConfusion e1
              · exact hd2 (fun p hp => hH p (by simp [hp])) src dst rep e1
      · obtain ⟨evs2, hevs2, _⟩ := trashLoop_counts c name _ _ _ _ _ _ _ _ h2
        refine ⟨Event.mkdirAll base (some e)
          :: (evs ++ Event.now (doNow (recorded c) w2).1 :: evs2), ?_, ?_⟩
        · rw [hevs2, doNow_recorded, hevs, doMkdirAll_recorded, hm]; simp
        · intro hH
          exact absurd (hH found (by simp [hmemf])) hunder
    · obtain ⟨evs, hevs, hq, _, hform⟩ := freeName_events c _ _ _ _ _ _ _ hf
      obtain ⟨last1, hlast1, hfp⟩ := hfree fp hform
      obtain ⟨evs2, hevs2, hd2⟩ := ih _ _ _ _ _ _ _ bs last1 hbs hlast1 hbase hfp h2
      refine ⟨Event.mkdirAll base none :: (evs ++ evs2), ?_, ?_⟩
      · rw [hevs2, hevs, doMkdirAll_recorded, hm]; simp
      · intro hH src dst rep hmem
        rcases List.mem_cons.mp hmem with e1 | e1
        · exact Event.noConfusion e1
        · rcases List.mem_append.mp e1 with e1 | e1
          · exact absurd e1 (hquiet evs hq src dst rep)
          · exact hd2 (fun p hp => hH p (by simp [hp])) src dst rep e1
    · obtain ⟨evs, hevs, hq, _, hform⟩ := freeName_events c _ _ _ _ _ _ _ hf
      refine ⟨Event.mkdirAll base none :: (evs ++ [Event.renameForTrash name fp none]),
        ?_, ?_⟩
      · rw [hw, doRenameForTrash_recorded, hrn, hevs, doMkdirAll_recorded, hm]; simp
      · intro _ src dst rep hmem
        rcases List.mem_cons.mp hmem with e1 | e1
        · exact Event.noConfusion e1
        · rcases List.mem_append.mp e1 with e1 | e1
          · exact absurd e1 (hquiet evs hq src dst rep)
          · simp only [List.mem_singleton] at e1
            injection e1 with e2 e3 e4
            rw [e2, e3]
            exact ⟨rfl, hdst fp hform⟩
    · obtain ⟨evs, hevs, hq, _, hform⟩ := freeName_events c _ _ _ _ _ _ _ hf
      obtain ⟨last1, hlast1, hfp⟩ := hfree fp hform
      obtain ⟨evs2, hevs2, hd2⟩ := ih _ _ _ _ _ _ _ bs last1 hbs hlast1 hbase hfp h2
      refine ⟨Event.mkdirAll base none
        :: (evs ++ Event.renameForTrash name fp (some e) :: evs2), ?_, ?_⟩
      · rw [hevs2, doRenameForTrash_recorded, hrn, hevs, doMkdirAll_recorded, hm]; simp
      · intro hH src dst rep hmem
        rcases List.mem_cons.mp hmem with e1 | e1
        · exact Event.noConfusion e1
        · rcases List.mem_append.mp e1 with e1 | e1
          · exact absurd e1 (hquiet evs hq src dst rep)
          · rcases List.mem_cons.mp e1 with e1 | e1
            · injection e1 with e2 e3 e4
              rw [e2, e3]
              exact ⟨rfl, hdst fp hform⟩
            · exact hd2 (fun p hp => hH p (by simp [hp])) src dst rep e1

/-! ## C22: the layout of the destinations -/

/-- The segments of `trashRoot/Current`. -/
theorem trashCurrent_segs {σ : Type} (c : Client σ) :
    ∃ cs : List Str, cs ≠ [] ∧ (∀ s ∈ cs, cleanSeg s = true)
      ∧ trashRootDir c ++ "/Current/".toList = '/' :: stringsJoin '/' cs ++ ['/']
      ∧ ∀ segs : List Str, segs ≠ [] →
          trashRootDir c ++ "/Current".toList ++ ('/' :: stringsJoin '/' segs)
            = '/' :: stringsJoin '/' (cs ++ segs) := by
  obtain ⟨tsegs, htsegs, hR⟩ := trashRootDir_shape c
  have hcur : stringsJoin '/' ((tsegs ++ [".Trash".toList]) ++ ["Current".toList])
      = stringsJoin '/' (tsegs ++ [".Trash".toList]) ++ '/' :: "Current".toList :=
    stringsJoin_append_nonempty '/' _ _ (by simp) (by simp)
  refine ⟨(tsegs ++ [".Trash".toList]) ++ ["Current".toList], by simp, ?_, ?_, ?_⟩
  · intro s hs
    rcases List.mem_append.mp hs with h | h
    · rcases List.mem_append.mp h with h | h
      · exact htsegs s h
      · rw [List.mem_singleton.mp h]; decide
    · rw [List.mem_singleton.mp h]; decide
  · rw [hcur, hR]
    simp
  · intro segs hsegs
    rw [stringsJoin_append_nonempty '/' _ segs (by simp) hsegs, hcur, hR]
    simp

/-- C22 (amended).  For a cleaned absolute target (a rooted path of clean segments), on
every remote side, in the record of a run of `moveToTrash`: when every path that an
existence check reports as existing lies under `trashRoot/Current/` (so that an
adjustment of the parent directory never renames `Current` or a directory above it),
every call of `RenameForTrash` moves the target to a destination under
`trashRoot/Current/`; when there is no adjustment of the parent directory at all (no
`MkdirAll` failed because a path exists or is not a directory), every destination starts
with `trashRoot/Current/<target>`; and when the creation of the directory succeeds at
once, the destination is free and the move succeeds, the destination is exactly
`trashRoot/Current/<target>`. -/
theorem C22_destination_layout {σ : Type} (c : Client σ) (fuel : Nat) (name : Str)
    (forceTrash : Bool) (w : World (σ × List Event)) (segs : List Str)
    (hne : segs ≠ []) (hsegs : ∀ s ∈ segs, cleanSeg s = true)
    (hname : name = '/' :: stringsJoin '/' segs) :
    (∀ r w1, moveToTrash (recorded c) fuel name forceTrash w = some (r, w1) →
      ∃ evs, w1.state.2 = w.state.2 ++ evs
        ∧ ((∀ p, Event.pathExists p (Reply.ok true) ∈ evs →
              hasPrefix p (trashRootDir c ++ "/Current/".toList) = true) →
            ∀ src dst rep, Event.renameForTrash src dst rep ∈ evs →
              src = name ∧ hasPrefix dst (trashRootDir c ++ "/Current/".toList) = true)
        ∧ ((∀ e ∈ evs, e.isAdjust = false) →
            ∀ src dst rep, Event.renameForTrash src dst rep ∈ evs →
              src = name
                ∧ hasPrefix dst (trashRootDir c ++ "/Current".toList ++ name) = true))
    ∧ (∀ (v w1 w2 w3 : World σ),
      hasPrefix name (trashRootDir c) = false →
      hasPrefix (pathDir (trashRootDir c)) name = false →
      doMkdirAll c (pathDir (trashRootDir c ++ "/Current".toList ++ name)) v = (none, w1) →
      doExists c (trashRootDir c ++ "/Current".toList ++ name) w1 = (Reply.ok false, w2) →
      doRenameForTrash c name (trashRootDir c ++ "/Current".toList ++ name) w2
        = (none, w3) →
      moveToTrash c (fuel + 2) name true v = some (Res.ok true, w3)
        ∧ w3.log = v.log ++
          [Call.mkdirAll (pathDir (trashRootDir c ++ "/Current".toList ++ name)),
           Call.pathExists (trashRootDir c ++ "/Current".toList ++ name),
           Call.renameForTrash name (trashRootDir c ++ "/Current".toList ++ name)]) := by
  have hP := trashPath_eq c name segs hne hsegs hname
  obtain ⟨cs, hcs, hcsc, hcur, hjoin⟩ := trashCurrent_segs c
  refine ⟨?_, ?_⟩
  · intro r w1 h
    rcases moveToTrash_events c fuel name forceTrash w r w1 h with ⟨rep, hw⟩ | ⟨rep, h2, h0⟩
    · refine ⟨_, hw, ?_, ?_⟩
      · intro _ src dst rep1 hmem
        cases forceTrash <;> simp at hmem
      · intro _ src dst rep1 hmem
        cases forceTrash <;> simp at hmem
    · have hroot : trashRootDir (recorded c) = trashRootDir c := rfl
      rw [hroot, hP] at h2
      obtain ⟨evs, hevs, hd⟩ := trashLoop_destinations c name
        (trashRootDir c ++ "/Current".toList ++ name) _ _ _ _ _ _ _ _
        (by simpa using hasPrefix_append (trashRootDir c ++ "/Current".toList ++ name) []) h2
      -- the parent directory and the destination, by their segments
      rcases List.eq_nil_or_concat segs with hnil | ⟨init, last, hconcat⟩
      · exact absurd hnil hne
      · rw [List.concat_eq_append] at hconcat
        have hinit : ∀ s ∈ init, cleanSeg s = true :=
          fun s hs => hsegs s (by rw [hconcat]; simp [hs])
        have hlast : cleanSeg last = true := hsegs last (by rw [hconcat]; simp)
        have hall : ∀ s ∈ cs ++ init, cleanSeg s = true := by
          intro s hs
          rcases List.mem_append.mp hs with h1 | h1
          · exact hcsc s h1
          · exact hinit s h1
        have htp : trashRootDir c ++ "/Current".toList ++ name
            = '/' :: stringsJoin '/' (cs ++ init ++ [last]) := by
          rw [hname, hjoin segs hne, hconcat, List.append_assoc]
        have hbase : pathDir (trashRootDir c ++ "/Current".toList ++ name)
            = '/' :: stringsJoin '/' (cs ++ init) := by
          rw [htp]
          exact pathDir_snoc (cs ++ init) last hall (cleanSeg_spec last hlast).2.2.2
        obtain ⟨evs1, hevs1, hl⟩ := trashLoop_layout c name cs hcs hcsc _ _ _ _ _ _ _ _
          init last hinit hlast hbase htp h2
        have hsame : evs1 = evs := List.append_cancel_left (hevs1.symm.trans hevs)
        subst hsame
        refine ⟨(if forceTrash then [] else [Event.serverDefaults rep]) ++ evs1,
          by rw [hevs, h0, List.append_assoc], ?_, ?_⟩
        · intro hH src dst rep1 hmem
          rcases List.mem_append.mp hmem with e1 | e1
          · cases forceTrash <;> simp at e1
          · rw [hcur] at hH ⊢
            exact hl (fun p hp => hH p (List.mem_append_right _ hp)) src dst rep1 e1
        · intro hall1 src dst rep1 hmem
          rcases List.mem_append.mp hmem with e1 | e1
          · cases forceTrash <;> simp at e1
          · exact hd (fun x hx => hall1 x (List.mem_append_right _ hx)) src dst rep1 e1
  · intro v w1 w2 w3 hn1 hn2 hmk hfree hrn
    rw [← hP] at hmk hfree hrn ⊢
    refine ⟨moveToTrash_first c fuel name v w1 w2 w3 hn1 hn2 hmk hfree hrn, ?_⟩
    have e1 := congrArg (fun p => p.2.log) hmk
    have e2 := congrArg (fun p => p.2.log) hfree
    have e3 := congrArg (fun p => p.2.log) hrn
    simp only [doMkdirAll, doExists, doRenameForTrash] at e1 e2 e3
    rw [← e3, ← e2, ← e1]
    simp

set_option maxRecDepth 100000 in
/-- C22, witness: on the remote side of `exampleClient`, `/a/b` is moved to
`/user/me/.Trash/Current/a/b`; on the remote side of `stubbornClient 1`, where the
parent directory is adjusted once, below `Current`, it is moved to
`/user/me/.Trash/Current/a1700000000000/b`, under `/user/me/.Trash/Current/`. -/
theorem C22_destination_layout_witness :
    (["a".toList, "b".toList] ≠ [] ∧ (∀ s ∈ ["a".toList, "b".toList], cleanSeg s = true)
      ∧ "/a/b".toList = '/' :: stringsJoin '/' ["a".toList, "b".toList])
    ∧ moveToTrash (recorded exampleClient) 5 "/a/b".toList true recordedWorld0
        = some (Res.ok true, movedOnce)
    ∧ (∃ evs, movedOnce.state.2 = recordedWorld0.state.2 ++ evs
        ∧ ((∀ p, Event.pathExists p (Reply.ok true) ∈ evs →
              hasPrefix p (trashRootDir exampleClient ++ "/Current/".toList) = true) →
            ∀ src dst rep, Event.renameForTrash src dst rep ∈ evs →
              src = "/a/b".toList
                ∧ hasPrefix dst (trashRootDir exampleClient ++ "/Current/".toList) = true)
        ∧ ((∀ e ∈ evs, e.isAdjust = false) →
            ∀ src dst rep, Event.renameForTrash src dst rep ∈ evs →
              src = "/a/b".toList
                ∧ hasPrefix dst
                    (trashRootDir exampleClient ++ "/Current".toList ++ "/a/b".toList)
                  = true))
    ∧ moveToTrash exampleClient (5 + 2) "/a/b".toList true world0
        = some (Res.ok true, movedOnce.forget)
    ∧ moveToTrash (recorded (stubbornClient 1)) 5 "/a/b".toList true
        { state := (0, []), log := [] } = some (Res.ok true, stubbornOnceWorld)
    ∧ (∀ src dst rep, Event.renameForTrash src dst rep ∈ stubbornOnceWorld.state.2 →
        src = "/a/b".toList
          ∧ hasPrefix dst (trashRootDir (stubbornClient 1) ++ "/Current/".toList) = true) := by
  refine ⟨⟨by decide, by decide, by decide⟩, by decide,
    (C22_destination_layout exampleClient 5 "/a/b".toList true recordedWorld0
      ["a".toList, "b".toList] (by decide) (by decide) (by decide)).1
      (Res.ok true) movedOnce (by decide),
    ((C22_destination_layout exampleClient 5 "/a/b".toList true recordedWorld0
      ["a".toList, "b".toList] (by decide) (by decide) (by decide)).2
      world0
      { state := (), log := [Call.mkdirAll "/user/me/.Trash/Current/a".toList] }
      { state := (), log := [Call.mkdirAll "/user/me/.Trash/Current/a".toList,
          Call.pathExists "/user/me/.Trash/Current/a/b".toList] }
      movedOnce.forget
      (by decide) (by decide) (by decide) (by decide) (by decide)).1,
    by decide, ?_⟩
  obtain ⟨evs, hevs, hl, _⟩ :=
    (C22_destination_layout (stubbornClient 1) 5 "/a/b".toList true
      { state := (0, []), log := [] } ["a".toList, "b".toList]
      (by decide) (by decide) (by decide)).1 (Res.ok true) stubbornOnceWorld (by decide)
  have he : evs = stubbornOnceWorld.state.2 := by simpa using hevs.symm
  rw [← he]
  apply hl
  intro p hp
  rw [he] at hp
  have hp2 : p = "/user/me/.Trash/Current/a".toList := by
    simpa [stubbornOnceWorld] using hp
  rw [hp2]
  decide

/-! ## The expansion of globs on a tree without wildcard characters in its names -/

theorem hasGlob_stringsJoin (segs : List Str) :
    hasGlob (stringsJoin '/' segs) = segs.any hasGlob := by
  induction segs with
  | nil => decide
  | cons a rest ih =>
    cases rest with
    | nil => simp [stringsJoin]
    | cons b rest2 =>
      rw [stringsJoin_cons_cons, hasGlob_eq_unescapedMeta, unescapedMeta_append_slash,
        ← hasGlob_eq_unescapedMeta, ← hasGlob_eq_unescapedMeta, ih]
      simp

theorem hasGlob_rooted (segs : List Str) :
    hasGlob ('/' :: stringsJoin '/' segs) = segs.any hasGlob := by
  have h := unescapedMeta_append_slash [] (stringsJoin '/' segs) false
  simp only [List.nil_append] at h
  rw [hasGlob_eq_unescapedMeta, h, ← hasGlob_eq_unescapedMeta (stringsJoin '/' segs),
    hasGlob_stringsJoin]
  simp [unescapedMeta]

theorem splitIndex_lt (segs : List Str) (hne : segs ≠ []) : splitIndex segs < segs.length := by
  unfold splitIndex
  have hpos : 0 < segs.length := List.length_pos.mpr hne
  split
  · assumption
  · omega

theorem splitIndex_take (segs : List Str) :
    ∀ s ∈ segs.take (splitIndex segs), hasGlob s = false := by
  intro s hs
  have hle : splitIndex segs ≤ segs.findIdx hasGlob := by
    unfold splitIndex
    split
    · exact le_refl _
    · have hle : segs.findIdx hasGlob ≤ segs.length := List.findIdx_le_length hasGlob
      omega
  obtain ⟨i, hi, hget⟩ := List.mem_take_iff_getElem.mp hs
  have hlt : i < segs.findIdx hasGlob := by omega
  have := List.not_of_lt_findIdx hlt
  rw [hget] at this
  simpa using this

theorem splitIndex_glob (segs : List Str) (h : segs.any hasGlob = true)
    (hlt : splitIndex segs < segs.length) : hasGlob segs[splitIndex segs] = true := by
  have hf : segs.findIdx hasGlob < segs.length := by
    rw [List.findIdx_lt_length]
    simpa using h
  have he : splitIndex segs = segs.findIdx hasGlob := by
    unfold splitIndex
    rw [if_pos hf]
  have := List.findIdx_getElem (w := hf)
  simpa [he] using this

theorem filter_clean (l : List Str) (hl : ∀ s ∈ l, cleanSeg s = true) :
    l.filter (fun s => s != []) = l := by
  rw [List.filter_eq_self]
  intro s hs
  have := (cleanSeg_spec s (hl s hs)).1
  simpa using this

/-- Cleaning a rooted path of clean segments followed by a slash and more segments, some
of them empty. -/
theorem filepathClean_rooted_append (A Ym : List Str) (hA : ∀ s ∈ A, cleanSeg s = true)
    (hYm : ∀ s ∈ Ym, s = [] ∨ cleanSeg s = true) (hne : Ym ≠ []) :
    filepathClean (('/' :: stringsJoin '/' A) ++ '/' :: stringsJoin '/' Ym)
      = '/' :: stringsJoin '/' (A ++ Ym.filter (fun s => s != [])) := by
  cases A with
  | nil =>
    have e : ('/' :: stringsJoin '/' ([] : List Str)) ++ '/' :: stringsJoin '/' Ym
        = '/' :: stringsJoin '/' ([] :: Ym) := by
      cases Ym with
      | nil => exact absurd rfl hne
      | cons y t => rfl
    have hmixed : ∀ s ∈ ([] : Str) :: Ym, s = [] ∨ cleanSeg s = true := by
      intro s hs
      rcases List.mem_cons.mp hs with h | h
      · exact Or.inl h
      · exact hYm s h
    rw [e, filepathClean_rooted _ hmixed, List.filter_cons_of_neg (by simp)]
    rfl
  | cons a r =>
    have e : ('/' :: stringsJoin '/' (a :: r)) ++ '/' :: stringsJoin '/' Ym
        = '/' :: stringsJoin '/' ((a :: r) ++ Ym) := by
      rw [stringsJoin_append_nonempty '/' (a :: r) Ym (by simp) hne]
      rfl
    have hmixed : ∀ s ∈ (a :: r) ++ Ym, s = [] ∨ cleanSeg s = true := by
      intro s hs
      rcases List.mem_append.mp hs with h | h
      · exact Or.inr (hA s h)
      · exact hYm s h
    rw [e, filepathClean_rooted _ hmixed, List.filter_append, filter_clean _ hA]

/-- The path `expandGlobs` joins for an entry: the segments before the pattern, the name
of the entry, and the segments after the pattern. -/
theorem entryPath_eq (A D : List Str) (name : Str) (hA : ∀ s ∈ A, cleanSeg s = true)
    (hD : ∀ s ∈ D, cleanSeg s = true) (hname : cleanSeg name = true) :
    pathJoin ['/' :: stringsJoin '/' A, name, D.headD [], pathJoin (D.drop 1)]
      = '/' :: stringsJoin '/' (A ++ name :: D) := by
  have e1 : ∀ next rem : Str,
      pathJoin ['/' :: stringsJoin '/' A, name, next, rem]
        = filepathClean (('/' :: stringsJoin '/' A) ++ '/' :: stringsJoin '/' [name, next, rem]) := by
    intro next rem
    simp [pathJoin, filepathJoin, stringsJoin]
  cases D with
  | nil =>
    have hr : pathJoin (([] : List Str).drop 1) = [] := rfl
    rw [hr]
    simp only [List.headD_nil]
    rw [e1, filepathClean_rooted_append A [name, [], []] hA (by
      intro s hs
      simp only [List.mem_cons, List.mem_singleton] at hs
      rcases hs with h | h | h | h
      · rw [h]; exact Or.inr hname
      · exact Or.inl h
      · exact Or.inl h
      · simp at h) (by simp)]
    have hf : [name, ([] : Str), []].filter (fun s => s != []) = [name] := by
      have h1 : (name != []) = true := by simpa using (cleanSeg_spec name hname).1
      simp [List.filter, h1]
    rw [hf]
  | cons d0 D1 =>
    have hd0 : cleanSeg d0 = true := hD d0 (by simp)
    have hD1 : ∀ s ∈ D1, cleanSeg s = true := fun s hs => hD s (List.mem_cons_of_mem _ hs)
    simp only [List.headD_cons, List.drop_succ_cons, List.drop_zero]
    cases D1 with
    | nil =>
      have hr : pathJoin ([] : List Str) = [] := rfl
      rw [hr, e1, filepathClean_rooted_append A [name, d0, []] hA (by
        intro s hs
        simp only [List.mem_cons, List.mem_singleton] at hs
        rcases hs with h | h | h | h
        · rw [h]; exact Or.inr hname
        · rw [h]; exact Or.inr hd0
        · exact Or.inl h
        · simp at h) (by simp)]
      have hf : [name, d0, ([] : Str)].filter (fun s => s != []) = [name, d0] := by
        have h1 : (name != []) = true := by simpa using (cleanSeg_spec name hname).1
        have h2 : (d0 != []) = true := by simpa using (cleanSeg_spec d0 hd0).1
        simp [List.filter, h1, h2]
      rw [hf]
    | cons d1 D2 =>
      rw [pathJoin_cleanSegs (d1 :: D2) (by simp) hD1, e1]
      have e2 : stringsJoin '/' [name, d0, stringsJoin '/' (d1 :: D2)]
          = stringsJoin '/' (name :: d0 :: d1 :: D2) := rfl
      have hall : ∀ s ∈ name :: d0 :: d1 :: D2, cleanSeg s = true := by
        intro s hs
        rcases List.mem_cons.mp hs with h | h
        · rw [h]; exact hname
        · exact hD s h
      rw [e2, filepathClean_rooted_append A (name :: d0 :: d1 :: D2) hA
        (fun s hs => Or.inr (hall s hs)) (by simp), filter_clean _ hall]

/-- The loop of `expandGlobs` over the entries ends when every recursive call it makes
ends. -/
theorem expandEntries_total {σ : Type} (c : Client σ)
    (recurse : Str → World σ → Option (Res (List Str) × World σ))
    (base glob next remainder : Str) :
    ∀ (entries : List FileInfo) (res : List Str) (w : World σ),
      (∀ fi ∈ entries, hasGlob (pathJoin [base, fi.Name, next, remainder]) = true →
        ∀ w1, recurse (pathJoin [base, fi.Name, next, remainder]) w1 ≠ none) →
      expandEntries c recurse base glob next remainder entries res w ≠ none := by
  intro entries
  induction entries with
  | nil => intro res w _; simp [expandEntries]
  | cons fi rest ih =>
    intro res w hrec
    have hrest : ∀ fi ∈ rest, hasGlob (pathJoin [base, fi.Name, next, remainder]) = true →
        ∀ w1, recurse (pathJoin [base, fi.Name, next, remainder]) w1 ≠ none :=
      fun f hf => hrec f (List.mem_cons_of_mem _ hf)
    unfold expandEntries
    by_cases hm : pathMatch glob fi.Name = true
    · simp only [hm, Bool.not_true, Bool.false_eq_true, if_false]
      by_cases hg : hasGlob (pathJoin [base, fi.Name, next, remainder]) = true
      · simp only [hg, if_true]
        by_cases hd : fi.IsDir = true
        · simp only [hd, if_true]
          cases hr : recurse (pathJoin [base, fi.Name, next, remainder]) w with
          | none => exact absurd hr (hrec fi (by simp) hg w)
          | some p =>
            rcases p with ⟨r, w1⟩
            cases r with
            | ok children => exact ih _ _ hrest
            | fail e => simp
            | panicked => simp
        · simp only [hd, Bool.false_eq_true, if_false]
          exact ih _ _ hrest
      · simp only [hg, Bool.false_eq_true, if_false]
        rcases hs : doStat c (pathJoin [base, fi.Name, next, remainder]) w with ⟨x, w1⟩
        cases x with
        | ok info => exact ih _ _ hrest
        | err e =>
          simp only
          by_cases he : e = RemoteErr.notExist
          · rw [if_pos he]; exact ih _ _ hrest
          · rw [if_neg he]; simp
    · simp only [hm, Bool.not_false, if_true]
      exact ih _ _ hrest

theorem pathJoin_clean_list (l : List Str) (hl : ∀ s ∈ l, cleanSeg s = true) :
    pathJoin l = stringsJoin '/' l := by
  cases l with
  | nil => rfl
  | cons a r => exact pathJoin_cleanSegs (a :: r) (by simp) hl

theorem next_eq_headD (segs : List Str) (k : Nat) :
    (if segs.length > k + 1 then segs.getD (k + 1) [] else []) = (segs.drop (k + 1)).headD [] := by
  by_cases h : segs.length > k + 1
  · rw [if_pos h]
    have hlt : k + 1 < segs.length := h
    rw [List.drop_eq_getElem_cons hlt]
    simp [List.getD, List.getElem?_eq_getElem hlt]
  · rw [if_neg h, List.drop_eq_nil_of_le (by omega)]
    rfl

theorem remainder_eq (segs : List Str) (k : Nat) :
    (if segs.length > k + 1 then pathJoin (segs.drop (k + 2)) else [])
      = pathJoin ((segs.drop (k + 1)).drop 1) := by
  have e : (segs.drop (k + 1)).drop 1 = segs.drop (k + 2) := by
    rw [List.drop_drop]
  rw [e]
  by_cases h : segs.length > k + 1
  · rw [if_pos h]
  · rw [if_neg h, List.drop_eq_nil_of_le (by omega)]
    rfl

/-- One call of `expandGlobs`, given that the recursive calls end. -/
theorem expandGlobs_terminates_aux {σ : Type} (c : Client σ)
    (hnames : ∀ p s l, (c.ReadDir p s).1 = Reply.ok l →
      ∀ fi ∈ l, cleanSeg fi.Name = true ∧ hasGlob fi.Name = false)
    (n : Nat)
    (hrec : ∀ segs1 : List Str, segs1 ≠ [] → (∀ s ∈ segs1, cleanSeg s = true) →
      segs1.countP hasGlob + 1 = n →
      ∀ w1, expandGlobs c n ('/' :: stringsJoin '/' segs1) w1 ≠ none)
    (segs : List Str) (hne : segs ≠ []) (hsegs : ∀ s ∈ segs, cleanSeg s = true)
    (hcount : segs.countP hasGlob = n) (w : World σ) :
    expandGlobs c (n + 1) ('/' :: stringsJoin '/' segs) w ≠ none := by
  have hparts : (stringsSplit '/' ('/' :: stringsJoin '/' segs)).drop 1 = segs := by
    have h1 : stringsSplit '/' ('/' :: stringsJoin '/' segs)
        = [] :: stringsSplit '/' (stringsJoin '/' segs) := by
      simp [stringsSplit]
    rw [h1, stringsSplit_join '/' segs hne (fun s hs => (cleanSeg_spec s (hsegs s hs)).2.2.2)]
    rfl
  have hk := splitIndex_lt segs hne
  have hA : ∀ s ∈ segs.take (splitIndex segs), cleanSeg s = true :=
    fun s hs => hsegs s (List.mem_of_mem_take hs)
  have hD : ∀ s ∈ segs.drop (splitIndex segs + 1), cleanSeg s = true :=
    fun s hs => hsegs s (List.mem_of_mem_drop hs)
  have hget : segs[splitIndex segs]? = some segs[splitIndex segs] :=
    List.getElem?_eq_getElem hk
  unfold expandGlobs
  simp only [hparts, hget, pathJoin_clean_list _ hA, next_eq_headD, remainder_eq]
  rcases hrd : doReadDir c ('/' :: stringsJoin '/' (segs.take (splitIndex segs))) w
    with ⟨x, w1⟩
  cases x with
  | err e => simp
  | ok list =>
    simp only
    apply expandEntries_total
    intro fi hfi hg w2
    have hlist : (c.ReadDir ('/' :: stringsJoin '/' (segs.take (splitIndex segs))) w.state).1
        = Reply.ok list := by
      have := congrArg Prod.fst hrd
      simpa [doReadDir] using this
    obtain ⟨hclean, hnog⟩ := hnames _ _ _ hlist fi hfi
    rw [entryPath_eq _ _ fi.Name hA hD hclean] at hg ⊢
    have hAg : (segs.take (splitIndex segs)).any hasGlob = false := by
      rw [List.any_eq_false]
      intro s hs
      simpa using splitIndex_take segs s hs
    rw [hasGlob_rooted, List.any_append, hAg, List.any_cons, hnog] at hg
    simp only [Bool.false_or] at hg
    -- the path of the recursive call has one segment with a wildcard less
    have hsplit : segs = segs.take (splitIndex segs)
        ++ segs[splitIndex segs] :: segs.drop (splitIndex segs + 1) := by
      conv => lhs; rw [← List.take_append_drop (splitIndex segs) segs]
      rw [List.drop_eq_getElem_cons hk]
    have hany : segs.any hasGlob = true := by
      rw [hsplit, List.any_append, List.any_cons, hg]
      simp
    have hkg := splitIndex_glob segs hany hk
    have hA0 : (segs.take (splitIndex segs)).countP hasGlob = 0 := by
      rw [List.countP_eq_zero]
      intro s hs
      simpa using splitIndex_take segs s hs
    have hc1 : segs.countP hasGlob
        = 1 + (segs.drop (splitIndex segs + 1)).countP hasGlob := by
      conv => lhs; rw [hsplit]
      rw [List.countP_append, List.countP_cons, hA0, hkg]
      simp
      omega
    have hc2 : (segs.take (splitIndex segs) ++ fi.Name :: segs.drop (splitIndex segs + 1)).countP
        hasGlob = (segs.drop (splitIndex segs + 1)).countP hasGlob := by
      rw [List.countP_append, List.countP_cons, hA0, hnog]
      simp
    refine hrec _ (by simp) ?_ (by omega) w2
    intro s hs
    rcases List.mem_append.mp hs with h | h
    · exact hA s h
    · rcases List.mem_cons.mp h with h | h
      · rw [h]; exact hclean
      · exact hD s h

/-- On a remote side whose listings hold clean names without wildcard, `expandGlobs`
ends on every rooted path of clean segments: the depth of its recursion is at most the
number of segments of the path that hold a wildcard, plus one. -/
theorem expandGlobs_terminates {σ : Type} (c : Client σ)
    (hnames : ∀ p s l, (c.ReadDir p s).1 = Reply.ok l →
      ∀ fi ∈ l, cleanSeg fi.Name = true ∧ hasGlob fi.Name = false) :
    ∀ (n : Nat) (segs : List Str), segs ≠ [] → (∀ s ∈ segs, cleanSeg s = true) →
      segs.countP hasGlob = n →
      ∀ w, expandGlobs c (n + 1) ('/' :: stringsJoin '/' segs) w ≠ none := by
  intro n
  induction n with
  | zero =>
    intro segs hne hsegs hcount w
    exact expandGlobs_terminates_aux c hnames 0 (fun segs1 _ _ h1 => absurd h1 (by omega)) segs
      hne hsegs hcount w
  | succ m ih =>
    intro segs hne hsegs hcount w
    exact expandGlobs_terminates_aux c hnames (m + 1)
      (fun segs1 hne1 hsegs1 h1 w1 => ih segs1 hne1 hsegs1 (by omega) w1) segs hne hsegs
      hcount w

end Hdfs
